import Mathlib

/-!
# PMAT2 path-resolution engine: seed growth, bubble pruning and capacitated path search

A shallow embedding of `BFSseed.c` (`BFSmain`, `BFSseeds`), `graphPath.c`
(`path_up`, `bfs_m`, `bfsMap`, `bfs_structure`, `findMpath`), `graphtools.c` (`maingraph`,
the structure loop of `optgfa`) and `misc.c` (`removeUnique`, `removeDup`) together with
the properties the specification states about them.

Conventions of the embedding.
* A C array together with its element count is a `List`; an array that is written
  at an index (`path[nodenum] = x`) is a function `Nat → Int`. Where the source writes an
  array at an index it does not test against the allocated size (`visited_nodes` and
  `temp_node` in `bfs_structure`, the table of `bfsMap`), a run that writes past the end
  has no defined result and the model gives `none`.
* `int` values are `Int`; the `uint64_t` lengths and the `uint32_t` stall counter are reduced
  `% 2^64` / `% 2^32` at every arithmetic step. The node count of a path is a natural
  number: it indexes arrays of `max_node` entries, so it cannot wrap.
* `float` depths are exact rationals: comparisons are exact on finite floats; where the
  code divides (the pass budgets, the ratios) the rounding of the float operations is left
  out, and the conversion to `int` is `floatToInt` (the fraction is cut off; out of the
  range of `int` the value is `INT_MIN`). A ratio is the exact quotient of two lengths;
  its comparisons with the constants 0.5 and 0.1 are then the ones of the code for lengths
  below 2^24, and the comparison with 0.7, where rounding to `float` decides at the
  constant itself, is modelled with the rounding (`searchWithRetry`).
* A `khash` map from `int` is a function `Int → Option _` (`none` = key absent).
-/

namespace PMAT

/-! ## Shared helpers (`misc.c`, `hitseeds.h`) -/

/-- Row of the contig table (`CtgDepth` in `hitseeds.h`): the fields the core reads. -/
structure CtgDepth where
  len : Int
  depth : ℚ

/-- The function `findint` of `misc.c`: 1 when `target` occurs in the array, else 0. -/
def findint : List Int → Int → Int
  | [], _ => 0
  | a :: rest, target => if a = target then 1 else findint rest target

/-- The function `remove_element` of `misc.c`: keep, in order, the entries different from `value`. -/
def remove_element : List Int → Int → List Int
  | [], _ => []
  | a :: rest, value => if a ≠ value then a :: remove_element rest value else remove_element rest value

/-- The macro `MIN` of `misc.h`. -/
def MIN (a b : ℚ) : ℚ := if a < b then a else b

/-! ## `path_up` (graphPath.c) -/

/-- The seven quantities `path_up` compares, for a candidate (its local variables)
or for the best record (the fields of `pathScore` of the same meaning). -/
structure Score where
  uniq_mtlen : Int
  uniq_mtnum : Int
  type : Int
  mt_num : Int
  path_len : Int
  uniq_ptnum : Int
  pt_num : Int
deriving DecidableEq, Repr

/-- The struct `pathScore` of `graphtools.h`. -/
structure pathScore where
  pt_nodenum : Int
  mt_nodenum : Int
  uniq_pt_nodenum : Int
  uniq_mt_nodenum : Int
  path_node : Nat → Int
  path_utr : Nat → Int
  node_num : Nat
  path_len : Int
  uniq_mt_pathlen : Int
  inval_num : Nat
  type : Int

/-- The compared fields of the best record. -/
def pathScore.score (p : pathScore) : Score :=
  { uniq_mtlen := p.uniq_mt_pathlen, uniq_mtnum := p.uniq_mt_nodenum, type := p.type,
    mt_num := p.mt_nodenum, path_len := p.path_len, uniq_ptnum := p.uniq_pt_nodenum,
    pt_num := p.pt_nodenum }

/-- The struct `nodePath` of `graphPath.c` (`pathlen` is never read by the search). -/
structure nodePath where
  node : Nat → Int
  utr : Nat → Int
  type : Int
  nodenum : Nat
  nodelen : Int

/-- Local counters of the scoring loop of `path_up` (lines 303-316). -/
structure Tally where
  mt_num : Int
  uniq_mtnum : Int
  uniq_mtlen : Int
  uniq_ptlen : Int
  pt_num : Int
  uniq_ptnum : Int
  temp_mtarr : List Int
  temp_ptarr : List Int

/-- Initial values of the counters of `path_up`. -/
def Tally.init : Tally :=
  { mt_num := 0, uniq_mtnum := 0, uniq_mtlen := 0, uniq_ptlen := 0, pt_num := 0,
    uniq_ptnum := 0, temp_mtarr := [], temp_ptarr := [] }

/-- One iteration of the scoring loop of `path_up` (lines 321-335) for path entry `x`. -/
def tallyStep (ctg_depth : Int → CtgDepth) (mt_ctgarr pt_ctgarr : List Int) (t : Tally) (x : Int) :
    Tally :=
  if findint pt_ctgarr x = 1 ∧ findint t.temp_ptarr x = 0 then
    { t with temp_ptarr := t.temp_ptarr ++ [x],
             uniq_ptlen := (t.uniq_ptlen + (ctg_depth (x - 1)).len) % 2 ^ 64,
             uniq_ptnum := t.uniq_ptnum + 1, pt_num := t.pt_num + 1 }
  else if findint pt_ctgarr x = 1 ∧ findint t.temp_ptarr x = 1 then
    { t with pt_num := t.pt_num + 1 }
  else if findint mt_ctgarr x = 1 ∧ findint t.temp_mtarr x = 0 then
    { t with temp_mtarr := t.temp_mtarr ++ [x],
             uniq_mtlen := (t.uniq_mtlen + (ctg_depth (x - 1)).len) % 2 ^ 64,
             uniq_mtnum := t.uniq_mtnum + 1, mt_num := t.mt_num + 1 }
  else if findint mt_ctgarr x = 1 ∧ findint t.temp_mtarr x = 1 then
    { t with mt_num := t.mt_num + 1 }
  else t

/-- The entries `node[0 .. nodenum)` of a path, in order. -/
def nodePath.nodes (p : nodePath) : List Int := (List.range p.nodenum).map p.node

/-- The scoring loop of `path_up`: the candidate's seven compared quantities. -/
def candidateScore (ctg_depth : Int → CtgDepth) (mt_ctgarr pt_ctgarr : List Int)
    (current_path : nodePath) : Score :=
  let t := current_path.nodes.foldl (tallyStep ctg_depth mt_ctgarr pt_ctgarr) Tally.init
  { uniq_mtlen := t.uniq_mtlen, uniq_mtnum := t.uniq_mtnum, type := current_path.type,
    mt_num := t.mt_num, path_len := current_path.nodelen, uniq_ptnum := t.uniq_ptnum,
    pt_num := t.pt_num }

/-- The decision `update_flag` of `path_up` (lines 342-371): `c` holds the candidate's local
variables, `r` the fields of `*path_score`; the two branches of `taxo_index == 1` are kept
as written. -/
def update_flag (taxo_index : Nat) (c r : Score) : Bool :=
  if taxo_index = 1 then
    if c.uniq_mtlen > r.uniq_mtlen then true
    else if c.uniq_mtlen = r.uniq_mtlen ∧ c.uniq_mtnum > r.uniq_mtnum then true
    else if c.uniq_mtlen = r.uniq_mtlen ∧ c.uniq_mtnum = r.uniq_mtnum ∧ c.type < r.type then true
    else if c.uniq_mtlen = r.uniq_mtlen ∧ c.uniq_mtnum = r.uniq_mtnum ∧ c.type = r.type
        ∧ c.mt_num > r.mt_num then true
    else if c.uniq_mtlen = r.uniq_mtlen ∧ c.uniq_mtnum = r.uniq_mtnum ∧ c.type = r.type
        ∧ c.mt_num = r.mt_num ∧ c.path_len < r.path_len then true
    else false
  else
    if c.uniq_mtlen > r.uniq_mtlen then true
    else if c.uniq_mtlen = r.uniq_mtlen ∧ c.uniq_mtnum > r.uniq_mtnum then true
    else if c.uniq_mtlen = r.uniq_mtlen ∧ c.uniq_mtnum = r.uniq_mtnum ∧ c.type < r.type then true
    else if c.uniq_mtlen = r.uniq_mtlen ∧ c.uniq_mtnum = r.uniq_mtnum ∧ c.type = r.type
        ∧ c.mt_num > r.mt_num then true
    else if c.uniq_mtlen = r.uniq_mtlen ∧ c.uniq_mtnum = r.uniq_mtnum ∧ c.type = r.type
        ∧ c.mt_num = r.mt_num ∧ c.path_len < r.path_len then true
    else if c.uniq_mtlen = r.uniq_mtlen ∧ c.uniq_mtnum = r.uniq_mtnum ∧ c.type = r.type
        ∧ c.path_len = r.path_len ∧ c.mt_num = r.mt_num ∧ c.uniq_ptnum < r.uniq_ptnum then true
    else if c.uniq_mtlen = r.uniq_mtlen ∧ c.uniq_mtnum = r.uniq_mtnum ∧ c.type = r.type
        ∧ c.path_len = r.path_len ∧ c.mt_num = r.mt_num ∧ c.uniq_ptnum = r.uniq_ptnum
        ∧ c.pt_num < r.pt_num then true
    else false

/-- The copy loop of `path_up` (lines 387-391): entries below `node_num` come from the
candidate, the others keep what the record's array held. -/
def copyPrefix (node_num : Nat) (src dst : Nat → Int) : Nat → Int :=
  fun i => if i < node_num then src i else dst i

/-- The record after the update block of `path_up` (lines 373-393). -/
def storeCandidate (path_score : pathScore) (c : Score) (current_path : nodePath) : pathScore :=
  { path_score with
    inval_num := 0
    uniq_mt_pathlen := c.uniq_mtlen
    uniq_mt_nodenum := c.uniq_mtnum
    mt_nodenum := c.mt_num
    pt_nodenum := c.pt_num
    uniq_pt_nodenum := c.uniq_ptnum
    node_num := current_path.nodenum
    path_len := c.path_len
    type := c.type
    path_node := copyPrefix current_path.nodenum current_path.node path_score.path_node
    path_utr := copyPrefix current_path.nodenum current_path.utr path_score.path_utr }

/-- The function `path_up` of `graphPath.c`, run by one thread under the mutex: the new best
record and the returned stop signal. `taxo_index` is the global of that name. -/
def path_up (taxo_index : Nat) (path_score : pathScore) (current_path : nodePath)
    (ctg_depth : Int → CtgDepth) (mt_ctgarr pt_ctgarr : List Int) : pathScore × Int :=
  let c := candidateScore ctg_depth mt_ctgarr pt_ctgarr current_path
  let ps1 := { path_score with inval_num := (path_score.inval_num + 1) % 2 ^ 32 }
  let ps2 := if update_flag taxo_index c ps1.score then storeCandidate ps1 c current_path else ps1
  (ps2, if ps2.inval_num > 10000000 then 1 else 0)

/-! ### The ranking as the specification words it -/

/-- Outcome of one criterion for the candidate against the record. -/
inductive Verdict where
  | better
  | worse
  | tie
deriving DecidableEq, Repr

/-- A criterion on which the larger value wins. -/
def moreWins (c r : Int) : Verdict := if c > r then .better else if c < r then .worse else .tie

/-- A criterion on which the smaller value wins. -/
def lessWins (c r : Int) : Verdict := if c < r then .better else if c > r then .worse else .tie

/-- The first criterion that does not tie decides. -/
def firstDiffering : List Verdict → Verdict
  | [] => .tie
  | .tie :: rest => firstDiffering rest
  | v :: _ => v

/-- The seven criteria of the specification, in its order. -/
def sevenCriteria (c r : Score) : List Verdict :=
  [moreWins c.uniq_mtlen r.uniq_mtlen, moreWins c.uniq_mtnum r.uniq_mtnum, lessWins c.type r.type,
   moreWins c.mt_num r.mt_num, lessWins c.path_len r.path_len,
   lessWins c.uniq_ptnum r.uniq_ptnum, lessWins c.pt_num r.pt_num]

/-- The first five criteria, the ones applied when `taxo_index = 1`. -/
def fiveCriteria (c r : Score) : List Verdict := (sevenCriteria c r).take 5

/-- The candidate is strictly better in the lexicographic order of the seven criteria. -/
def lexBetter (c r : Score) : Prop := firstDiffering (sevenCriteria c r) = .better

instance (c r : Score) : Decidable (lexBetter c r) := by unfold lexBetter; infer_instance

/-- The two score tuples tie on all seven criteria. -/
def tieAll (c r : Score) : Prop := ∀ v ∈ sevenCriteria c r, v = Verdict.tie

/-- Sort key of a score tuple: larger is better in every component. -/
def rankKey (a : Score) : ℤ ×ₗ (ℤ ×ₗ (ℤ ×ₗ (ℤ ×ₗ (ℤ ×ₗ (ℤ ×ₗ ℤ))))) :=
  toLex (a.uniq_mtlen, toLex (a.uniq_mtnum, toLex (-a.type, toLex (a.mt_num,
    toLex (-a.path_len, toLex (-a.uniq_ptnum, -a.pt_num))))))

/-- The relation "candidate `a` is preferred over record `b`" that `path_up` computes. -/
def prefers (taxo_index : Nat) (a b : Score) : Prop := update_flag taxo_index a b = true

/-- The best record holds the candidate: its compared fields, node count and stored path. -/
def HoldsCandidate (ps : pathScore) (c : Score) (p : nodePath) : Prop :=
  ps.score = c ∧ ps.node_num = p.nodenum ∧
    ∀ i, i < p.nodenum → ps.path_node i = p.node i ∧ ps.path_utr i = p.utr i

/-- Two records agree on the compared fields, the node count and the stored path. -/
def SameBest (a b : pathScore) : Prop :=
  a.score = b.score ∧ a.node_num = b.node_num ∧ a.path_node = b.path_node ∧
    a.path_utr = b.path_utr

/-! ### Example data -/

/-- A contig table: contigs 1, 2, 3 of lengths 1000, 2000, 1500, all of depth 20. -/
def exTable : Int → CtgDepth := fun i =>
  if i = 0 then ⟨1000, 20⟩ else if i = 1 then ⟨2000, 20⟩ else if i = 2 then ⟨1500, 20⟩
  else ⟨0, 0⟩

/-- An array holding the given entries, 0 elsewhere. -/
def arrOf (l : List Int) : Nat → Int := fun i => l.getD i 0

/-- An empty best record as `findMpath` initialises it for `pt_num` interfering contigs. -/
def initScore (pt_num : Int) : pathScore :=
  { pt_nodenum := 10 * pt_num, mt_nodenum := 0, uniq_pt_nodenum := pt_num, uniq_mt_nodenum := 0,
    path_node := fun _ => 0, path_utr := fun _ => 0, node_num := 0, path_len := 0,
    uniq_mt_pathlen := 0, inval_num := 0, type := 1 }

/-- The linear path 1 → 2 → 3 of total length 4500. -/
def exPath : nodePath :=
  { node := arrOf [1, 2, 3], utr := arrOf [5, 5, 5], type := 1, nodenum := 3, nodelen := 4500 }

/-- A best record holding the path 2 → 4 → 4: one target node, two traversals of the
interfering contig 4. -/
def exRecordTwoPasses : pathScore :=
  { pt_nodenum := 2, mt_nodenum := 1, uniq_pt_nodenum := 1, uniq_mt_nodenum := 1,
    path_node := arrOf [2, 4, 4], path_utr := arrOf [5, 5, 5], node_num := 3, path_len := 2000,
    uniq_mt_pathlen := 2000, inval_num := 0, type := 1 }

/-- The candidate path 2 → 4: the same target coverage with one interfering traversal. -/
def exPathOnePass : nodePath :=
  { node := arrOf [2, 4], utr := arrOf [5, 5], type := 1, nodenum := 2, nodelen := 2000 }

/-! ## Seed growth and bubble pruning (`BFSseed.c`) -/

/-- The struct `Ctglinks` of `BFSseed.h`: a raw link of the contig graph. -/
structure Ctglinks where
  lctg : Int
  rctg : Int
  lutr : String
  rutr : String
  linkdepth : ℚ
deriving DecidableEq

/-- The struct `BFSlinks` of `BFSseed.h`, with the fields `BFSseeds` assigns (it leaves
`lctgdepth` and `rctgdepth` unassigned). -/
structure BFSlinks where
  lctgsmp : Int
  lctglen : Int
  rctgsmp : Int
  rctglen : Int
  lutrsmp : Int
  rutrsmp : Int
  linkdepth : ℚ
deriving DecidableEq

/-- Value of a run of leading decimal digits (the digit loop of `atoi`). -/
def atoiDigits : Int → List Char → Int
  | acc, [] => acc
  | acc, ch :: rest =>
    if ch.isDigit then atoiDigits (acc * 10 + ((ch.toNat : Int) - 48)) rest else acc

/-- The C library function `atoi` on a string without leading blanks: an optional sign
followed by decimal digits. -/
def atoi : List Char → Int
  | [] => 0
  | ch :: rest =>
    if ch = Char.ofNat 45 then - atoiDigits 0 rest
    else if ch = Char.ofNat 43 then atoiDigits 0 rest
    else atoiDigits 0 (ch :: rest)

/-- The function `remove_quote` of `misc.c`: drop a final quote character, then `atoi`. -/
def remove_quote (str : String) : Int :=
  if str.toList.getLast? = some (Char.ofNat 39) then atoi str.toList.dropLast
  else atoi str.toList

/-- The depth filter of `BFSmain` (lines 225-227): both endpoint depths above `filter_depth`
and link depth above `0.5 * MIN` of them. -/
def expandQualifies (ctgdepth : Int → CtgDepth) (filter_depth : ℚ) (l : Ctglinks) : Prop :=
  (ctgdepth (l.lctg - 1)).depth > filter_depth ∧
  (ctgdepth (l.rctg - 1)).depth > filter_depth ∧
  l.linkdepth > (1 / 2 : ℚ) * MIN (ctgdepth (l.lctg - 1)).depth (ctgdepth (l.rctg - 1)).depth

instance (ctgdepth : Int → CtgDepth) (filter_depth : ℚ) (l : Ctglinks) :
    Decidable (expandQualifies ctgdepth filter_depth l) := by
  unfold expandQualifies; infer_instance

/-- One iteration of the link loop of `BFSmain` (lines 225-246). -/
def BFSmainStep (ctgdepth : Int → CtgDepth) (filter_depth : ℚ) (dynseeds : List Int)
    (l : Ctglinks) : List Int :=
  if expandQualifies ctgdepth filter_depth l then
    if findint dynseeds l.lctg = 1 ∧ findint dynseeds l.rctg = 0 then dynseeds ++ [l.rctg]
    else if findint dynseeds l.rctg = 1 ∧ findint dynseeds l.lctg = 0 then dynseeds ++ [l.lctg]
    else dynseeds
  else dynseeds

/-- The function `BFSmain` of `BFSseed.c`: one round over the whole link list. -/
def BFSmain (ctglinks : List Ctglinks) (ctgdepth : Int → CtgDepth) (dynseeds : List Int)
    (filter_depth : ℚ) : List Int :=
  ctglinks.foldl (BFSmainStep ctgdepth filter_depth) dynseeds

/-- How the expansion loop of `BFSseeds` ends. -/
inductive Growth where
  | converged (dynseeds : List Int)
  | aborted
  | unfinished
deriving DecidableEq

/-- The expansion loop of `BFSseeds` (lines 65-80), entered with round counter `tm`; the first
argument bounds the number of iterations of the model (`unfinished` when it runs out). -/
def BFSseedsLoop (ctglinks : List Ctglinks) (ctgdepth : Int → CtgDepth) (filter_depth : ℚ) :
    Nat → Int → List Int → Growth
  | 0, _, _ => .unfinished
  | fuel + 1, tm, dynseeds =>
    let temp_num_dynseeds := dynseeds.length
    let dynseeds1 := BFSmain ctglinks ctgdepth dynseeds filter_depth
    let tm1 := tm + 1
    if tm1 > 100 then .aborted
    else if temp_num_dynseeds = dynseeds1.length then .converged dynseeds1
    else BFSseedsLoop ctglinks ctgdepth filter_depth fuel tm1 dynseeds1

/-- The expansion loop of `BFSseeds` as it is entered (`tm = 1`); 100 iterations are enough. -/
def BFSseedsGrow (ctglinks : List Ctglinks) (ctgdepth : Int → CtgDepth) (dynseeds : List Int)
    (filter_depth : ℚ) : Growth :=
  BFSseedsLoop ctglinks ctgdepth filter_depth 100 1 dynseeds

/-- The relaxed filter of `BFSseeds` (lines 85-87): both endpoints are seeds and the link
depth is above `0.3 * MIN` of the endpoint depths. -/
def bfsKeeps (ctgdepth : Int → CtgDepth) (dynseeds : List Int) (l : Ctglinks) : Prop :=
  findint dynseeds l.lctg = 1 ∧ findint dynseeds l.rctg = 1 ∧
  l.linkdepth > (3 / 10 : ℚ) * MIN (ctgdepth (l.lctg - 1)).depth (ctgdepth (l.rctg - 1)).depth

instance (ctgdepth : Int → CtgDepth) (dynseeds : List Int) (l : Ctglinks) :
    Decidable (bfsKeeps ctgdepth dynseeds l) := by
  unfold bfsKeeps; infer_instance

/-- The `BFSlinks` record written for a kept raw link (lines 95-104). -/
def toBFSlink (ctgdepth : Int → CtgDepth) (l : Ctglinks) : BFSlinks :=
  { lutrsmp := remove_quote l.lutr, lctgsmp := l.lctg, lctglen := (ctgdepth (l.lctg - 1)).len,
    rutrsmp := remove_quote l.rutr, rctgsmp := l.rctg, rctglen := (ctgdepth (l.rctg - 1)).len,
    linkdepth := l.linkdepth }

/-- The link-building loop of `BFSseeds` (lines 84-107), appending to `bfslinks`. -/
def buildBFSlinks (ctglinks : List Ctglinks) (ctgdepth : Int → CtgDepth) (dynseeds : List Int)
    (bfslinks : List BFSlinks) : List BFSlinks :=
  ctglinks.foldl
    (fun acc l => if bfsKeeps ctgdepth dynseeds l then acc ++ [toBFSlink ctgdepth l] else acc)
    bfslinks

/-- The struct `nodeArr` of `BFSseed.c`: the neighbours on terminus 3 and on terminus 5. -/
structure nodeArr where
  node3 : List Int
  node5 : List Int
deriving DecidableEq

/-- One iteration of the inner loop of lines 124-147 for seed `seed`. -/
def nodeArrStep (seed : Int) (node_arr : nodeArr) (l : BFSlinks) : nodeArr :=
  if l.lctgsmp = seed then
    if l.lutrsmp = 3 then { node_arr with node3 := node_arr.node3 ++ [l.rctgsmp] }
    else if l.lutrsmp = 5 then { node_arr with node5 := node_arr.node5 ++ [l.rctgsmp] }
    else node_arr
  else if l.rctgsmp = seed then
    if l.rutrsmp = 3 then { node_arr with node3 := node_arr.node3 ++ [l.lctgsmp] }
    else if l.rutrsmp = 5 then { node_arr with node5 := node_arr.node5 ++ [l.lctgsmp] }
    else node_arr
  else node_arr

/-- The neighbour record of one seed (lines 115-147). -/
def nodeArrOf (bfslinks : List BFSlinks) (seed : Int) : nodeArr :=
  bfslinks.foldl (nodeArrStep seed) ⟨[], []⟩

/-- The hash `node_hash` after the loop of lines 113-149. -/
def buildNodeHash (bfslinks : List BFSlinks) (dynseeds : List Int) : Int → Option nodeArr :=
  dynseeds.foldl (fun h seed => fun k => if k = seed then some (nodeArrOf bfslinks seed) else h k)
    (fun _ => none)

/-- Reading `kh_value(node_hash, kh_get(..))`; for an absent key the C read is out of
bounds, the model reads an empty record. -/
def nodeHashValue (node_hash : Int → Option nodeArr) (k : Int) : nodeArr :=
  (node_hash k).getD ⟨[], []⟩

/-- The cross-link test of lines 161-167 for seed `seed` with neighbour records
`a` (its own), `a3` (of its terminus-3 neighbour) and `a5` (of its terminus-5 neighbour). -/
def bubbleTest (seed : Int) (a a3 a5 : nodeArr) : Prop :=
  ((findint a3.node3 seed = 1 ∧ findint a3.node3 (a.node5.headD 0) = 1) ∨
   (findint a3.node5 seed = 1 ∧ findint a3.node5 (a.node5.headD 0) = 1)) ∧
  ((findint a5.node3 seed = 1 ∧ findint a5.node3 (a.node3.headD 0) = 1) ∨
   (findint a5.node5 seed = 1 ∧ findint a5.node5 (a.node3.headD 0) = 1))

instance (seed : Int) (a a3 a5 : nodeArr) : Decidable (bubbleTest seed a a3 a5) := by
  unfold bubbleTest; infer_instance

/-- One iteration of the marking loop of lines 154-174. -/
def delNodeStep (ctgdepth : Int → CtgDepth) (node_hash : Int → Option nodeArr)
    (del_node : List Int) (seed : Int) : List Int :=
  if (ctgdepth (seed - 1)).len ≤ 50 then
    let temp_node_arr := nodeHashValue node_hash seed
    if temp_node_arr.node3.length = 1 ∧ temp_node_arr.node5.length = 1 then
      let temp_node_arr3 := nodeHashValue node_hash (temp_node_arr.node3.headD 0)
      let temp_node_arr5 := nodeHashValue node_hash (temp_node_arr.node5.headD 0)
      if bubbleTest seed temp_node_arr temp_node_arr3 temp_node_arr5 then del_node ++ [seed]
      else del_node
    else del_node
  else del_node

/-- The array `del_node` after the marking loop of one pruning round. -/
def delNodes (ctgdepth : Int → CtgDepth) (dynseeds : List Int) (bfslinks : List BFSlinks) :
    List Int :=
  dynseeds.foldl (delNodeStep ctgdepth (buildNodeHash bfslinks dynseeds)) []

/-- One iteration of the removal loop of lines 190-203. -/
def removeStep (st : List Int × List BFSlinks) (d : Int) : List Int × List BFSlinks :=
  (remove_element st.1 d, st.2.filter (fun l => l.lctgsmp ≠ d ∧ l.rctgsmp ≠ d))

/-- The pruning loop of `BFSseeds` (lines 109-208); the first argument bounds the number of
rounds of the model (`none` when it runs out). -/
def pruneLoop (ctgdepth : Int → CtgDepth) :
    Nat → List Int → List BFSlinks → Option (List Int × List BFSlinks)
  | 0, _, _ => none
  | fuel + 1, dynseeds, bfslinks =>
    if bfslinks.length > 0 ∧ dynseeds.length > 0 then
      let del_node := delNodes ctgdepth dynseeds bfslinks
      let st := del_node.foldl removeStep (dynseeds, bfslinks)
      if del_node.length = 0 then some st else pruneLoop ctgdepth fuel st.1 st.2
    else some (dynseeds, bfslinks)

/-- The pruning loop with as many rounds as it can need: every round but the last removes
a seed. -/
def bubblePrune (ctgdepth : Int → CtgDepth) (dynseeds : List Int) (bfslinks : List BFSlinks) :
    Option (List Int × List BFSlinks) :=
  pruneLoop ctgdepth (dynseeds.length + 1) dynseeds bfslinks

/-- The function `BFSseeds` of `BFSseed.c`: `none` when the expansion aborts, else the
final seeds and BFS links. `bfslinks` is the caller's initial (empty) link array. -/
def BFSseeds (ctglinks : List Ctglinks) (ctgdepth : Int → CtgDepth) (dynseeds : List Int)
    (filter_depth : ℚ) (bfslinks : List BFSlinks) : Option (List Int × List BFSlinks) :=
  match BFSseedsGrow ctglinks ctgdepth dynseeds filter_depth with
  | .converged dynseeds1 =>
    bubblePrune ctgdepth dynseeds1 (buildBFSlinks ctglinks ctgdepth dynseeds1 bfslinks)
  | _ => none

/-- Contigs reachable from the initial seeds along links that pass the expansion filter. -/
inductive Reach (ctglinks : List Ctglinks) (ctgdepth : Int → CtgDepth) (filter_depth : ℚ)
    (dynseeds : List Int) : Int → Prop where
  | seed (x : Int) : x ∈ dynseeds → Reach ctglinks ctgdepth filter_depth dynseeds x
  | toRight (l : Ctglinks) : l ∈ ctglinks → expandQualifies ctgdepth filter_depth l →
      Reach ctglinks ctgdepth filter_depth dynseeds l.lctg →
      Reach ctglinks ctgdepth filter_depth dynseeds l.rctg
  | toLeft (l : Ctglinks) : l ∈ ctglinks → expandQualifies ctgdepth filter_depth l →
      Reach ctglinks ctgdepth filter_depth dynseeds l.rctg →
      Reach ctglinks ctgdepth filter_depth dynseeds l.lctg

/-- A depth table giving every contig length 1000 and depth 20. -/
def flatTable : Int → CtgDepth := fun _ => ⟨1000, 20⟩

/-- The link `a -> a + 1` with termini 3 and 5 and support depth 15. -/
def chainLink (a : Int) : Ctglinks :=
  { lctg := a, rctg := a + 1, lutr := "3", rutr := "5", linkdepth := 15 }

/-- The chain 1 - 2 - ... - (n + 1), its links listed from the far end to the near end, so
that a round started from seed 1 adds exactly one contig. -/
def chainLinks (n : Nat) : List Ctglinks :=
  ((List.range n).reverse).map (fun (i : Nat) => chainLink ((i : Int) + 1))

/-- The seed list `[1, 2, ..., k]`. -/
def seedsUpTo (k : Nat) : List Int := (List.range k).map (fun (i : Nat) => (i : Int) + 1)

/-- The seed list after `k` rounds of `BFSmain`. -/
def seedsAfter (ctglinks : List Ctglinks) (ctgdepth : Int → CtgDepth) (filter_depth : ℚ)
    (dynseeds : List Int) : Nat → List Int
  | 0 => dynseeds
  | k + 1 => BFSmain ctglinks ctgdepth (seedsAfter ctglinks ctgdepth filter_depth dynseeds k)
      filter_depth

/-! ## The deep search `bfs_m` (graphPath.c) -/

/-- The struct `nodeLink` of `graphPath.c`: the successors reached through terminus 3 and
through terminus 5; the parallel arrays `node3` / `node3utr` (and `node5` / `node5utr`), which
share one count, are lists of (node, terminus) pairs. -/
structure nodeLink where
  node3 : List (Int × Int)
  node5 : List (Int × Int)

/-- What the search does to a path, recorded for stating properties of whole runs: it is
written by the model and never read by it. -/
inductive Event where
  /-- A node was appended to a path; `remaining` is its `h_mito` entry after the decrement
  (`none` when the node has no `h_mito` entry). -/
  | entered (node : Int) (remaining : Option Int)
  /-- The function `path_up` was called on a path with these nodes. -/
  | evaluated (nodes : List Int)
deriving DecidableEq

/-- The arguments of `bfs_m` that it only reads, and the globals `taxo_index` and
`mt_uniq_len`. -/
structure SearchEnv where
  node_t : Int
  t_utr : Int
  ctg_depth : Int → CtgDepth
  mt_contigs : List Int
  pt_contigs : List Int
  h_links : Int → Option nodeLink
  taxo_index : Nat
  mt_uniq_len : Int

/-- What `bfs_m` reads and writes through its pointer arguments. -/
structure SearchState where
  current_path : nodePath
  path_score : pathScore
  h_mito : Int → Option Int
  h_chloro : Int → Option Int
  stop_flag : Int
  log : List Event

/-- The update `kh_value(h, kh_get(h, k)) += d` of an entry that is present. -/
def khAdd (h : Int → Option Int) (k : Int) (d : Int) : Int → Option Int :=
  fun x => if x = k then (h x).map (fun v => v + d) else h x

/-- The statement `*stop_flag = path_up(path_score, *current_path, ...)`. -/
def callPathUp (env : SearchEnv) (st : SearchState) : SearchState :=
  let r := path_up env.taxo_index st.path_score st.current_path env.ctg_depth env.mt_contigs
    env.pt_contigs
  { st with path_score := r.1, stop_flag := r.2,
            log := st.log ++ [Event.evaluated st.current_path.nodes] }

/-- One iteration of the loop of lines 419-428 of `bfs_m`: the unique target nodes seen so far
and their total length. -/
def uniqMtStep (env : SearchEnv) (acc : List Int × Int) (x : Int) : List Int × Int :=
  if findint env.mt_contigs x = 1 ∧ findint acc.1 x = 0 ∧ findint env.pt_contigs x = 0 then
    (acc.1 ++ [x], (acc.2 + (env.ctg_depth (x - 1)).len) % 2 ^ 64)
  else acc

/-- The value `uniq_mtlen` computed by lines 415-429 of `bfs_m`. -/
def uniqMtLen (env : SearchEnv) (p : nodePath) : Int :=
  (p.nodes.foldl (uniqMtStep env) ([], 0)).2

/-- The test `(float)uniq_mtlen / mt_uniq_len > 0.5` of lines 430-431. It is exact for
lengths below 2^24; a zero divisor gives +inf for a positive numerator and NaN for 0. -/
def ratoAboveHalf (uniq_mtlen mt_uniq_len : Int) : Bool :=
  if mt_uniq_len = 0 then decide (uniq_mtlen > 0) else decide (2 * uniq_mtlen > mt_uniq_len)

/-- Lines 457-464 of `bfs_m`: append the successor `nx` to the path and charge its budget.
The node count is a natural number: the arrays it indexes have `max_node` entries, itself
a `uint32_t`, so it cannot wrap. -/
def pushNode (env : SearchEnv) (st : SearchState) (nx : Int × Int) : SearchState :=
  let is_chloro := (st.h_chloro nx.1).isSome
  let is_mito := (st.h_mito nx.1).isSome
  let p := st.current_path
  let hm := if is_mito then khAdd st.h_mito nx.1 (-1) else st.h_mito
  { st with
    current_path :=
      { p with node := Function.update p.node p.nodenum nx.1
               utr := Function.update p.utr p.nodenum nx.2
               nodelen := (p.nodelen + (env.ctg_depth (nx.1 - 1)).len) % 2 ^ 64
               nodenum := p.nodenum + 1 }
    h_mito := hm
    h_chloro := if is_chloro then khAdd st.h_chloro nx.1 1 else st.h_chloro
    log := st.log ++ [Event.entered nx.1 (hm nx.1)] }

/-- Lines 471-475 of `bfs_m`: the backtrack after the recursive call returned in state `st2`;
`is_mito` and `is_chloro` are the locals computed before the call. -/
def popNode (env : SearchEnv) (is_mito is_chloro : Bool) (nx : Int × Int) (st2 : SearchState) :
    SearchState :=
  let q := st2.current_path
  { st2 with
    current_path :=
      { q with type := 1
               nodenum := q.nodenum - 1
               nodelen := (q.nodelen - (env.ctg_depth (nx.1 - 1)).len) % 2 ^ 64 }
    h_mito := if is_mito then khAdd st2.h_mito nx.1 1 else st2.h_mito
    h_chloro := if is_chloro then khAdd st2.h_chloro nx.1 (-1) else st2.h_chloro }

/-- One iteration of the successor loop of `bfs_m` (lines 446-476) for the successor `nx`;
`recurse` is the recursive call, `acc` holds the state and `path_stop`. -/
def bfs_m_visit (env : SearchEnv) (recurse : Int → Int → SearchState → Option SearchState)
    (acc : SearchState × Bool) (nx : Int × Int) : Option (SearchState × Bool) :=
  let st := acc.1
  let is_chloro := (st.h_chloro nx.1).isSome
  let is_mito := (st.h_mito nx.1).isSome
  if is_chloro = true ∧ (st.h_chloro nx.1).getD 0 > 0 then some acc
  else if is_mito = true ∧ (st.h_mito nx.1).getD 0 = 0 then some acc
  else
    match recurse nx.1 nx.2 (pushNode env st nx) with
    | none => none
    | some st2 => some (popNode env is_mito is_chloro nx st2, false)

/-- Lines 408-411 of `bfs_m`: the evaluation of a path that closed on `node_t`. -/
def closeEval (env : SearchEnv) (st : SearchState) : SearchState :=
  let p := st.current_path
  let st1 := callPathUp env
    { st with current_path :=
      { p with type := 0
               nodelen := (p.nodelen - (env.ctg_depth (env.node_t - 1)).len) % 2 ^ 64 } }
  { st1 with current_path :=
    { st1.current_path with
      nodelen := (st1.current_path.nodelen + (env.ctg_depth (env.node_t - 1)).len) % 2 ^ 64 } }

/-- Lines 415-433 of `bfs_m`: the evaluation of a path that covers more than half of the
target length. -/
def coverageEval (env : SearchEnv) (st : SearchState) : SearchState :=
  if ratoAboveHalf (uniqMtLen env st.current_path) env.mt_uniq_len then callPathUp env st
  else st

/-- Lines 442-444 of `bfs_m`: the successor list on the side opposite to the terminus the
node was entered by. -/
def successorsOf (link_s : nodeLink) (s_utr : Int) : List (Int × Int) :=
  if s_utr = 3 then link_s.node5 else link_s.node3

/-- Lines 477-479 of `bfs_m`: after the successor loop, with `r.2` the value of
`path_stop`. -/
def deadEndEval (env : SearchEnv) (r : SearchState × Bool) : SearchState :=
  let st3 : SearchState := { r.1 with current_path := { r.1.current_path with type := 1 } }
  if r.2 then callPathUp env st3 else st3

/-- The function `bfs_m` of `graphPath.c`, run by one thread. The first argument bounds the
recursion depth of the model (`none` when it runs out). -/
def bfs_m (env : SearchEnv) : Nat → Int → Int → SearchState → Option SearchState
  | 0, _, _, _ => none
  | fuel + 1, node_s, s_utr, st =>
    if st.stop_flag ≠ 0 then some st
    else if st.current_path.nodenum > 1 ∧ node_s = env.node_t ∧ s_utr ≠ env.t_utr then
      some (closeEval env st)
    else
      match env.h_links node_s with
      | none => some (coverageEval env st)
      | some link_s =>
        match (successorsOf link_s s_utr).foldlM (bfs_m_visit env (bfs_m env fuel))
            (coverageEval env st, true) with
        | none => none
        | some r => some (deadEndEval env r)

/-- The frame of a call of `bfs_m`: budgets, interfering counters, node count and
accumulated length. -/
def SameFrame (a b : SearchState) : Prop :=
  a.h_mito = b.h_mito ∧ a.h_chloro = b.h_chloro ∧
  a.current_path.nodenum = b.current_path.nodenum ∧
  a.current_path.nodelen = b.current_path.nodelen

/-- The adjacency of the 3-node cycle 1 - 2 - 3 - 1: leaving a node through terminus 5 leads
to the next node (entered at its terminus 3), leaving through terminus 3 to the previous
one (entered at its terminus 5). -/
def cycleLinks : Int → Option nodeLink := fun k =>
  if k = 1 then some ⟨[(3, 5)], [(2, 3)]⟩
  else if k = 2 then some ⟨[(1, 5)], [(3, 3)]⟩
  else if k = 3 then some ⟨[(2, 5)], [(1, 3)]⟩
  else none

/-- The search environment of the cycle: start and end contig 2, end terminus 5. -/
def cycleEnv : SearchEnv :=
  { node_t := 2, t_utr := 5, ctg_depth := exTable, mt_contigs := [1, 2, 3], pt_contigs := [],
    h_links := cycleLinks, taxo_index := 0, mt_uniq_len := 4500 }

/-- A budget of one pass for each of the contigs 1, 2, 3. -/
def cycleBudget : Int → Option Int := fun k => if 1 ≤ k ∧ k ≤ 3 then some 1 else none

/-- The state of a search root that holds only the start contig 2, left through terminus 3. -/
def cycleStart : SearchState :=
  { current_path := { node := arrOf [2], utr := arrOf [3], type := 1, nodenum := 1,
                      nodelen := 2000 },
    path_score := initScore 0, h_mito := cycleBudget, h_chloro := fun _ => none,
    stop_flag := 0, log := [] }

/-! ## The bounded parallel seeding `bfsMap` (graphPath.c) -/

/-- The struct `mpath` of `graphPath.c`: a path prefix with its own budget tables. -/
structure mpath where
  path : Nat → Int
  utr : Nat → Int
  h_mito : Int → Option Int
  h_chloro : Int → Option Int
  type : Int
  nodenum : Nat
  pathlen : Int

/-- The local struct `bfsPath` of `bfsMap`. A slot of `mpath` that was never written is `none`
(reading it is undefined in C, and makes the model stop with `none`). The arrays `mpath` and
`flag` have `2 * max_paths` entries; `forkLoop`, which writes them at an index that grows,
tests the index. `log` records the nodes appended to prefixes. -/
structure bfsPath where
  mpath : Int → Option mpath
  flag : Int → Int
  path_count : Int
  log : List Event

/-- The assignment `a[i] = v` on an array indexed by `int`. -/
def setAt {α : Type} (a : Int → α) (i : Int) (v : α) : Int → α :=
  fun k => if k = i then v else a k

/-- A prefix extended by the successor `nx` (lines 584-592 and 618-637): budget charged,
node appended, length added; `src` is the prefix it is built from. -/
def extendPrefix (ctg_depth : Int → CtgDepth) (src : mpath) (is_mito is_chloro : Bool)
    (nx : Int × Int) (type : Int) : mpath :=
  { path := Function.update (copyPrefix src.nodenum src.path (fun _ => 0)) src.nodenum nx.1
    utr := Function.update (copyPrefix src.nodenum src.utr (fun _ => 0)) src.nodenum nx.2
    h_mito := if is_mito then khAdd src.h_mito nx.1 (-1) else src.h_mito
    h_chloro := if is_chloro then khAdd src.h_chloro nx.1 1 else src.h_chloro
    type := type
    nodenum := src.nodenum + 1
    pathlen := (src.pathlen + (ctg_depth (nx.1 - 1)).len) % 2 ^ 64 }

/-- The branch `tempmapnum == 1` of `bfsMap` (lines 572-600): slot `i`, holding `m`, is
extended in place by its only successor `nx`. -/
def extendInPlace (ctg_depth : Int → CtgDepth) (nodet utrt : Int) (b : bfsPath) (i : Int)
    (m : mpath) (nx : Int × Int) : bfsPath :=
  if nx.1 = nodet ∧ nx.2 = utrt then { b with flag := setAt b.flag i 0 }
  else
    let is_chloro := (m.h_chloro nx.1).isSome
    let is_mito := (m.h_mito nx.1).isSome
    if is_chloro = true ∧ (m.h_chloro nx.1).getD 0 > 1 then { b with flag := setAt b.flag i 0 }
    else if is_mito = true ∧ (m.h_mito nx.1).getD 0 = 0 then
      { b with flag := setAt b.flag i 0 }
    else
      let m1 := extendPrefix ctg_depth m is_mito is_chloro nx (if nx.1 = nodet then 0 else 1)
      { b with mpath := setAt b.mpath i (some m1)
               flag := if nx.1 = nodet then setAt b.flag i 0 else b.flag
               log := b.log ++ [Event.entered nx.1 (m1.h_mito nx.1)] }

/-- The loop over `j` of the branch `tempmapnum > 1` of `bfsMap` (lines 605-646): `first` is
`(tempmap[0], temputr[0])`, the list holds the successors still to be tried, the state is
the table and `dy_path_index`. Every pass that does not leave the loop writes
`flag[dy_path_index]` or the slot `mpath[dy_path_index]`, and the source does not test
`dy_path_index` against the `2 * max_paths` entries of these arrays: a write past them has
no defined result, and the model stops with `none`. -/
def forkLoop (ctg_depth : Int → CtgDepth) (nodet utrt max_paths : Int) (i : Int)
    (temp_mpath : mpath) (first : Int × Int) :
    List (Int × Int) → bfsPath × Int → Option (bfsPath × Int)
  | [], acc => some acc
  | nx :: rest, acc =>
    let b := acc.1
    let dy_path_index := acc.2
    if first.1 = nodet ∧ first.2 = utrt then some ({ b with flag := setAt b.flag i 0 }, dy_path_index)
    else if 2 * max_paths ≤ dy_path_index then none
    else
      match b.mpath i with
      | none => none
      | some mi =>
        let is_chloro := (mi.h_chloro nx.1).isSome
        let is_mito := (mi.h_mito nx.1).isSome
        if is_chloro = true ∧ (mi.h_chloro nx.1).getD 0 > 1 then
          forkLoop ctg_depth nodet utrt max_paths i temp_mpath first rest
            ({ b with flag := setAt b.flag dy_path_index 0 }, dy_path_index)
        else if is_mito = true ∧ (mi.h_mito nx.1).getD 0 = 0 then
          forkLoop ctg_depth nodet utrt max_paths i temp_mpath first rest
            ({ b with flag := setAt b.flag dy_path_index 0 }, dy_path_index)
        else
          let m1 := extendPrefix ctg_depth temp_mpath is_mito is_chloro nx
            (if nx.1 = nodet then 0 else 1)
          forkLoop ctg_depth nodet utrt max_paths i temp_mpath first rest
            ({ b with mpath := setAt b.mpath dy_path_index (some m1)
                      flag := if nx.1 = nodet then setAt b.flag dy_path_index 0 else b.flag
                      path_count := b.path_count + 1
                      log := b.log ++ [Event.entered nx.1 (m1.h_mito nx.1)] }, b.path_count)

/-- The branch `tempmapnum > 1` of `bfsMap` (lines 602-647), with the `path_count--` that
follows the loop. -/
def forkSlot (ctg_depth : Int → CtgDepth) (nodet utrt max_paths : Int) (b : bfsPath) (i : Int)
    (m : mpath) (tempmap : List (Int × Int)) : Option bfsPath :=
  match forkLoop ctg_depth nodet utrt max_paths i m (tempmap.headD (0, 0)) tempmap (b, i) with
  | none => none
  | some r => some { r.1 with path_count := r.1.path_count - 1 }

/-- One iteration of the loop over `i` of `bfsMap` (lines 556-651); the state is the table
and `temp_end`. The index `i` is below the number of prefixes at the start of the round,
which is 1 or below `max_paths`, so the slot `i` is inside the arrays. -/
def bfsMapStep (ctg_depth : Int → CtgDepth) (h_links : Int → Option nodeLink)
    (nodet utrt max_paths : Int) (acc : bfsPath × Int) (i : Int) : Option (bfsPath × Int) :=
  let b := acc.1
  if b.flag i = 0 then some acc
  else
    match b.mpath i with
    | none => none
    | some m =>
      let endutr := m.utr (m.nodenum - 1)
      let endnode := m.path (m.nodenum - 1)
      match h_links endnode with
      | none => some (b, 1)
      | some node_links =>
        let tempmap := successorsOf node_links endutr
        if tempmap.length = 1 ∧ b.flag i = 1 then
          some (extendInPlace ctg_depth nodet utrt b i m (tempmap.headD (0, 0)), 1)
        else if tempmap.length > 1 ∧ b.flag i = 1 then
          (forkSlot ctg_depth nodet utrt max_paths b i m tempmap).map (fun b1 => (b1, 1))
        else if tempmap.length = 0 ∧ b.flag i = 1 then
          some ({ b with flag := setAt b.flag i 0 }, 1)
        else some (b, 1)

/-- The indices `0, 1, ..., n - 1` of a loop `for (i = 0; i < n; i++)`. -/
def indicesBelow (n : Int) : List Int := (List.range n.toNat).map (fun (i : Nat) => (i : Int))

/-- The loop `while (1)` of `bfsMap` (lines 553-657), entered with `dy_path_count`; the first
argument bounds the number of rounds of the model (`none` when it runs out). -/
def bfsMapLoop (ctg_depth : Int → CtgDepth) (h_links : Int → Option nodeLink)
    (nodet utrt : Int) (max_paths : Int) : Nat → bfsPath → Int → Option bfsPath
  | 0, _, _ => none
  | fuel + 1, b, dy_path_count =>
    match (indicesBelow dy_path_count).foldlM
        (bfsMapStep ctg_depth h_links nodet utrt max_paths) (b, 0) with
    | none => none
    | some r =>
      if r.1.path_count ≥ max_paths ∨ r.2 = 0 then some r.1
      else bfsMapLoop ctg_depth h_links nodet utrt max_paths fuel r.1 r.1.path_count

/-- The table of `bfsMap` before its loop (lines 530-549): one prefix holding the start. -/
def bfsMapInit (ctg_depth : Int → CtgDepth) (nodes utrs : Int)
    (h_mito h_chloro : Int → Option Int) : bfsPath :=
  { mpath := setAt (fun _ => none) 0
      (some { path := Function.update (fun _ => 0) 0 nodes
              utr := Function.update (fun _ => 0) 0 utrs
              h_mito := h_mito, h_chloro := h_chloro, type := 1, nodenum := 1
              pathlen := (ctg_depth (nodes - 1)).len % 2 ^ 64 })
    flag := fun _ => 1
    path_count := 1
    log := [] }

/-- The copy loop of lines 660-693: the slots with the given indices, in order; `none` when
one of them was never written. -/
def collectSlots (slots : Int → Option mpath) : List Int → Option (List mpath)
  | [] => some []
  | i :: rest =>
    match slots i, collectSlots slots rest with
    | some m, some ms => some (m :: ms)
    | _, _ => none

/-- The function `bfsMap` of `graphPath.c`: the prefixes copied to `current_path[0 .. path_t)`
and the log of appended nodes; `none` when the model ran out of rounds, read a slot that
was never written, or wrote past the `2 * max_paths` entries of its table (which holds the
start only when `max_paths` is at least 1). The copy loop stays inside the `2 * cpu`
entries that `findMpath` allocates for `current_path`: a run that ends inside the table
has at most `2 * max_paths` prefixes (`bfsMap_returns_at_most_table`). -/
def bfsMap (fuel : Nat) (nodes utrs nodet utrt : Int) (ctg_depth : Int → CtgDepth)
    (h_links : Int → Option nodeLink) (max_paths : Int) (h_mito h_chloro : Int → Option Int) :
    Option (List mpath × List Event) :=
  if max_paths < 1 then none
  else
    match bfsMapLoop ctg_depth h_links nodet utrt max_paths fuel
        (bfsMapInit ctg_depth nodes utrs h_mito h_chloro) 1 with
    | none => none
    | some b =>
      match collectSlots b.mpath (indicesBelow b.path_count) with
      | none => none
      | some prefixes => some (prefixes, b.log)

/-- The entries `path[0 .. nodenum)` of a prefix, in order. -/
def mpath.nodes (m : mpath) : List Int := (List.range m.nodenum).map m.path

/-- The thread arguments `findMpath` builds for the prefix `m` (lines 1036-1064): the root
state of its deep search. -/
def rootState (path_score : pathScore) (m : mpath) : SearchState :=
  { current_path :=
      { node := copyPrefix m.nodenum m.path (fun _ => 0)
        utr := copyPrefix m.nodenum m.utr (fun _ => 0)
        type := m.type, nodenum := m.nodenum, nodelen := m.pathlen }
    path_score := path_score, h_mito := m.h_mito, h_chloro := m.h_chloro, stop_flag := 0,
    log := [] }

/-- The deep search started by `findMpath` for the prefix `m`: `bfs_m` from its last node. -/
def searchFromPrefix (env : SearchEnv) (fuel : Nat) (path_score : pathScore) (m : mpath) :
    Option SearchState :=
  bfs_m env fuel (m.path (m.nodenum - 1)) (m.utr (m.nodenum - 1)) (rootState path_score m)

/-- The budget invariant of a path with node list `nodes` and budget table `h`, against the
initial budgets `budget`: the tables have the same keys, no remaining budget is negative,
and entries (occurrences after the first position) plus remaining budget give the initial
budget. -/
def BudgetInv (budget : Int → Option Int) (nodes : List Int) (h : Int → Option Int) : Prop :=
  ∀ n, (budget n = none → h n = none) ∧
    ∀ b, budget n = some b → ∃ v, h n = some v ∧ 0 ≤ v ∧ (nodes.tail.count n : Int) + v = b

/-- What the budget discipline demands of one logged event: a charged budget stays
non-negative, and an evaluated path enters no target node more often than its initial
budget allows (the first position is the start, not an entry). -/
def EventOk (budget : Int → Option Int) : Event → Prop
  | Event.entered _ (some v) => 0 ≤ v
  | Event.entered _ none => True
  | Event.evaluated nodes => ∀ n b, budget n = some b → (nodes.tail.count n : Int) ≤ b

/-- A diamond adjacency: from contig 1 (left through terminus 5) to 2 or 3, both leading
to 4. -/
def diamondLinks : Int → Option nodeLink := fun k =>
  if k = 1 then some ⟨[], [(2, 3), (3, 3)]⟩
  else if k = 2 then some ⟨[(1, 5)], [(4, 3)]⟩
  else if k = 3 then some ⟨[(1, 5)], [(4, 3)]⟩
  else if k = 4 then some ⟨[(2, 5), (3, 5)], []⟩
  else none

/-- A budget of one pass for each of the contigs 1 to 4. -/
def diamondBudget : Int → Option Int := fun k => if 1 ≤ k ∧ k ≤ 4 then some 1 else none

/-- The search environment of the diamond: start and end contig 1. -/
def diamondEnv : SearchEnv :=
  { node_t := 1, t_utr := 5, ctg_depth := flatTable, mt_contigs := [1, 2, 3, 4],
    pt_contigs := [], h_links := diamondLinks, taxo_index := 0, mt_uniq_len := 4000 }

/-- Every event of a log respects the budget discipline. -/
def LogOk (budget : Int → Option Int) (log : List Event) : Prop :=
  ∀ e ∈ log, EventOk budget e

/-- State `a` has the budgets, the node count and the path entries of state `b`. -/
def KeepsPath (a b : SearchState) : Prop :=
  a.h_mito = b.h_mito ∧ a.current_path.nodenum = b.current_path.nodenum ∧
  ∀ i, i < b.current_path.nodenum → a.current_path.node i = b.current_path.node i

/-- The budget invariant of a search state whose path holds at least the start. -/
def StateInv (budget : Int → Option Int) (st : SearchState) : Prop :=
  BudgetInv budget st.current_path.nodes st.h_mito ∧ 1 ≤ st.current_path.nodenum

/-- The budget invariant of every written slot of the table of `bfsMap`, and of its log. -/
def TableInv (budget : Int → Option Int) (b : bfsPath) : Prop :=
  (∀ i m, b.mpath i = some m → BudgetInv budget m.nodes m.h_mito ∧ 1 ≤ m.nodenum) ∧
  LogOk budget b.log

/-- No budget of table `h` exceeds the budget of the same node in table `g`. -/
def BudgetLe (h g : Int → Option Int) : Prop :=
  ∀ n v, h n = some v → ∃ w, g n = some w ∧ v ≤ w

/-! ## Backbone simplification `maingraph` (graphtools.c, `misc.c`) -/

/-- Offset of the first entry equal to `x` (the inner loop of `removeUnique`, which stops at
its first hit). -/
def firstEqual (x : Int) : List Int → Option Nat
  | [] => none
  | a :: rest => if x = a then some 0 else (firstEqual x rest).map (· + 1)

/-- The two loops of `removeUnique` from one index on: `isDuplicate` holds the flags of the
entries still to come. An entry is copied by the second loop when its flag is set once the
first loop has passed it: it was flagged from an earlier index, or an equal entry follows (whose
flag is then set). The first loop leaves out the last index, where no entry follows. -/
def removeUniqueFrom : List Int → List Bool → List Int
  | [], _ => []
  | a :: rest, isDuplicate =>
    if isDuplicate.headD false then a :: removeUniqueFrom rest isDuplicate.tail
    else
      match firstEqual a rest with
      | some j => a :: removeUniqueFrom rest (isDuplicate.tail.set j true)
      | none => removeUniqueFrom rest isDuplicate.tail

/-- The function `removeUnique` of `misc.c`: keep the entries that occur at least twice. -/
def removeUnique (arr : List Int) : List Int :=
  if arr.length ≤ 1 then arr else removeUniqueFrom arr (List.replicate arr.length false)

/-- One iteration of the outer loop of `removeDup`. -/
def removeDupStep (kept : List Int) (x : Int) : List Int :=
  if x ∈ kept then kept else kept ++ [x]

/-- The function `removeDup` of `misc.c`: keep the first occurrence of every value. -/
def removeDup : List Int → List Int
  | [] => []
  | a :: rest => rest.foldl removeDupStep [a]

/-- State of the scan of `maingraph`: the array `mainseeds` and the hash `map_direct`. -/
structure Direct where
  mainseeds : List Int
  map_direct : Int → Option Int

/-- Lines 141-152 (and 154-165): one endpoint `ctg` of a link that is not a self-link, seen
with terminus `utr`. -/
def directEnd (st : Direct) (ctg utr : Int) : Direct :=
  match st.map_direct ctg with
  | some v =>
    if v ≠ utr then ⟨st.mainseeds ++ [ctg], Function.update st.map_direct ctg (some 0)⟩ else st
  | none => ⟨st.mainseeds ++ [ctg], Function.update st.map_direct ctg (some utr)⟩

/-- Lines 168-176: a self-link at `ctg`. -/
def directSelf (st : Direct) (ctg : Int) : Direct :=
  ⟨st.mainseeds ++ [ctg, ctg],
    if st.map_direct ctg = none then Function.update st.map_direct ctg (some 0)
    else st.map_direct⟩

/-- One iteration of the scan of `maingraph` (lines 135-186). -/
def directStep (st : Direct) (l : BFSlinks) : Direct :=
  if l.lctgsmp ≠ l.rctgsmp then
    directEnd (directEnd st l.lctgsmp l.lutrsmp) l.rctgsmp l.rutrsmp
  else directSelf st l.lctgsmp

/-- The scan of `maingraph` over the current links: the array `mainseeds` it leaves. -/
def directScan (templinks : List BFSlinks) : List Int :=
  (templinks.foldl directStep ⟨[], fun _ => none⟩).mainseeds

/-- The test of lines 198-203 that retains a link. -/
def mainKeeps (ctg_depth : Int → CtgDepth) (mainseeds rm_ctg : List Int) (filter_depth : ℚ)
    (l : BFSlinks) : Prop :=
  findint mainseeds l.lctgsmp = 1 ∧ findint mainseeds l.rctgsmp = 1 ∧
  findint rm_ctg l.lctgsmp = 0 ∧ findint rm_ctg l.rctgsmp = 0 ∧
  (ctg_depth (l.lctgsmp - 1)).depth ≥ filter_depth ∧
  (ctg_depth (l.rctgsmp - 1)).depth ≥ filter_depth

instance (ctg_depth : Int → CtgDepth) (mainseeds rm_ctg : List Int) (filter_depth : ℚ)
    (l : BFSlinks) : Decidable (mainKeeps ctg_depth mainseeds rm_ctg filter_depth l) := by
  unfold mainKeeps; infer_instance

/-- The `while (1)` loop of `maingraph` (lines 132-219) on the current links `templinks`;
the result is the pair (`mainlinks[0 .. *main_num)`, `mainseeds`) at the `break`. The first
argument bounds the number of rounds of the model. At the first `break` `*main_num` is the
length of `templinks`, which `mainlinks` holds from the round before (in the first round
the scan is empty only when there is no link). -/
def maingraphLoop (ctg_depth : Int → CtgDepth) (rm_ctg : List Int) (filter_depth : ℚ) :
    Nat → List BFSlinks → Option (List BFSlinks × List Int)
  | 0, _ => none
  | fuel + 1, templinks =>
    if (directScan templinks).length = 0 then some (templinks, directScan templinks)
    else
      let mainseeds := removeUnique (directScan templinks)
      let mainlinks := templinks.filter
        (fun l => decide (mainKeeps ctg_depth mainseeds rm_ctg filter_depth l))
      if mainlinks.length = templinks.length then some (mainlinks, mainseeds)
      else maingraphLoop ctg_depth rm_ctg filter_depth fuel mainlinks

/-- The function `maingraph` of `graphtools.c`: the retained links and the backbone nodes. -/
def maingraph (bfslinks : List BFSlinks) (ctg_depth : Int → CtgDepth) (rm_ctg : List Int)
    (filter_depth : ℚ) : Option (List BFSlinks × List Int) :=
  (maingraphLoop ctg_depth rm_ctg filter_depth (bfslinks.length + 1) bfslinks).map
    (fun r => (r.1, removeDup r.2))

/-- The node `x` is seen with terminus `t` at an end of one of the links. -/
def occursWith (links : List BFSlinks) (x t : Int) : Prop :=
  ∃ l ∈ links, (l.lctgsmp = x ∧ l.lutrsmp = t) ∨ (l.rctgsmp = x ∧ l.rutrsmp = t)

/-- The rule of the specification for a backbone node: among the links it occurs with two
different termini, or in a self-link. -/
def Ambiguous (links : List BFSlinks) (x : Int) : Prop :=
  (∃ t₁ t₂, t₁ ≠ t₂ ∧ occursWith links x t₁ ∧ occursWith links x t₂) ∨
  (∃ l ∈ links, l.lctgsmp = x ∧ l.rctgsmp = x)

/-- What the scan of `maingraph` sees of a node: an end of a link between two nodes, with its
terminus, or a self-link. -/
inductive Sighting where
  | ending (ctg utr : Int)
  | selfLink (ctg : Int)
deriving DecidableEq

/-- The node a sighting is about. -/
def Sighting.ctg : Sighting → Int
  | .ending c _ => c
  | .selfLink c => c

/-- The sightings of one link, in the order the scan makes them. -/
def sightings (l : BFSlinks) : List Sighting :=
  if l.lctgsmp ≠ l.rctgsmp then [.ending l.lctgsmp l.lutrsmp, .ending l.rctgsmp l.rutrsmp]
  else [.selfLink l.lctgsmp]

/-- The scan step on one sighting. -/
def sightingStep (st : Direct) : Sighting → Direct
  | .ending c u => directEnd st c u
  | .selfLink c => directSelf st c

/-- A node is ambiguous in a run of sightings: a self-link, or two endings with different
termini. -/
def AmbiguousIn (E : List Sighting) (x : Int) : Prop :=
  Sighting.selfLink x ∈ E ∨ ∃ t₁ t₂, t₁ ≠ t₂ ∧ Sighting.ending x t₁ ∈ E ∧ Sighting.ending x t₂ ∈ E

/-- What the scan state knows about node `x` after the sightings `E`. -/
def DirectInv (E : List Sighting) (st : Direct) (x : Int) : Prop :=
  ((∀ e ∈ E, e.ctg ≠ x) → st.map_direct x = none ∧ st.mainseeds.count x = 0) ∧
  (∀ t, Sighting.ending x t ∈ E → (∀ e ∈ E, e.ctg = x → e = Sighting.ending x t) →
    st.map_direct x = some t ∧ st.mainseeds.count x = 1) ∧
  (AmbiguousIn E x → 2 ≤ st.mainseeds.count x)

/-- Some entry equal to `x` carries a set flag. -/
def Flagged (x : Int) (l : List Int) (flags : List Bool) : Prop :=
  ∃ i : Nat, l[i]? = some x ∧ flags[i]? = some true

/-- Example structure for the backbone: the circle 1 - 2 - 3 with the tail 3 - 4. -/
def tailedCircle : List BFSlinks :=
  [⟨1, 100, 2, 100, 3, 5, 10⟩, ⟨2, 100, 3, 100, 3, 5, 10⟩, ⟨3, 100, 4, 100, 3, 5, 10⟩,
   ⟨3, 100, 1, 100, 3, 5, 10⟩]

/-! ## Structure decomposition `bfs_structure` (graphPath.c) -/

/-- The struct `BFSstructure` of `graphPath.h`: the links and the nodes of one structure. -/
structure BFSstructure where
  links : List BFSlinks
  node : List Int
deriving DecidableEq

/-- The arrays `node_recursive` works on: `link_used`, `visited_nodes`, and the links and
nodes collected for the structure under construction. -/
structure Walk where
  link_used : List Bool
  visited_nodes : List Int
  tempBFSlinks : List BFSlinks
  temp_node : List Int

/-- Lines 140-147 (and 150-157): link `i` is copied and marked used, and its other endpoint
joins `temp_node` unless it is there already. -/
def takeLink (w : Walk) (i : Nat) (l : BFSlinks) (other : Int) : Walk :=
  { w with
    tempBFSlinks := w.tempBFSlinks ++ [l]
    link_used := w.link_used.set i true
    temp_node := if findint w.temp_node other = 0 then w.temp_node ++ [other] else w.temp_node }

/-- The link loop of `node_recursive` (lines 136-160) from index `i` on, over the links still
to come; `recurse` stands for the recursive calls of lines 148 and 158. -/
def scanLinks (recurse : Int → Walk → Option Walk) (node : Int) :
    Nat → List BFSlinks → Walk → Option Walk
  | _, [], w => some w
  | i, l :: rest, w =>
    if w.link_used.getD i false then scanLinks recurse node (i + 1) rest w
    else if l.lctgsmp = node then
      match recurse l.rctgsmp (takeLink w i l l.rctgsmp) with
      | none => none
      | some w₂ => scanLinks recurse node (i + 1) rest w₂
    else if l.rctgsmp = node then
      match recurse l.lctgsmp (takeLink w i l l.lctgsmp) with
      | none => none
      | some w₂ => scanLinks recurse node (i + 1) rest w₂
    else scanLinks recurse node (i + 1) rest w

/-- The function `node_recursive` of `graphPath.c`. The first argument bounds the depth of the
recursion of the model; one more than the number of unused links is always enough. -/
def node_recursive (links : List BFSlinks) : Nat → Int → Walk → Option Walk
  | 0, _, _ => none
  | fuel + 1, node, w =>
    scanLinks (node_recursive links fuel) node 0 links
      { w with visited_nodes := w.visited_nodes ++ [node] }

/-- What `bfs_structure` carries from node to node: `link_used`, `visited_nodes` and the
structures stored so far (the hash `h_structures` has the keys 0, 1, 2, ... in this order). -/
structure Decomp where
  link_used : List Bool
  visited_nodes : List Int
  structures : List BFSstructure

/-- One iteration of the node loop of `bfs_structure` (lines 174-204). -/
def bfs_structure_step (links : List BFSlinks) (d : Decomp) (node : Int) : Option Decomp :=
  if findint d.visited_nodes node = 0 then
    match node_recursive links (links.length + 1) node
        ⟨d.link_used, d.visited_nodes, [], [node]⟩ with
    | none => none
    | some w => some ⟨w.link_used, w.visited_nodes, d.structures ++ [⟨w.tempBFSlinks, w.temp_node⟩]⟩
  else some d

/-- The node loop of `bfs_structure` (lines 171-205) with the arrays `visited_nodes` and
`temp_node` as lists of any length: what the loop stores when every write has room. -/
def bfs_structure_loop (node_arry : List Int) (links : List BFSlinks) : Option Decomp :=
  node_arry.foldlM (bfs_structure_step links) ⟨List.replicate links.length false, [], []⟩

/-- The function `bfs_structure` of `graphPath.c`: the structures in the order of their keys.
The array `visited_nodes` is allocated for `2 * (node_num + 1)` entries (line 164) and
`temp_node` for `node_num` entries (line 180), and nothing tests an index against these
sizes. Both arrays are only appended to, so a write goes past the end of one of them
exactly when its final count exceeds its size; such a run has no defined result (`none`). -/
def bfs_structure (node_arry : List Int) (links : List BFSlinks) : Option (List BFSstructure) :=
  match bfs_structure_loop node_arry links with
  | none => none
  | some d =>
    if d.visited_nodes.length ≤ 2 * (node_arry.length + 1) ∧
        ∀ s ∈ d.structures, s.node.length ≤ node_arry.length then some d.structures
    else none

/-- The link has `x` as an endpoint. -/
def Touches (l : BFSlinks) (x : Int) : Prop := l.lctgsmp = x ∨ l.rctgsmp = x

/-- Some link has the endpoints `a` and `b`. -/
def Linked (links : List BFSlinks) (a b : Int) : Prop :=
  ∃ l ∈ links, (l.lctgsmp = a ∧ l.rctgsmp = b) ∨ (l.lctgsmp = b ∧ l.rctgsmp = a)

/-- A chain of links joins `a` and `b` (every node is joined to itself by the empty chain). -/
def Joined (links : List BFSlinks) : Int → Int → Prop :=
  Relation.ReflTransGen (Linked links)

/-- The links whose flag in `link_used` is not set, in their order. -/
def unusedLinks : List BFSlinks → List Bool → List BFSlinks
  | [], _ => []
  | l :: rest, used => if used.headD false then unusedLinks rest used.tail
    else l :: unusedLinks rest used.tail

/-- Example: the chain 1 - 2 - 3 and the isolated node 4, on the node list 1, 2, 3, 4. -/
def twoStructures : List BFSlinks :=
  [⟨2, 100, 3, 100, 3, 5, 10⟩, ⟨1, 100, 2, 100, 3, 5, 10⟩]

/-- What a run of the link loop of `node_recursive` for `node`, from index `i` on, does to the
arrays; `A` lists the nodes it appends to `visited_nodes`. -/
structure Walked (links : List BFSlinks) (node : Int) (i : Nat) (w w₂ : Walk) (A : List Int) :
    Prop where
  len : w₂.link_used.length = links.length
  mono : ∀ j, w.link_used.getD j false = true → w₂.link_used.getD j false = true
  count_le : w₂.link_used.count false ≤ w.link_used.count false
  visited : w₂.visited_nodes = w.visited_nodes ++ A
  closed : ∀ x ∈ A, ∀ j l, links[j]? = some l → Touches l x → w₂.link_used.getD j false = true
  here : ∀ j l, i ≤ j → links[j]? = some l → Touches l node → w₂.link_used.getD j false = true
  taken : ∃ T, w₂.tempBFSlinks = w.tempBFSlinks ++ T ∧
    (T ++ unusedLinks links w₂.link_used).Perm (unusedLinks links w.link_used) ∧
    ∀ l ∈ T, (l.lctgsmp = node ∨ l.lctgsmp ∈ A) ∧ (l.rctgsmp = node ∨ l.rctgsmp ∈ A)
  nodes : ∀ x, x ∈ w₂.temp_node ↔ x ∈ w.temp_node ∨ x ∈ A
  nodup : w.temp_node.Nodup → w₂.temp_node.Nodup
  joined : ∀ x ∈ A, Joined links node x
  fresh : ∀ x ∈ A, ∃ j l, links[j]? = some l ∧ Touches l x ∧ w.link_used.getD j false = false

/-- What the node loop of `bfs_structure` maintains; `P` lists the nodes it has passed. -/
structure DecompInv (links : List BFSlinks) (P : List Int) (d : Decomp) : Prop where
  len : d.link_used.length = links.length
  closed : ∀ x ∈ d.visited_nodes, ∀ j l, links[j]? = some l → Touches l x →
    d.link_used.getD j false = true
  perm : (d.structures.flatMap (·.links) ++ unusedLinks links d.link_used).Perm links
  seen : ∀ x ∈ P, x ∈ d.visited_nodes
  members : ∀ x, x ∈ d.visited_nodes ↔ x ∈ d.structures.flatMap (·.node)
  nodup : (d.structures.flatMap (·.node)).Nodup
  inside : ∀ s ∈ d.structures, ∀ l ∈ s.links, l.lctgsmp ∈ s.node ∧ l.rctgsmp ∈ s.node
  rooted : ∀ s ∈ d.structures, ∃ r ∈ s.node, r ∈ P ∧ ∀ x ∈ s.node, Joined links r x

/-! ## The path search of one structure, `findMpath` (graphPath.c)

Depths are `float` in the source; the model computes with exact rationals, so the rounding of
the `float` sum, quotient and conversions is left out. Conversions to `int` are kept. -/

/-- Conversion of a `float` or `double` to `int` in C: the fraction is dropped (rounding
toward zero). A value whose integer part does not fit `int` (32 bits) has no defined
conversion in C; there the model gives what the conversion instructions of x86-64
(`cvttss2si`, `cvttsd2si`) give, `INT_MIN`. -/
def floatToInt (q : ℚ) : Int :=
  if -2147483648 ≤ Int.tdiv q.num q.den ∧ Int.tdiv q.num q.den < 2147483648 then
    Int.tdiv q.num q.den
  else -2147483648

/-- Line 723, `int mt_depth = ctg_depth[node1 - 1].depth`: the depth of the start contig, cut
to an integer by the type of the variable. -/
def mt_depth (ctg_depth : Int → CtgDepth) (node1 : Int) : Int :=
  floatToInt (ctg_depth (node1 - 1)).depth

/-- One iteration of the loop of lines 726-733. -/
def minDepthStep (ctg_depth : Int → CtgDepth) (pt_contigs : List Int) (mt_depth : Int)
    (min_depth : ℚ) (c : Int) : ℚ :=
  if findint pt_contigs c = 0 ∧ (ctg_depth (c - 1)).depth < min_depth ∧
      (ctg_depth (c - 1)).len > 1000 ∧ (ctg_depth (c - 1)).depth > (1 / 2 : ℚ) * mt_depth then
    (ctg_depth (c - 1)).depth
  else min_depth

/-- The variable `min_depth` after the loop of lines 726-733. -/
def min_depth (ctg_depth : Int → CtgDepth) (node1 : Int) (mt_contigs pt_contigs : List Int) : ℚ :=
  mt_contigs.foldl (minDepthStep ctg_depth pt_contigs (mt_depth ctg_depth node1))
    (mt_depth ctg_depth node1 : ℚ)

/-- Line 772: `denom = (mt_depth + min_depth) / 2` (the same value in every iteration). -/
def denom (ctg_depth : Int → CtgDepth) (node1 : Int) (mt_contigs pt_contigs : List Int) : ℚ :=
  ((mt_depth ctg_depth node1 : ℚ) + min_depth ctg_depth node1 mt_contigs pt_contigs) / 2

/-- Lines 779-783: the pass budget of a contig of the given depth. The cast `(int)` of line
779 is `floatToInt`; line 781 raises a value below 1 to 1. -/
def passBudget (depth denom : ℚ) : Int :=
  if floatToInt (depth / denom + 1 / 2) < 1 then 1 else floatToInt (depth / denom + 1 / 2)

/-- What the loop of lines 765-793 computes: the table `h_mito`, the local `maxnum_mito` and
the globals `mt_uniq_len` and `mt_uniq`. -/
structure Budgets where
  h_mito : Int → Option Int
  maxnum_mito : Int
  mt_uniq_len : Int
  mt_uniq : Int

/-- One iteration of the loop of lines 765-793; `none` is the `return` of line 776 with
`*flag_err = 1`. -/
def budgetStep (ctg_depth : Int → CtgDepth) (pt_contigs : List Int) (denom : ℚ) (acc : Budgets)
    (c : Int) : Option Budgets :=
  if findint pt_contigs c = 0 then
    if (acc.h_mito c).isSome then some acc
    else if denom ≤ 0 then none
    else
      some
        { h_mito := Function.update acc.h_mito c (some (passBudget (ctg_depth (c - 1)).depth denom))
          maxnum_mito := acc.maxnum_mito + passBudget (ctg_depth (c - 1)).depth denom
          mt_uniq_len := (acc.mt_uniq_len + (ctg_depth (c - 1)).len) % 2 ^ 64
          mt_uniq := (acc.mt_uniq + 1) % 2 ^ 32 }
  else some acc

/-- The loop of lines 765-793 of `findMpath`. -/
def initBudgets (ctg_depth : Int → CtgDepth) (node1 : Int) (mt_contigs pt_contigs : List Int) :
    Option Budgets :=
  mt_contigs.foldlM (budgetStep ctg_depth pt_contigs (denom ctg_depth node1 mt_contigs pt_contigs))
    ⟨fun _ => none, 0, 0, 0⟩

/-- The loop of lines 806-810: every interfering contig gets the counter 0. -/
def initChloro (pt_contigs : List Int) : Int → Option Int :=
  pt_contigs.foldl (fun h c => Function.update h c (some 0)) (fun _ => none)

/-- The loop of lines 812-816: the table `h_depth`, whose values are `int`. -/
def initDepth (ctg_depth : Int → CtgDepth) (mt_contigs : List Int) : Int → Option Int :=
  mt_contigs.foldl (fun h c => Function.update h c (some (floatToInt (ctg_depth (c - 1)).depth)))
    (fun _ => none)

/-- The comparator `compare_by_hash_value` says that `a` need not come after `b`: its result
`value_b - value_a` is not positive (it is 0 when a node has no entry). -/
def depthOrder (h_depth : Int → Option Int) (a b : Int × Int) : Bool :=
  match h_depth a.1, h_depth b.1 with
  | some value_a, some value_b => decide (value_b - value_a ≤ 0)
  | _, _ => true

/-- One iteration of the link loop of lines 846-883 for the contig `c`; `none` is a `return`
with `*flag_err = 1` (a tenth neighbour at one terminus). -/
def linkStep (c : Int) (acc : nodeLink) (l : BFSlinks) : Option nodeLink :=
  if l.lctgsmp = c ∨ l.rctgsmp = c then
    if l.lctgsmp = c ∧ l.lutrsmp = 3 then
      if acc.node3.length + 1 ≥ 10 then none
      else some { acc with node3 := acc.node3 ++ [(l.rctgsmp, l.rutrsmp)] }
    else if l.rctgsmp = c ∧ l.rutrsmp = 3 then
      if acc.node3.length + 1 ≥ 10 then none
      else some { acc with node3 := acc.node3 ++ [(l.lctgsmp, l.lutrsmp)] }
    else if l.lctgsmp = c ∧ l.lutrsmp = 5 then
      if acc.node5.length + 1 ≥ 10 then none
      else some { acc with node5 := acc.node5 ++ [(l.rctgsmp, l.rutrsmp)] }
    else
      if acc.node5.length + 1 ≥ 10 then none
      else some { acc with node5 := acc.node5 ++ [(l.lctgsmp, l.lutrsmp)] }
  else some acc

/-- Lines 885-971: the neighbours that are not interfering come first, sorted by falling
depth, then the interfering ones in their order. The call of `qsort` is modelled by a stable
sort; the C library leaves the order of neighbours of equal depth open. -/
def arrangeNeighbours (pt_contigs : List Int) (h_depth : Int → Option Int)
    (xs : List (Int × Int)) : List (Int × Int) :=
  (xs.filter (fun p => decide (findint pt_contigs p.1 = 0))).insertionSort
      (fun a b => depthOrder h_depth a b = true) ++
    xs.filter (fun p => decide (¬ findint pt_contigs p.1 = 0))

/-- The body of the loop of lines 835-973 for the contig `c`: its entry of `h_links`. -/
def nodeLinks (mainlinks : List BFSlinks) (pt_contigs : List Int) (h_depth : Int → Option Int)
    (c : Int) : Option nodeLink :=
  (mainlinks.foldlM (linkStep c) ⟨[], []⟩).map (fun nl =>
    ⟨arrangeNeighbours pt_contigs h_depth nl.node3, arrangeNeighbours pt_contigs h_depth nl.node5⟩)

/-- Lines 820-974 of `findMpath`: the table `h_links`; `none` is a `return` with
`*flag_err = 1`. A single contig with a single link is given a loop from its terminus 3 to
its terminus 5, whatever the link says. -/
def buildLinks (mainlinks : List BFSlinks) (mt_contigs pt_contigs : List Int)
    (h_depth : Int → Option Int) : Option (Int → Option nodeLink) :=
  if mt_contigs.length = 1 ∧ mainlinks.length = 1 then
    some (Function.update (fun _ => none) (mt_contigs.headD 0)
      (some ⟨[(mt_contigs.headD 0, 5)], [(mt_contigs.headD 0, 3)]⟩))
  else
    mt_contigs.foldlM (fun h c =>
      (nodeLinks mainlinks pt_contigs h_depth c).map (fun nl => Function.update h c (some nl)))
      (fun _ => none)

/-- What `findMpath` leaves behind its pointer arguments `flag_err`, `mt_ratio` and
`struc_path` (`none`: never assigned); `log` records what the search did and is never read. -/
structure Found where
  flag_err : Int
  mt_ratio : ℚ
  struc_path : Option pathScore
  log : List Event

/-- Lines 1116-1135: the copy of the best record into `*struc_path`, whose first entry is
the start as given. The field `inval_num` is not copied. -/
def copyBest (node1 node1utr : Int) (path_score : pathScore) : pathScore :=
  { path_score with
    path_node := fun i => if i = 0 then node1 else if i < path_score.node_num then
      path_score.path_node i else 0
    path_utr := fun i => if i = 0 then node1utr else if i < path_score.node_num then
      path_score.path_utr i else 0
    inval_num := 0 }

/-- Lines 1024-1071: the deep searches of all prefixes. The threads are run one after the
other in the order of their prefixes, which is one of the schedules the mutex allows. -/
def searchAll (env : SearchEnv) (fuel : Nat) (path_score : pathScore) (log : List Event)
    (prefixes : List mpath) : Option (pathScore × List Event) :=
  prefixes.foldlM (fun acc m =>
    (searchFromPrefix env fuel acc.1 m).map (fun st => (st.path_score, acc.2 ++ st.log)))
    (path_score, log)

/-- Lines 1077-1144 of `findMpath`: the result, from the best record after the searches. -/
def reportBest (node1 node1utr : Int) (mt_uniq_len : Int) (out : Found) (path_score : pathScore)
    (log : List Event) : Found :=
  if path_score.node_num = 0 then { out with flag_err := 1, log := out.log ++ log }
  else
    { flag_err := out.flag_err
      mt_ratio := (path_score.uniq_mt_pathlen : ℚ) / mt_uniq_len
      struc_path :=
        if (path_score.uniq_mt_pathlen : ℚ) / mt_uniq_len ≥ 1 / 10 then
          some (copyBest node1 node1utr path_score)
        else out.struc_path
      log := out.log ++ log }

/-- The function `findMpath` of `graphPath.c`; `out` holds what its pointer arguments point to
before the call. The first argument bounds the rounds of `bfsMap` and the depth of `bfs_m` in
the model (`none` when it runs out, or when `bfsMap` reads a slot it never wrote). Every
failure the function itself detects ends in a result with `flag_err = 1`. -/
def findMpath (fuel : Nat) (node1 node1utr node2 node2utr : Int) (mainlinks : List BFSlinks)
    (ctg_depth : Int → CtgDepth) (mt_contigs pt_contigs : List Int) (taxo : Int) (out : Found) :
    Option Found :=
  match initBudgets ctg_depth node1 mt_contigs pt_contigs with
  | none => some { out with flag_err := 1 }
  | some budgets =>
    match buildLinks mainlinks mt_contigs pt_contigs (initDepth ctg_depth mt_contigs) with
    | none => some { out with flag_err := 1 }
    | some h_links =>
      match bfsMap fuel node1 node1utr node2 node2utr ctg_depth h_links 8 budgets.h_mito
          (initChloro pt_contigs) with
      | none => none
      | some r =>
        let env : SearchEnv :=
          { node_t := node2, t_utr := node2utr, ctg_depth := ctg_depth, mt_contigs := mt_contigs
            pt_contigs := pt_contigs, h_links := h_links, taxo_index := (taxo % 256).toNat
            mt_uniq_len := budgets.mt_uniq_len }
        match searchAll env fuel (initScore pt_contigs.length) r.2 r.1 with
        | none => none
        | some s => some (reportBest node1 node1utr budgets.mt_uniq_len out s.1 s.2)
/-! ## The structure loop of `optgfa` (graphtools.c, lines 611-995)

The loop is modelled from the call of `bfs_structure` on; what `optgfa` reads and writes in
files is left out. Depths and ratios are exact rationals (see `findMpath`). -/

/-- What the structure loop reports, in order; written by the model and never read. -/
inductive Report where
  /-- The gate of line 719: the structure is left out. -/
  | skippedLarge
  /-- The gate of line 830: the structure is left out and `rm_flag` is set. -/
  | skippedInterfering
  /-- A call `findMpath(node1, node1utr, node1, node2utr, ...)` and the values it left in
  `flag_err` and `mt_ratio`. -/
  | searched (node1 node1utr node2utr : Int) (flag_err : Int) (mt_ratio : ℚ)
  /-- The warning "Failed to find M-path". -/
  | failed
  /-- A reported path: its nodes, its type and its score. -/
  | found (nodes : List Int) (type : Int) (mt_ratio : ℚ)
  /-- A structure of one node and no link, reported as a linear path. -/
  | single (ctg : Int)
deriving DecidableEq

/-- The variables of `optgfa` the structure loop works on. -/
structure Assembly where
  mainseeds : List Int
  ass_ctg_arr : List Int
  ps_struct : List pathScore
  struc : Int
  rm_flag : Int
  reports : List Report

/-- One iteration of the loop of lines 627-633. -/
def filterDepthStep (ctgdepth : Int → CtgDepth) (interfering_ctg : List Int) (acc : ℚ × ℚ)
    (x : Int) : ℚ × ℚ :=
  if acc.2 < (ctgdepth (x - 1)).len ∧ findint interfering_ctg x = 0 then
    ((ctgdepth (x - 1)).depth, (ctgdepth (x - 1)).len)
  else acc

/-- Lines 619-638: `temp_filter_depth`, the depth of the longest contig of all structures that
is not interfering, or `(10/3) * filter_depth` (an integer quotient, 3) below `filter_depth`. -/
def tempFilterDepth (ctgdepth : Int → CtgDepth) (interfering_ctg : List Int) (filter_depth : ℚ)
    (structures : List BFSstructure) : ℚ :=
  let r := (structures.flatMap (·.node)).foldl (filterDepthStep ctgdepth interfering_ctg) (0, 0)
  if r.1 < filter_depth then 3 * filter_depth else r.1

/-- The candidate nodes and links of a structure: `temp_mainseeds`, `temp_mainlinks` and
`linear_f` before the gate of line 719. -/
structure Candidates where
  temp_mainlinks : List BFSlinks
  temp_mainseeds : List Int
  linear_f : Int
deriving DecidableEq

/-- The test of lines 686-690 on a node of the structure. -/
def outsideBackbone (ctgdepth : Int → CtgDepth) (flag_depth : ℚ) (temp_mainseeds : List Int)
    (temp_struct : BFSstructure) (x : Int) : Prop :=
  (ctgdepth (x - 1)).depth > (2 / 5 : ℚ) * flag_depth ∧
  (ctgdepth (x - 1)).depth < 2 * flag_depth ∧ (ctgdepth (x - 1)).len > 100 ∧
  findint temp_mainseeds x = 0 ∧ findint temp_struct.node x = 1

instance (ctgdepth : Int → CtgDepth) (flag_depth : ℚ) (temp_mainseeds : List Int)
    (temp_struct : BFSstructure) (x : Int) :
    Decidable (outsideBackbone ctgdepth flag_depth temp_mainseeds temp_struct x) := by
  unfold outsideBackbone; infer_instance

/-- Lines 650-716: the backbone `maingraph` returns, or the whole structure when the
backbone is empty (and some node is deep enough) or, for `pt` and `taxo` 1 and 2, when a node
of fitting depth is outside the backbone. `none` only when the model of `maingraph` gives
`none`, which it never does. -/
def candidates (ctgdepth : Int → CtgDepth) (dynseeds : List Int) (is_pt : Bool) (taxo : Int)
    (temp_filter_depth : ℚ) (temp_struct : BFSstructure) : Option Candidates :=
  match maingraph temp_struct.links ctgdepth [] ((3 / 10 : ℚ) * temp_filter_depth) with
  | none => none
  | some r =>
    if r.2.length = 0 then
      if (temp_struct.node.filter (fun x =>
          decide ((ctgdepth (x - 1)).depth > (3 / 10 : ℚ) * temp_filter_depth))).length > 0 then
        some ⟨temp_struct.links, temp_struct.node, 1⟩
      else some ⟨r.1, [], 1⟩
    else if is_pt = true ∨ taxo = 1 ∨ taxo = 2 then
      if ∃ x ∈ temp_struct.node,
          outsideBackbone ctgdepth (ctgdepth (dynseeds.headD 0 - 1)).depth r.2 temp_struct x then
        some ⟨temp_struct.links, temp_struct.node, 1⟩
      else some ⟨r.1, r.2, 0⟩
    else some ⟨r.1, r.2, 0⟩

/-- Lines 744-755: the neighbours of a node along the candidate links. -/
def neighboursOf (links : List BFSlinks) (x : Int) : List Int :=
  links.filterMap (fun l =>
    if l.lctgsmp = x then some l.rctgsmp else if l.rctgsmp = x then some l.lctgsmp else none)

/-- Lines 785-816: one neighbour `n` of the key `key`; the state is `transfer_ctg` and
`non_transfer_num`. -/
def transferStep (ctgdepth : Int → CtgDepth) (interfering_ctg : List Int) (links : List BFSlinks)
    (key : Int) (flag_transfer : Nat) (acc : List Int × Int) (n : Int) : List Int × Int :=
  if findint interfering_ctg n = 1 ∧ findint interfering_ctg key = 1 then (acc.1, acc.2 + 1)
  else if findint interfering_ctg n = 1 ∧ findint interfering_ctg key = 0 ∧
      findint acc.1 n = 0 ∧ (ctgdepth (n - 1)).len > 30 then
    if flag_transfer > 0 then (acc.1 ++ [n], acc.2)
    else if (ctgdepth (key - 1)).len > 2000 then (acc.1 ++ [n], acc.2)
    else acc
  else if findint interfering_ctg n = 0 ∧ findint interfering_ctg key = 1 ∧
      findint acc.1 key = 0 then
    if ((neighboursOf links n).filter (fun m => decide (findint interfering_ctg m = 0))).length > 0
    then (acc.1 ++ [key], acc.2)
    else if (ctgdepth (n - 1)).len > 2000 then (acc.1 ++ [key], acc.2)
    else acc
  else acc

/-- Lines 769-817: one key of `h_links`. -/
def transferKey (ctgdepth : Int → CtgDepth) (interfering_ctg : List Int) (links : List BFSlinks)
    (acc : List Int × Int) (key : Int) : List Int × Int :=
  let flag_transfer :=
    if findint interfering_ctg key = 0 ∧ (ctgdepth (key - 1)).len > 30 then
      ((neighboursOf links key).filter (fun m => decide (findint interfering_ctg m = 0))).length
    else 0
  (neighboursOf links key).foldl
    (transferStep ctgdepth interfering_ctg links key flag_transfer) acc

/-- The gate of line 830, `transfer_num == 0 && non_transfer_num > 0`, after the loop of lines
764-820. The source visits the keys in the order of the hash table, the model in the order
of `temp_mainseeds`; the gate only reads whether a contig was ever added to `transfer_ctg`
and whether a link between two interfering contigs exists, which no order changes. -/
def interferingOnly (ctgdepth : Int → CtgDepth) (interfering_ctg : List Int) (c : Candidates) :
    Bool :=
  if interfering_ctg.length > 0 then
    let r := c.temp_mainseeds.foldl (transferKey ctgdepth interfering_ctg c.temp_mainlinks)
      ([], 0)
    decide (r.1.length = 0 ∧ r.2 > 0)
  else false

/-- Lines 846-853: the longest candidate that is not interfering (0 when there is none). -/
def longestTarget (ctgdepth : Int → CtgDepth) (interfering_ctg : List Int)
    (temp_mainseeds : List Int) : Int :=
  (temp_mainseeds.foldl (fun (acc : Int × Int) x =>
    if acc.2 < (ctgdepth (x - 1)).len ∧ findint interfering_ctg x = 0 then
      (x, (ctgdepth (x - 1)).len)
    else acc) (0, 0)).1

/-- Lines 862-876: the number of changes of terminus of node `x` along the links, counted up
to 2, and the last terminus seen. -/
def terminusChanges (x : Int) : List BFSlinks → Nat × Int → Nat × Int
  | [], acc => acc
  | l :: rest, acc =>
    let acc1 :=
      if l.lctgsmp = x ∧ l.lutrsmp ≠ acc.2 then (acc.1 + 1, l.lutrsmp)
      else if l.rctgsmp = x ∧ l.rutrsmp ≠ acc.2 then (acc.1 + 1, l.rutrsmp)
      else acc
    if acc1.1 = 2 then acc1 else terminusChanges x rest acc1

/-- Lines 855-882: the longest candidate seen with one terminus only, as
(`temp_len`, `temp_ctg`, `temp_utr`). -/
def linearStart (ctgdepth : Int → CtgDepth) (c : Candidates) : Int × Int × Int :=
  c.temp_mainseeds.foldl (fun (acc : Int × Int × Int) x =>
    let r := terminusChanges x c.temp_mainlinks (0, 0)
    if r.1 = 1 ∧ (ctgdepth (x - 1)).len > acc.1 then ((ctgdepth (x - 1)).len, x, r.2)
    else acc) (0, 0, 0)

/-- The start of the search: (`ctg_s`, `utr_s`, `utr_e`, `temp_linear`) at line 885. -/
def searchStart (ctgdepth : Int → CtgDepth) (interfering_ctg : List Int) (c : Candidates) :
    Int × Int × Int × Int :=
  let ctg_s := longestTarget ctgdepth interfering_ctg c.temp_mainseeds
  if c.linear_f = 1 then
    let r := linearStart ctgdepth c
    if r.2.1 ≠ 0 then (r.2.1, if r.2.2 = 3 then 5 else 3, if r.2.2 = 3 then 3 else 5, 1)
    else (ctg_s, 5, 3, 0)
  else (ctg_s, 5, 3, 0)

/-- Rounding to the nearest integer, a tie to the even neighbour. -/
def roundHalfEven (x : ℚ) : Int :=
  if x - ⌊x⌋ < 1 / 2 then ⌊x⌋
  else if 1 / 2 < x - ⌊x⌋ then ⌊x⌋ + 1
  else if ⌊x⌋ % 2 = 0 then ⌊x⌋ else ⌊x⌋ + 1

/-- The `float` (IEEE 754 binary32, 24 significant bits) nearest to `q`, a tie going to the
even significand; the range of the exponent is left out. -/
def toFloat (q : ℚ) : ℚ :=
  (roundHalfEven (q / 2 ^ (Int.log 2 |q| - 23)) : ℚ) * 2 ^ (Int.log 2 |q| - 23)

/-- The `double` constant `0.7` (bits 0x3FE6666666666666), the double nearest to 7/10. -/
def double07 : ℚ := 3152519739159347 / 4503599627370496

/-- Lines 885-897: the search and its retry with the termini swapped; the result is what
`flag_err`, `mt_ratio` and `struct_path` hold at line 899, with the calls made.

The test `mt_ratio < 0.7` of line 893 compares the `float` ratio with the `double` constant
0.7. The float nearest to 0.7 is 11744051 / 2^24, which is below the double 0.7, and the next
float is above it: the test holds exactly when the quotient rounds to a float of at most
11744051 / 2^24, that is when it is below 23488103 / 2^25, half way to the next float (the
tie goes to the even neighbour above). A quotient of exactly 7/10 passes the test
(`toFloat_lt_double07_iff`). The quotient of two lengths below 2^24 is rounded once, as
here. -/
def searchWithRetry (fuel : Nat) (ctgdepth : Int → CtgDepth) (interfering_ctg : List Int)
    (taxo : Int) (c : Candidates) (ctg_s utr_s utr_e temp_linear : Int) :
    Option (Found × List Report) :=
  match findMpath fuel ctg_s utr_s ctg_s utr_e c.temp_mainlinks ctgdepth c.temp_mainseeds
      interfering_ctg taxo ⟨0, 0, none, []⟩ with
  | none => none
  | some r₁ =>
    if r₁.mt_ratio < 23488103 / 33554432 ∧ temp_linear = 0 then
      match findMpath fuel ctg_s utr_e ctg_s utr_s c.temp_mainlinks ctgdepth c.temp_mainseeds
          interfering_ctg taxo { r₁ with mt_ratio := 0, flag_err := 0 } with
      | none => none
      | some r₂ =>
        some (r₂, [.searched ctg_s utr_s utr_e r₁.flag_err r₁.mt_ratio,
          .searched ctg_s utr_e utr_s r₂.flag_err r₂.mt_ratio])
    else some (r₁, [.searched ctg_s utr_s utr_e r₁.flag_err r₁.mt_ratio])

/-- The entries `path_node[0 .. node_num)` of a record. -/
def pathScore.nodes (p : pathScore) : List Int := (List.range p.node_num).map p.path_node

/-- Lines 899-944: the warning, or the report of the path: its nodes go to `ass_ctg_arr`
(for a circular path without the last one, which repeats the first) and the record to
`ps_struct`. `none` when `struct_path` is read without having been assigned. -/
def reportPath (st : Assembly) (r : Found) (calls : List Report) : Option Assembly :=
  if r.mt_ratio < 1 / 10 ∨ r.flag_err = 1 then
    some { st with struc := st.struc + 1, reports := st.reports ++ calls ++ [.failed] }
  else
    match r.struc_path with
    | none => none
    | some p =>
      some { st with
        struc := st.struc + 1
        ass_ctg_arr := st.ass_ctg_arr ++ (if p.type = 0 then p.nodes.take (p.node_num - 1)
          else p.nodes)
        ps_struct := st.ps_struct ++ [p]
        reports := st.reports ++ calls ++ [.found p.nodes p.type r.mt_ratio] }

/-- The record of lines 963-970 for a structure of one node. -/
def singlePath (ctgdepth : Int → CtgDepth) (x : Int) : pathScore :=
  { pt_nodenum := 0, mt_nodenum := 0, uniq_pt_nodenum := 0, uniq_mt_nodenum := 0
    path_node := fun _ => x, path_utr := fun _ => 5, node_num := 1
    path_len := (ctgdepth (x - 1)).len, uniq_mt_pathlen := 0, inval_num := 0, type := 1 }

/-- Lines 724-730: the candidates join `*mainseeds`, each once. -/
def addSeeds (mainseeds temp_mainseeds : List Int) : List Int :=
  temp_mainseeds.foldl (fun ms x => if findint ms x = 0 then ms ++ [x] else ms) mainseeds

/-- Lines 718-980 of `optgfa`: what the loop does with the candidates `c` of a structure.
`none` when the model of the search runs out of fuel. -/
def optgfaStepWith (fuel : Nat) (ctgdepth : Int → CtgDepth) (interfering_ctg : List Int)
    (taxo : Int) (st : Assembly) (c : Candidates) : Option Assembly :=
  if c.temp_mainseeds.length > 200 then
    some { st with reports := st.reports ++ [.skippedLarge] }
  else
    let st₁ := { st with mainseeds := addSeeds st.mainseeds c.temp_mainseeds }
    if interferingOnly ctgdepth interfering_ctg c = true then
      some { st₁ with rm_flag := 1, reports := st₁.reports ++ [.skippedInterfering] }
    else if c.temp_mainlinks.length > 0 then
      let s := searchStart ctgdepth interfering_ctg c
      match searchWithRetry fuel ctgdepth interfering_ctg taxo c s.1 s.2.1 s.2.2.1 s.2.2.2 with
      | none => none
      | some r => reportPath st₁ r.1 r.2
    else if c.temp_mainseeds.length = 1 then
      some { st₁ with
        struc := st₁.struc + 1
        ass_ctg_arr := st₁.ass_ctg_arr ++ [c.temp_mainseeds.headD 0]
        ps_struct := st₁.ps_struct ++ [singlePath ctgdepth (c.temp_mainseeds.headD 0)]
        reports := st₁.reports ++ [.single (c.temp_mainseeds.headD 0)] }
    else if c.temp_mainseeds.length = 0 then some st₁
    else some { st₁ with struc := st₁.struc + 1 }

/-- One iteration of the structure loop of `optgfa` (lines 640-995). The source has no exit
in this loop apart from a structure missing from the table, which cannot happen. -/
def optgfaStep (fuel : Nat) (ctgdepth : Int → CtgDepth) (dynseeds interfering_ctg : List Int)
    (is_pt : Bool) (taxo : Int) (temp_filter_depth : ℚ) (st : Assembly)
    (temp_struct : BFSstructure) : Option Assembly :=
  match candidates ctgdepth dynseeds is_pt taxo temp_filter_depth temp_struct with
  | none => none
  | some c => optgfaStepWith fuel ctgdepth interfering_ctg taxo st c

/-- Lines 613-995 of `optgfa`: the structures of the seeds and links, and the loop over
them. -/
def optgfaStructures (fuel : Nat) (ctgdepth : Int → CtgDepth)
    (dynseeds : List Int) (bfslinks : List BFSlinks) (interfering_ctg : List Int) (is_pt : Bool)
    (taxo : Int) (filter_depth : ℚ) (st : Assembly) : Option Assembly :=
  match bfs_structure dynseeds bfslinks with
  | none => none
  | some structures =>
    structures.foldlM (optgfaStep fuel ctgdepth dynseeds interfering_ctg is_pt taxo
      (tempFilterDepth ctgdepth interfering_ctg filter_depth structures)) st

/-- Example backbone for the seeding: contig 1 is linked at its terminus 3 to the contigs
2, ..., 6, and each of these at its terminus 3 to the contigs 7, ..., 10; no terminus has
more than five neighbours. -/
def forkLinks : List BFSlinks :=
  (List.range 5).map (fun (k : Nat) => (⟨1, 1000, (k : Int) + 2, 1000, 3, 5, 10⟩ : BFSlinks)) ++
  (List.range 5).flatMap (fun (k : Nat) => (List.range 4).map (fun (m : Nat) =>
    (⟨(k : Int) + 2, 1000, (m : Int) + 7, 1000, 3, 5, 10⟩ : BFSlinks)))

/-- The contigs 1, ..., 10 of the example backbone. -/
def forkNodes : List Int := (List.range 10).map (fun (k : Nat) => (k : Int) + 1)

/-- Example for the stop flag: the single target contig 1, of length 1000, without
successors. -/
def stallEnv : SearchEnv :=
  { node_t := 1, t_utr := 3, ctg_depth := flatTable, mt_contigs := [1], pt_contigs := []
    h_links := Function.update (fun _ => none) 1 (some ⟨[], []⟩), taxo_index := 0
    mt_uniq_len := 1000 }

/-- A search root on the path holding contig 1 alone, when the best record holds this path
already and 10,000,000 evaluations in a row have not improved it. -/
def stallState : SearchState :=
  { current_path := { node := arrOf [1], utr := arrOf [5], type := 1, nodenum := 1, nodelen := 1000 }
    path_score :=
      { pt_nodenum := 0, mt_nodenum := 1, uniq_pt_nodenum := 0, uniq_mt_nodenum := 1
        path_node := arrOf [1], path_utr := arrOf [5], node_num := 1, path_len := 1000
        uniq_mt_pathlen := 1000, inval_num := 10000000, type := 1 }
    h_mito := Function.update (fun _ => none) 1 (some 1), h_chloro := fun _ => none
    stop_flag := 0, log := [] }

/-- The variables of the structure loop before its first iteration, with no main seed. -/
def emptyAssembly : Assembly := ⟨[], [], [], 0, 0, []⟩

/-- The prefix of `bfsMap` that holds the start alone (lines 531-544). -/
def startPrefix (ctg_depth : Int → CtgDepth) (nodes utrs : Int)
    (h_mito h_chloro : Int → Option Int) : mpath :=
  { path := Function.update (fun _ => 0) 0 nodes
    utr := Function.update (fun _ => 0) 0 utrs
    h_mito := h_mito, h_chloro := h_chloro, type := 1, nodenum := 1
    pathlen := (ctg_depth (nodes - 1)).len % 2 ^ 64 }

/-- The single link of Scenario A, between terminus 3 of contig 5 and terminus 5 of contig 7,
with support depth `d`. -/
def scenarioALink (d : ℚ) : Ctglinks :=
  { lctg := 5, rctg := 7, lutr := "3", rutr := "5", linkdepth := d }

/-- The links of Scenario C: the cycle of the contigs 1 (A, 1000 bp), 2 (B, 2000 bp) and
3 (C, 1500 bp), each link from terminus 3 of a contig to terminus 5 of the next. -/
def scenarioCLinks : List BFSlinks :=
  [⟨1, 1000, 2, 2000, 3, 5, 10⟩, ⟨2, 2000, 3, 1500, 3, 5, 10⟩, ⟨3, 1500, 1, 1000, 3, 5, 10⟩]

/-- The links of Scenario D: the links of Scenario C without the link from C back to A. -/
def scenarioDLinks : List BFSlinks := scenarioCLinks.take 2

/-- The three contigs of the scenarios with the depths 60, 20 and 40, for which `findMpath`
started at contig 2 gives the pass budgets 3, 1 and 2. -/
def unevenTable : Int → CtgDepth := fun i =>
  if i = 0 then ⟨1000, 60⟩ else if i = 1 then ⟨2000, 20⟩ else if i = 2 then ⟨1500, 40⟩
  else ⟨0, 0⟩

/-- The table `h_links` that `buildLinks` gives for Scenario C: at terminus 3 of a contig its
successor on the cycle, at terminus 5 its predecessor. -/
def scenarioCAdj : Int → Option nodeLink :=
  Function.update (Function.update (Function.update (fun _ => none) 1
    (some ⟨[(2, 5)], [(3, 3)]⟩)) 2 (some ⟨[(3, 5)], [(1, 3)]⟩)) 3 (some ⟨[(1, 5)], [(2, 3)]⟩)

/-- The prefix 2, 3, 1, 2 that `bfsMap` builds on the cycle of Scenario C. -/
def scenarioCPrefix (t : Int → CtgDepth) (hm : Int → Option Int) : mpath :=
  extendPrefix t (extendPrefix t (extendPrefix t (startPrefix t 2 5 hm (fun _ => none))
    true false (3, 5) 1) true false (1, 5) 1) true false (2, 5) 0

/-- The records written to `visited_nodes` by the node loop of `bfs_structure`: one for every
call of `node_recursive`. -/
def visitRecords (node_arry : List Int) (links : List BFSlinks) : Option (List Int) :=
  (bfs_structure_loop node_arry links).map (·.visited_nodes)

/-- Example for the visit records: the six different links on the two contigs 1 and 2 (four
between them, one for each pair of termini, and a link from terminus 3 to terminus 5 of
each). -/
def pairLinks : List BFSlinks :=
  [⟨1, 100, 2, 100, 3, 5, 10⟩, ⟨1, 100, 2, 100, 5, 3, 10⟩, ⟨1, 100, 2, 100, 3, 3, 10⟩,
   ⟨1, 100, 2, 100, 5, 5, 10⟩, ⟨1, 100, 1, 100, 3, 5, 10⟩, ⟨2, 100, 2, 100, 3, 5, 10⟩]

/-- Example of a simple graph: the contigs 1, ..., 6, each linked to every other one (15
links); the node list of the example adds the contig 7, which has no link. -/
def completeLinks : List BFSlinks :=
  (List.range 6).flatMap (fun (i : Nat) => ((List.range 6).filter (fun j => decide (i < j))).map
    (fun (j : Nat) => (⟨(i : Int) + 1, 100, (j : Int) + 1, 100, 3, 5, 10⟩ : BFSlinks)))

/-- Example backbone for a fork without free successor: the chain 1 - 2 - 3 - 4, and terminus
3 of contig 4 linked back to the contigs 2 and 3. -/
def backLinks : List BFSlinks :=
  [⟨1, 1000, 2, 1000, 3, 5, 10⟩, ⟨2, 1000, 3, 1000, 3, 5, 10⟩, ⟨3, 1000, 4, 1000, 3, 5, 10⟩,
   ⟨4, 1000, 2, 1000, 3, 5, 10⟩, ⟨4, 1000, 3, 1000, 3, 5, 10⟩]

/-- The fields `path_up` compares under the policy: all seven, or for `taxo_index = 1` the
first five (the two counts of interfering nodes are blanked). -/
def comparedFields (taxo_index : Nat) (a : Score) : Score :=
  if taxo_index = 1 then { a with uniq_ptnum := 0, pt_num := 0 } else a

/-- The best record after `path_up` has evaluated the candidate paths of the list in this
order (the stop signal is left aside: the stall threshold is not reached). -/
def evalAll (taxo_index : Nat) (ctg_depth : Int → CtgDepth) (mt_ctgarr pt_ctgarr : List Int)
    (path_score : pathScore) (paths : List nodePath) : pathScore :=
  paths.foldl (fun ps p => (path_up taxo_index ps p ctg_depth mt_ctgarr pt_ctgarr).1) path_score

/-- The reduction step as the specification words it: of two records the second replaces
the first when the comparison of `path_up` prefers it. -/
def mergeBest (taxo_index : Nat) (a b : pathScore) : pathScore :=
  if update_flag taxo_index b.score a.score then b else a

/-- The sequential reduction over per-root local bests as the specification words it: every
root evaluates its own candidates from the initial record, and the local records are merged
one after the other. -/
def reduceLocalBests (taxo_index : Nat) (ctg_depth : Int → CtgDepth)
    (mt_ctgarr pt_ctgarr : List Int) (path_score : pathScore) (roots : List (List nodePath)) :
    pathScore :=
  (roots.map (evalAll taxo_index ctg_depth mt_ctgarr pt_ctgarr path_score)).foldl
    (mergeBest taxo_index) path_score

/-- Two candidate paths of equal score: contig 1 followed by contig 2, or by contig 3. -/
def tiePathA : nodePath :=
  { node := arrOf [1, 2], utr := arrOf [5, 5], type := 1, nodenum := 2, nodelen := 2000 }

/-- The path of contig 1 followed by contig 3. -/
def tiePathB : nodePath :=
  { node := arrOf [1, 3], utr := arrOf [5, 5], type := 1, nodenum := 2, nodelen := 2000 }

/-- The explicit per-node orientation-set map of the specification: the termini with which
node `x` stands at an end of the links, each listed once. -/
def orientationSet (links : List BFSlinks) (x : Int) : List Int :=
  (links.flatMap (fun l => (if l.lctgsmp = x then [l.lutrsmp] else []) ++
    (if l.rctgsmp = x then [l.rutrsmp] else []))).dedup

/-- The node has a self-link among the links. -/
def hasSelfLink (links : List BFSlinks) (x : Int) : Bool :=
  links.any (fun l => decide (l.lctgsmp = x ∧ l.rctgsmp = x))

/-- The rule of the specification for a backbone node, on the orientation-set map: at least
two distinct termini among the current links, or a self-link among them. -/
def backboneNode (links : List BFSlinks) (x : Int) : Prop :=
  2 ≤ (orientationSet links x).length ∨ hasSelfLink links x = true

instance (links : List BFSlinks) (x : Int) : Decidable (backboneNode links x) := by
  unfold backboneNode; infer_instance

/-- The rule of the specification for keeping a link: both endpoints are backbone nodes among
the current links, and the link passes the exclusion and depth filters. -/
def backboneKeeps (ctg_depth : Int → CtgDepth) (rm_ctg : List Int) (filter_depth : ℚ)
    (links : List BFSlinks) (l : BFSlinks) : Prop :=
  backboneNode links l.lctgsmp ∧ backboneNode links l.rctgsmp ∧
  l.lctgsmp ∉ rm_ctg ∧ l.rctgsmp ∉ rm_ctg ∧
  filter_depth ≤ (ctg_depth (l.lctgsmp - 1)).depth ∧
  filter_depth ≤ (ctg_depth (l.rctgsmp - 1)).depth

instance (ctg_depth : Int → CtgDepth) (rm_ctg : List Int) (filter_depth : ℚ)
    (links : List BFSlinks) (l : BFSlinks) :
    Decidable (backboneKeeps ctg_depth rm_ctg filter_depth links l) := by
  unfold backboneKeeps; infer_instance

/-- One round of the fixpoint computation: the links the rule keeps. -/
def backboneRound (ctg_depth : Int → CtgDepth) (rm_ctg : List Int) (filter_depth : ℚ)
    (links : List BFSlinks) : List BFSlinks :=
  links.filter (fun l => decide (backboneKeeps ctg_depth rm_ctg filter_depth links l))

/-- The given number of rounds of the fixpoint computation. -/
def backboneIterate (ctg_depth : Int → CtgDepth) (rm_ctg : List Int) (filter_depth : ℚ) :
    Nat → List BFSlinks → List BFSlinks
  | 0, links => links
  | n + 1, links =>
    backboneIterate ctg_depth rm_ctg filter_depth n
      (backboneRound ctg_depth rm_ctg filter_depth links)

/-- The fixpoint computation of the specification: as many rounds as there are links are
always enough, since a round that changes the links removes one. -/
def backboneFixpoint (ctg_depth : Int → CtgDepth) (rm_ctg : List Int) (filter_depth : ℚ)
    (links : List BFSlinks) : List BFSlinks :=
  backboneIterate ctg_depth rm_ctg filter_depth links.length links

/-- The node set of the fixpoint computation: the endpoints of the links that are backbone
nodes among them, each listed once. -/
def backboneNodes (links : List BFSlinks) : List Int :=
  ((links.flatMap (fun l => [l.lctgsmp, l.rctgsmp])).filter
    (fun x => decide (backboneNode links x))).dedup

/-- The measure of the search: the sum of the remaining pass budgets of the target contigs
plus the number of interfering contigs that can still be entered (their counter is not
positive). -/
def passesLeft (env : SearchEnv) (h_mito h_chloro : Int → Option Int) : Nat :=
  (env.mt_contigs.map (fun c => ((h_mito c).getD 0).toNat)).sum +
  (env.pt_contigs.map (fun c =>
    if (h_chloro c).isSome = true ∧ (h_chloro c).getD 0 ≤ 0 then 1 else 0)).sum

/-- The budget tables fit the search environment: the keys of `h_mito` are target contigs
and the keys of `h_chloro` interfering contigs of the environment, no budget and no counter
is negative, and every contig with an entry in `h_links` has a budget or a counter (as
`findMpath` builds the tables: the keys of `h_links` are its candidate contigs). -/
structure Budgeted (env : SearchEnv) (h_mito h_chloro : Int → Option Int) : Prop where
  mito_keys : ∀ x, (h_mito x).isSome = true → x ∈ env.mt_contigs
  chloro_keys : ∀ x, (h_chloro x).isSome = true → x ∈ env.pt_contigs
  mito_nonneg : ∀ x v, h_mito x = some v → 0 ≤ v
  chloro_nonneg : ∀ x v, h_chloro x = some v → 0 ≤ v
  linked : ∀ x, (env.h_links x).isSome = true →
    (h_mito x).isSome = true ∨ (h_chloro x).isSome = true

/-! ## Properties -/

/-! ### Lemmas on the ranking -/

theorem findint_eq_one_iff (l : List Int) (t : Int) : findint l t = 1 ↔ t ∈ l := by
  induction l with
  | nil => simp [findint]
  | cons a rest ih =>
    by_cases h : a = t
    · simp [findint, h]
    · have h2 : ¬ t = a := fun e => h e.symm
      simp [findint, h, h2, ih]

theorem findint_eq_zero_iff (l : List Int) (t : Int) : findint l t = 0 ↔ t ∉ l := by
  induction l with
  | nil => simp [findint]
  | cons a rest ih =>
    by_cases h : a = t
    · simp [findint, h]
    · have h2 : ¬ t = a := fun e => h e.symm
      simp [findint, h, h2, ih]

theorem firstDiffering_moreWins (c r : Int) (rest : List Verdict) :
    firstDiffering (moreWins c r :: rest) = .better ↔
      c > r ∨ (c = r ∧ firstDiffering rest = .better) := by
  unfold moreWins
  rcases lt_trichotomy c r with h | h | h
  · have h1 : ¬ c > r := by omega
    have h2 : ¬ c = r := by omega
    simp [firstDiffering, h, h1, h2]
  · subst h; simp [firstDiffering]
  · have h1 : ¬ c < r := by omega
    simp [firstDiffering, h, h1]

theorem firstDiffering_lessWins (c r : Int) (rest : List Verdict) :
    firstDiffering (lessWins c r :: rest) = .better ↔
      c < r ∨ (c = r ∧ firstDiffering rest = .better) := by
  unfold lessWins
  rcases lt_trichotomy c r with h | h | h
  · simp [firstDiffering, h]
  · subst h; simp [firstDiffering]
  · have h1 : ¬ c < r := by omega
    have h2 : ¬ c = r := by omega
    simp [firstDiffering, h, h1, h2]

theorem lexBetter_iff (c r : Score) :
    lexBetter c r ↔
      c.uniq_mtlen > r.uniq_mtlen ∨ (c.uniq_mtlen = r.uniq_mtlen ∧
      (c.uniq_mtnum > r.uniq_mtnum ∨ (c.uniq_mtnum = r.uniq_mtnum ∧
      (c.type < r.type ∨ (c.type = r.type ∧
      (c.mt_num > r.mt_num ∨ (c.mt_num = r.mt_num ∧
      (c.path_len < r.path_len ∨ (c.path_len = r.path_len ∧
      (c.uniq_ptnum < r.uniq_ptnum ∨ (c.uniq_ptnum = r.uniq_ptnum ∧
      c.pt_num < r.pt_num))))))))))) := by
  unfold lexBetter sevenCriteria
  simp only [firstDiffering_moreWins, firstDiffering_lessWins]
  simp [firstDiffering]

theorem update_flag_full_iff (taxo_index : Nat) (h : taxo_index ≠ 1) (c r : Score) :
    update_flag taxo_index c r = true ↔ lexBetter c r := by
  rw [lexBetter_iff]
  obtain ⟨c1, c2, c3, c4, c5, c6, c7⟩ := c
  obtain ⟨r1, r2, r3, r4, r5, r6, r7⟩ := r
  simp only [update_flag, if_neg h]
  rcases lt_trichotomy c1 r1 with h1 | h1 | h1
  · simp [h1, not_lt_of_gt h1, ne_of_lt h1]
  swap
  · simp [h1]
  subst h1
  rcases lt_trichotomy c2 r2 with h2 | h2 | h2
  · simp [h2, not_lt_of_gt h2, ne_of_lt h2]
  swap
  · simp [h2]
  subst h2
  rcases lt_trichotomy c3 r3 with h3 | h3 | h3
  · simp [h3]
  swap
  · simp [h3, not_lt_of_gt h3, ne_of_gt h3]
  subst h3
  rcases lt_trichotomy c4 r4 with h4 | h4 | h4
  · simp [h4, not_lt_of_gt h4, ne_of_lt h4]
  swap
  · simp [h4]
  subst h4
  rcases lt_trichotomy c5 r5 with h5 | h5 | h5
  · simp [h5]
  swap
  · simp [h5, not_lt_of_gt h5, ne_of_gt h5]
  subst h5
  rcases lt_trichotomy c6 r6 with h6 | h6 | h6
  · simp [h6]
  swap
  · simp [h6, not_lt_of_gt h6, ne_of_gt h6]
  subst h6
  simp

theorem lexBetter_iff_rankKey (c r : Score) : lexBetter c r ↔ rankKey r < rankKey c := by
  rw [lexBetter_iff]
  simp only [rankKey, Prod.Lex.lt_iff, ofLex_toLex, neg_lt_neg_iff, neg_inj]
  constructor <;> intro h <;> omega

theorem tieAll_iff_eq (c r : Score) : tieAll c r ↔ c = r := by
  obtain ⟨c1, c2, c3, c4, c5, c6, c7⟩ := c
  obtain ⟨r1, r2, r3, r4, r5, r6, r7⟩ := r
  simp only [tieAll, sevenCriteria, moreWins, lessWins, List.mem_cons, List.mem_singleton,
    forall_eq_or_imp, forall_eq, Score.mk.injEq, List.not_mem_nil, false_imp_iff, implies_true,
    and_true]
  constructor
  · intro h
    obtain ⟨h1, h2, h3, h4, h5, h6, h7⟩ := h
    refine ⟨?_, ?_, ?_, ?_, ?_, ?_, ?_⟩
    all_goals (by_contra hne; rcases lt_or_gt_of_ne hne with hl | hl <;> simp_all [not_lt_of_gt])
  · rintro ⟨rfl, rfl, rfl, rfl, rfl, rfl, rfl⟩
    simp

theorem path_up_fst_of_flag (taxo_index : Nat) (ps : pathScore) (p : nodePath)
    (ctg_depth : Int → CtgDepth) (mt pt : List Int)
    (h : update_flag taxo_index (candidateScore ctg_depth mt pt p) ps.score = true) :
    HoldsCandidate (path_up taxo_index ps p ctg_depth mt pt).1 (candidateScore ctg_depth mt pt p) p
      ∧ (path_up taxo_index ps p ctg_depth mt pt).1.inval_num = 0 := by
  have h2 : update_flag taxo_index (candidateScore ctg_depth mt pt p)
      (pathScore.score { ps with inval_num := (ps.inval_num + 1) % 2 ^ 32 }) = true := h
  simp only [path_up, h2, if_true]
  refine ⟨⟨rfl, rfl, ?_⟩, rfl⟩
  intro i hi
  simp [storeCandidate, copyPrefix, hi]

theorem path_up_fst_of_not_flag (taxo_index : Nat) (ps : pathScore) (p : nodePath)
    (ctg_depth : Int → CtgDepth) (mt pt : List Int)
    (h : update_flag taxo_index (candidateScore ctg_depth mt pt p) ps.score = false) :
    SameBest (path_up taxo_index ps p ctg_depth mt pt).1 ps
      ∧ (path_up taxo_index ps p ctg_depth mt pt).1.inval_num = (ps.inval_num + 1) % 2 ^ 32 := by
  have h2 : update_flag taxo_index (candidateScore ctg_depth mt pt p)
      (pathScore.score { ps with inval_num := (ps.inval_num + 1) % 2 ^ 32 }) = false := h
  simp only [path_up, h2]
  exact ⟨⟨rfl, rfl, rfl, rfl⟩, rfl⟩

/-! ### C1 - C3: the tie-break ranking -/

/-- C1: under a policy with `taxo_index ≠ 1`, `path_up` replaces the best record exactly when
the candidate is strictly better in the lexicographic order of the seven criteria (first
differing criterion deciding); when it is better the record holds the candidate's score and
path and the stall counter is 0, when it is not (in particular when all seven tie) the
record's score fields, node count and stored path are unchanged. -/
theorem path_up_replaces_iff_lex_better (taxo_index : Nat) (htaxo : taxo_index ≠ 1)
    (path_score : pathScore) (current_path : nodePath) (ctg_depth : Int → CtgDepth)
    (mt_ctgarr pt_ctgarr : List Int) :
    (update_flag taxo_index (candidateScore ctg_depth mt_ctgarr pt_ctgarr current_path)
        path_score.score = true ↔
      lexBetter (candidateScore ctg_depth mt_ctgarr pt_ctgarr current_path) path_score.score) ∧
    (lexBetter (candidateScore ctg_depth mt_ctgarr pt_ctgarr current_path) path_score.score →
      HoldsCandidate (path_up taxo_index path_score current_path ctg_depth mt_ctgarr pt_ctgarr).1
        (candidateScore ctg_depth mt_ctgarr pt_ctgarr current_path) current_path ∧
      (path_up taxo_index path_score current_path ctg_depth mt_ctgarr pt_ctgarr).1.inval_num = 0) ∧
    (¬ lexBetter (candidateScore ctg_depth mt_ctgarr pt_ctgarr current_path) path_score.score →
      SameBest (path_up taxo_index path_score current_path ctg_depth mt_ctgarr pt_ctgarr).1
        path_score) ∧
    (tieAll (candidateScore ctg_depth mt_ctgarr pt_ctgarr current_path) path_score.score →
      SameBest (path_up taxo_index path_score current_path ctg_depth mt_ctgarr pt_ctgarr).1
        path_score) := by
  have key := update_flag_full_iff taxo_index htaxo
    (candidateScore ctg_depth mt_ctgarr pt_ctgarr current_path) path_score.score
  have hnot : ¬ lexBetter (candidateScore ctg_depth mt_ctgarr pt_ctgarr current_path)
      path_score.score →
      SameBest (path_up taxo_index path_score current_path ctg_depth mt_ctgarr pt_ctgarr).1
        path_score := by
    intro hb
    have hf : update_flag taxo_index (candidateScore ctg_depth mt_ctgarr pt_ctgarr current_path)
        path_score.score = false := by
      rw [← Bool.not_eq_true]; exact fun ht => hb (key.mp ht)
    exact (path_up_fst_of_not_flag taxo_index path_score current_path ctg_depth mt_ctgarr
      pt_ctgarr hf).1
  refine ⟨key, ?_, hnot, ?_⟩
  · intro hb
    exact path_up_fst_of_flag taxo_index path_score current_path ctg_depth mt_ctgarr pt_ctgarr
      (key.mpr hb)
  · intro ht
    apply hnot
    rw [(tieAll_iff_eq _ _).mp ht, lexBetter_iff_rankKey]
    exact lt_irrefl _

/-- Witness of C1 at `taxo_index = 0`, the empty record for one interfering contig and the
path 1 → 2 → 3. -/
theorem path_up_replaces_iff_lex_better_witness :
    (0 : Nat) ≠ 1 ∧
    ((update_flag 0 (candidateScore exTable [1, 2, 3] [4] exPath) (initScore 1).score = true ↔
      lexBetter (candidateScore exTable [1, 2, 3] [4] exPath) (initScore 1).score) ∧
    (lexBetter (candidateScore exTable [1, 2, 3] [4] exPath) (initScore 1).score →
      HoldsCandidate (path_up 0 (initScore 1) exPath exTable [1, 2, 3] [4]).1
        (candidateScore exTable [1, 2, 3] [4] exPath) exPath ∧
      (path_up 0 (initScore 1) exPath exTable [1, 2, 3] [4]).1.inval_num = 0) ∧
    (¬ lexBetter (candidateScore exTable [1, 2, 3] [4] exPath) (initScore 1).score →
      SameBest (path_up 0 (initScore 1) exPath exTable [1, 2, 3] [4]).1 (initScore 1)) ∧
    (tieAll (candidateScore exTable [1, 2, 3] [4] exPath) (initScore 1).score →
      SameBest (path_up 0 (initScore 1) exPath exTable [1, 2, 3] [4]).1 (initScore 1))) :=
  ⟨by decide, path_up_replaces_iff_lex_better 0 (by decide) (initScore 1) exPath exTable
    [1, 2, 3] [4]⟩

theorem exPath_score :
    candidateScore exTable [1, 2, 3] [4] exPath =
      { uniq_mtlen := 4500, uniq_mtnum := 3, type := 1, mt_num := 3, path_len := 4500,
        uniq_ptnum := 0, pt_num := 0 } := by
  decide

theorem exPathOnePass_score :
    candidateScore exTable [2] [4] exPathOnePass =
      { uniq_mtlen := 2000, uniq_mtnum := 1, type := 1, mt_num := 1, path_len := 2000,
        uniq_ptnum := 1, pt_num := 1 } := by
  decide

/-- C2, as stated, fails at `taxo_index = 1`: the candidate 2 → 4 ties the record 2 → 4 → 4 on
criteria (1)-(5) (and on (6)) and has fewer total interfering traversals (1 against 2), yet
`path_up` does not replace the record. -/
theorem path_up_taxo1_keeps_record_with_more_interfering :
    (candidateScore exTable [2] [4] exPathOnePass).uniq_mtlen = exRecordTwoPasses.score.uniq_mtlen ∧
    (candidateScore exTable [2] [4] exPathOnePass).uniq_mtnum = exRecordTwoPasses.score.uniq_mtnum ∧
    (candidateScore exTable [2] [4] exPathOnePass).type = exRecordTwoPasses.score.type ∧
    (candidateScore exTable [2] [4] exPathOnePass).mt_num = exRecordTwoPasses.score.mt_num ∧
    (candidateScore exTable [2] [4] exPathOnePass).path_len = exRecordTwoPasses.score.path_len ∧
    (candidateScore exTable [2] [4] exPathOnePass).uniq_ptnum = exRecordTwoPasses.score.uniq_ptnum ∧
    (candidateScore exTable [2] [4] exPathOnePass).pt_num < exRecordTwoPasses.score.pt_num ∧
    update_flag 1 (candidateScore exTable [2] [4] exPathOnePass) exRecordTwoPasses.score = false ∧
    (path_up 1 exRecordTwoPasses exPathOnePass exTable [2] [4]).1.pt_nodenum = 2 ∧
    (path_up 1 exRecordTwoPasses exPathOnePass exTable [2] [4]).1.node_num = 3 ∧
    (path_up 0 exRecordTwoPasses exPathOnePass exTable [2] [4]).1.pt_nodenum = 1 ∧
    (path_up 0 exRecordTwoPasses exPathOnePass exTable [2] [4]).1.node_num = 2 := by
  decide

/-- C2 (amended): criteria (6) and (7) are gated together. For a candidate that ties the
record on criteria (1)-(5): when `taxo_index ≠ 1`, a tie on (6) with fewer total interfering
traversals makes `path_up` replace the record; when `taxo_index = 1` the record is never
replaced, whatever the interfering counts are. -/
theorem path_up_interfering_criteria_gated (taxo_index : Nat)
    (path_score : pathScore) (current_path : nodePath) (ctg_depth : Int → CtgDepth)
    (mt_ctgarr pt_ctgarr : List Int)
    (h1 : (candidateScore ctg_depth mt_ctgarr pt_ctgarr current_path).uniq_mtlen
      = path_score.uniq_mt_pathlen)
    (h2 : (candidateScore ctg_depth mt_ctgarr pt_ctgarr current_path).uniq_mtnum
      = path_score.uniq_mt_nodenum)
    (h3 : (candidateScore ctg_depth mt_ctgarr pt_ctgarr current_path).type = path_score.type)
    (h4 : (candidateScore ctg_depth mt_ctgarr pt_ctgarr current_path).mt_num
      = path_score.mt_nodenum)
    (h5 : (candidateScore ctg_depth mt_ctgarr pt_ctgarr current_path).path_len
      = path_score.path_len) :
    (taxo_index ≠ 1 →
      (candidateScore ctg_depth mt_ctgarr pt_ctgarr current_path).uniq_ptnum
        = path_score.uniq_pt_nodenum →
      (candidateScore ctg_depth mt_ctgarr pt_ctgarr current_path).pt_num < path_score.pt_nodenum →
      HoldsCandidate (path_up taxo_index path_score current_path ctg_depth mt_ctgarr pt_ctgarr).1
        (candidateScore ctg_depth mt_ctgarr pt_ctgarr current_path) current_path) ∧
    (taxo_index = 1 →
      SameBest (path_up taxo_index path_score current_path ctg_depth mt_ctgarr pt_ctgarr).1
        path_score) := by
  constructor
  · intro ht h6 h7
    refine (path_up_fst_of_flag taxo_index path_score current_path ctg_depth mt_ctgarr
      pt_ctgarr ?_).1
    rw [update_flag_full_iff taxo_index ht, lexBetter_iff]
    simp only [pathScore.score]
    omega
  · intro ht
    refine (path_up_fst_of_not_flag taxo_index path_score current_path ctg_depth mt_ctgarr
      pt_ctgarr ?_).1
    simp only [update_flag, ht, if_true, pathScore.score, h1, h2, h3, h4, h5, gt_iff_lt,
      lt_irrefl, and_false, and_true, if_false, true_and]

/-- Witness of the amended C2 on the record 2 → 4 → 4 and the candidate 2 → 4, at
`taxo_index = 0`. -/
theorem path_up_interfering_criteria_gated_witness :
    ((0 : Nat) ≠ 1 →
      (candidateScore exTable [2] [4] exPathOnePass).uniq_ptnum
        = exRecordTwoPasses.uniq_pt_nodenum →
      (candidateScore exTable [2] [4] exPathOnePass).pt_num < exRecordTwoPasses.pt_nodenum →
      HoldsCandidate (path_up 0 exRecordTwoPasses exPathOnePass exTable [2] [4]).1
        (candidateScore exTable [2] [4] exPathOnePass) exPathOnePass) ∧
    ((0 : Nat) = 1 →
      SameBest (path_up 0 exRecordTwoPasses exPathOnePass exTable [2] [4]).1
        exRecordTwoPasses) :=
  path_up_interfering_criteria_gated 0 exRecordTwoPasses exPathOnePass exTable [2] [4]
    (by decide) (by decide) (by decide) (by decide) (by decide)

/-- C3: for every policy with `taxo_index ≠ 1`, the relation "candidate preferred over
record" that `path_up` computes on score tuples is irreflexive and transitive, prefers
neither of two tuples that tie on all seven criteria, and prefers exactly one of two
tuples that do not. -/
theorem prefers_strict_total_preorder (taxo_index : Nat) (htaxo : taxo_index ≠ 1) :
    (∀ a, ¬ prefers taxo_index a a) ∧
    (∀ a b c, prefers taxo_index a b → prefers taxo_index b c → prefers taxo_index a c) ∧
    (∀ a b, tieAll a b → ¬ prefers taxo_index a b ∧ ¬ prefers taxo_index b a) ∧
    (∀ a b, ¬ tieAll a b →
      (prefers taxo_index a b ∧ ¬ prefers taxo_index b a) ∨
      (prefers taxo_index b a ∧ ¬ prefers taxo_index a b)) := by
  have hk : ∀ a b, prefers taxo_index a b ↔ rankKey b < rankKey a := fun a b => by
    unfold prefers
    rw [update_flag_full_iff taxo_index htaxo, lexBetter_iff_rankKey]
  have hinj : ∀ a b : Score, rankKey a = rankKey b → a = b := by
    intro a b h
    obtain ⟨a1, a2, a3, a4, a5, a6, a7⟩ := a
    obtain ⟨b1, b2, b3, b4, b5, b6, b7⟩ := b
    simp only [rankKey, EmbeddingLike.apply_eq_iff_eq, Prod.mk.injEq, neg_inj] at h
    obtain ⟨h1, h2, h3, h4, h5, h6, h7⟩ := h
    subst h1 h2 h3 h4 h5 h6 h7
    rfl
  refine ⟨?_, ?_, ?_, ?_⟩
  · intro a
    rw [hk]
    exact lt_irrefl _
  · intro a b c hab hbc
    rw [hk] at hab hbc ⊢
    exact lt_trans hbc hab
  · intro a b ht
    rw [(tieAll_iff_eq a b).mp ht, hk]
    exact ⟨lt_irrefl _, lt_irrefl _⟩
  · intro a b ht
    have hne : rankKey a ≠ rankKey b := fun h => ht ((tieAll_iff_eq a b).mpr (hinj a b h))
    rw [hk, hk]
    rcases lt_or_gt_of_ne hne with h | h
    · exact Or.inr ⟨h, not_lt_of_gt h⟩
    · exact Or.inl ⟨h, not_lt_of_gt h⟩

/-- Witness of C3 at `taxo_index = 0`. -/
theorem prefers_strict_total_preorder_witness :
    (0 : Nat) ≠ 1 ∧
    ((∀ a, ¬ prefers 0 a a) ∧
    (∀ a b c, prefers 0 a b → prefers 0 b c → prefers 0 a c) ∧
    (∀ a b, tieAll a b → ¬ prefers 0 a b ∧ ¬ prefers 0 b a) ∧
    (∀ a b, ¬ tieAll a b →
      (prefers 0 a b ∧ ¬ prefers 0 b a) ∨ (prefers 0 b a ∧ ¬ prefers 0 a b))) :=
  ⟨by decide, prefers_strict_total_preorder 0 (by decide)⟩

/-! ### Lemmas on `BFSmain` -/

theorem BFSmainStep_cases (ctgdepth : Int → CtgDepth) (filter_depth : ℚ) (s : List Int)
    (l : Ctglinks) :
    BFSmainStep ctgdepth filter_depth s l = s ∨
    (expandQualifies ctgdepth filter_depth l ∧ l.lctg ∈ s ∧ l.rctg ∉ s ∧
      BFSmainStep ctgdepth filter_depth s l = s ++ [l.rctg]) ∨
    (expandQualifies ctgdepth filter_depth l ∧ l.rctg ∈ s ∧ l.lctg ∉ s ∧
      BFSmainStep ctgdepth filter_depth s l = s ++ [l.lctg]) := by
  unfold BFSmainStep
  by_cases hq : expandQualifies ctgdepth filter_depth l
  · by_cases h1 : findint s l.lctg = 1 ∧ findint s l.rctg = 0
    · right; left
      exact ⟨hq, (findint_eq_one_iff _ _).mp h1.1, (findint_eq_zero_iff _ _).mp h1.2,
        by simp [hq, h1]⟩
    · by_cases h2 : findint s l.rctg = 1 ∧ findint s l.lctg = 0
      · right; right
        exact ⟨hq, (findint_eq_one_iff _ _).mp h2.1, (findint_eq_zero_iff _ _).mp h2.2,
          by simp [hq, h1, h2]⟩
      · left; simp [hq, h1, h2]
  · left; simp [hq]

theorem BFSmainStep_fixed_iff (ctgdepth : Int → CtgDepth) (filter_depth : ℚ) (s : List Int)
    (l : Ctglinks) (hq : expandQualifies ctgdepth filter_depth l) :
    BFSmainStep ctgdepth filter_depth s l = s ↔ (l.lctg ∈ s ↔ l.rctg ∈ s) := by
  unfold BFSmainStep
  simp only [hq, if_true, findint_eq_one_iff, findint_eq_zero_iff]
  by_cases h1 : l.lctg ∈ s <;> by_cases h2 : l.rctg ∈ s <;> simp [h1, h2]

theorem BFSmainStep_appends (ctgdepth : Int → CtgDepth) (filter_depth : ℚ) (s : List Int)
    (l : Ctglinks) :
    ∃ added, BFSmainStep ctgdepth filter_depth s l = s ++ added ∧ added.Nodup ∧
      ∀ x ∈ added, x ∉ s := by
  rcases BFSmainStep_cases ctgdepth filter_depth s l with h | ⟨_, _, h2, h⟩ | ⟨_, _, h2, h⟩
  · exact ⟨[], by simp [h], List.nodup_nil, by simp⟩
  · exact ⟨[l.rctg], h, List.nodup_singleton _, by simpa using h2⟩
  · exact ⟨[l.lctg], h, List.nodup_singleton _, by simpa using h2⟩

theorem foldl_BFSmainStep_appends (ctgdepth : Int → CtgDepth) (filter_depth : ℚ)
    (ls : List Ctglinks) :
    ∀ s : List Int, ∃ added, ls.foldl (BFSmainStep ctgdepth filter_depth) s = s ++ added ∧
      added.Nodup ∧ ∀ x ∈ added, x ∉ s := by
  induction ls with
  | nil => intro s; exact ⟨[], by simp, List.nodup_nil, by simp⟩
  | cons l ls ih =>
    intro s
    obtain ⟨a1, h1, hn1, hd1⟩ := BFSmainStep_appends ctgdepth filter_depth s l
    obtain ⟨a2, h2, hn2, hd2⟩ := ih (BFSmainStep ctgdepth filter_depth s l)
    refine ⟨a1 ++ a2, ?_, ?_, ?_⟩
    · rw [List.foldl_cons, h2, h1, List.append_assoc]
    · rw [List.nodup_append]
      refine ⟨hn1, hn2, ?_⟩
      intro x hx1 hx2
      exact hd2 x hx2 (by rw [h1]; exact List.mem_append_right _ hx1)
    · intro x hx
      rcases List.mem_append.mp hx with hx | hx
      · exact hd1 x hx
      · intro hs
        exact hd2 x hx (by rw [h1]; exact List.mem_append_left _ hs)

theorem foldl_BFSmainStep_fixed (ctgdepth : Int → CtgDepth) (filter_depth : ℚ)
    (ls : List Ctglinks) :
    ∀ s : List Int, (ls.foldl (BFSmainStep ctgdepth filter_depth) s).length = s.length →
      ls.foldl (BFSmainStep ctgdepth filter_depth) s = s ∧
      ∀ l ∈ ls, BFSmainStep ctgdepth filter_depth s l = s := by
  induction ls with
  | nil => intro s _; simp
  | cons l ls ih =>
    intro s hlen
    obtain ⟨a1, h1, _, _⟩ := BFSmainStep_appends ctgdepth filter_depth s l
    obtain ⟨a2, h2, _, _⟩ := foldl_BFSmainStep_appends ctgdepth filter_depth ls
      (BFSmainStep ctgdepth filter_depth s l)
    rw [List.foldl_cons] at hlen ⊢
    have hl := hlen
    rw [h2, h1] at hl
    simp only [List.length_append] at hl
    have ha1 : a1 = [] := List.length_eq_zero.mp (by omega)
    have hstep : BFSmainStep ctgdepth filter_depth s l = s := by rw [h1, ha1]; simp
    rw [hstep] at hlen ⊢
    obtain ⟨hfix, hall⟩ := ih s hlen
    refine ⟨hfix, ?_⟩
    intro l' hl'
    rcases List.mem_cons.mp hl' with rfl | hl'
    · exact hstep
    · exact hall l' hl'

theorem foldl_BFSmainStep_of_fixed (ctgdepth : Int → CtgDepth) (filter_depth : ℚ)
    (ls : List Ctglinks) (s : List Int)
    (h : ∀ l ∈ ls, BFSmainStep ctgdepth filter_depth s l = s) :
    ls.foldl (BFSmainStep ctgdepth filter_depth) s = s := by
  induction ls with
  | nil => rfl
  | cons l ls ih =>
    rw [List.foldl_cons, h l (List.mem_cons_self _ _)]
    exact ih (fun l' hl' => h l' (List.mem_cons_of_mem _ hl'))

theorem foldl_BFSmainStep_reach (ctglinks : List Ctglinks) (ctgdepth : Int → CtgDepth)
    (filter_depth : ℚ) (s0 : List Int) (ls : List Ctglinks) (hls : ∀ l ∈ ls, l ∈ ctglinks) :
    ∀ s : List Int, (∀ x ∈ s, Reach ctglinks ctgdepth filter_depth s0 x) →
      ∀ x ∈ ls.foldl (BFSmainStep ctgdepth filter_depth) s,
        Reach ctglinks ctgdepth filter_depth s0 x := by
  induction ls with
  | nil => intro s hs; simpa using hs
  | cons l ls ih =>
    intro s hs
    rw [List.foldl_cons]
    apply ih (fun l' hl' => hls l' (List.mem_cons_of_mem _ hl'))
    have hl := hls l (List.mem_cons_self _ _)
    rcases BFSmainStep_cases ctgdepth filter_depth s l with h | ⟨hq, hin, _, h⟩ | ⟨hq, hin, _, h⟩
    · rw [h]; exact hs
    · rw [h]
      intro x hx
      rcases List.mem_append.mp hx with hx | hx
      · exact hs x hx
      · rw [List.mem_singleton.mp hx]
        exact Reach.toRight l hl hq (hs _ hin)
    · rw [h]
      intro x hx
      rcases List.mem_append.mp hx with hx | hx
      · exact hs x hx
      · rw [List.mem_singleton.mp hx]
        exact Reach.toLeft l hl hq (hs _ hin)

/-- What a normal end of the expansion loop gives, for any entry round counter. -/
theorem BFSseedsLoop_converged (ctglinks : List Ctglinks) (ctgdepth : Int → CtgDepth)
    (filter_depth : ℚ) (s0 : List Int) :
    ∀ (fuel : Nat) (tm : Int) (s final : List Int),
      (∀ x ∈ s, Reach ctglinks ctgdepth filter_depth s0 x) → (∀ x ∈ s0, x ∈ s) →
      BFSseedsLoop ctglinks ctgdepth filter_depth fuel tm s = .converged final →
      (∀ x ∈ final, Reach ctglinks ctgdepth filter_depth s0 x) ∧ (∀ x ∈ s0, x ∈ final) ∧
      BFSmain ctglinks ctgdepth final filter_depth = final := by
  intro fuel
  induction fuel with
  | zero => intro tm s final _ _ h; simp [BFSseedsLoop] at h
  | succ fuel ih =>
    intro tm s final hreach hsub h
    simp only [BFSseedsLoop] at h
    split_ifs at h with h1 h2
    · have hfin : BFSmain ctglinks ctgdepth s filter_depth = final := by
        simpa using h
      obtain ⟨hfix, _⟩ := foldl_BFSmainStep_fixed ctgdepth filter_depth ctglinks s h2.symm
      have hs : s = final := by rw [← hfin]; exact hfix.symm
      subst hs
      exact ⟨hreach, hsub, hfix⟩
    · refine ih (tm + 1) _ final ?_ ?_ h
      · exact foldl_BFSmainStep_reach ctglinks ctgdepth filter_depth s0 ctglinks
          (fun _ hl => hl) s hreach
      · intro x hx
        obtain ⟨added, ha, _, _⟩ := foldl_BFSmainStep_appends ctgdepth filter_depth ctglinks s
        unfold BFSmain
        rw [ha]
        exact List.mem_append_left _ (hsub x hx)

/-! ### C6 - C8: the expansion loop -/

/-- C6: when the expansion loop of `BFSseeds` ends normally with seed list `final`, a contig
is in `final` exactly when it is reachable from the initial seeds along links that pass the
expansion filter; no such link has exactly one endpoint in `final`; and one more round of
`BFSmain` leaves `final` unchanged. -/
theorem BFSseeds_converged_is_reachable_fixpoint (ctglinks : List Ctglinks)
    (ctgdepth : Int → CtgDepth) (dynseeds : List Int) (filter_depth : ℚ) (final : List Int)
    (h : BFSseedsGrow ctglinks ctgdepth dynseeds filter_depth = .converged final) :
    (∀ x, x ∈ final ↔ Reach ctglinks ctgdepth filter_depth dynseeds x) ∧
    (∀ l ∈ ctglinks, expandQualifies ctgdepth filter_depth l →
      (l.lctg ∈ final ↔ l.rctg ∈ final)) ∧
    BFSmain ctglinks ctgdepth final filter_depth = final := by
  obtain ⟨hreach, hsub, hfix⟩ := BFSseedsLoop_converged ctglinks ctgdepth filter_depth dynseeds
    100 1 dynseeds final (fun x hx => Reach.seed x hx) (fun _ hx => hx) h
  have hlinks : ∀ l ∈ ctglinks, expandQualifies ctgdepth filter_depth l →
      (l.lctg ∈ final ↔ l.rctg ∈ final) := by
    intro l hl hq
    have hall := (foldl_BFSmainStep_fixed ctgdepth filter_depth ctglinks final
      (by rw [show ctglinks.foldl (BFSmainStep ctgdepth filter_depth) final = final from hfix])).2
    exact (BFSmainStep_fixed_iff ctgdepth filter_depth final l hq).mp (hall l hl)
  refine ⟨fun x => ⟨hreach x, ?_⟩, hlinks, hfix⟩
  intro hx
  induction hx with
  | seed x hx => exact hsub x hx
  | toRight l hl hq _ ih => exact (hlinks l hl hq).mp ih
  | toLeft l hl hq _ ih => exact (hlinks l hl hq).mpr ih

/-- Witness of C6 on the chain 1 - 2 - 3 - 4 grown from seed 1. -/
theorem BFSseeds_converged_is_reachable_fixpoint_witness :
    (∀ x, x ∈ [1, 2, 3, 4] ↔ Reach (chainLinks 3) flatTable 2 [1] x) ∧
    (∀ l ∈ chainLinks 3, expandQualifies flatTable 2 l →
      (l.lctg ∈ [1, 2, 3, 4] ↔ l.rctg ∈ [1, 2, 3, 4])) ∧
    BFSmain (chainLinks 3) flatTable [1, 2, 3, 4] 2 = [1, 2, 3, 4] :=
  BFSseeds_converged_is_reachable_fixpoint (chainLinks 3) flatTable [1] 2 [1, 2, 3, 4]
    (by decide!)

/-- C7: a round of `BFSmain` only appends: the seed list before the round is a prefix of the
list after it (so every seed stays), and the appended ids are pairwise different and none
of them was in the list before. -/
theorem BFSmain_appends_new_seeds (ctglinks : List Ctglinks) (ctgdepth : Int → CtgDepth)
    (dynseeds : List Int) (filter_depth : ℚ) :
    dynseeds <+: BFSmain ctglinks ctgdepth dynseeds filter_depth ∧
    (∀ x ∈ dynseeds, x ∈ BFSmain ctglinks ctgdepth dynseeds filter_depth) ∧
    ∃ added, BFSmain ctglinks ctgdepth dynseeds filter_depth = dynseeds ++ added ∧
      added.Nodup ∧ ∀ x ∈ added, x ∉ dynseeds := by
  obtain ⟨added, ha, hn, hd⟩ := foldl_BFSmainStep_appends ctgdepth filter_depth ctglinks dynseeds
  have ha2 : BFSmain ctglinks ctgdepth dynseeds filter_depth = dynseeds ++ added := ha
  refine ⟨?_, ?_, added, ha2, hn, hd⟩
  · rw [ha2]; exact List.prefix_append _ _
  · intro x hx; rw [ha2]; exact List.mem_append_left _ hx

/-! #### The round cap -/

/-- The expansion loop aborts exactly when each of the first `100 - tm` rounds it runs adds a
seed; what the last round it can run does plays no part. -/
theorem BFSseedsLoop_aborted_iff (ctglinks : List Ctglinks) (ctgdepth : Int → CtgDepth)
    (filter_depth : ℚ) :
    ∀ (d : Nat) (tm : Int) (s : List Int), tm + d = 100 →
      (BFSseedsLoop ctglinks ctgdepth filter_depth (d + 1) tm s = .aborted ↔
        ∀ k, k < d → (seedsAfter ctglinks ctgdepth filter_depth s (k + 1)).length ≠
          (seedsAfter ctglinks ctgdepth filter_depth s k).length) := by
  have hshift : ∀ (s : List Int) (k : Nat),
      seedsAfter ctglinks ctgdepth filter_depth (BFSmain ctglinks ctgdepth s filter_depth) k =
        seedsAfter ctglinks ctgdepth filter_depth s (k + 1) := by
    intro s k
    induction k with
    | zero => rfl
    | succ k ih => simp only [seedsAfter, ih]
  intro d
  induction d with
  | zero =>
    intro tm s htm
    have h1 : tm + 1 > 100 := by omega
    simp [BFSseedsLoop, h1]
  | succ d ih =>
    intro tm s htm
    have h1 : ¬ tm + 1 > 100 := by push_cast at htm; omega
    rw [BFSseedsLoop]
    simp only [h1, if_false]
    by_cases h2 : s.length = (BFSmain ctglinks ctgdepth s filter_depth).length
    · simp only [h2, if_true]
      constructor
      · intro h; exact absurd h (by simp)
      · intro h
        exact absurd h2.symm (h 0 (Nat.succ_pos d))
    · simp only [h2, if_false]
      rw [ih (tm + 1) _ (by push_cast at htm ⊢; omega)]
      constructor
      · intro h k hk
        cases k with
        | zero => exact fun e => h2 e.symm
        | succ k =>
          have := h k (by omega)
          rwa [hshift, hshift] at this
      · intro h k hk
        have := h (k + 1) (by omega)
        rwa [hshift, hshift]

/-- The expansion loop entered with `tm = 1` always ends, normally or by the abort. -/
theorem BFSseedsLoop_finishes (ctglinks : List Ctglinks) (ctgdepth : Int → CtgDepth)
    (filter_depth : ℚ) :
    ∀ (d : Nat) (tm : Int) (s : List Int), tm + d = 100 →
      BFSseedsLoop ctglinks ctgdepth filter_depth (d + 1) tm s ≠ .unfinished := by
  intro d
  induction d with
  | zero =>
    intro tm s htm
    have h1 : tm + 1 > 100 := by omega
    simp [BFSseedsLoop, h1]
  | succ d ih =>
    intro tm s htm
    have h1 : ¬ tm + 1 > 100 := by push_cast at htm; omega
    rw [BFSseedsLoop]
    simp only [h1, if_false]
    by_cases h2 : s.length = (BFSmain ctglinks ctgdepth s filter_depth).length
    · simp [h2]
    · simp only [h2, if_false]
      exact ih (tm + 1) _ (by push_cast at htm ⊢; omega)

theorem BFSseedsGrow_finishes (ctglinks : List Ctglinks) (ctgdepth : Int → CtgDepth)
    (dynseeds : List Int) (filter_depth : ℚ) :
    BFSseedsGrow ctglinks ctgdepth dynseeds filter_depth ≠ .unfinished :=
  BFSseedsLoop_finishes ctglinks ctgdepth filter_depth 99 1 dynseeds (by norm_num)

theorem mem_seedsUpTo (k : Nat) (x : Int) : x ∈ seedsUpTo k ↔ 1 ≤ x ∧ x ≤ k := by
  unfold seedsUpTo
  simp only [List.mem_map, List.mem_range]
  constructor
  · rintro ⟨i, hi, rfl⟩; omega
  · rintro ⟨h1, h2⟩
    exact ⟨(x - 1).toNat, by omega, by omega⟩

theorem seedsUpTo_succ (k : Nat) : seedsUpTo (k + 1) = seedsUpTo k ++ [(k : Int) + 1] := by
  simp [seedsUpTo, List.range_succ]

theorem chainLinks_succ (n : Nat) :
    chainLinks (n + 1) = chainLink ((n : Int) + 1) :: chainLinks n := by
  simp [chainLinks, List.range_succ]

theorem chainLink_qualifies (a : Int) : expandQualifies flatTable 2 (chainLink a) := by
  simp only [expandQualifies, flatTable, chainLink, MIN]
  norm_num

theorem chain_step_fixed (k : Nat) (a : Int) (h : a + 1 ≤ k ∨ (k : Int) < a) (ha : 1 ≤ a) :
    BFSmainStep flatTable 2 (seedsUpTo k) (chainLink a) = seedsUpTo k := by
  rw [BFSmainStep_fixed_iff _ _ _ _ (chainLink_qualifies a)]
  simp only [mem_seedsUpTo, chainLink]
  omega

theorem chain_step_adds (k : Nat) (hk : 1 ≤ k) :
    BFSmainStep flatTable 2 (seedsUpTo k) (chainLink k) = seedsUpTo (k + 1) := by
  have h1 : findint (seedsUpTo k) (chainLink k).lctg = 1 := by
    rw [findint_eq_one_iff, mem_seedsUpTo]; simp only [chainLink]; omega
  have h2 : findint (seedsUpTo k) (chainLink k).rctg = 0 := by
    rw [findint_eq_zero_iff, mem_seedsUpTo]; simp only [chainLink]; omega
  rw [BFSmainStep, if_pos (chainLink_qualifies _), if_pos ⟨h1, h2⟩, seedsUpTo_succ]
  rfl

theorem chain_round_full (n k : Nat) (h : n + 1 ≤ k) :
    BFSmain (chainLinks n) flatTable (seedsUpTo k) 2 = seedsUpTo k := by
  apply foldl_BFSmainStep_of_fixed
  intro l hl
  simp only [chainLinks, List.mem_map, List.mem_reverse, List.mem_range] at hl
  obtain ⟨i, hi, rfl⟩ := hl
  exact chain_step_fixed k _ (Or.inl (by omega)) (by omega)

theorem chain_round_adds_one (n : Nat) :
    ∀ k : Nat, 1 ≤ k → k ≤ n →
      BFSmain (chainLinks n) flatTable (seedsUpTo k) 2 = seedsUpTo (k + 1) := by
  induction n with
  | zero => intro k h1 h2; omega
  | succ n ih =>
    intro k h1 h2
    unfold BFSmain
    rw [chainLinks_succ, List.foldl_cons]
    by_cases hk : k = n + 1
    · subst hk
      have := chain_step_adds (n + 1) (by omega)
      push_cast at this
      rw [this]
      exact chain_round_full n (n + 1 + 1) (by omega)
    · rw [chain_step_fixed k _ (Or.inr (by omega)) (by omega)]
      exact ih k h1 (by omega)

theorem seedsAfter_chain (k : Nat) (hk : k ≤ 99) :
    seedsAfter (chainLinks 99) flatTable 2 [1] k = seedsUpTo (k + 1) := by
  induction k with
  | zero => rfl
  | succ k ih =>
    rw [seedsAfter, ih (by omega)]
    exact chain_round_adds_one 99 (k + 1) (by omega) (by omega)

theorem seedsAfter_succ (ctglinks : List Ctglinks) (ctgdepth : Int → CtgDepth) (filter_depth : ℚ)
    (dynseeds : List Int) (k : Nat) :
    seedsAfter ctglinks ctgdepth filter_depth dynseeds (k + 1) =
      BFSmain ctglinks ctgdepth (seedsAfter ctglinks ctgdepth filter_depth dynseeds k)
        filter_depth := rfl

theorem BFSseeds_of_aborted (ctglinks : List Ctglinks) (ctgdepth : Int → CtgDepth)
    (dynseeds : List Int) (filter_depth : ℚ) (bfslinks : List BFSlinks)
    (h : BFSseedsGrow ctglinks ctgdepth dynseeds filter_depth = .aborted) :
    BFSseeds ctglinks ctgdepth dynseeds filter_depth bfslinks = none := by
  simp [BFSseeds, h]

theorem chain_grow_aborted : BFSseedsGrow (chainLinks 99) flatTable [1] 2 = .aborted := by
  refine (BFSseedsLoop_aborted_iff (chainLinks 99) flatTable 2 99 1 [1] (by norm_num)).mpr ?_
  intro k hk
  rw [seedsAfter_chain (k + 1) (by omega), seedsAfter_chain k (by omega)]
  simp [seedsUpTo]

/-- C8 (failing input): on the chain 1 - 2 - ... - 100 with seed 1, each of the rounds 1 to 99
adds exactly one seed and round 100 adds none, so round 100 is the first round that adds no
seed; the expansion loop nevertheless aborts and `BFSseeds` produces no result. -/
theorem BFSseeds_aborts_when_round_100_converges :
    (∀ k, k < 99 → seedsAfter (chainLinks 99) flatTable 2 [1] (k + 1) =
        seedsAfter (chainLinks 99) flatTable 2 [1] k ++ [(k : Int) + 2]) ∧
    seedsAfter (chainLinks 99) flatTable 2 [1] 100 = seedsAfter (chainLinks 99) flatTable 2 [1] 99 ∧
    BFSseedsGrow (chainLinks 99) flatTable [1] 2 = .aborted ∧
    BFSseeds (chainLinks 99) flatTable [1] 2 [] = none := by
  refine ⟨?_, ?_, chain_grow_aborted, BFSseeds_of_aborted _ _ _ _ _ chain_grow_aborted⟩
  · intro k hk
    rw [seedsAfter_chain (k + 1) (by omega), seedsAfter_chain k (by omega), seedsUpTo_succ]
    congr 2
  · rw [seedsAfter_succ (chainLinks 99) flatTable 2 [1] 99, seedsAfter_chain 99 (by omega)]
    exact chain_round_full 99 100 (by omega)

/-! ### C9: the BFS link list -/

theorem MIN_eq_min (a b : ℚ) : MIN a b = min a b := by
  unfold MIN
  by_cases h : a < b
  · simp [h, min_eq_left (le_of_lt h)]
  · simp [h, min_eq_right (not_lt.mp h)]

theorem buildBFSlinks_eq (ctglinks : List Ctglinks) (ctgdepth : Int → CtgDepth)
    (dynseeds : List Int) :
    ∀ bfslinks : List BFSlinks,
      buildBFSlinks ctglinks ctgdepth dynseeds bfslinks =
        bfslinks ++ (ctglinks.filter (fun l => decide (bfsKeeps ctgdepth dynseeds l))).map
          (toBFSlink ctgdepth) := by
  unfold buildBFSlinks
  induction ctglinks with
  | nil => intro b; simp
  | cons l ls ih =>
    intro b
    rw [List.foldl_cons, ih]
    by_cases h : bfsKeeps ctgdepth dynseeds l
    · simp [h, List.filter_cons]
    · simp [h, List.filter_cons]

theorem bfsKeeps_iff (ctgdepth : Int → CtgDepth) (dynseeds : List Int) (l : Ctglinks) :
    bfsKeeps ctgdepth dynseeds l ↔
      (l.lctg ∈ dynseeds ∧ l.rctg ∈ dynseeds ∧
        l.linkdepth > (3 / 10 : ℚ) *
          min (ctgdepth (l.lctg - 1)).depth (ctgdepth (l.rctg - 1)).depth) := by
  unfold bfsKeeps
  rw [findint_eq_one_iff, findint_eq_one_iff, MIN_eq_min]

/-- C9: when the expansion converges with seed list `final`, the BFS link list that `BFSseeds`
builds (from an empty list, before bubble pruning) is the sub-list, in input order, of the raw
links with both endpoints in `final` and link depth strictly above 0.3 times the smaller
endpoint depth, each converted to a `BFSlinks` record; it is the list handed to the pruning
loop; and every raw link between two final seeds that passes the expansion filter, with
non-negative endpoint depths, is in it. -/
theorem BFSseeds_links_are_relaxed_sublist (ctglinks : List Ctglinks)
    (ctgdepth : Int → CtgDepth) (dynseeds : List Int) (filter_depth : ℚ) (final : List Int)
    (h : BFSseedsGrow ctglinks ctgdepth dynseeds filter_depth = .converged final) :
    buildBFSlinks ctglinks ctgdepth final [] =
      (ctglinks.filter (fun l => decide (l.lctg ∈ final ∧ l.rctg ∈ final ∧
        l.linkdepth > (3 / 10 : ℚ) *
          min (ctgdepth (l.lctg - 1)).depth (ctgdepth (l.rctg - 1)).depth))).map
        (toBFSlink ctgdepth) ∧
    BFSseeds ctglinks ctgdepth dynseeds filter_depth [] =
      bubblePrune ctgdepth final (buildBFSlinks ctglinks ctgdepth final []) ∧
    (∀ l ∈ ctglinks, expandQualifies ctgdepth filter_depth l → l.lctg ∈ final →
      l.rctg ∈ final → 0 ≤ (ctgdepth (l.lctg - 1)).depth → 0 ≤ (ctgdepth (l.rctg - 1)).depth →
      toBFSlink ctgdepth l ∈ buildBFSlinks ctglinks ctgdepth final []) := by
  have hb := buildBFSlinks_eq ctglinks ctgdepth final []
  refine ⟨?_, ?_, ?_⟩
  · rw [hb, List.nil_append]
    congr 1
    apply List.filter_congr
    intro l _
    rw [decide_eq_decide]
    exact bfsKeeps_iff ctgdepth final l
  · simp only [BFSseeds, h]
  · intro l hl hq h1 h2 hd1 hd2
    rw [hb, List.nil_append]
    apply List.mem_map_of_mem
    rw [List.mem_filter]
    refine ⟨hl, ?_⟩
    rw [decide_eq_true_iff, bfsKeeps_iff]
    refine ⟨h1, h2, ?_⟩
    have hq3 := hq.2.2
    rw [MIN_eq_min] at hq3
    have hm : 0 ≤ min (ctgdepth (l.lctg - 1)).depth (ctgdepth (l.rctg - 1)).depth :=
      le_min hd1 hd2
    have : (3 / 10 : ℚ) * min (ctgdepth (l.lctg - 1)).depth (ctgdepth (l.rctg - 1)).depth ≤
        (1 / 2 : ℚ) * min (ctgdepth (l.lctg - 1)).depth (ctgdepth (l.rctg - 1)).depth := by
      nlinarith
    exact lt_of_le_of_lt this hq3

/-- Witness of C9 on the chain 1 - 2 - 3 - 4 grown from seed 1. -/
theorem BFSseeds_links_are_relaxed_sublist_witness :
    buildBFSlinks (chainLinks 3) flatTable [1, 2, 3, 4] [] =
      ((chainLinks 3).filter (fun l => decide (l.lctg ∈ [1, 2, 3, 4] ∧ l.rctg ∈ [1, 2, 3, 4] ∧
        l.linkdepth > (3 / 10 : ℚ) *
          min (flatTable (l.lctg - 1)).depth (flatTable (l.rctg - 1)).depth))).map
        (toBFSlink flatTable) ∧
    BFSseeds (chainLinks 3) flatTable [1] 2 [] =
      bubblePrune flatTable [1, 2, 3, 4] (buildBFSlinks (chainLinks 3) flatTable [1, 2, 3, 4] []) ∧
    (∀ l ∈ chainLinks 3, expandQualifies flatTable 2 l → l.lctg ∈ [1, 2, 3, 4] →
      l.rctg ∈ [1, 2, 3, 4] → 0 ≤ (flatTable (l.lctg - 1)).depth →
      0 ≤ (flatTable (l.rctg - 1)).depth →
      toBFSlink flatTable l ∈ buildBFSlinks (chainLinks 3) flatTable [1, 2, 3, 4] []) :=
  BFSseeds_links_are_relaxed_sublist (chainLinks 3) flatTable [1] 2 [1, 2, 3, 4] (by decide!)

/-! ### C10: bubble pruning -/

theorem khAdd_khAdd_cancel (h : Int → Option Int) (k d : Int) :
    khAdd (khAdd h k d) k (-d) = h := by
  funext x
  unfold khAdd
  by_cases hx : x = k
  · simp only [hx, if_true, Option.map_map]
    cases h k with
    | none => rfl
    | some v => simp
  · simp only [hx, if_false]

theorem callPathUp_frame (env : SearchEnv) (st : SearchState) :
    SameFrame (callPathUp env st) st :=
  ⟨rfl, rfl, rfl, rfl⟩

theorem sameFrame_trans {a b c : SearchState} (h1 : SameFrame a b) (h2 : SameFrame b c) :
    SameFrame a c :=
  ⟨h1.1.trans h2.1, h1.2.1.trans h2.2.1, h1.2.2.1.trans h2.2.2.1, h1.2.2.2.trans h2.2.2.2⟩

/-- One iteration of the successor loop restores the frame when the recursive call does. -/
theorem bfs_m_visit_frame (env : SearchEnv)
    (recurse : Int → Int → SearchState → Option SearchState)
    (hrec : ∀ n u s s1, recurse n u s = some s1 →
      0 ≤ s.current_path.nodelen → s.current_path.nodelen < 2 ^ 64 → SameFrame s1 s)
    (acc r : SearchState × Bool) (nx : Int × Int)
    (h0 : 0 ≤ acc.1.current_path.nodelen) (h1 : acc.1.current_path.nodelen < 2 ^ 64)
    (h : bfs_m_visit env recurse acc nx = some r) : SameFrame r.1 acc.1 := by
  simp only [bfs_m_visit] at h
  by_cases c1 : (acc.1.h_chloro nx.1).isSome = true ∧ (acc.1.h_chloro nx.1).getD 0 > 0
  · rw [if_pos c1] at h
    simp only [Option.some.injEq] at h; subst h; exact ⟨rfl, rfl, rfl, rfl⟩
  rw [if_neg c1] at h
  by_cases c2 : (acc.1.h_mito nx.1).isSome = true ∧ (acc.1.h_mito nx.1).getD 0 = 0
  · rw [if_pos c2] at h
    simp only [Option.some.injEq] at h; subst h; exact ⟨rfl, rfl, rfl, rfl⟩
  rw [if_neg c2] at h
  cases hst2 : recurse nx.1 nx.2 (pushNode env acc.1 nx) with
  | none => rw [hst2] at h; exact absurd h (by simp)
  | some st2 =>
    rw [hst2] at h
    simp only [Option.some.injEq] at h
    subst h
    have hp0 : 0 ≤ (pushNode env acc.1 nx).current_path.nodelen := by
      simp only [pushNode]; omega
    have hp1 : (pushNode env acc.1 nx).current_path.nodelen < 2 ^ 64 := by
      simp only [pushNode]; omega
    obtain ⟨f1, f2, f3, f4⟩ := hrec _ _ _ _ hst2 hp0 hp1
    refine ⟨?_, ?_, ?_, ?_⟩
    · simp only [popNode, f1, pushNode]
      by_cases hm : (acc.1.h_mito nx.1).isSome = true
      · simp only [hm, if_true]
        have := khAdd_khAdd_cancel acc.1.h_mito nx.1 (-1)
        simpa using this
      · simp only [hm, Bool.false_eq_true, if_false]
    · simp only [popNode, f2, pushNode]
      by_cases hc : (acc.1.h_chloro nx.1).isSome = true
      · simp only [hc, if_true]
        exact khAdd_khAdd_cancel acc.1.h_chloro nx.1 1
      · simp only [hc, Bool.false_eq_true, if_false]
    · simp only [popNode, f3, pushNode]; omega
    · simp only [popNode, f4, pushNode]; omega

theorem foldlM_bfs_m_visit_frame (env : SearchEnv)
    (recurse : Int → Int → SearchState → Option SearchState)
    (hrec : ∀ n u s s1, recurse n u s = some s1 →
      0 ≤ s.current_path.nodelen → s.current_path.nodelen < 2 ^ 64 → SameFrame s1 s)
    (succs : List (Int × Int)) :
    ∀ (acc r : SearchState × Bool),
      0 ≤ acc.1.current_path.nodelen → acc.1.current_path.nodelen < 2 ^ 64 →
      succs.foldlM (bfs_m_visit env recurse) acc = some r → SameFrame r.1 acc.1 := by
  induction succs with
  | nil =>
    intro acc r _ _ h
    simp only [List.foldlM_nil, Option.pure_def, Option.some.injEq] at h
    subst h
    exact ⟨rfl, rfl, rfl, rfl⟩
  | cons nx rest ih =>
    intro acc r h0 h1 h
    simp only [List.foldlM_cons, Option.bind_eq_bind] at h
    cases hv : bfs_m_visit env recurse acc nx with
    | none => rw [hv] at h; exact absurd h (by simp)
    | some mid =>
      rw [hv] at h
      simp only [Option.some_bind] at h
      have fm := bfs_m_visit_frame env recurse hrec acc mid nx h0 h1 hv
      have fr := ih mid r (by rw [fm.2.2.2]; exact h0) (by rw [fm.2.2.2]; exact h1) h
      exact sameFrame_trans fr fm

theorem closeEval_frame (env : SearchEnv) (st : SearchState)
    (h0 : 0 ≤ st.current_path.nodelen) (h1 : st.current_path.nodelen < 2 ^ 64) :
    SameFrame (closeEval env st) st := by
  refine ⟨rfl, rfl, rfl, ?_⟩
  simp only [closeEval, callPathUp]
  omega

theorem coverageEval_frame (env : SearchEnv) (st : SearchState) :
    SameFrame (coverageEval env st) st := by
  unfold coverageEval
  split_ifs
  · exact callPathUp_frame env st
  · exact ⟨rfl, rfl, rfl, rfl⟩

theorem deadEndEval_frame (env : SearchEnv) (r : SearchState × Bool) :
    SameFrame (deadEndEval env r) r.1 := by
  simp only [deadEndEval]
  split_ifs
  · exact ⟨rfl, rfl, rfl, rfl⟩
  · exact ⟨rfl, rfl, rfl, rfl⟩

theorem bfs_m_frame (env : SearchEnv) :
    ∀ (fuel : Nat) (node_s s_utr : Int) (st st1 : SearchState),
      bfs_m env fuel node_s s_utr st = some st1 →
      0 ≤ st.current_path.nodelen → st.current_path.nodelen < 2 ^ 64 → SameFrame st1 st := by
  intro fuel
  induction fuel with
  | zero => intro node_s s_utr st st1 h; simp [bfs_m] at h
  | succ fuel ih =>
    intro node_s s_utr st st1 h h0 h1
    rw [bfs_m] at h
    by_cases c1 : st.stop_flag ≠ 0
    · rw [if_pos c1] at h
      simp only [Option.some.injEq] at h; subst h; exact ⟨rfl, rfl, rfl, rfl⟩
    rw [if_neg c1] at h
    by_cases c2 : st.current_path.nodenum > 1 ∧ node_s = env.node_t ∧ s_utr ≠ env.t_utr
    · rw [if_pos c2] at h
      simp only [Option.some.injEq] at h
      subst h
      exact closeEval_frame env st h0 h1
    rw [if_neg c2] at h
    have hst1 := coverageEval_frame env st
    cases hl : env.h_links node_s with
    | none =>
      rw [hl] at h
      simp only [Option.some.injEq] at h; subst h; exact hst1
    | some link_s =>
      rw [hl] at h
      simp only at h
      cases hr : (successorsOf link_s s_utr).foldlM (bfs_m_visit env (bfs_m env fuel))
          (coverageEval env st, true) with
      | none => rw [hr] at h; exact absurd h (by simp)
      | some r =>
        rw [hr] at h
        simp only [Option.some.injEq] at h
        subst h
        have fr := foldlM_bfs_m_visit_frame env (bfs_m env fuel)
          (fun n u s s1 hs a b => ih n u s s1 hs a b) _ _ r
          (by rw [show (coverageEval env st, true).1 = coverageEval env st from rfl,
            hst1.2.2.2]; exact h0)
          (by rw [show (coverageEval env st, true).1 = coverageEval env st from rfl,
            hst1.2.2.2]; exact h1) hr
        exact sameFrame_trans (deadEndEval_frame env r) (sameFrame_trans fr hst1)

/-- C4: whenever a call of `bfs_m` returns - at entry on a set stop flag, on a closed path,
at a node without adjacency entry, at a dead end or after trying every successor - every
`h_mito` budget, every `h_chloro` counter, the node count of the current path and its
accumulated length are what they were when the call was entered. -/
theorem bfs_m_restores_frame (env : SearchEnv) (fuel : Nat) (node_s s_utr : Int)
    (st st1 : SearchState)
    (hlen : 0 ≤ st.current_path.nodelen ∧ st.current_path.nodelen < 2 ^ 64)
    (h : bfs_m env fuel node_s s_utr st = some st1) :
    st1.h_mito = st.h_mito ∧ st1.h_chloro = st.h_chloro ∧
    st1.current_path.nodenum = st.current_path.nodenum ∧
    st1.current_path.nodelen = st.current_path.nodelen :=
  bfs_m_frame env fuel node_s s_utr st st1 h hlen.1 hlen.2

/-- Witness of C4 on the 3-node cycle searched from contig 2. -/
theorem bfs_m_restores_frame_witness :
    (0 ≤ cycleStart.current_path.nodelen ∧ cycleStart.current_path.nodelen < 2 ^ 64) ∧
    ∃ st1, bfs_m cycleEnv 10 2 3 cycleStart = some st1 ∧
      (st1.h_mito = cycleStart.h_mito ∧ st1.h_chloro = cycleStart.h_chloro ∧
       st1.current_path.nodenum = cycleStart.current_path.nodenum ∧
       st1.current_path.nodelen = cycleStart.current_path.nodelen) := by
  have hs : (bfs_m cycleEnv 10 2 3 cycleStart).isSome = true := by decide!
  obtain ⟨st1, h1⟩ := Option.isSome_iff_exists.mp hs
  exact ⟨by decide, st1, h1,
    bfs_m_restores_frame cycleEnv 10 2 3 cycleStart st1 (by decide) h1⟩

/-! ### C5: the pass budgets -/

theorem map_range_update (f : Nat → Int) (n : Nat) (x : Int) :
    (List.range (n + 1)).map (Function.update f n x) = (List.range n).map f ++ [x] := by
  rw [List.range_succ, List.map_append]
  congr 1
  · apply List.map_congr_left
    intro i hi
    have : i ≠ n := Nat.ne_of_lt (List.mem_range.mp hi)
    simp [Function.update, this]
  · simp

theorem map_range_copyPrefix (f g : Nat → Int) (n : Nat) :
    (List.range n).map (copyPrefix n f g) = (List.range n).map f := by
  apply List.map_congr_left
  intro i hi
  simp [copyPrefix, List.mem_range.mp hi]

theorem range_map_ne_nil (f : Nat → Int) (n : Nat) (h : 1 ≤ n) : (List.range n).map f ≠ [] := by
  intro e
  have := congrArg List.length e
  simp at this
  omega

theorem BudgetInv.isSome_eq {budget : Int → Option Int} {nodes : List Int}
    {h : Int → Option Int} (hi : BudgetInv budget nodes h) (n : Int) :
    (h n).isSome = (budget n).isSome := by
  cases hb : budget n with
  | none => simp [(hi n).1 hb]
  | some b =>
    obtain ⟨v, hv, _⟩ := (hi n).2 b hb
    simp [hv]

theorem BudgetInv.count_le {budget : Int → Option Int} {nodes : List Int}
    {h : Int → Option Int} (hi : BudgetInv budget nodes h) :
    EventOk budget (Event.evaluated nodes) := by
  intro n b hb
  obtain ⟨v, _, hv0, hsum⟩ := (hi n).2 b hb
  omega

/-- Appending a node whose budget is not exhausted keeps the budget invariant, and the
charged budget is not negative. `src` is the table the budget is charged on. -/
theorem BudgetInv_push (budget : Int → Option Int) (nodes : List Int) (h : Int → Option Int)
    (x : Int) (is_mito : Bool) (hne : nodes ≠ []) (hi : BudgetInv budget nodes h)
    (hm : is_mito = (h x).isSome) (hpos : ∀ v, h x = some v → 1 ≤ v) :
    BudgetInv budget (nodes ++ [x]) (if is_mito = true then khAdd h x (-1) else h) ∧
    EventOk budget (Event.entered x ((if is_mito = true then khAdd h x (-1) else h) x)) := by
  have htail : (nodes ++ [x]).tail = nodes.tail ++ [x] := by
    cases nodes with
    | nil => exact absurd rfl hne
    | cons a t => rfl
  constructor
  · intro n
    constructor
    · intro hb
      have hn := (hi n).1 hb
      by_cases c : is_mito = true
      · simp only [c, if_true, khAdd]
        by_cases e : n = x
        · rw [if_pos e, hn]; rfl
        · rw [if_neg e, hn]
      · simp only [c, if_false]; exact hn
    · intro b hb
      obtain ⟨v, hv, hv0, hsum⟩ := (hi n).2 b hb
      rw [htail, List.count_append]
      by_cases e : n = x
      · subst e
        have hmt : is_mito = true := by rw [hm, hv]; rfl
        have h1 := hpos v hv
        refine ⟨v - 1, ?_, by omega, ?_⟩
        · simp [hmt, khAdd, hv]; ring
        · simp only [List.count_singleton_self]
          push_cast
          omega
      · refine ⟨v, ?_, hv0, ?_⟩
        · by_cases c : is_mito = true
          · simp [c, khAdd, e, hv]
          · simp [c, hv]
        · have : List.count n [x] = 0 := by
            rw [List.count_eq_zero]
            simpa using e
          rw [this]
          push_cast
          omega
  · cases hx : h x with
    | none =>
      have : is_mito = false := by rw [hm, hx]; rfl
      simp [this, hx, EventOk]
    | some v =>
      have hmt : is_mito = true := by rw [hm, hx]; rfl
      have h1 := hpos v hx
      simp only [hmt, if_true, khAdd, hx, Option.map_some']
      simp only [EventOk]
      omega

theorem KeepsPath.refl (a : SearchState) : KeepsPath a a := ⟨rfl, rfl, fun _ _ => rfl⟩

theorem keepsPath_trans {a b c : SearchState} (h1 : KeepsPath a b) (h2 : KeepsPath b c) :
    KeepsPath a c :=
  ⟨h1.1.trans h2.1, h1.2.1.trans h2.2.1,
    fun i hi => (h1.2.2 i (by rw [h2.2.1]; exact hi)).trans (h2.2.2 i hi)⟩

theorem KeepsPath.nodes_eq {a b : SearchState} (h : KeepsPath a b) :
    a.current_path.nodes = b.current_path.nodes := by
  unfold nodePath.nodes
  rw [h.2.1]
  apply List.map_congr_left
  intro i hi
  exact h.2.2 i (List.mem_range.mp hi)

theorem StateInv.of_keeps {budget : Int → Option Int} {a b : SearchState}
    (h : KeepsPath a b) (hb : StateInv budget b) : StateInv budget a := by
  unfold StateInv
  rw [h.nodes_eq, h.1, h.2.1]
  exact hb

theorem callPathUp_ok (budget : Int → Option Int) (env : SearchEnv) (st : SearchState)
    (hi : StateInv budget st) (hl : LogOk budget st.log) :
    KeepsPath (callPathUp env st) st ∧ LogOk budget (callPathUp env st).log := by
  refine ⟨⟨rfl, rfl, fun _ _ => rfl⟩, ?_⟩
  intro e he
  simp only [callPathUp, List.mem_append, List.mem_singleton] at he
  rcases he with he | rfl
  · exact hl e he
  · exact hi.1.count_le

theorem closeEval_ok (budget : Int → Option Int) (env : SearchEnv) (st : SearchState)
    (hi : StateInv budget st) (hl : LogOk budget st.log) :
    KeepsPath (closeEval env st) st ∧ LogOk budget (closeEval env st).log := by
  refine ⟨⟨rfl, rfl, fun _ _ => rfl⟩, ?_⟩
  intro e he
  simp only [closeEval, callPathUp, List.mem_append, List.mem_singleton] at he
  rcases he with he | rfl
  · exact hl e he
  · exact hi.1.count_le

theorem coverageEval_ok (budget : Int → Option Int) (env : SearchEnv) (st : SearchState)
    (hi : StateInv budget st) (hl : LogOk budget st.log) :
    KeepsPath (coverageEval env st) st ∧ LogOk budget (coverageEval env st).log := by
  unfold coverageEval
  split_ifs
  · exact callPathUp_ok budget env st hi hl
  · exact ⟨KeepsPath.refl st, hl⟩

theorem deadEndEval_ok (budget : Int → Option Int) (env : SearchEnv) (r : SearchState × Bool)
    (hi : StateInv budget r.1) (hl : LogOk budget r.1.log) :
    KeepsPath (deadEndEval env r) r.1 ∧ LogOk budget (deadEndEval env r).log := by
  simp only [deadEndEval]
  split_ifs
  · refine ⟨⟨rfl, rfl, fun _ _ => rfl⟩, ?_⟩
    intro e he
    simp only [callPathUp, List.mem_append, List.mem_singleton] at he
    rcases he with he | rfl
    · exact hl e he
    · exact hi.1.count_le
  · exact ⟨⟨rfl, rfl, fun _ _ => rfl⟩, hl⟩

theorem pushNode_nodes (env : SearchEnv) (st : SearchState) (nx : Int × Int) :
    (pushNode env st nx).current_path.nodes = st.current_path.nodes ++ [nx.1] := by
  simp only [pushNode, nodePath.nodes]
  exact map_range_update _ _ _

theorem pushNode_ok (budget : Int → Option Int) (env : SearchEnv) (st : SearchState)
    (nx : Int × Int) (hi : StateInv budget st) (hl : LogOk budget st.log)
    (c2 : ¬ ((st.h_mito nx.1).isSome = true ∧ (st.h_mito nx.1).getD 0 = 0)) :
    StateInv budget (pushNode env st nx) ∧ LogOk budget (pushNode env st nx).log := by
  have hpos : ∀ v, st.h_mito nx.1 = some v → 1 ≤ v := by
    intro v hv
    obtain ⟨b, hb⟩ : ∃ b, budget nx.1 = some b := by
      have := hi.1.isSome_eq nx.1
      rw [hv] at this
      exact Option.isSome_iff_exists.mp this.symm
    obtain ⟨w, hw, hw0, _⟩ := (hi.1 nx.1).2 b hb
    rw [hv] at hw
    cases hw
    have : v ≠ 0 := fun e => c2 (by simp [hv, e])
    omega
  obtain ⟨p1, p2⟩ := BudgetInv_push budget st.current_path.nodes st.h_mito nx.1
    (st.h_mito nx.1).isSome (range_map_ne_nil _ _ hi.2) hi.1 rfl hpos
  refine ⟨⟨?_, ?_⟩, ?_⟩
  · rw [pushNode_nodes]; exact p1
  · simp only [pushNode]; omega
  · intro e he
    simp only [pushNode, List.mem_append, List.mem_singleton] at he
    rcases he with he | rfl
    · exact hl e he
    · exact p2

theorem popNode_pushNode_keeps (env : SearchEnv) (st st2 : SearchState) (nx : Int × Int)
    (h : KeepsPath st2 (pushNode env st nx)) :
    KeepsPath (popNode env (st.h_mito nx.1).isSome (st.h_chloro nx.1).isSome nx st2) st := by
  obtain ⟨f1, f2, f3⟩ := h
  refine ⟨?_, ?_, ?_⟩
  · simp only [popNode, f1, pushNode]
    by_cases hm : (st.h_mito nx.1).isSome = true
    · simp only [hm, if_true]
      have := khAdd_khAdd_cancel st.h_mito nx.1 (-1)
      simpa using this
    · simp only [hm, Bool.false_eq_true, if_false]
  · simp only [popNode, f2, pushNode]; omega
  · intro i hi
    have := f3 i (by simp only [pushNode]; omega)
    simp only [popNode]
    rw [this]
    simp only [pushNode]
    exact Function.update_noteq (Nat.ne_of_lt hi) _ _

/-- One iteration of the successor loop keeps the path and the log discipline when the
recursive call does. -/
theorem bfs_m_visit_ok (budget : Int → Option Int) (env : SearchEnv)
    (recurse : Int → Int → SearchState → Option SearchState)
    (hrec : ∀ n u s s1, recurse n u s = some s1 → StateInv budget s → LogOk budget s.log →
      KeepsPath s1 s ∧ LogOk budget s1.log)
    (acc r : SearchState × Bool) (nx : Int × Int)
    (hi : StateInv budget acc.1) (hl : LogOk budget acc.1.log)
    (h : bfs_m_visit env recurse acc nx = some r) :
    KeepsPath r.1 acc.1 ∧ LogOk budget r.1.log := by
  simp only [bfs_m_visit] at h
  by_cases c1 : (acc.1.h_chloro nx.1).isSome = true ∧ (acc.1.h_chloro nx.1).getD 0 > 0
  · rw [if_pos c1] at h
    simp only [Option.some.injEq] at h; subst h; exact ⟨KeepsPath.refl _, hl⟩
  rw [if_neg c1] at h
  by_cases c2 : (acc.1.h_mito nx.1).isSome = true ∧ (acc.1.h_mito nx.1).getD 0 = 0
  · rw [if_pos c2] at h
    simp only [Option.some.injEq] at h; subst h; exact ⟨KeepsPath.refl _, hl⟩
  rw [if_neg c2] at h
  cases hst2 : recurse nx.1 nx.2 (pushNode env acc.1 nx) with
  | none => rw [hst2] at h; exact absurd h (by simp)
  | some st2 =>
    rw [hst2] at h
    simp only [Option.some.injEq] at h
    subst h
    obtain ⟨pi, pl⟩ := pushNode_ok budget env acc.1 nx hi hl c2
    obtain ⟨k2, l2⟩ := hrec _ _ _ _ hst2 pi pl
    exact ⟨popNode_pushNode_keeps env acc.1 st2 nx k2, l2⟩

theorem foldlM_bfs_m_visit_ok (budget : Int → Option Int) (env : SearchEnv)
    (recurse : Int → Int → SearchState → Option SearchState)
    (hrec : ∀ n u s s1, recurse n u s = some s1 → StateInv budget s → LogOk budget s.log →
      KeepsPath s1 s ∧ LogOk budget s1.log)
    (succs : List (Int × Int)) :
    ∀ (acc r : SearchState × Bool), StateInv budget acc.1 → LogOk budget acc.1.log →
      succs.foldlM (bfs_m_visit env recurse) acc = some r →
      KeepsPath r.1 acc.1 ∧ LogOk budget r.1.log := by
  induction succs with
  | nil =>
    intro acc r _ hl h
    simp only [List.foldlM_nil, Option.pure_def, Option.some.injEq] at h
    subst h
    exact ⟨KeepsPath.refl _, hl⟩
  | cons nx rest ih =>
    intro acc r hi hl h
    simp only [List.foldlM_cons, Option.bind_eq_bind] at h
    cases hv : bfs_m_visit env recurse acc nx with
    | none => rw [hv] at h; exact absurd h (by simp)
    | some mid =>
      rw [hv] at h
      simp only [Option.some_bind] at h
      obtain ⟨km, lm⟩ := bfs_m_visit_ok budget env recurse hrec acc mid nx hi hl hv
      obtain ⟨kr, lr⟩ := ih mid r (StateInv.of_keeps km hi) lm h
      exact ⟨keepsPath_trans kr km, lr⟩

/-- A call of `bfs_m` entered with the budget invariant returns with the path it was
entered with, and every event it logged respects the budget discipline. -/
theorem bfs_m_ok (budget : Int → Option Int) (env : SearchEnv) :
    ∀ (fuel : Nat) (node_s s_utr : Int) (st st1 : SearchState),
      bfs_m env fuel node_s s_utr st = some st1 → StateInv budget st → LogOk budget st.log →
      KeepsPath st1 st ∧ LogOk budget st1.log := by
  intro fuel
  induction fuel with
  | zero => intro node_s s_utr st st1 h; simp [bfs_m] at h
  | succ fuel ih =>
    intro node_s s_utr st st1 h hi hl
    rw [bfs_m] at h
    by_cases c1 : st.stop_flag ≠ 0
    · rw [if_pos c1] at h
      simp only [Option.some.injEq] at h; subst h; exact ⟨KeepsPath.refl _, hl⟩
    rw [if_neg c1] at h
    by_cases c2 : st.current_path.nodenum > 1 ∧ node_s = env.node_t ∧ s_utr ≠ env.t_utr
    · rw [if_pos c2] at h
      simp only [Option.some.injEq] at h
      subst h
      exact closeEval_ok budget env st hi hl
    rw [if_neg c2] at h
    obtain ⟨kc, lc⟩ := coverageEval_ok budget env st hi hl
    cases hlk : env.h_links node_s with
    | none =>
      rw [hlk] at h
      simp only [Option.some.injEq] at h; subst h; exact ⟨kc, lc⟩
    | some link_s =>
      rw [hlk] at h
      simp only at h
      cases hr : (successorsOf link_s s_utr).foldlM (bfs_m_visit env (bfs_m env fuel))
          (coverageEval env st, true) with
      | none => rw [hr] at h; exact absurd h (by simp)
      | some r =>
        rw [hr] at h
        simp only [Option.some.injEq] at h
        subst h
        obtain ⟨kr, lr⟩ := foldlM_bfs_m_visit_ok budget env (bfs_m env fuel)
          (fun n u s s1 hs a b => ih n u s s1 hs a b) _ (coverageEval env st, true) r
          (StateInv.of_keeps kc hi) lc hr
        have hir : StateInv budget r.1 := StateInv.of_keeps (keepsPath_trans kr kc) hi
        obtain ⟨kd, ld⟩ := deadEndEval_ok budget env r hir lr
        exact ⟨keepsPath_trans kd (keepsPath_trans kr kc), ld⟩

/-! #### The seeding step -/

theorem extendPrefix_nodes (ctg_depth : Int → CtgDepth) (src : mpath) (a c : Bool)
    (nx : Int × Int) (t : Int) :
    (extendPrefix ctg_depth src a c nx t).nodes = src.nodes ++ [nx.1] := by
  simp only [extendPrefix, mpath.nodes]
  rw [map_range_update, map_range_copyPrefix]

theorem extendPrefix_ok (budget : Int → Option Int) (ctg_depth : Int → CtgDepth) (src : mpath)
    (is_mito c : Bool) (nx : Int × Int) (t : Int)
    (hi : BudgetInv budget src.nodes src.h_mito) (hn : 1 ≤ src.nodenum)
    (hm : is_mito = (src.h_mito nx.1).isSome) (hpos : ∀ v, src.h_mito nx.1 = some v → 1 ≤ v) :
    (BudgetInv budget (extendPrefix ctg_depth src is_mito c nx t).nodes
      (extendPrefix ctg_depth src is_mito c nx t).h_mito ∧
      1 ≤ (extendPrefix ctg_depth src is_mito c nx t).nodenum) ∧
    EventOk budget (Event.entered nx.1 ((extendPrefix ctg_depth src is_mito c nx t).h_mito nx.1))
    := by
  obtain ⟨p1, p2⟩ := BudgetInv_push budget src.nodes src.h_mito nx.1 is_mito
    (range_map_ne_nil _ _ hn) hi hm hpos
  refine ⟨⟨?_, ?_⟩, ?_⟩
  · rw [extendPrefix_nodes]; exact p1
  · simp only [extendPrefix]; omega
  · exact p2

theorem BudgetInv.pos_of_not_zero {budget : Int → Option Int} {nodes : List Int}
    {h : Int → Option Int} (hi : BudgetInv budget nodes h) (x : Int)
    (c2 : ¬ ((h x).isSome = true ∧ (h x).getD 0 = 0)) : ∀ v, h x = some v → 1 ≤ v := by
  intro v hv
  obtain ⟨b, hb⟩ : ∃ b, budget x = some b := by
    have := hi.isSome_eq x
    rw [hv] at this
    exact Option.isSome_iff_exists.mp this.symm
  obtain ⟨w, hw, hw0, _⟩ := (hi x).2 b hb
  rw [hv] at hw
  cases hw
  have : v ≠ 0 := fun e => c2 (by simp [hv, e])
  omega

theorem TableInv.setFlag {budget : Int → Option Int} {b : bfsPath} (h : TableInv budget b)
    (f : Int → Int) : TableInv budget { b with flag := f } := h

theorem TableInv.setSlot {budget : Int → Option Int} {b : bfsPath} (h : TableInv budget b)
    (k : Int) (m1 : mpath) (f : Int → Int) (pc : Int) (e : Event)
    (hm : BudgetInv budget m1.nodes m1.h_mito ∧ 1 ≤ m1.nodenum) (he : EventOk budget e) :
    TableInv budget { b with mpath := setAt b.mpath k (some m1), flag := f, path_count := pc,
                             log := b.log ++ [e] } := by
  refine ⟨?_, ?_⟩
  · intro i m hs
    simp only [setAt] at hs
    by_cases c : i = k
    · rw [if_pos c] at hs
      cases hs
      exact hm
    · rw [if_neg c] at hs
      exact h.1 i m hs
  · intro e1 he1
    simp only [List.mem_append, List.mem_singleton] at he1
    rcases he1 with he1 | rfl
    · exact h.2 e1 he1
    · exact he

theorem extendInPlace_ok (budget : Int → Option Int) (ctg_depth : Int → CtgDepth)
    (nodet utrt : Int) (b : bfsPath) (i : Int) (m : mpath) (nx : Int × Int)
    (hb : TableInv budget b) (hs : b.mpath i = some m) :
    TableInv budget (extendInPlace ctg_depth nodet utrt b i m nx) := by
  obtain ⟨mi, mn⟩ := hb.1 i m hs
  simp only [extendInPlace]
  by_cases c0 : nx.1 = nodet ∧ nx.2 = utrt
  · rw [if_pos c0]; exact hb.setFlag _
  rw [if_neg c0]
  by_cases c1 : (m.h_chloro nx.1).isSome = true ∧ (m.h_chloro nx.1).getD 0 > 1
  · rw [if_pos c1]; exact hb.setFlag _
  rw [if_neg c1]
  by_cases c2 : (m.h_mito nx.1).isSome = true ∧ (m.h_mito nx.1).getD 0 = 0
  · rw [if_pos c2]; exact hb.setFlag _
  rw [if_neg c2]
  obtain ⟨q1, q2⟩ := extendPrefix_ok budget ctg_depth m (m.h_mito nx.1).isSome
    (m.h_chloro nx.1).isSome nx (if nx.1 = nodet then 0 else 1) mi mn rfl
    (mi.pos_of_not_zero nx.1 c2)
  exact hb.setSlot i _ _ b.path_count _ q1 q2

theorem forkLoop_ok (budget : Int → Option Int) (ctg_depth : Int → CtgDepth)
    (nodet utrt max_paths : Int) (i : Int) (temp_mpath : mpath) (first : Int × Int)
    (ht : BudgetInv budget temp_mpath.nodes temp_mpath.h_mito) (hn : 1 ≤ temp_mpath.nodenum)
    (rest : List (Int × Int)) :
    ∀ (acc r : bfsPath × Int), TableInv budget acc.1 →
      (∀ mi, acc.1.mpath i = some mi → BudgetLe mi.h_mito temp_mpath.h_mito) →
      forkLoop ctg_depth nodet utrt max_paths i temp_mpath first rest acc = some r →
      TableInv budget r.1 := by
  induction rest with
  | nil =>
    intro acc r hb _ h
    simp only [forkLoop, Option.some.injEq] at h
    subst h
    exact hb
  | cons nx rest ih =>
    intro acc r hb hle h
    rw [forkLoop] at h
    simp only at h
    by_cases c0 : first.1 = nodet ∧ first.2 = utrt
    · rw [if_pos c0] at h
      simp only [Option.some.injEq] at h
      subst h
      exact hb.setFlag _
    rw [if_neg c0] at h
    by_cases cc : 2 * max_paths ≤ acc.2
    · rw [if_pos cc] at h
      exact absurd h (by simp)
    rw [if_neg cc] at h
    cases hs : acc.1.mpath i with
    | none => rw [hs] at h; exact absurd h (by simp)
    | some mi =>
      rw [hs] at h
      simp only at h
      obtain ⟨ii, _⟩ := hb.1 i mi hs
      by_cases c1 : (mi.h_chloro nx.1).isSome = true ∧ (mi.h_chloro nx.1).getD 0 > 1
      · rw [if_pos c1] at h
        exact ih ({ acc.1 with flag := setAt acc.1.flag acc.2 0 }, acc.2) r (hb.setFlag _) hle h
      rw [if_neg c1] at h
      by_cases c2 : (mi.h_mito nx.1).isSome = true ∧ (mi.h_mito nx.1).getD 0 = 0
      · rw [if_pos c2] at h
        exact ih ({ acc.1 with flag := setAt acc.1.flag acc.2 0 }, acc.2) r (hb.setFlag _) hle h
      rw [if_neg c2] at h
      have hm : (mi.h_mito nx.1).isSome = (temp_mpath.h_mito nx.1).isSome := by
        rw [ii.isSome_eq, ht.isSome_eq]
      have hpos : ∀ w, temp_mpath.h_mito nx.1 = some w → 1 ≤ w := by
        intro w hw
        have : (mi.h_mito nx.1).isSome = true := by rw [hm, hw]; rfl
        obtain ⟨v, hv⟩ := Option.isSome_iff_exists.mp this
        have h1 := ii.pos_of_not_zero nx.1 c2 v hv
        obtain ⟨w1, hw1, hle1⟩ := hle mi hs nx.1 v hv
        rw [hw] at hw1
        cases hw1
        omega
      obtain ⟨q1, q2⟩ := extendPrefix_ok budget ctg_depth temp_mpath (mi.h_mito nx.1).isSome
        (mi.h_chloro nx.1).isSome nx (if nx.1 = nodet then 0 else 1) ht hn hm hpos
      refine ih _ r (hb.setSlot acc.2 _ _ _ _ q1 q2) ?_ h
      intro mi1 hs1
      simp only [setAt] at hs1
      by_cases c : i = acc.2
      · rw [if_pos c] at hs1
        cases hs1
        intro n v hv
        simp only [extendPrefix] at hv
        by_cases cm : (mi.h_mito nx.1).isSome = true
        · rw [if_pos cm] at hv
          simp only [khAdd] at hv
          by_cases cn : n = nx.1
          · rw [if_pos cn] at hv
            cases hw : temp_mpath.h_mito n with
            | none => rw [hw] at hv; exact absurd hv (by simp)
            | some w =>
              rw [hw] at hv
              simp only [Option.map_some', Option.some.injEq] at hv
              exact ⟨w, rfl, by omega⟩
          · rw [if_neg cn] at hv
            exact ⟨v, hv, le_refl _⟩
        · rw [if_neg cm] at hv
          exact ⟨v, hv, le_refl _⟩
      · rw [if_neg c] at hs1
        exact hle mi1 hs1

theorem forkSlot_ok (budget : Int → Option Int) (ctg_depth : Int → CtgDepth)
    (nodet utrt max_paths : Int) (b b1 : bfsPath) (i : Int) (m : mpath)
    (tempmap : List (Int × Int))
    (hb : TableInv budget b) (hs : b.mpath i = some m)
    (h : forkSlot ctg_depth nodet utrt max_paths b i m tempmap = some b1) :
    TableInv budget b1 := by
  obtain ⟨mi, mn⟩ := hb.1 i m hs
  simp only [forkSlot] at h
  cases hr : forkLoop ctg_depth nodet utrt max_paths i m (tempmap.headD (0, 0)) tempmap
      (b, i) with
  | none => rw [hr] at h; exact absurd h (by simp)
  | some r =>
    rw [hr] at h
    simp only [Option.some.injEq] at h
    subst h
    have := forkLoop_ok budget ctg_depth nodet utrt max_paths i m (tempmap.headD (0, 0)) mi mn
      tempmap
      (b, i) r hb
      (fun m2 hs2 n v hv => by
        rw [show (b, i).1.mpath i = b.mpath i from rfl, hs] at hs2
        cases hs2
        exact ⟨v, hv, le_refl _⟩) hr
    exact this

theorem bfsMapStep_ok (budget : Int → Option Int) (ctg_depth : Int → CtgDepth)
    (h_links : Int → Option nodeLink) (nodet utrt max_paths : Int) (acc r : bfsPath × Int)
    (i : Int) (hb : TableInv budget acc.1)
    (h : bfsMapStep ctg_depth h_links nodet utrt max_paths acc i = some r) :
    TableInv budget r.1 := by
  simp only [bfsMapStep] at h
  by_cases c0 : acc.1.flag i = 0
  · rw [if_pos c0] at h
    simp only [Option.some.injEq] at h; subst h; exact hb
  rw [if_neg c0] at h
  cases hs : acc.1.mpath i with
  | none => rw [hs] at h; exact absurd h (by simp)
  | some m =>
    rw [hs] at h
    simp only at h
    cases hl : h_links (m.path (m.nodenum - 1)) with
    | none =>
      rw [hl] at h
      simp only [Option.some.injEq] at h; subst h; exact hb
    | some node_links =>
      rw [hl] at h
      simp only at h
      by_cases c1 : (successorsOf node_links (m.utr (m.nodenum - 1))).length = 1 ∧
          acc.1.flag i = 1
      · rw [if_pos c1] at h
        simp only [Option.some.injEq] at h
        subst h
        exact extendInPlace_ok budget ctg_depth nodet utrt acc.1 i m _ hb hs
      rw [if_neg c1] at h
      by_cases c2 : (successorsOf node_links (m.utr (m.nodenum - 1))).length > 1 ∧
          acc.1.flag i = 1
      · rw [if_pos c2] at h
        cases hf : forkSlot ctg_depth nodet utrt max_paths acc.1 i m
            (successorsOf node_links (m.utr (m.nodenum - 1))) with
        | none => rw [hf] at h; exact absurd h (by simp)
        | some b1 =>
          rw [hf] at h
          simp only [Option.map_some', Option.some.injEq] at h
          subst h
          exact forkSlot_ok budget ctg_depth nodet utrt max_paths acc.1 b1 i m _ hb hs hf
      rw [if_neg c2] at h
      by_cases c3 : (successorsOf node_links (m.utr (m.nodenum - 1))).length = 0 ∧
          acc.1.flag i = 1
      · rw [if_pos c3] at h
        simp only [Option.some.injEq] at h; subst h; exact hb.setFlag _
      · rw [if_neg c3] at h
        simp only [Option.some.injEq] at h; subst h; exact hb

theorem foldlM_bfsMapStep_ok (budget : Int → Option Int) (ctg_depth : Int → CtgDepth)
    (h_links : Int → Option nodeLink) (nodet utrt max_paths : Int) (idx : List Int) :
    ∀ (acc r : bfsPath × Int), TableInv budget acc.1 →
      idx.foldlM (bfsMapStep ctg_depth h_links nodet utrt max_paths) acc = some r →
      TableInv budget r.1 := by
  induction idx with
  | nil =>
    intro acc r hb h
    simp only [List.foldlM_nil, Option.pure_def, Option.some.injEq] at h
    subst h
    exact hb
  | cons i rest ih =>
    intro acc r hb h
    simp only [List.foldlM_cons, Option.bind_eq_bind] at h
    cases hv : bfsMapStep ctg_depth h_links nodet utrt max_paths acc i with
    | none => rw [hv] at h; exact absurd h (by simp)
    | some mid =>
      rw [hv] at h
      simp only [Option.some_bind] at h
      exact ih mid r
        (bfsMapStep_ok budget ctg_depth h_links nodet utrt max_paths acc mid i hb hv) h

theorem bfsMapLoop_ok (budget : Int → Option Int) (ctg_depth : Int → CtgDepth)
    (h_links : Int → Option nodeLink) (nodet utrt max_paths : Int) :
    ∀ (fuel : Nat) (b b1 : bfsPath) (dy_path_count : Int), TableInv budget b →
      bfsMapLoop ctg_depth h_links nodet utrt max_paths fuel b dy_path_count = some b1 →
      TableInv budget b1 := by
  intro fuel
  induction fuel with
  | zero => intro b b1 d _ h; simp [bfsMapLoop] at h
  | succ fuel ih =>
    intro b b1 d hb h
    rw [bfsMapLoop] at h
    cases hr : (indicesBelow d).foldlM (bfsMapStep ctg_depth h_links nodet utrt max_paths)
        (b, 0) with
    | none => rw [hr] at h; exact absurd h (by simp)
    | some r =>
      rw [hr] at h
      simp only at h
      have hr1 := foldlM_bfsMapStep_ok budget ctg_depth h_links nodet utrt max_paths _ (b, 0) r
        hb hr
      by_cases c : r.1.path_count ≥ max_paths ∨ r.2 = 0
      · rw [if_pos c] at h
        simp only [Option.some.injEq] at h; subst h; exact hr1
      · rw [if_neg c] at h
        exact ih r.1 b1 _ hr1 h

theorem bfsMapInit_ok (ctg_depth : Int → CtgDepth) (nodes utrs : Int)
    (h_mito h_chloro : Int → Option Int) (hbud : ∀ n b, h_mito n = some b → 0 ≤ b) :
    TableInv h_mito (bfsMapInit ctg_depth nodes utrs h_mito h_chloro) := by
  refine ⟨?_, ?_⟩
  · intro i m hs
    simp only [bfsMapInit, setAt] at hs
    by_cases c : i = 0
    · rw [if_pos c] at hs
      cases hs
      refine ⟨?_, le_refl _⟩
      intro n
      refine ⟨fun h => h, fun b hb => ⟨b, hb, hbud n b hb, ?_⟩⟩
      simp [mpath.nodes, List.range_succ]
    · rw [if_neg c] at hs
      exact absurd hs (by simp)
  · intro e he
    simp [bfsMapInit] at he

theorem collectSlots_mem (slots : Int → Option mpath) (idx : List Int) :
    ∀ ms, collectSlots slots idx = some ms → ∀ m ∈ ms, ∃ i, slots i = some m := by
  induction idx with
  | nil =>
    intro ms h m hm
    simp only [collectSlots, Option.some.injEq] at h
    subst h
    simp at hm
  | cons i rest ih =>
    intro ms h m hm
    rw [collectSlots] at h
    cases hs : slots i with
    | none => rw [hs] at h; exact absurd h (by simp)
    | some m0 =>
      cases hc : collectSlots slots rest with
      | none => rw [hs, hc] at h; exact absurd h (by simp)
      | some ms0 =>
        rw [hs, hc] at h
        simp only [Option.some.injEq] at h
        subst h
        rcases List.mem_cons.mp hm with rfl | hm
        · exact ⟨i, hs⟩
        · exact ih ms0 hc m hm

theorem rootState_ok (budget : Int → Option Int) (path_score : pathScore) (m : mpath)
    (hi : BudgetInv budget m.nodes m.h_mito) (hn : 1 ≤ m.nodenum) :
    StateInv budget (rootState path_score m) ∧ LogOk budget (rootState path_score m).log := by
  refine ⟨⟨?_, hn⟩, ?_⟩
  · have : (rootState path_score m).current_path.nodes = m.nodes := by
      simp only [rootState, nodePath.nodes, mpath.nodes]
      exact map_range_copyPrefix _ _ _
    rw [this]
    exact hi
  · intro e he
    simp [rootState] at he

/-- C5: let the initial pass budgets `h_mito` be non-negative. In every run of `bfsMap` that
returns, no budget is charged below zero; and for every prefix it returns and every deep
search `bfs_m` started from that prefix that returns, no budget is charged below zero and
every path handed to `path_up` enters each target node (occurrences after the first position,
which holds the start) at most as many times as its initial budget. -/
theorem search_respects_pass_budgets (env : SearchEnv) (nodes utrs max_paths : Int)
    (h_mito h_chloro : Int → Option Int) (fuel1 : Nat) (prefixes : List mpath)
    (log : List Event)
    (hbud : ∀ n b, h_mito n = some b → 0 ≤ b)
    (hmap : bfsMap fuel1 nodes utrs env.node_t env.t_utr env.ctg_depth env.h_links max_paths
      h_mito h_chloro = some (prefixes, log)) :
    (∀ n v, Event.entered n (some v) ∈ log → 0 ≤ v) ∧
    ∀ m ∈ prefixes,
      (∀ n b, h_mito n = some b → (m.nodes.tail.count n : Int) ≤ b) ∧
      ∀ (fuel2 : Nat) (path_score : pathScore) (st1 : SearchState),
        searchFromPrefix env fuel2 path_score m = some st1 →
        (∀ n v, Event.entered n (some v) ∈ st1.log → 0 ≤ v) ∧
        (∀ cand, Event.evaluated cand ∈ st1.log →
          ∀ n b, h_mito n = some b → (cand.tail.count n : Int) ≤ b) := by
  simp only [bfsMap] at hmap
  by_cases hmax : max_paths < 1
  · rw [if_pos hmax] at hmap
    exact absurd hmap (by simp)
  rw [if_neg hmax] at hmap
  cases hl : bfsMapLoop env.ctg_depth env.h_links env.node_t env.t_utr max_paths fuel1
      (bfsMapInit env.ctg_depth nodes utrs h_mito h_chloro) 1 with
  | none => rw [hl] at hmap; exact absurd hmap (by simp)
  | some b =>
    rw [hl] at hmap
    simp only at hmap
    cases hc : collectSlots b.mpath (indicesBelow b.path_count) with
    | none => rw [hc] at hmap; exact absurd hmap (by simp)
    | some ms =>
      rw [hc] at hmap
      simp only [Option.some.injEq, Prod.mk.injEq] at hmap
      obtain ⟨rfl, rfl⟩ := hmap
      have hb := bfsMapLoop_ok h_mito env.ctg_depth env.h_links env.node_t env.t_utr max_paths
        fuel1 _ b 1 (bfsMapInit_ok env.ctg_depth nodes utrs h_mito h_chloro hbud) hl
      refine ⟨fun n v hv => hb.2 _ hv, ?_⟩
      intro m hm
      obtain ⟨i, hs⟩ := collectSlots_mem b.mpath _ ms hc m hm
      obtain ⟨mi, mn⟩ := hb.1 i m hs
      refine ⟨mi.count_le, ?_⟩
      intro fuel2 path_score st1 hst
      obtain ⟨ri, rl⟩ := rootState_ok h_mito path_score m mi mn
      obtain ⟨_, l1⟩ := bfs_m_ok h_mito env fuel2 _ _ _ st1 hst ri rl
      exact ⟨fun n v hv => l1 _ hv, fun cand hcand => l1 _ hcand⟩

theorem diamondBudget_nonneg (n b : Int) (h : diamondBudget n = some b) : 0 ≤ b := by
  unfold diamondBudget at h
  split_ifs at h
  cases h
  decide

/-- Witness of C5 on the diamond 1 - {2, 3} - 4 seeded from contig 1 with one pass per
contig. -/
theorem search_respects_pass_budgets_witness :
    (∀ n b, diamondBudget n = some b → 0 ≤ b) ∧
    ∃ prefixes log,
      bfsMap 10 1 3 diamondEnv.node_t diamondEnv.t_utr diamondEnv.ctg_depth diamondEnv.h_links 8
        diamondBudget (fun _ => none) = some (prefixes, log) ∧
      ((∀ n v, Event.entered n (some v) ∈ log → 0 ≤ v) ∧
      ∀ m ∈ prefixes,
        (∀ n b, diamondBudget n = some b → (m.nodes.tail.count n : Int) ≤ b) ∧
        ∀ (fuel2 : Nat) (path_score : pathScore) (st1 : SearchState),
          searchFromPrefix diamondEnv fuel2 path_score m = some st1 →
          (∀ n v, Event.entered n (some v) ∈ st1.log → 0 ≤ v) ∧
          (∀ cand, Event.evaluated cand ∈ st1.log →
            ∀ n b, diamondBudget n = some b → (cand.tail.count n : Int) ≤ b)) := by
  have hs : (bfsMap 10 1 3 diamondEnv.node_t diamondEnv.t_utr diamondEnv.ctg_depth
      diamondEnv.h_links 8 diamondBudget (fun _ => none)).isSome = true := by decide!
  obtain ⟨r, hr⟩ := Option.isSome_iff_exists.mp hs
  exact ⟨diamondBudget_nonneg, r.1, r.2, hr,
    search_respects_pass_budgets diamondEnv 1 3 8 diamondBudget (fun _ => none) 10 r.1 r.2
      diamondBudget_nonneg hr⟩

/-! ### Lemmas on `removeUnique` and `removeDup` -/

theorem firstEqual_eq_none (x : Int) (l : List Int) : firstEqual x l = none ↔ x ∉ l := by
  induction l with
  | nil => simp [firstEqual]
  | cons a rest ih =>
    by_cases h : x = a
    · simp [firstEqual, h]
    · simp [firstEqual, h, ih]

theorem firstEqual_some (x : Int) (l : List Int) (j : Nat) (h : firstEqual x l = some j) :
    l[j]? = some x := by
  induction l generalizing j with
  | nil => simp [firstEqual] at h
  | cons a rest ih =>
    by_cases e : x = a
    · simp [firstEqual, e] at h; subst h; simp [e]
    · simp [firstEqual, e] at h
      obtain ⟨k, hk, rfl⟩ := h
      simpa using ih k hk

theorem flagged_cons (x a : Int) (rest : List Int) (flags : List Bool) :
    Flagged x (a :: rest) flags ↔
      (a = x ∧ flags.headD false = true) ∨ Flagged x rest flags.tail := by
  constructor
  · rintro ⟨i, h1, h2⟩
    cases i with
    | zero =>
      left
      cases flags with
      | nil => simp at h2
      | cons b fs => simp at h1 h2; simp [h1, h2]
    | succ i =>
      right
      refine ⟨i, by simpa using h1, ?_⟩
      cases flags with
      | nil => simp at h2
      | cons b fs => simpa using h2
  · rintro (⟨h1, h2⟩ | ⟨i, h1, h2⟩)
    · refine ⟨0, by simp [h1], ?_⟩
      cases flags with
      | nil => simp at h2
      | cons b fs => simpa using h2
    · refine ⟨i + 1, by simpa using h1, ?_⟩
      cases flags with
      | nil => simp at h2
      | cons b fs => simpa using h2

theorem mem_removeUniqueFrom (l : List Int) (x : Int) :
    ∀ flags : List Bool, x ∈ removeUniqueFrom l flags ↔ Flagged x l flags ∨ 2 ≤ l.count x := by
  induction l with
  | nil => intro flags; simp [removeUniqueFrom, Flagged]
  | cons a rest ih =>
    intro flags
    rw [flagged_cons, List.count_cons, removeUniqueFrom]
    generalize flags.tail = ft
    generalize flags.headD false = b
    have hax : (a == x) = true ↔ a = x := by simp
    cases b with
    | true =>
      rw [if_pos rfl, List.mem_cons, ih]
      by_cases e : a = x
      · simp [e]
      · have e2 : ¬ x = a := fun h => e h.symm
        have e3 : (a == x) = false := by simpa using e
        simp [e, e2, e3]
    | false =>
      rw [if_neg (by simp)]
      cases hj : firstEqual a rest with
      | none =>
        have hna := (firstEqual_eq_none a rest).mp hj
        simp only [ih]
        by_cases e : a = x
        · subst e
          have hc : List.count a rest = 0 := List.count_eq_zero_of_not_mem hna
          have hnf : ¬ Flagged a rest ft := by
            rintro ⟨i, h1, _⟩
            exact hna (List.mem_iff_getElem?.mpr ⟨i, h1⟩)
          simp [hc, hnf]
        · have e3 : (a == x) = false := by simpa using e
          simp [e, e3]
      | some j =>
        have hj2 := firstEqual_some a rest j hj
        simp only [List.mem_cons, ih]
        by_cases e : a = x
        · subst e
          have hc : 1 ≤ List.count a rest :=
            List.count_pos_iff.mpr (List.mem_iff_getElem?.mpr ⟨j, hj2⟩)
          simp only [true_or, true_iff]
          right
          simp only [beq_self_eq_true, if_true]
          omega
        · have e2 : ¬ x = a := fun h => e h.symm
          have e3 : (a == x) = false := by simpa using e
          have hfl : Flagged x rest (ft.set j true) ↔ Flagged x rest ft := by
            constructor
            · rintro ⟨i, h1, h2⟩
              have hij : j ≠ i := by
                rintro rfl
                rw [hj2] at h1
                exact e (Option.some.inj h1)
              exact ⟨i, h1, by rwa [List.getElem?_set_ne hij] at h2⟩
            · rintro ⟨i, h1, h2⟩
              have hij : j ≠ i := by
                rintro rfl
                rw [hj2] at h1
                exact e (Option.some.inj h1)
              exact ⟨i, h1, by rwa [List.getElem?_set_ne hij]⟩
          rw [hfl]
          simp [e, e2, e3]

theorem mem_removeUnique (l : List Int) (x : Int) (hl : l.length ≠ 1) :
    x ∈ removeUnique l ↔ 2 ≤ l.count x := by
  unfold removeUnique
  by_cases h : l.length ≤ 1
  · have h0 : l = [] := List.length_eq_zero.mp (by omega)
    subst h0; simp
  · rw [if_neg h, mem_removeUniqueFrom]
    have hnf : ¬ Flagged x l (List.replicate l.length false) := by
      rintro ⟨i, _, h2⟩
      rw [List.getElem?_replicate] at h2
      split_ifs at h2
      simp at h2
    simp [hnf]

theorem foldl_removeDupStep (l : List Int) :
    ∀ kept : List Int, kept.Nodup →
      (l.foldl removeDupStep kept).Nodup ∧
      ∀ x, x ∈ l.foldl removeDupStep kept ↔ x ∈ kept ∨ x ∈ l := by
  induction l with
  | nil => intro kept hk; simp [hk]
  | cons a rest ih =>
    intro kept hk
    simp only [List.foldl_cons]
    by_cases ha : a ∈ kept
    · have hs : removeDupStep kept a = kept := by simp [removeDupStep, ha]
      rw [hs]
      refine ⟨(ih kept hk).1, fun x => ?_⟩
      rw [(ih kept hk).2 x, List.mem_cons]
      constructor
      · rintro (h | h)
        · exact Or.inl h
        · exact Or.inr (Or.inr h)
      · rintro (h | h | h)
        · exact Or.inl h
        · exact Or.inl (h ▸ ha)
        · exact Or.inr h
    · have hs : removeDupStep kept a = kept ++ [a] := by simp [removeDupStep, ha]
      rw [hs]
      have hk2 : (kept ++ [a]).Nodup := by
        rw [List.nodup_append]
        exact ⟨hk, List.nodup_singleton a, by
          intro x hx hx2
          rw [List.mem_singleton] at hx2
          exact ha (hx2 ▸ hx)⟩
      refine ⟨(ih _ hk2).1, fun x => ?_⟩
      rw [(ih _ hk2).2 x, List.mem_append, List.mem_singleton, List.mem_cons]
      tauto

theorem removeDup_nodup (l : List Int) : (removeDup l).Nodup := by
  cases l with
  | nil => simp [removeDup]
  | cons a rest => exact (foldl_removeDupStep rest [a] (List.nodup_singleton a)).1

theorem mem_removeDup (l : List Int) (x : Int) : x ∈ removeDup l ↔ x ∈ l := by
  cases l with
  | nil => simp [removeDup]
  | cons a rest =>
    rw [removeDup, (foldl_removeDupStep rest [a] (List.nodup_singleton a)).2 x]
    simp

/-! ### Lemmas on the scan of `maingraph` -/

theorem directStep_eq (st : Direct) (l : BFSlinks) :
    directStep st l = (sightings l).foldl sightingStep st := by
  unfold directStep sightings
  by_cases h : l.lctgsmp ≠ l.rctgsmp
  · simp only [if_pos h, List.foldl_cons, List.foldl_nil, sightingStep]
  · simp only [if_neg h, List.foldl_cons, List.foldl_nil, sightingStep]

theorem foldl_directStep_eq (links : List BFSlinks) :
    ∀ st : Direct, links.foldl directStep st =
      (links.flatMap sightings).foldl sightingStep st := by
  induction links with
  | nil => intro st; rfl
  | cons l rest ih =>
    intro st
    rw [List.foldl_cons, ih, List.flatMap_cons, List.foldl_append, directStep_eq]

/-- Without ambiguity, a node is not seen at all or every sighting of it is the same ending. -/
theorem not_ambiguousIn_cases (E : List Sighting) (x : Int) (h : ¬ AmbiguousIn E x) :
    (∀ e ∈ E, e.ctg ≠ x) ∨
    ∃ t, Sighting.ending x t ∈ E ∧ ∀ e ∈ E, e.ctg = x → e = Sighting.ending x t := by
  by_cases hex : ∀ e ∈ E, e.ctg ≠ x
  · exact Or.inl hex
  · right
    push_neg at hex
    obtain ⟨e, he, hx⟩ := hex
    cases e with
    | selfLink c =>
      simp only [Sighting.ctg] at hx
      subst hx
      exact absurd (Or.inl he) h
    | ending c t =>
      simp only [Sighting.ctg] at hx
      subst hx
      refine ⟨t, he, ?_⟩
      intro e2 he2 hx2
      cases e2 with
      | selfLink c2 =>
        simp only [Sighting.ctg] at hx2
        subst hx2
        exact absurd (Or.inl he2) h
      | ending c2 t2 =>
        simp only [Sighting.ctg] at hx2
        subst hx2
        by_cases ht : t2 = t
        · rw [ht]
        · exact absurd (Or.inr ⟨t2, t, ht, he2, he⟩) h

theorem sightingStep_count_le (st : Direct) (e : Sighting) (x : Int) :
    st.mainseeds.count x ≤ (sightingStep st e).mainseeds.count x := by
  cases e with
  | ending c u =>
    simp only [sightingStep, directEnd]
    split
    · split
      · simp only [List.count_append]; omega
      · exact le_refl _
    · simp only [List.count_append]; omega
  | selfLink c =>
    simp only [sightingStep, directSelf, List.count_append]; omega

theorem sightingStep_other (st : Direct) (e : Sighting) (x : Int) (h : e.ctg ≠ x) :
    (sightingStep st e).map_direct x = st.map_direct x ∧
    (sightingStep st e).mainseeds.count x = st.mainseeds.count x := by
  cases e with
  | ending c u =>
    simp only [Sighting.ctg] at h
    have h2 : x ≠ c := fun e => h e.symm
    have hb : (c == x) = false := by simpa using h
    simp only [sightingStep, directEnd]
    split
    · split
      · simp [List.count_append, List.count_cons, Function.update_noteq h2, hb]
      · exact ⟨rfl, rfl⟩
    · simp [List.count_append, List.count_cons, Function.update_noteq h2, hb]
  | selfLink c =>
    simp only [Sighting.ctg] at h
    have h2 : x ≠ c := fun e => h e.symm
    have hb : (c == x) = false := by simpa using h
    simp only [sightingStep, directSelf]
    constructor
    · split
      · exact Function.update_noteq h2 _ _
      · rfl
    · simp [List.count_append, List.count_cons, hb]

theorem directInv_step (E : List Sighting) (st : Direct) (x : Int) (e : Sighting)
    (hinv : DirectInv E st x) : DirectInv (E ++ [e]) (sightingStep st e) x := by
  obtain ⟨h1, h2, h3⟩ := hinv
  by_cases hx : e.ctg = x
  · cases e with
    | selfLink c =>
      simp only [Sighting.ctg] at hx
      subst hx
      refine ⟨?_, ?_, ?_⟩
      · intro h
        exact absurd rfl (h (Sighting.selfLink c) (by simp))
      · intro t _ hall
        have := hall (Sighting.selfLink c) (by simp) rfl
        cases this
      · intro _
        simp only [sightingStep, directSelf, List.count_append]
        simp
    | ending c u =>
      simp only [Sighting.ctg] at hx
      subst hx
      refine ⟨?_, ?_, ?_⟩
      · intro h
        exact absurd rfl (h (Sighting.ending c u) (by simp))
      · intro t _ hall
        have ht : Sighting.ending c u = Sighting.ending c t :=
          hall (Sighting.ending c u) (by simp) rfl
        have htu : u = t := by injection ht
        subst htu
        have hall2 : ∀ e ∈ E, e.ctg = c → e = Sighting.ending c u :=
          fun e he => hall e (List.mem_append_left _ he)
        by_cases hsee : ∀ e ∈ E, e.ctg ≠ c
        · obtain ⟨hm, hc⟩ := h1 hsee
          simp only [sightingStep, directEnd, hm, List.count_append, hc]
          simp
        · push_neg at hsee
          obtain ⟨e, he, hec⟩ := hsee
          have := hall2 e he hec
          subst this
          obtain ⟨hm, hc⟩ := h2 u he hall2
          simp only [sightingStep, directEnd, hm]
          rw [if_neg (by simp)]
          exact ⟨hm, hc⟩
      · intro hamb
        by_cases hold : AmbiguousIn E c
        · exact le_trans (h3 hold) (sightingStep_count_le st _ c)
        · have hnew : ∃ t, t ≠ u ∧ Sighting.ending c t ∈ E := by
            rcases hamb with hs | ⟨t₁, t₂, hne, hm1, hm2⟩
            · rw [List.mem_append, List.mem_singleton] at hs
              rcases hs with hs | hs
              · exact absurd (Or.inl hs) hold
              · cases hs
            · rw [List.mem_append, List.mem_singleton] at hm1 hm2
              rcases hm1 with hm1 | hm1 <;> rcases hm2 with hm2 | hm2
              · exact absurd (Or.inr ⟨t₁, t₂, hne, hm1, hm2⟩) hold
              · have : t₂ = u := by injection hm2
                exact ⟨t₁, this ▸ hne, hm1⟩
              · have : t₁ = u := by injection hm1
                exact ⟨t₂, this ▸ hne.symm, hm2⟩
              · have a : t₁ = u := by injection hm1
                have b : t₂ = u := by injection hm2
                exact absurd (a.trans b.symm) hne
          obtain ⟨t, htu, hmem⟩ := hnew
          rcases not_ambiguousIn_cases E c hold with hnone | ⟨t2, hm2, hall2⟩
          · exact absurd rfl (hnone _ hmem)
          · have : Sighting.ending c t = Sighting.ending c t2 := hall2 _ hmem rfl
            have htt : t = t2 := by injection this
            subst htt
            obtain ⟨hm, hc⟩ := h2 t hm2 hall2
            simp only [sightingStep, directEnd, hm, if_pos htu, List.count_append, hc]
            simp
  · obtain ⟨hm, hc⟩ := sightingStep_other st e x hx
    have hmem : ∀ P : Sighting → Prop, (∀ e2 ∈ E ++ [e], e2.ctg = x → P e2) ↔
        (∀ e2 ∈ E, e2.ctg = x → P e2) := by
      intro P
      constructor
      · intro h e2 he2; exact h e2 (List.mem_append_left _ he2)
      · intro h e2 he2 hx2
        rw [List.mem_append, List.mem_singleton] at he2
        rcases he2 with he2 | he2
        · exact h e2 he2 hx2
        · exact absurd (he2 ▸ hx2) hx
    have hin : ∀ s : Sighting, s.ctg = x → (s ∈ E ++ [e] ↔ s ∈ E) := by
      intro s hs
      rw [List.mem_append, List.mem_singleton]
      constructor
      · rintro (h | h)
        · exact h
        · exact absurd (h ▸ hs) hx
      · exact Or.inl
    have hamb : AmbiguousIn (E ++ [e]) x ↔ AmbiguousIn E x := by
      unfold AmbiguousIn
      rw [hin (Sighting.selfLink x) rfl]
      constructor
      · rintro (h | ⟨t₁, t₂, hne, a, b⟩)
        · exact Or.inl h
        · exact Or.inr ⟨t₁, t₂, hne, (hin (Sighting.ending x t₁) rfl).mp a,
            (hin (Sighting.ending x t₂) rfl).mp b⟩
      · rintro (h | ⟨t₁, t₂, hne, a, b⟩)
        · exact Or.inl h
        · exact Or.inr ⟨t₁, t₂, hne, (hin (Sighting.ending x t₁) rfl).mpr a,
            (hin (Sighting.ending x t₂) rfl).mpr b⟩
    rw [DirectInv, hm, hc, hamb]
    refine ⟨?_, ?_, h3⟩
    · intro h
      exact h1 (fun e2 he2 => h e2 (List.mem_append_left _ he2))
    · intro t ht hall
      exact h2 t ((hin (Sighting.ending x t) rfl).mp ht) (fun e2 he2 => hall e2 (List.mem_append_left _ he2))

theorem directInv_foldl (F : List Sighting) (x : Int) :
    ∀ (E : List Sighting) (st : Direct), DirectInv E st x →
      DirectInv (E ++ F) (F.foldl sightingStep st) x := by
  induction F with
  | nil => intro E st h; simpa using h
  | cons e rest ih =>
    intro E st h
    have := ih (E ++ [e]) (sightingStep st e) (directInv_step E st x e h)
    simpa using this

/-- After the scan a node stands at least twice in `mainseeds` exactly when it is ambiguous. -/
theorem count_directScan (links : List BFSlinks) (x : Int) :
    2 ≤ (directScan links).count x ↔ AmbiguousIn (links.flatMap sightings) x := by
  have h0 : DirectInv [] ⟨[], fun _ => none⟩ x := by
    refine ⟨fun _ => ⟨rfl, rfl⟩, fun t ht => by simp at ht, ?_⟩
    rintro (h | ⟨_, _, _, h, _⟩) <;> simp at h
  have h := directInv_foldl (links.flatMap sightings) x [] _ h0
  rw [List.nil_append, ← foldl_directStep_eq] at h
  obtain ⟨h1, h2, h3⟩ := h
  constructor
  · intro hc
    by_contra hna
    rcases not_ambiguousIn_cases _ x hna with hnone | ⟨t, ht, hall⟩
    · have := (h1 hnone).2
      unfold directScan at hc
      omega
    · have := (h2 t ht hall).2
      unfold directScan at hc
      omega
  · exact h3

theorem mem_flatMap_sightings_self (links : List BFSlinks) (x : Int) :
    Sighting.selfLink x ∈ links.flatMap sightings ↔
      ∃ l ∈ links, l.lctgsmp = x ∧ l.rctgsmp = x := by
  rw [List.mem_flatMap]
  constructor
  · rintro ⟨l, hl, hs⟩
    unfold sightings at hs
    by_cases h : l.lctgsmp ≠ l.rctgsmp
    · rw [if_pos h] at hs; simp at hs
    · rw [if_neg h] at hs
      simp only [List.mem_singleton, Sighting.selfLink.injEq] at hs
      push_neg at h
      exact ⟨l, hl, hs.symm, by rw [← h, hs]⟩
  · rintro ⟨l, hl, h1, h2⟩
    refine ⟨l, hl, ?_⟩
    unfold sightings
    rw [if_neg (by rw [h1, h2]; simp)]
    simp [h1]

theorem mem_flatMap_sightings_ending (links : List BFSlinks) (x t : Int) :
    Sighting.ending x t ∈ links.flatMap sightings ↔
      ∃ l ∈ links, l.lctgsmp ≠ l.rctgsmp ∧
        ((l.lctgsmp = x ∧ l.lutrsmp = t) ∨ (l.rctgsmp = x ∧ l.rutrsmp = t)) := by
  rw [List.mem_flatMap]
  constructor
  · rintro ⟨l, hl, hs⟩
    unfold sightings at hs
    by_cases h : l.lctgsmp ≠ l.rctgsmp
    · rw [if_pos h] at hs
      simp only [List.mem_cons, Sighting.ending.injEq, List.mem_singleton, List.mem_nil_iff,
        or_false] at hs
      refine ⟨l, hl, h, ?_⟩
      rcases hs with ⟨a, b⟩ | ⟨a, b⟩
      · exact Or.inl ⟨a.symm, b.symm⟩
      · exact Or.inr ⟨a.symm, b.symm⟩
    · rw [if_neg h] at hs; simp at hs
  · rintro ⟨l, hl, h, hs⟩
    refine ⟨l, hl, ?_⟩
    unfold sightings
    rw [if_pos h]
    rcases hs with ⟨a, b⟩ | ⟨a, b⟩
    · simp [a, b]
    · simp [a, b]

theorem ambiguousIn_iff (links : List BFSlinks) (x : Int) :
    AmbiguousIn (links.flatMap sightings) x ↔ Ambiguous links x := by
  unfold AmbiguousIn Ambiguous
  rw [mem_flatMap_sightings_self]
  constructor
  · rintro (h | ⟨t₁, t₂, hne, h1, h2⟩)
    · exact Or.inr h
    · rw [mem_flatMap_sightings_ending] at h1 h2
      obtain ⟨l1, hl1, _, ho1⟩ := h1
      obtain ⟨l2, hl2, _, ho2⟩ := h2
      exact Or.inl ⟨t₁, t₂, hne, ⟨l1, hl1, ho1⟩, ⟨l2, hl2, ho2⟩⟩
  · rintro (⟨t₁, t₂, hne, ⟨l1, hl1, ho1⟩, ⟨l2, hl2, ho2⟩⟩ | h)
    · by_cases s1 : l1.lctgsmp = l1.rctgsmp
      · left
        refine ⟨l1, hl1, ?_⟩
        rcases ho1 with ⟨a, _⟩ | ⟨a, _⟩
        · exact ⟨a, s1 ▸ a⟩
        · exact ⟨s1 ▸ a, a⟩
      · by_cases s2 : l2.lctgsmp = l2.rctgsmp
        · left
          refine ⟨l2, hl2, ?_⟩
          rcases ho2 with ⟨a, _⟩ | ⟨a, _⟩
          · exact ⟨a, s2 ▸ a⟩
          · exact ⟨s2 ▸ a, a⟩
        · right
          refine ⟨t₁, t₂, hne, ?_, ?_⟩
          · rw [mem_flatMap_sightings_ending]; exact ⟨l1, hl1, s1, ho1⟩
          · rw [mem_flatMap_sightings_ending]; exact ⟨l2, hl2, s2, ho2⟩
    · exact Or.inl h

theorem sightingStep_length_le (st : Direct) (e : Sighting) :
    st.mainseeds.length ≤ (sightingStep st e).mainseeds.length := by
  cases e with
  | ending c u =>
    simp only [sightingStep, directEnd]
    split
    · split
      · simp
      · exact le_refl _
    · simp
  | selfLink c => simp [sightingStep, directSelf]

theorem foldl_sightingStep_length_le (F : List Sighting) :
    ∀ st : Direct, st.mainseeds.length ≤ (F.foldl sightingStep st).mainseeds.length := by
  induction F with
  | nil => intro st; exact le_refl _
  | cons e rest ih =>
    intro st
    exact le_trans (sightingStep_length_le st e) (ih _)

/-- The scan of a non-empty link list leaves at least two entries. -/
theorem directScan_length (links : List BFSlinks) (h : links ≠ []) :
    2 ≤ (directScan links).length := by
  cases links with
  | nil => exact absurd rfl h
  | cons l rest =>
    unfold directScan
    rw [List.foldl_cons, foldl_directStep_eq]
    refine le_trans ?_ (foldl_sightingStep_length_le _ _)
    unfold directStep
    by_cases hs : l.lctgsmp ≠ l.rctgsmp
    · have hs2 : ¬ l.rctgsmp = l.lctgsmp := fun e => hs e.symm
      simp [if_pos hs, directEnd, Function.update_noteq hs2]
    · simp [if_neg hs, directSelf]

theorem directScan_nil : directScan [] = [] := rfl

/-- After `removeUnique` the array `mainseeds` holds exactly the ambiguous nodes. -/
theorem mem_removeUnique_directScan (links : List BFSlinks) (x : Int) :
    x ∈ removeUnique (directScan links) ↔ Ambiguous links x := by
  rw [← ambiguousIn_iff, ← count_directScan]
  apply mem_removeUnique
  by_cases h : links = []
  · subst h; simp [directScan_nil]
  · have := directScan_length links h
    omega

/-! ### C13: the backbone is a fixpoint of the round rule -/

theorem maingraphLoop_total (ctg_depth : Int → CtgDepth) (rm_ctg : List Int) (filter_depth : ℚ) :
    ∀ (fuel : Nat) (templinks : List BFSlinks), templinks.length < fuel →
      ∃ r, maingraphLoop ctg_depth rm_ctg filter_depth fuel templinks = some r := by
  intro fuel
  induction fuel with
  | zero => intro templinks h; omega
  | succ fuel ih =>
    intro templinks h
    rw [maingraphLoop]
    by_cases h0 : (directScan templinks).length = 0
    · rw [if_pos h0]; exact ⟨_, rfl⟩
    · rw [if_neg h0]
      simp only
      split
      · exact ⟨_, rfl⟩
      · rename_i hne
        apply ih
        have := List.length_filter_le (fun l => decide (mainKeeps ctg_depth
          (removeUnique (directScan templinks)) rm_ctg filter_depth l)) templinks
        omega

theorem maingraphLoop_spec (ctg_depth : Int → CtgDepth) (rm_ctg : List Int) (filter_depth : ℚ) :
    ∀ (fuel : Nat) (templinks mainlinks : List BFSlinks) (mainseeds : List Int),
      maingraphLoop ctg_depth rm_ctg filter_depth fuel templinks = some (mainlinks, mainseeds) →
      mainseeds ≠ [] →
      (∀ l ∈ mainlinks, mainKeeps ctg_depth mainseeds rm_ctg filter_depth l) ∧
      mainseeds = removeUnique (directScan mainlinks) ∧ mainlinks.Sublist templinks := by
  intro fuel
  induction fuel with
  | zero => intro templinks mainlinks mainseeds h; simp [maingraphLoop] at h
  | succ fuel ih =>
    intro templinks mainlinks mainseeds h hne
    rw [maingraphLoop] at h
    by_cases h0 : (directScan templinks).length = 0
    · rw [if_pos h0] at h
      simp only [Option.some.injEq, Prod.mk.injEq] at h
      exact absurd (h.2 ▸ List.length_eq_zero.mp h0) hne
    · rw [if_neg h0] at h
      simp only at h
      split at h
      · rename_i hlen
        simp only [Option.some.injEq, Prod.mk.injEq] at h
        obtain ⟨h1, h2⟩ := h
        have hall := List.filter_eq_self.mp
          ((List.filter_sublist _).eq_of_length hlen)
        have hml : mainlinks = templinks := by
          rw [← h1]; exact (List.filter_sublist _).eq_of_length hlen
        subst hml
        refine ⟨?_, h2.symm, List.Sublist.refl _⟩
        intro l hl
        rw [← h2]
        exact of_decide_eq_true (hall l hl)
      · obtain ⟨a, b, c⟩ := ih _ mainlinks mainseeds h hne
        exact ⟨a, b, c.trans (List.filter_sublist _)⟩

/-- C13: `maingraph` always returns, and when the backbone it returns is not empty, every
returned link has both endpoints in the returned node set, both endpoint depths at least
`filter_depth` and no endpoint in the excluded list `rm_ctg`; the returned nodes are exactly
the nodes that occur among the returned links with two different termini or in a self-link
(so each is an endpoint of a returned link), no node is returned twice, and the returned links
are a sub-list of the input links in their order. -/
theorem maingraph_backbone_is_fixpoint (bfslinks : List BFSlinks) (ctg_depth : Int → CtgDepth)
    (rm_ctg : List Int) (filter_depth : ℚ) :
    (∃ r, maingraph bfslinks ctg_depth rm_ctg filter_depth = some r) ∧
    ∀ mainlinks mainseeds,
      maingraph bfslinks ctg_depth rm_ctg filter_depth = some (mainlinks, mainseeds) →
      mainseeds ≠ [] →
      (∀ l ∈ mainlinks, l.lctgsmp ∈ mainseeds ∧ l.rctgsmp ∈ mainseeds ∧
        filter_depth ≤ (ctg_depth (l.lctgsmp - 1)).depth ∧
        filter_depth ≤ (ctg_depth (l.rctgsmp - 1)).depth ∧
        l.lctgsmp ∉ rm_ctg ∧ l.rctgsmp ∉ rm_ctg) ∧
      (∀ x ∈ mainseeds, (∃ l ∈ mainlinks, l.lctgsmp = x ∨ l.rctgsmp = x) ∧
        Ambiguous mainlinks x) ∧
      (∀ x, Ambiguous mainlinks x → x ∈ mainseeds) ∧
      mainseeds.Nodup ∧ mainlinks.Sublist bfslinks := by
  constructor
  · obtain ⟨r, hr⟩ := maingraphLoop_total ctg_depth rm_ctg filter_depth (bfslinks.length + 1)
      bfslinks (Nat.lt_succ_self _)
    exact ⟨_, by rw [maingraph, hr]; rfl⟩
  · intro mainlinks mainseeds h hne
    unfold maingraph at h
    cases hr : maingraphLoop ctg_depth rm_ctg filter_depth (bfslinks.length + 1) bfslinks with
    | none => rw [hr] at h; simp at h
    | some r =>
      obtain ⟨ml, ms⟩ := r
      rw [hr] at h
      simp only [Option.map_some', Option.some.injEq, Prod.mk.injEq] at h
      obtain ⟨h1, h2⟩ := h
      subst h1
      have hmem : ∀ x, x ∈ mainseeds ↔ x ∈ ms := fun x => by rw [← h2]; exact mem_removeDup ms x
      have hms : ms ≠ [] := by
        intro e
        rw [e] at h2
        exact hne h2.symm
      obtain ⟨hk, hs, hsub⟩ := maingraphLoop_spec ctg_depth rm_ctg filter_depth _ bfslinks ml ms
        hr hms
      have hamb : ∀ x, x ∈ mainseeds ↔ Ambiguous ml x := by
        intro x
        rw [hmem, hs]
        exact mem_removeUnique_directScan ml x
      refine ⟨?_, ?_, fun x hx => (hamb x).mpr hx, h2 ▸ removeDup_nodup ms, hsub⟩
      · intro l hl
        obtain ⟨a, b, c, d, e, f⟩ := hk l hl
        refine ⟨(hmem _).mpr ((findint_eq_one_iff _ _).mp a),
          (hmem _).mpr ((findint_eq_one_iff _ _).mp b), e, f,
          (findint_eq_zero_iff _ _).mp c, (findint_eq_zero_iff _ _).mp d⟩
      · intro x hx
        have ha := (hamb x).mp hx
        refine ⟨?_, ha⟩
        rcases ha with ⟨t₁, _, _, ⟨l, hl, ho⟩, _⟩ | ⟨l, hl, a, _⟩
        · exact ⟨l, hl, ho.elim (fun h => Or.inl h.1) (fun h => Or.inr h.1)⟩
        · exact ⟨l, hl, Or.inl a⟩

/-- Witness of C13 on the circle 1 - 2 - 3 with the tail 3 - 4: the tail link is dropped. -/
theorem maingraph_backbone_is_fixpoint_witness :
    (∀ l ∈ tailedCircle.take 2 ++ tailedCircle.drop 3,
      l.lctgsmp ∈ [1, 2, 3] ∧ l.rctgsmp ∈ [1, 2, 3] ∧
        (2 : ℚ) ≤ (flatTable (l.lctgsmp - 1)).depth ∧
        (2 : ℚ) ≤ (flatTable (l.rctgsmp - 1)).depth ∧
        l.lctgsmp ∉ ([] : List Int) ∧ l.rctgsmp ∉ ([] : List Int)) ∧
    (∀ x ∈ [1, 2, 3], (∃ l ∈ tailedCircle.take 2 ++ tailedCircle.drop 3,
        l.lctgsmp = x ∨ l.rctgsmp = x) ∧
      Ambiguous (tailedCircle.take 2 ++ tailedCircle.drop 3) x) ∧
    (∀ x, Ambiguous (tailedCircle.take 2 ++ tailedCircle.drop 3) x → x ∈ [1, 2, 3]) ∧
    [(1 : Int), 2, 3].Nodup ∧ (tailedCircle.take 2 ++ tailedCircle.drop 3).Sublist tailedCircle :=
  (maingraph_backbone_is_fixpoint tailedCircle flatTable [] 2).2
    (tailedCircle.take 2 ++ tailedCircle.drop 3) [1, 2, 3] (by decide!) (by decide)

/-! ### Lemmas on `node_recursive` -/

theorem getD_set_true (used : List Bool) (i j : Nat) (h : used.getD j false = true) :
    (used.set i true).getD j false = true := by
  by_cases e : i = j
  · subst e
    have hi : i < used.length := by
      by_contra hn
      rw [List.getD_eq_default _ _ (by omega)] at h
      cases h
    simp [List.getD_eq_getElem?_getD, List.getElem?_set_self, hi]
  · rw [List.getD_eq_getElem?_getD, List.getElem?_set_ne e, ← List.getD_eq_getElem?_getD]
    exact h

theorem getD_set_self (used : List Bool) (i : Nat) (h : i < used.length) :
    (used.set i true).getD i false = true := by
  simp [List.getD_eq_getElem?_getD, List.getElem?_set_self, h]

theorem count_false_set (used : List Bool) :
    ∀ i, i < used.length → used.getD i false = false →
      (used.set i true).count false + 1 = used.count false := by
  induction used with
  | nil => intro i h; simp at h
  | cons b rest ih =>
    intro i h hu
    cases i with
    | zero =>
      simp at hu
      subst hu
      simp
    | succ i =>
      have := ih i (by simpa using h) (by simpa using hu)
      cases b <;> simp [List.count_cons] <;> omega

theorem unusedLinks_set (links : List BFSlinks) :
    ∀ (used : List Bool) (i : Nat) (l : BFSlinks), links[i]? = some l → i < used.length →
      used.getD i false = false →
      (l :: unusedLinks links (used.set i true)).Perm (unusedLinks links used) := by
  induction links with
  | nil => intro used i l h; simp at h
  | cons a rest ih =>
    intro used i l h hi hu
    cases used with
    | nil => simp at hi
    | cons b bs =>
      cases i with
      | zero =>
        simp at h hu
        subst h hu
        simp [unusedLinks]
      | succ i =>
        have := ih bs i l (by simpa using h) (by simpa using hi) (by simpa using hu)
        cases b
        · simp only [unusedLinks, List.set_cons_succ, List.headD_cons, List.tail_cons,
            Bool.false_eq_true, if_false]
          exact (List.Perm.swap a l _).trans (this.cons a)
        · simpa [unusedLinks] using this

theorem unusedLinks_eq_nil (links : List BFSlinks) :
    ∀ used : List Bool, (∀ j l, links[j]? = some l → used.getD j false = true) →
      unusedLinks links used = [] := by
  induction links with
  | nil => intro used _; rfl
  | cons a rest ih =>
    intro used h
    have h0 := h 0 a (by simp)
    have hrest := ih used.tail (fun j l hj => by
      have := h (j + 1) l (by simpa using hj)
      cases used with
      | nil => simp at this
      | cons b bs => simpa using this)
    cases used with
    | nil => simp at h0
    | cons b bs =>
      simp at h0
      subst h0
      simpa [unusedLinks] using hrest

theorem unusedLinks_replicate (links : List BFSlinks) :
    ∀ n, unusedLinks links (List.replicate n false) = links := by
  induction links with
  | nil => intro n; rfl
  | cons a rest ih =>
    intro n
    cases n with
    | zero =>
      have := ih 0
      simp only [List.replicate_zero] at this
      simp [unusedLinks, this]
    | succ n => simp [unusedLinks, List.replicate_succ, ih n]

theorem joined_symm (links : List BFSlinks) (a b : Int) (h : Joined links a b) :
    Joined links b a := by
  induction h with
  | refl => exact Relation.ReflTransGen.refl
  | tail _ hl ih =>
    obtain ⟨l, hl, ho⟩ := hl
    exact Relation.ReflTransGen.head ⟨l, hl, ho.symm⟩ ih

theorem walked_nil (links : List BFSlinks) (node : Int) (i : Nat) (w : Walk)
    (hlen : w.link_used.length = links.length) (hi : links.length ≤ i) :
    Walked links node i w w [] where
  len := hlen
  mono := fun _ h => h
  count_le := le_refl _
  visited := by simp
  closed := fun x hx => by simp at hx
  here := fun j l hj hl => by
    have := List.getElem?_eq_none (show links.length ≤ j by omega)
    rw [this] at hl; cases hl
  taken := ⟨[], by simp, by simp, by simp⟩
  nodes := by simp
  nodup := fun h => h
  joined := fun x hx => by simp at hx
  fresh := fun x hx => by simp at hx

theorem walked_skip (links : List BFSlinks) (node : Int) (i : Nat) (w w₃ : Walk) (A : List Int)
    (l : BFSlinks) (hl : links[i]? = some l)
    (hs : w.link_used.getD i false = true ∨ ¬ Touches l node)
    (h : Walked links node (i + 1) w w₃ A) : Walked links node i w w₃ A :=
  { h with
    here := fun j l2 hj hl2 ht => by
      by_cases e : j = i
      · subst e
        rw [hl] at hl2
        cases hl2
        rcases hs with hs | hs
        · exact h.mono _ hs
        · exact absurd ht hs
      · exact h.here j l2 (by omega) hl2 ht }

theorem walked_take (links : List BFSlinks) (node other : Int) (i : Nat) (w w₂ w₃ : Walk)
    (A₂ A₃ : List Int) (l : BFSlinks) (hl : links[i]? = some l)
    (hlen : w.link_used.length = links.length)
    (hun : w.link_used.getD i false = false)
    (hadj : (l.lctgsmp = node ∧ l.rctgsmp = other) ∨ (l.lctgsmp = other ∧ l.rctgsmp = node))
    (h2 : Walked links other 0
      { takeLink w i l other with
        visited_nodes := (takeLink w i l other).visited_nodes ++ [other] } w₂ A₂)
    (h3 : Walked links node (i + 1) w₂ w₃ A₃) :
    Walked links node i w w₃ (other :: A₂ ++ A₃) := by
  have hi : i < links.length := by
    by_contra hn
    rw [List.getElem?_eq_none (by omega)] at hl; cases hl
  have hiu : i < w.link_used.length := by omega
  have hmono1 : ∀ j, w.link_used.getD j false = true →
      (w.link_used.set i true).getD j false = true := fun j => getD_set_true _ i j
  have hlink : Linked links node other := ⟨l, List.mem_iff_getElem?.mpr ⟨i, hl⟩, hadj⟩
  have htouch_other : Touches l other := by
    rcases hadj with h | h
    · exact Or.inr h.2
    · exact Or.inl h.1
  obtain ⟨T₂, hT2, hP2, hE2⟩ := h2.taken
  obtain ⟨T₃, hT3, hP3, hE3⟩ := h3.taken
  refine
    { len := h3.len
      mono := fun j hj => h3.mono j (h2.mono j (hmono1 j hj))
      count_le := ?_
      visited := ?_
      closed := ?_
      here := ?_
      taken := ⟨l :: T₂ ++ T₃, ?_, ?_, ?_⟩
      nodes := ?_
      nodup := ?_
      joined := ?_
      fresh := ?_ }
  · have := count_false_set w.link_used i hiu hun
    have a := h2.count_le
    have b := h3.count_le
    simp only [takeLink] at a
    omega
  · rw [h3.visited, h2.visited]
    simp [takeLink]
  · intro x hx j l2 hj ht
    simp only [List.cons_append, List.mem_cons, List.mem_append] at hx
    rcases hx with hx | hx | hx
    · subst hx
      exact h3.mono j (h2.here j l2 (Nat.zero_le _) hj ht)
    · exact h3.mono j (h2.closed x hx j l2 hj ht)
    · exact h3.closed x hx j l2 hj ht
  · intro j l2 hij hj ht
    by_cases e : j = i
    · subst e
      exact h3.mono j (h2.mono j (getD_set_self _ j hiu))
    · exact h3.here j l2 (by omega) hj ht
  · rw [hT3, hT2]
    simp [takeLink]
  · have hP1 := unusedLinks_set links w.link_used i l hl hiu hun
    simp only [takeLink] at hP2
    have : (l :: T₂ ++ T₃ ++ unusedLinks links w₃.link_used).Perm
        (l :: (T₂ ++ unusedLinks links w₂.link_used)) := by
      simp only [List.cons_append, List.append_assoc]
      exact (List.Perm.append_left T₂ hP3).cons l
    exact this.trans ((hP2.cons l).trans hP1)
  · intro l2 hl2
    simp only [List.cons_append, List.mem_cons, List.mem_append] at hl2 ⊢
    rcases hl2 with hl2 | hl2 | hl2
    · subst hl2
      rcases hadj with h | h
      · exact ⟨Or.inl h.1, Or.inr (Or.inl h.2)⟩
      · exact ⟨Or.inr (Or.inl h.1), Or.inl h.2⟩
    · obtain ⟨a, b⟩ := hE2 l2 hl2
      exact ⟨Or.inr (a.elim Or.inl (fun h => Or.inr (Or.inl h))),
        Or.inr (b.elim Or.inl (fun h => Or.inr (Or.inl h)))⟩
    · obtain ⟨a, b⟩ := hE3 l2 hl2
      exact ⟨a.elim Or.inl (fun h => Or.inr (Or.inr (Or.inr h))),
        b.elim Or.inl (fun h => Or.inr (Or.inr (Or.inr h)))⟩
  · intro x
    rw [h3.nodes, h2.nodes]
    simp only [takeLink, List.cons_append, List.mem_cons, List.mem_append]
    by_cases hf : findint w.temp_node other = 0
    · rw [if_pos hf]
      simp only [List.mem_append, List.mem_singleton]
      tauto
    · rw [if_neg hf]
      have hmem : other ∈ w.temp_node := by
        by_contra hn
        exact hf ((findint_eq_zero_iff _ _).mpr hn)
      constructor
      · tauto
      · rintro (h | h | h | h)
        · exact Or.inl (Or.inl h)
        · exact Or.inl (Or.inl (h ▸ hmem))
        · exact Or.inl (Or.inr h)
        · exact Or.inr h
  · intro hn
    apply h3.nodup
    apply h2.nodup
    simp only [takeLink]
    by_cases hf : findint w.temp_node other = 0
    · rw [if_pos hf]
      have hnm := (findint_eq_zero_iff _ _).mp hf
      rw [List.nodup_append]
      exact ⟨hn, List.nodup_singleton _, by
        intro x hx hx2
        rw [List.mem_singleton] at hx2
        exact hnm (hx2 ▸ hx)⟩
    · rw [if_neg hf]; exact hn
  · intro x hx
    simp only [List.cons_append, List.mem_cons, List.mem_append] at hx
    have hno : Joined links node other := Relation.ReflTransGen.single hlink
    rcases hx with hx | hx | hx
    · subst hx; exact hno
    · exact hno.trans (h2.joined x hx)
    · exact h3.joined x hx
  · intro x hx
    simp only [List.cons_append, List.mem_cons, List.mem_append] at hx
    rcases hx with hx | hx | hx
    · subst hx
      exact ⟨i, l, hl, htouch_other, hun⟩
    · obtain ⟨j, l2, a, b, c⟩ := h2.fresh x hx
      refine ⟨j, l2, a, b, ?_⟩
      simp only [takeLink] at c
      by_contra hc
      rw [Bool.not_eq_false] at hc
      rw [hmono1 j hc] at c
      cases c
    · obtain ⟨j, l2, a, b, c⟩ := h3.fresh x hx
      refine ⟨j, l2, a, b, ?_⟩
      by_contra hc
      rw [Bool.not_eq_false] at hc
      have := h2.mono j (hmono1 j hc)
      rw [this] at c
      cases c

theorem scanLinks_walked (links : List BFSlinks) (recurse : Int → Walk → Option Walk)
    (fuel : Nat)
    (hrec : ∀ node w, w.link_used.length = links.length → w.link_used.count false < fuel →
      ∃ w₂ A, recurse node w = some w₂ ∧
        Walked links node 0 { w with visited_nodes := w.visited_nodes ++ [node] } w₂ A)
    (node : Int) :
    ∀ (rest : List BFSlinks) (i : Nat) (w : Walk), links.drop i = rest →
      w.link_used.length = links.length → w.link_used.count false ≤ fuel →
      ∃ w₂ A, scanLinks recurse node i rest w = some w₂ ∧ Walked links node i w w₂ A := by
  intro rest
  induction rest with
  | nil =>
    intro i w hd hlen _
    have hi : links.length ≤ i := List.drop_eq_nil_iff.mp hd
    exact ⟨w, [], rfl, walked_nil links node i w hlen hi⟩
  | cons l rest ih =>
    intro i w hd hlen hc
    have hl : links[i]? = some l := by
      rw [← List.head?_drop, hd]; rfl
    have hd2 : links.drop (i + 1) = rest := by
      rw [← List.drop_drop, hd]; rfl
    have hi : i < links.length := by
      by_contra hn
      rw [List.getElem?_eq_none (by omega)] at hl; cases hl
    have htake : ∀ other,
        ((l.lctgsmp = node ∧ l.rctgsmp = other) ∨ (l.lctgsmp = other ∧ l.rctgsmp = node)) →
        w.link_used.getD i false = false →
        ∃ w₃ A, (match recurse other (takeLink w i l other) with
          | none => none
          | some w₂ => scanLinks recurse node (i + 1) rest w₂) = some w₃ ∧
          Walked links node i w w₃ A := by
      intro other hadj hun
      have hc1 := count_false_set w.link_used i (by omega) hun
      obtain ⟨w₂, A₂, e2, h2⟩ := hrec other (takeLink w i l other)
        (by simp [takeLink, hlen]) (by simp only [takeLink]; omega)
      have hc2 := h2.count_le
      simp only [takeLink] at hc2
      obtain ⟨w₃, A₃, e3, h3⟩ := ih (i + 1) w₂ hd2 h2.len (by omega)
      refine ⟨w₃, other :: A₂ ++ A₃, ?_, walked_take links node other i w w₂ w₃ A₂ A₃ l hl
        hlen hun hadj h2 h3⟩
      rw [e2]; exact e3
    rw [scanLinks]
    by_cases hu : w.link_used.getD i false = true
    · rw [if_pos hu]
      obtain ⟨w₃, A, e3, h3⟩ := ih (i + 1) w hd2 hlen hc
      exact ⟨w₃, A, e3, walked_skip links node i w w₃ A l hl (Or.inl hu) h3⟩
    · rw [if_neg hu]
      have hun : w.link_used.getD i false = false := by simpa using hu
      by_cases ha : l.lctgsmp = node
      · rw [if_pos ha]
        exact htake l.rctgsmp (Or.inl ⟨ha, rfl⟩) hun
      · rw [if_neg ha]
        by_cases hb : l.rctgsmp = node
        · rw [if_pos hb]
          exact htake l.lctgsmp (Or.inr ⟨rfl, hb⟩) hun
        · rw [if_neg hb]
          obtain ⟨w₃, A, e3, h3⟩ := ih (i + 1) w hd2 hlen hc
          refine ⟨w₃, A, e3, walked_skip links node i w w₃ A l hl (Or.inr ?_) h3⟩
          rintro (h | h)
          · exact ha h
          · exact hb h

/-- With more fuel than unused links `node_recursive` returns, and its run has the
effects collected in `Walked`. -/
theorem node_recursive_walked (links : List BFSlinks) :
    ∀ (fuel : Nat) (node : Int) (w : Walk), w.link_used.length = links.length →
      w.link_used.count false < fuel →
      ∃ w₂ A, node_recursive links fuel node w = some w₂ ∧
        Walked links node 0 { w with visited_nodes := w.visited_nodes ++ [node] } w₂ A := by
  intro fuel
  induction fuel with
  | zero => intro node w _ h; omega
  | succ fuel ih =>
    intro node w hlen hc
    rw [node_recursive]
    exact scanLinks_walked links (node_recursive links fuel) fuel ih node links 0 _
      (by simp) hlen (by simpa using Nat.lt_succ_iff.mp hc)

/-! ### Lemmas on `bfs_structure` -/

theorem decompInv_init (links : List BFSlinks) :
    DecompInv links [] ⟨List.replicate links.length false, [], []⟩ where
  len := by simp
  closed := fun x hx => by simp at hx
  perm := by simp [unusedLinks_replicate]
  seen := fun x hx => by simp at hx
  members := by simp
  nodup := by simp
  inside := fun s hs => by simp at hs
  rooted := fun s hs => by simp at hs

theorem decompInv_step (links : List BFSlinks) (P : List Int) (d : Decomp) (node : Int)
    (h : DecompInv links P d) :
    ∃ d₂, bfs_structure_step links d node = some d₂ ∧ DecompInv links (P ++ [node]) d₂ := by
  unfold bfs_structure_step
  by_cases hv : findint d.visited_nodes node = 0
  · rw [if_pos hv]
    have hnv : node ∉ d.visited_nodes := (findint_eq_zero_iff _ _).mp hv
    obtain ⟨w, A, e, hw⟩ := node_recursive_walked links (links.length + 1) node
      ⟨d.link_used, d.visited_nodes, [], [node]⟩ h.len (by
        have := List.count_le_length false d.link_used
        have := h.len
        simp only at *
        omega)
    rw [e]
    refine ⟨_, rfl, ?_⟩
    obtain ⟨T, hT, hP, hE⟩ := hw.taken
    simp only [List.nil_append] at hT
    have hvis : w.visited_nodes = d.visited_nodes ++ node :: A := by
      rw [hw.visited]; simp
    have hnode : ∀ x, x ∈ w.temp_node ↔ x = node ∨ x ∈ A := by
      intro x; rw [hw.nodes]; simp
    have hfresh : ∀ x ∈ w.temp_node, x ∉ d.visited_nodes := by
      intro x hx hxv
      rcases (hnode x).mp hx with rfl | hxA
      · exact hnv hxv
      · obtain ⟨j, l, a, b, c⟩ := hw.fresh x hxA
        have := h.closed x hxv j l a b
        simp only at c
        rw [this] at c
        cases c
    refine
      { len := hw.len
        closed := ?_
        perm := ?_
        seen := ?_
        members := ?_
        nodup := ?_
        inside := ?_
        rooted := ?_ }
    · intro x hx j l hj ht
      simp only [hvis, List.mem_append, List.mem_cons] at hx
      rcases hx with hx | hx | hx
      · exact hw.mono j (h.closed x hx j l hj ht)
      · subst hx; exact hw.here j l (Nat.zero_le _) hj ht
      · exact hw.closed x hx j l hj ht
    · simp only [List.flatMap_append, List.flatMap_cons, List.flatMap_nil, List.append_nil,
        List.append_assoc, hT]
      exact (List.Perm.append_left _ hP).trans h.perm
    · intro x hx
      simp only [hvis, List.mem_append, List.mem_cons, List.mem_singleton] at hx ⊢
      rcases hx with hx | hx | hx
      · exact Or.inl (h.seen x hx)
      · exact Or.inr (Or.inl hx)
      · simp at hx
    · intro x
      simp only [hvis, List.flatMap_append, List.flatMap_cons, List.flatMap_nil,
        List.append_nil, List.mem_append, List.mem_cons, hnode, h.members]
    · simp only [List.flatMap_append, List.flatMap_cons, List.flatMap_nil, List.append_nil]
      rw [List.nodup_append]
      refine ⟨h.nodup, hw.nodup (List.nodup_singleton _), ?_⟩
      intro x hx hx2
      exact hfresh x hx2 ((h.members x).mpr hx)
    · intro s hs l hl
      rw [List.mem_append, List.mem_singleton] at hs
      rcases hs with hs | hs
      · exact h.inside s hs l hl
      · subst hs
        simp only [hT] at hl
        obtain ⟨a, b⟩ := hE l hl
        exact ⟨(hnode _).mpr a, (hnode _).mpr b⟩
    · intro s hs
      rw [List.mem_append, List.mem_singleton] at hs
      rcases hs with hs | hs
      · obtain ⟨r, a, b, c⟩ := h.rooted s hs
        exact ⟨r, a, List.mem_append_left _ b, c⟩
      · subst hs
        refine ⟨node, (hnode node).mpr (Or.inl rfl), by simp, ?_⟩
        intro x hx
        rcases (hnode x).mp hx with rfl | hxA
        · exact Relation.ReflTransGen.refl
        · exact hw.joined x hxA
  · rw [if_neg hv]
    refine ⟨d, rfl, { h with seen := ?_, rooted := ?_ }⟩
    · intro x hx
      rw [List.mem_append, List.mem_singleton] at hx
      rcases hx with hx | hx
      · exact h.seen x hx
      · subst hx
        by_contra hn
        exact hv ((findint_eq_zero_iff _ _).mpr hn)
    · intro s hs
      obtain ⟨r, a, b, c⟩ := h.rooted s hs
      exact ⟨r, a, List.mem_append_left _ b, c⟩

theorem decompInv_foldlM (links : List BFSlinks) (nodes : List Int) :
    ∀ (P : List Int) (d : Decomp), DecompInv links P d →
      ∃ d₂, nodes.foldlM (bfs_structure_step links) d = some d₂ ∧
        DecompInv links (P ++ nodes) d₂ := by
  induction nodes with
  | nil => intro P d h; exact ⟨d, rfl, by simpa using h⟩
  | cons a rest ih =>
    intro P d h
    obtain ⟨d₁, e1, h1⟩ := decompInv_step links P d a h
    obtain ⟨d₂, e2, h2⟩ := ih (P ++ [a]) d₁ h1
    refine ⟨d₂, ?_, by simpa using h2⟩
    rw [List.foldlM_cons, e1]
    exact e2

theorem scanLinks_records (recurse : Int → Walk → Option Walk) (node : Int)
    (hrec : ∀ n w w₂, recurse n w = some w₂ →
      w₂.visited_nodes.length + w.tempBFSlinks.length =
        w.visited_nodes.length + 1 + w₂.tempBFSlinks.length) :
    ∀ (rest : List BFSlinks) (i : Nat) (w w₂ : Walk),
      scanLinks recurse node i rest w = some w₂ →
      w₂.visited_nodes.length + w.tempBFSlinks.length =
        w.visited_nodes.length + w₂.tempBFSlinks.length := by
  intro rest
  induction rest with
  | nil =>
    intro i w w₂ h
    simp only [scanLinks, Option.some.injEq] at h
    subst h
    rfl
  | cons l rest ih =>
    intro i w w₂ h
    rw [scanLinks] at h
    split_ifs at h with h1 h2 h3
    · exact ih _ _ _ h
    · cases hr : recurse l.rctgsmp (takeLink w i l l.rctgsmp) with
      | none => rw [hr] at h; simp at h
      | some w₁ =>
        rw [hr] at h
        have a := hrec _ _ _ hr
        have b := ih _ _ _ h
        simp only [takeLink, List.length_append, List.length_singleton] at a
        omega
    · cases hr : recurse l.lctgsmp (takeLink w i l l.lctgsmp) with
      | none => rw [hr] at h; simp at h
      | some w₁ =>
        rw [hr] at h
        have a := hrec _ _ _ hr
        have b := ih _ _ _ h
        simp only [takeLink, List.length_append, List.length_singleton] at a
        omega
    · exact ih _ _ _ h

/-- A call of `node_recursive` writes one visit record more than it takes links. -/
theorem node_recursive_records (links : List BFSlinks) :
    ∀ (fuel : Nat) (n : Int) (w w₂ : Walk), node_recursive links fuel n w = some w₂ →
      w₂.visited_nodes.length + w.tempBFSlinks.length =
        w.visited_nodes.length + 1 + w₂.tempBFSlinks.length := by
  intro fuel
  induction fuel with
  | zero => intro n w w₂ h; simp [node_recursive] at h
  | succ fuel ih =>
    intro n w w₂ h
    rw [node_recursive] at h
    have := scanLinks_records (node_recursive links fuel) n ih links 0 _ w₂ h
    simp only [List.length_append, List.length_singleton] at this
    omega

theorem bfs_structure_step_records (links : List BFSlinks) (d d₂ : Decomp) (node : Int)
    (h : bfs_structure_step links d node = some d₂)
    (hd : d.visited_nodes.length = d.structures.length +
      (d.structures.flatMap (·.links)).length) :
    d₂.visited_nodes.length = d₂.structures.length +
      (d₂.structures.flatMap (·.links)).length := by
  unfold bfs_structure_step at h
  split_ifs at h
  · cases hr : node_recursive links (links.length + 1) node
        ⟨d.link_used, d.visited_nodes, [], [node]⟩ with
    | none => rw [hr] at h; simp at h
    | some w =>
      rw [hr] at h
      simp only [Option.some.injEq] at h
      subst h
      have := node_recursive_records links _ _ _ _ hr
      simp only [List.length_nil, add_zero] at this
      simp only [List.length_append, List.length_singleton, List.flatMap_append,
        List.flatMap_cons, List.flatMap_nil, List.append_nil]
      omega
  · simp only [Option.some.injEq] at h
    subst h
    exact hd

theorem foldlM_bfs_structure_step_records (links : List BFSlinks) (nodes : List Int) :
    ∀ d d₂ : Decomp, nodes.foldlM (bfs_structure_step links) d = some d₂ →
      d.visited_nodes.length = d.structures.length +
        (d.structures.flatMap (·.links)).length →
      d₂.visited_nodes.length = d₂.structures.length +
        (d₂.structures.flatMap (·.links)).length := by
  induction nodes with
  | nil =>
    intro d d₂ h hd
    simp only [List.foldlM_nil, Option.pure_def, Option.some.injEq] at h
    subst h
    exact hd
  | cons a rest ih =>
    intro d d₂ h hd
    rw [List.foldlM_cons] at h
    cases hs : bfs_structure_step links d a with
    | none => rw [hs] at h; simp at h
    | some d₁ =>
      rw [hs] at h
      exact ih d₁ d₂ h (bfs_structure_step_records links d d₁ a hs hd)

/-- The facts about what the node loop of `bfs_structure` stores, from which the partition
and the component properties follow. -/
theorem bfs_structure_loop_spec (node_arry : List Int) (links : List BFSlinks)
    (hend : ∀ l ∈ links, l.lctgsmp ∈ node_arry ∧ l.rctgsmp ∈ node_arry) :
    ∃ d, bfs_structure_loop node_arry links = some d ∧
      d.visited_nodes.length = d.structures.length + links.length ∧
      (d.structures.flatMap (·.links)).Perm links ∧
      (d.structures.flatMap (·.node)).Nodup ∧
      (∀ x, x ∈ node_arry ↔ x ∈ d.structures.flatMap (·.node)) ∧
      (∀ s ∈ d.structures, ∀ l ∈ s.links, l.lctgsmp ∈ s.node ∧ l.rctgsmp ∈ s.node) ∧
      (∀ s ∈ d.structures, ∃ r ∈ s.node, ∀ x ∈ s.node, Joined links r x) := by
  obtain ⟨d, e, h⟩ := decompInv_foldlM links node_arry [] _ (decompInv_init links)
  rw [List.nil_append] at h
  have hperm : (d.structures.flatMap (·.links)).Perm links := by
    have hnil : unusedLinks links d.link_used = [] := by
      apply unusedLinks_eq_nil
      intro j l hj
      have hl := List.mem_iff_getElem?.mpr ⟨j, hj⟩
      exact h.closed _ (h.seen _ (hend l hl).1) j l hj (Or.inl rfl)
    have := h.perm
    rwa [hnil, List.append_nil] at this
  refine ⟨d, e, ?_, hperm, h.nodup, ?_, h.inside, ?_⟩
  · rw [foldlM_bfs_structure_step_records links node_arry _ d e (by simp), hperm.length_eq]
  · intro x
    constructor
    · intro hx; exact (h.members x).mp (h.seen x hx)
    · intro hx
      obtain ⟨s, hs, hxs⟩ := List.mem_flatMap.mp hx
      obtain ⟨r, hr, hrP, hj⟩ := h.rooted s hs
      have hclosed : ∀ a b, Joined links a b → a ∈ node_arry → b ∈ node_arry := by
        intro a b hab ha
        induction hab with
        | refl => exact ha
        | tail _ hl _ =>
          obtain ⟨l, hl, ho⟩ := hl
          rcases ho with ⟨_, o⟩ | ⟨o, _⟩
          · exact o ▸ (hend l hl).2
          · exact o ▸ (hend l hl).1
      exact hclosed r x (hj x hxs) hrP
  · intro s hs
    obtain ⟨r, a, _, c⟩ := h.rooted s hs
    exact ⟨r, a, c⟩

/-- The result of `bfs_structure`: the call returns exactly when the visit records, one for
every structure and one for every link, fit `visited_nodes`, and what it returns then has
the properties from which the partition and the component properties follow. -/
theorem bfs_structure_spec (node_arry : List Int) (links : List BFSlinks)
    (hend : ∀ l ∈ links, l.lctgsmp ∈ node_arry ∧ l.rctgsmp ∈ node_arry) :
    ∃ structures,
      bfs_structure node_arry links =
        (if structures.length + links.length ≤ 2 * (node_arry.length + 1) then some structures
          else none) ∧
      (structures.flatMap (·.links)).Perm links ∧
      (structures.flatMap (·.node)).Nodup ∧
      (∀ x, x ∈ node_arry ↔ x ∈ structures.flatMap (·.node)) ∧
      (∀ s ∈ structures, ∀ l ∈ s.links, l.lctgsmp ∈ s.node ∧ l.rctgsmp ∈ s.node) ∧
      (∀ s ∈ structures, ∃ r ∈ s.node, ∀ x ∈ s.node, Joined links r x) := by
  obtain ⟨d, e, hrec, hperm, hnodup, hmem, hin, hroot⟩ :=
    bfs_structure_loop_spec node_arry links hend
  refine ⟨d.structures, ?_, hperm, hnodup, hmem, hin, hroot⟩
  have hroom : ∀ s ∈ d.structures, s.node.length ≤ node_arry.length := by
    intro s hs
    have hnd : s.node.Nodup := (List.nodup_flatMap.mp hnodup).1 s hs
    have hsub : s.node ⊆ node_arry := fun x hx =>
      (hmem x).mpr (List.mem_flatMap.mpr ⟨s, hs, hx⟩)
    exact (List.subperm_of_subset hnd hsub).length_le
  simp only [bfs_structure, e, hrec]
  by_cases hc : d.structures.length + links.length ≤ 2 * (node_arry.length + 1)
  · rw [if_pos ⟨hc, hroom⟩, if_pos hc]
  · rw [if_neg (fun h => hc h.1), if_neg hc]

/-- Two structures of a decomposition that share a node are the same structure. -/
theorem same_structure_of_common_node (structures : List BFSstructure)
    (hnd : (structures.flatMap (·.node)).Nodup) (s t : BFSstructure) (hs : s ∈ structures)
    (ht : t ∈ structures) (x : Int) (hxs : x ∈ s.node) (hxt : x ∈ t.node) : s = t := by
  by_contra hne
  have hp := (List.nodup_flatMap.mp hnd).2
  have hsym : Symmetric (fun a b : BFSstructure => List.Disjoint a.node b.node) :=
    fun a b h => h.symm
  exact (hp.forall hsym hs ht hne) hxs hxt

/-- A structure of a decomposition holds every node joined to one of its nodes. -/
theorem structure_closed (links : List BFSlinks) (structures : List BFSstructure)
    (hperm : (structures.flatMap (·.links)).Perm links)
    (hnd : (structures.flatMap (·.node)).Nodup)
    (hin : ∀ s ∈ structures, ∀ l ∈ s.links, l.lctgsmp ∈ s.node ∧ l.rctgsmp ∈ s.node)
    (s : BFSstructure) (hs : s ∈ structures) (x y : Int) (hx : x ∈ s.node)
    (hxy : Joined links x y) : y ∈ s.node := by
  induction hxy with
  | refl => exact hx
  | tail _ hl ih =>
    obtain ⟨l, hl, ho⟩ := hl
    obtain ⟨t, ht, hlt⟩ := List.mem_flatMap.mp (hperm.mem_iff.mpr hl)
    obtain ⟨a, b⟩ := hin t ht l hlt
    rcases ho with ⟨o1, o2⟩ | ⟨o1, o2⟩
    · have := same_structure_of_common_node structures hnd s t hs ht _ ih (o1 ▸ a)
      subst this
      exact o2 ▸ b
    · have := same_structure_of_common_node structures hnd s t hs ht _ ih (o2 ▸ b)
      subst this
      exact o1 ▸ a

/-- Within a decomposition, the links with both endpoints in one structure are the links of
that structure. -/
theorem filter_links_of_structure (s : BFSstructure) (hne : s.node ≠ [])
    (hsin : ∀ l ∈ s.links, l.lctgsmp ∈ s.node ∧ l.rctgsmp ∈ s.node) :
    ∀ structures : List BFSstructure, s ∈ structures →
      structures.Pairwise (fun a b => List.Disjoint a.node b.node) →
      (∀ t ∈ structures, ∀ l ∈ t.links, l.lctgsmp ∈ t.node ∧ l.rctgsmp ∈ t.node) →
      (structures.flatMap (·.links)).filter
        (fun l => decide (l.lctgsmp ∈ s.node ∧ l.rctgsmp ∈ s.node)) = s.links := by
  have hother : ∀ t : BFSstructure, List.Disjoint s.node t.node →
      (∀ l ∈ t.links, l.lctgsmp ∈ t.node ∧ l.rctgsmp ∈ t.node) →
      t.links.filter (fun l => decide (l.lctgsmp ∈ s.node ∧ l.rctgsmp ∈ s.node)) = [] := by
    intro t hd hin
    rw [List.filter_eq_nil_iff]
    intro l hl
    simp only [decide_eq_true_eq, not_and]
    intro h1
    exact absurd (hin l hl).1 (fun h => hd h1 h)
  intro structures
  induction structures with
  | nil => intro h; simp at h
  | cons t rest ih =>
    intro hs hp hin
    rw [List.pairwise_cons] at hp
    rw [List.flatMap_cons, List.filter_append]
    by_cases e : t = s
    · subst e
      have h1 : t.links.filter (fun l => decide (l.lctgsmp ∈ t.node ∧ l.rctgsmp ∈ t.node)) =
          t.links := by
        rw [List.filter_eq_self]
        intro l hl
        simpa using hsin l hl
      have h2 : (rest.flatMap (·.links)).filter
          (fun l => decide (l.lctgsmp ∈ t.node ∧ l.rctgsmp ∈ t.node)) = [] := by
        rw [List.filter_eq_nil_iff]
        intro l hl
        obtain ⟨u, hu, hlu⟩ := List.mem_flatMap.mp hl
        simp only [decide_eq_true_eq, not_and]
        intro h1
        exact absurd (hin u (List.mem_cons_of_mem _ hu) l hlu).1 (fun h => hp.1 u hu h1 h)
      rw [h1, h2, List.append_nil]
    · have hs2 : s ∈ rest := by
        rcases List.mem_cons.mp hs with h | h
        · exact absurd h.symm e
        · exact h
      rw [hother t (hp.1 s hs2).symm (hin t (List.mem_cons_self _ _)),
        ih hs2 hp.2 (fun u hu => hin u (List.mem_cons_of_mem _ hu)), List.nil_append]

theorem joined_of_untouched (links : List BFSlinks) (x y : Int)
    (h : ∀ l ∈ links, ¬ Touches l x) (hxy : Joined links x y) : y = x := by
  rcases Relation.ReflTransGen.cases_head hxy with e | ⟨c, ⟨l, hl, ho⟩, _⟩
  · exact e.symm
  · exfalso
    rcases ho with ⟨o, _⟩ | ⟨_, o⟩
    · exact h l hl (Or.inl o)
    · exact h l hl (Or.inr o)

theorem eq_singleton_of_nodup (l : List Int) (x : Int) (hne : l ≠ []) (hnd : l.Nodup)
    (hall : ∀ y ∈ l, y = x) : l = [x] := by
  cases l with
  | nil => exact absurd rfl hne
  | cons a t =>
    have ha := hall a (List.mem_cons_self _ _)
    subst ha
    cases t with
    | nil => rfl
    | cons b u =>
      have hb := hall b (by simp)
      subst hb
      simp at hnd

/-! ### C11, C12: the structures are the connected components

The two general theorems say what `bfs_structure` returns when its visit records fit the
array `visited_nodes`; the two closed theorems after them show an input on which they do
not fit. -/

/-- The partition of C11 where the call has room: for a duplicate-free node list and links
whose endpoints lie in it, `bfs_structure` returns exactly when its visit records (one for
every structure and one for every link) fit the `2 * (node_num + 1)` entries of
`visited_nodes`, and the structures it then returns partition the links (the link lists of
the structures, put end to end, are a rearrangement of the input links: every input link
stands in exactly one structure, exactly once) and the nodes (no node stands in two
structures or twice in one, and the node lists put end to end are a rearrangement of the
input nodes, so every input node, in particular every node that touches a link, stands in
exactly one structure). -/
theorem bfs_structure_partitions_links_and_nodes (node_arry : List Int)
    (links : List BFSlinks) (hnd : node_arry.Nodup)
    (hend : ∀ l ∈ links, l.lctgsmp ∈ node_arry ∧ l.rctgsmp ∈ node_arry) :
    ∃ structures,
      bfs_structure node_arry links =
        (if structures.length + links.length ≤ 2 * (node_arry.length + 1) then some structures
          else none) ∧
      (structures.flatMap (·.links)).Perm links ∧
      (structures.flatMap (·.node)).Nodup ∧
      (structures.flatMap (·.node)).Perm node_arry ∧
      (∀ l ∈ links, ∀ x, Touches l x → (structures.flatMap (·.node)).count x = 1) ∧
      (∀ s ∈ structures, ∀ l ∈ s.links, l.lctgsmp ∈ s.node ∧ l.rctgsmp ∈ s.node) := by
  obtain ⟨structures, e, hperm, hnodup, hmem, hin, _⟩ := bfs_structure_spec node_arry links hend
  refine ⟨structures, e, hperm, hnodup, ?_, ?_, hin⟩
  · exact (List.perm_ext_iff_of_nodup hnodup hnd).mpr (fun x => (hmem x).symm)
  · intro l hl x hx
    apply List.count_eq_one_of_mem hnodup
    apply (hmem x).mp
    rcases hx with hx | hx
    · exact hx ▸ (hend l hl).1
    · exact hx ▸ (hend l hl).2

/-- The partition on the chain 1 - 2 - 3 with the isolated node 4. -/
theorem bfs_structure_partitions_links_and_nodes_witness :
    ∃ structures,
      bfs_structure [1, 2, 3, 4] twoStructures =
        (if structures.length + twoStructures.length ≤ 2 * (([1, 2, 3, 4] : List Int).length + 1)
          then some structures else none) ∧
      (structures.flatMap (·.links)).Perm twoStructures ∧
      (structures.flatMap (·.node)).Nodup ∧
      (structures.flatMap (·.node)).Perm [1, 2, 3, 4] ∧
      (∀ l ∈ twoStructures, ∀ x, Touches l x → (structures.flatMap (·.node)).count x = 1) ∧
      (∀ s ∈ structures, ∀ l ∈ s.links, l.lctgsmp ∈ s.node ∧ l.rctgsmp ∈ s.node) :=
  bfs_structure_partitions_links_and_nodes [1, 2, 3, 4] twoStructures (by decide)
    (by simp [twoStructures])

/-- The components of C12 where the call has room: `bfs_structure` returns exactly when its
visit records fit `visited_nodes`, and every structure it then returns is a connected
component. Two input nodes stand in the same structure exactly when a chain of links joins
them; the links of a structure are the input links with both endpoints in it (in some
order); the number of structures is the number of connected components (classes of joined
nodes) met by the input nodes; and an input node that no link touches has a structure of
its own without links. -/
theorem bfs_structure_connected_components (node_arry : List Int) (links : List BFSlinks)
    (hend : ∀ l ∈ links, l.lctgsmp ∈ node_arry ∧ l.rctgsmp ∈ node_arry) :
    ∃ structures,
      bfs_structure node_arry links =
        (if structures.length + links.length ≤ 2 * (node_arry.length + 1) then some structures
          else none) ∧
      (∀ x ∈ node_arry, ∀ y ∈ node_arry,
        (∃ s ∈ structures, x ∈ s.node ∧ y ∈ s.node) ↔ Joined links x y) ∧
      (∀ s ∈ structures, s.links.Perm
        (links.filter (fun l => decide (l.lctgsmp ∈ s.node ∧ l.rctgsmp ∈ s.node)))) ∧
      Set.ncard {C : Set Int | ∃ x ∈ node_arry, C = {y | Joined links x y}} =
        structures.length ∧
      (∀ x ∈ node_arry, (∀ l ∈ links, ¬ Touches l x) → ⟨[], [x]⟩ ∈ structures) := by
  obtain ⟨structures, e, hperm, hnodup, hmem, hin, hroot⟩ :=
    bfs_structure_spec node_arry links hend
  have hpair := (List.nodup_flatMap.mp hnodup).2
  have hclosed := structure_closed links structures hperm hnodup hin
  have hsame := same_structure_of_common_node structures hnodup
  have hfind : ∀ x ∈ node_arry, ∃ s ∈ structures, x ∈ s.node := fun x hx =>
    List.mem_flatMap.mp ((hmem x).mp hx)
  -- the nodes of a structure are the nodes joined to any one of them
  have hclass : ∀ s ∈ structures, ∀ x ∈ s.node, ∀ y, y ∈ s.node ↔ Joined links x y := by
    intro s hs x hx y
    constructor
    · intro hy
      obtain ⟨r, _, hj⟩ := hroot s hs
      exact (joined_symm links r x (hj x hx)).trans (hj y hy)
    · exact hclosed s hs x y hx
  have hne : ∀ s ∈ structures, s.node ≠ [] := by
    intro s hs
    obtain ⟨r, hr, _⟩ := hroot s hs
    exact List.ne_nil_of_mem hr
  refine ⟨structures, e, ?_, ?_, ?_, ?_⟩
  · intro x hx y _
    constructor
    · rintro ⟨s, hs, hxs, hys⟩
      exact (hclass s hs x hxs y).mp hys
    · intro hxy
      obtain ⟨s, hs, hxs⟩ := hfind x hx
      exact ⟨s, hs, hxs, (hclass s hs x hxs y).mpr hxy⟩
  · intro s hs
    have := hperm.filter (fun l => decide (l.lctgsmp ∈ s.node ∧ l.rctgsmp ∈ s.node))
    rwa [filter_links_of_structure s (hne s hs) (hin s hs) structures hs hpair hin] at this
  · have himg : {C : Set Int | ∃ x ∈ node_arry, C = {y | Joined links x y}} =
        (fun s : BFSstructure => {y | y ∈ s.node}) '' (↑structures.toFinset) := by
      ext C
      simp only [Set.mem_setOf_eq, Set.mem_image, Finset.mem_coe, List.mem_toFinset]
      constructor
      · rintro ⟨x, hx, rfl⟩
        obtain ⟨s, hs, hxs⟩ := hfind x hx
        refine ⟨s, hs, ?_⟩
        ext y
        exact hclass s hs x hxs y
      · rintro ⟨s, hs, rfl⟩
        obtain ⟨r, hr, _⟩ := hroot s hs
        refine ⟨r, (hmem r).mpr (List.mem_flatMap.mpr ⟨s, hs, hr⟩), ?_⟩
        ext y
        exact hclass s hs r hr y
    have hinj : Set.InjOn (fun s : BFSstructure => {y | y ∈ s.node})
        (↑structures.toFinset) := by
      intro s hs t ht hst
      simp only [Finset.mem_coe, List.mem_toFinset] at hs ht
      obtain ⟨r, hr, _⟩ := hroot s hs
      have hrt : r ∈ t.node := by
        have : r ∈ {y | y ∈ s.node} := hr
        rw [show {y | y ∈ s.node} = {y | y ∈ t.node} from hst] at this
        exact this
      exact hsame s t hs ht r hr hrt
    have hnd : structures.Nodup := by
      apply List.Pairwise.imp_of_mem _ hpair
      intro a b ha _ hd hab
      subst hab
      obtain ⟨r, hr, _⟩ := hroot a ha
      exact hd hr hr
    rw [himg, Set.ncard_image_of_injOn hinj, Set.ncard_coe_Finset,
      List.toFinset_card_of_nodup hnd]
  · intro x hx hiso
    obtain ⟨s, hs, hxs⟩ := hfind x hx
    have hnode : s.node = [x] := by
      apply eq_singleton_of_nodup s.node x (hne s hs) ((List.nodup_flatMap.mp hnodup).1 s hs)
      intro y hy
      exact joined_of_untouched links x y hiso ((hclass s hs x hxs y).mp hy)
    have hlinks : s.links = [] := by
      rw [List.eq_nil_iff_forall_not_mem]
      intro l hl
      have hl2 : l ∈ links := hperm.mem_iff.mp (List.mem_flatMap.mpr ⟨s, hs, hl⟩)
      have := (hin s hs l hl).1
      rw [hnode, List.mem_singleton] at this
      exact hiso l hl2 (Or.inl this)
    have : s = ⟨[], [x]⟩ := by
      cases s
      simp only at hnode hlinks
      rw [hnode, hlinks]
    exact this ▸ hs

/-- The components on the chain 1 - 2 - 3 with the isolated node 4. -/
theorem bfs_structure_connected_components_witness :
    ∃ structures,
      bfs_structure [1, 2, 3, 4] twoStructures =
        (if structures.length + twoStructures.length ≤ 2 * (([1, 2, 3, 4] : List Int).length + 1)
          then some structures else none) ∧
      (∀ x ∈ [1, 2, 3, 4], ∀ y ∈ [1, 2, 3, 4],
        (∃ s ∈ structures, x ∈ s.node ∧ y ∈ s.node) ↔ Joined twoStructures x y) ∧
      (∀ s ∈ structures, s.links.Perm
        (twoStructures.filter (fun l => decide (l.lctgsmp ∈ s.node ∧ l.rctgsmp ∈ s.node)))) ∧
      Set.ncard {C : Set Int | ∃ x ∈ [1, 2, 3, 4], C = {y | Joined twoStructures x y}} =
        structures.length ∧
      (∀ x ∈ [1, 2, 3, 4], (∀ l ∈ twoStructures, ¬ Touches l x) → ⟨[], [x]⟩ ∈ structures) :=
  bfs_structure_connected_components [1, 2, 3, 4] twoStructures (by simp [twoStructures])

/-- C11 fails on the code: the contigs 1 and 2 with their six links are a duplicate-free
node list that holds every endpoint of the links. The node loop of `bfs_structure` takes the
six links and both contigs into one structure, but on the way it writes seven visit records
into the `2 * (2 + 1) = 6` entries of `visited_nodes`: the call has no defined result, and
returns no structures for the links to stand in. The defect is the one of C28. -/
theorem bfs_structure_no_partition_of_pairLinks :
    ([1, 2] : List Int).Nodup ∧
    (∀ l ∈ pairLinks, l.lctgsmp ∈ ([1, 2] : List Int) ∧ l.rctgsmp ∈ ([1, 2] : List Int)) ∧
    (bfs_structure_loop [1, 2] pairLinks).map
        (fun d => (d.structures.map (fun s => (s.links.length, s.node)),
          d.visited_nodes.length)) = some ([(6, [1, 2])], 7) ∧
    bfs_structure [1, 2] pairLinks = none := by
  decide

/-- C12 fails on the code: a link joins the contigs 1 and 2 of the example `pairLinks`, which
are one connected component, but `bfs_structure` has no defined result there (seven visit
records for six entries), so no structure is returned for the component. The same happens
on a simple graph: for the contigs 1, ..., 6, each linked to every other one, and the
contig 7 without links, the node loop finds the two components and writes 2 + 15 = 17 visit
records into the `2 * (7 + 1) = 16` entries. The defect is the one of C28. -/
theorem bfs_structure_no_component_of_pairLinks :
    (∀ l ∈ pairLinks, l.lctgsmp ∈ ([1, 2] : List Int) ∧ l.rctgsmp ∈ ([1, 2] : List Int)) ∧
    Joined pairLinks 1 2 ∧
    (bfs_structure [1, 2] pairLinks).isSome = false ∧
    completeLinks.length = 15 ∧
    (∀ l ∈ completeLinks, l.lctgsmp ∈ ([1, 2, 3, 4, 5, 6, 7] : List Int) ∧
      l.rctgsmp ∈ ([1, 2, 3, 4, 5, 6, 7] : List Int)) ∧
    (bfs_structure_loop [1, 2, 3, 4, 5, 6, 7] completeLinks).map
        (fun d => (d.structures.map (·.node), d.visited_nodes.length)) =
      some ([[1, 2, 3, 4, 5, 6], [7]], 17) ∧
    (bfs_structure [1, 2, 3, 4, 5, 6, 7] completeLinks).isSome = false := by
  refine ⟨by decide, ?_, by decide, by decide, by decide, by decide, by decide⟩
  exact Relation.ReflTransGen.single ⟨⟨1, 100, 2, 100, 3, 5, 10⟩, by decide, Or.inl ⟨rfl, rfl⟩⟩

/-! ### C17: the number of prefixes of `bfsMap` -/

/-- The count of `forkLoop` stays within one slot of the table: either the number of
prefixes is at most the number of slots, or the last prefix counted is the one
`dy_path_index` points to, which no pass has written yet. -/
theorem forkLoop_count (ctg_depth : Int → CtgDepth) (nodet utrt max_paths : Int) (i : Int)
    (temp_mpath : mpath) (first : Int × Int) (rest : List (Int × Int)) :
    ∀ (acc r : bfsPath × Int),
      (acc.1.path_count ≤ 2 * max_paths ∨
        (acc.1.path_count = acc.2 + 1 ∧ acc.2 ≤ 2 * max_paths)) →
      forkLoop ctg_depth nodet utrt max_paths i temp_mpath first rest acc = some r →
      (r.1.path_count ≤ 2 * max_paths ∨
        (r.1.path_count = r.2 + 1 ∧ r.2 ≤ 2 * max_paths)) := by
  induction rest with
  | nil =>
    intro acc r hL h
    simp only [forkLoop, Option.some.injEq] at h
    subst h
    exact hL
  | cons nx rest ih =>
    intro acc r hL h
    rw [forkLoop] at h
    simp only at h
    by_cases c0 : first.1 = nodet ∧ first.2 = utrt
    · rw [if_pos c0] at h
      simp only [Option.some.injEq] at h
      subst h
      exact hL
    rw [if_neg c0] at h
    by_cases cc : 2 * max_paths ≤ acc.2
    · rw [if_pos cc] at h
      exact absurd h (by simp)
    rw [if_neg cc] at h
    cases hs : acc.1.mpath i with
    | none => rw [hs] at h; exact absurd h (by simp)
    | some mi =>
      rw [hs] at h
      simp only at h
      by_cases c1 : (mi.h_chloro nx.1).isSome = true ∧ (mi.h_chloro nx.1).getD 0 > 1
      · rw [if_pos c1] at h
        exact ih ({ acc.1 with flag := setAt acc.1.flag acc.2 0 }, acc.2) r hL h
      rw [if_neg c1] at h
      by_cases c2 : (mi.h_mito nx.1).isSome = true ∧ (mi.h_mito nx.1).getD 0 = 0
      · rw [if_pos c2] at h
        exact ih ({ acc.1 with flag := setAt acc.1.flag acc.2 0 }, acc.2) r hL h
      rw [if_neg c2] at h
      refine ih _ r ?_ h
      right
      simp only
      constructor
      · trivial
      · rcases hL with hL | ⟨h1, h2⟩
        · exact hL
        · omega

theorem bfsMapStep_count (ctg_depth : Int → CtgDepth) (h_links : Int → Option nodeLink)
    (nodet utrt max_paths : Int) (acc r : bfsPath × Int) (i : Int)
    (hb : acc.1.path_count ≤ 2 * max_paths)
    (h : bfsMapStep ctg_depth h_links nodet utrt max_paths acc i = some r) :
    r.1.path_count ≤ 2 * max_paths := by
  simp only [bfsMapStep] at h
  by_cases c0 : acc.1.flag i = 0
  · rw [if_pos c0] at h
    simp only [Option.some.injEq] at h; subst h; exact hb
  rw [if_neg c0] at h
  cases hs : acc.1.mpath i with
  | none => rw [hs] at h; exact absurd h (by simp)
  | some m =>
    rw [hs] at h
    simp only at h
    cases hl : h_links (m.path (m.nodenum - 1)) with
    | none =>
      rw [hl] at h
      simp only [Option.some.injEq] at h; subst h; exact hb
    | some node_links =>
      rw [hl] at h
      simp only at h
      by_cases c1 : (successorsOf node_links (m.utr (m.nodenum - 1))).length = 1 ∧
          acc.1.flag i = 1
      · rw [if_pos c1] at h
        simp only [Option.some.injEq] at h
        subst h
        simp only [extendInPlace]
        split_ifs <;> exact hb
      rw [if_neg c1] at h
      by_cases c2 : (successorsOf node_links (m.utr (m.nodenum - 1))).length > 1 ∧
          acc.1.flag i = 1
      · rw [if_pos c2] at h
        cases hf : forkSlot ctg_depth nodet utrt max_paths acc.1 i m
            (successorsOf node_links (m.utr (m.nodenum - 1))) with
        | none => rw [hf] at h; exact absurd h (by simp)
        | some b1 =>
          rw [hf] at h
          simp only [Option.map_some', Option.some.injEq] at h
          subst h
          simp only [forkSlot] at hf
          cases hr : forkLoop ctg_depth nodet utrt max_paths i m
              ((successorsOf node_links (m.utr (m.nodenum - 1))).headD (0, 0))
              (successorsOf node_links (m.utr (m.nodenum - 1))) (acc.1, i) with
          | none => rw [hr] at hf; exact absurd hf (by simp)
          | some r =>
            rw [hr] at hf
            simp only [Option.some.injEq] at hf
            subst hf
            have := forkLoop_count ctg_depth nodet utrt max_paths i m _ _ (acc.1, i) r
              (Or.inl hb) hr
            simp only
            omega
      rw [if_neg c2] at h
      by_cases c3 : (successorsOf node_links (m.utr (m.nodenum - 1))).length = 0 ∧
          acc.1.flag i = 1
      · rw [if_pos c3] at h
        simp only [Option.some.injEq] at h; subst h; exact hb
      · rw [if_neg c3] at h
        simp only [Option.some.injEq] at h; subst h; exact hb

theorem foldlM_bfsMapStep_count (ctg_depth : Int → CtgDepth) (h_links : Int → Option nodeLink)
    (nodet utrt max_paths : Int) (idx : List Int) :
    ∀ (acc r : bfsPath × Int), acc.1.path_count ≤ 2 * max_paths →
      idx.foldlM (bfsMapStep ctg_depth h_links nodet utrt max_paths) acc = some r →
      r.1.path_count ≤ 2 * max_paths := by
  induction idx with
  | nil =>
    intro acc r hb h
    simp only [List.foldlM_nil, Option.pure_def, Option.some.injEq] at h
    subst h
    exact hb
  | cons i rest ih =>
    intro acc r hb h
    simp only [List.foldlM_cons, Option.bind_eq_bind] at h
    cases hv : bfsMapStep ctg_depth h_links nodet utrt max_paths acc i with
    | none => rw [hv] at h; exact absurd h (by simp)
    | some mid =>
      rw [hv] at h
      simp only [Option.some_bind] at h
      exact ih mid r (bfsMapStep_count ctg_depth h_links nodet utrt max_paths acc mid i hb hv) h

theorem bfsMapLoop_count (ctg_depth : Int → CtgDepth) (h_links : Int → Option nodeLink)
    (nodet utrt max_paths : Int) :
    ∀ (fuel : Nat) (b b1 : bfsPath) (dy_path_count : Int), b.path_count ≤ 2 * max_paths →
      bfsMapLoop ctg_depth h_links nodet utrt max_paths fuel b dy_path_count = some b1 →
      b1.path_count ≤ 2 * max_paths := by
  intro fuel
  induction fuel with
  | zero => intro b b1 d _ h; simp [bfsMapLoop] at h
  | succ fuel ih =>
    intro b b1 d hb h
    rw [bfsMapLoop] at h
    cases hr : (indicesBelow d).foldlM (bfsMapStep ctg_depth h_links nodet utrt max_paths)
        (b, 0) with
    | none => rw [hr] at h; exact absurd h (by simp)
    | some r =>
      rw [hr] at h
      simp only at h
      have hr1 := foldlM_bfsMapStep_count ctg_depth h_links nodet utrt max_paths _ (b, 0) r
        hb hr
      by_cases c : r.1.path_count ≥ max_paths ∨ r.2 = 0
      · rw [if_pos c] at h
        simp only [Option.some.injEq] at h; subst h; exact hr1
      · rw [if_neg c] at h
        exact ih r.1 b1 _ hr1 h

theorem collectSlots_length (slots : Int → Option mpath) :
    ∀ (idx : List Int) (ms : List mpath), collectSlots slots idx = some ms →
      ms.length = idx.length := by
  intro idx
  induction idx with
  | nil => intro ms h; simp only [collectSlots, Option.some.injEq] at h; subst h; rfl
  | cons i rest ih =>
    intro ms h
    simp only [collectSlots] at h
    cases hs : slots i with
    | none => rw [hs] at h; simp at h
    | some m =>
      cases hc : collectSlots slots rest with
      | none => rw [hs, hc] at h; simp at h
      | some ms0 =>
        rw [hs, hc] at h
        simp only [Option.some.injEq] at h
        subst h
        simp [ih ms0 hc]

/-- A run of `bfsMap` that ends inside its table returns at most `2 * max_paths` prefixes:
the copy loop stays inside the `2 * cpu` entries that `findMpath` allocates for them. -/
theorem bfsMap_returns_at_most_table (fuel : Nat) (nodes utrs nodet utrt : Int)
    (ctg_depth : Int → CtgDepth) (h_links : Int → Option nodeLink) (max_paths : Int)
    (h_mito h_chloro : Int → Option Int) (prefixes : List mpath) (log : List Event)
    (h : bfsMap fuel nodes utrs nodet utrt ctg_depth h_links max_paths h_mito h_chloro =
      some (prefixes, log)) :
    (prefixes.length : Int) ≤ 2 * max_paths := by
  simp only [bfsMap] at h
  by_cases hmax : max_paths < 1
  · rw [if_pos hmax] at h
    exact absurd h (by simp)
  rw [if_neg hmax] at h
  cases hl : bfsMapLoop ctg_depth h_links nodet utrt max_paths fuel
      (bfsMapInit ctg_depth nodes utrs h_mito h_chloro) 1 with
  | none => rw [hl] at h; exact absurd h (by simp)
  | some b =>
    rw [hl] at h
    simp only at h
    cases hc : collectSlots b.mpath (indicesBelow b.path_count) with
    | none => rw [hc] at h; exact absurd h (by simp)
    | some ms =>
      rw [hc] at h
      simp only [Option.some.injEq, Prod.mk.injEq] at h
      obtain ⟨rfl, rfl⟩ := h
      have hb := bfsMapLoop_count ctg_depth h_links nodet utrt max_paths fuel _ b 1
        (by simp only [bfsMapInit]; omega) hl
      rw [collectSlots_length _ _ _ hc]
      simp only [indicesBelow, List.length_map, List.length_range]
      omega

/-- C17 fails on the code: on the backbone `forkLinks`, where no terminus has more than
five neighbours, `findMpath` builds its tables without error and `bfsMap` is called with
`max_paths = 8`, so that its tables have `2 * max_paths = 16` slots. The first round of its
loop forks the start into 5 prefixes (fewer than 8, so the loop goes on). The second round
forks each of them into 4: after three of the five there are 14 prefixes, the fourth writes
past the 16 slots (the round has no defined result, and neither has `bfsMap`), and with
room for 20 slots the same round ends with 20 prefixes. -/
theorem bfsMap_exceeds_sixteen_prefixes :
    ((initBudgets flatTable 1 forkNodes []).bind fun b =>
      (buildLinks forkLinks forkNodes [] (initDepth flatTable forkNodes)).bind fun h =>
        ((indicesBelow 1).foldlM (bfsMapStep flatTable h 1 3 8)
            (bfsMapInit flatTable 1 5 b.h_mito (initChloro []), 0)).map fun r1 =>
          (r1.1.path_count,
            ((indicesBelow 3).foldlM (bfsMapStep flatTable h 1 3 8) (r1.1, 0)).map
              (fun r2 => r2.1.path_count),
            ((indicesBelow 5).foldlM (bfsMapStep flatTable h 1 3 8) (r1.1, 0)).isSome,
            ((indicesBelow 5).foldlM (bfsMapStep flatTable h 1 3 10) (r1.1, 0)).map
              (fun r2 => r2.1.path_count),
            (bfsMap 3 1 5 1 3 flatTable h 8 b.h_mito (initChloro [])).isSome)) =
      some (5, some 14, false, some 20, false) := by
  decide!

/-! ### C18: the stall counter and the stop flag -/

/-- The stall counter of `path_up`: after an evaluation it is 0 when the record was replaced
and one more than before (as a `uint32_t`) when it was not, and the stop signal is returned
exactly when it then exceeds 10,000,000. -/
theorem path_up_stall_counter (taxo_index : Nat) (path_score : pathScore)
    (current_path : nodePath) (ctg_depth : Int → CtgDepth) (mt_ctgarr pt_ctgarr : List Int) :
    (path_up taxo_index path_score current_path ctg_depth mt_ctgarr pt_ctgarr).1.inval_num =
      (if update_flag taxo_index (candidateScore ctg_depth mt_ctgarr pt_ctgarr current_path)
          path_score.score = true then 0
        else (path_score.inval_num + 1) % 2 ^ 32) ∧
    ((path_up taxo_index path_score current_path ctg_depth mt_ctgarr pt_ctgarr).2 = 1 ↔
      (path_up taxo_index path_score current_path ctg_depth mt_ctgarr pt_ctgarr).1.inval_num >
        10000000) := by
  constructor
  · unfold path_up
    simp only
    split_ifs with h1 h2 h2
    · rfl
    · exact absurd h1 h2
    · exact absurd h2 h1
    · rfl
  · unfold path_up
    simp only
    split_ifs <;> simp_all

/-- C18 fails on the code at its last part: in `bfs_m`, entered on a dead end whose path
covers more than half of the target length while the stall counter stands at 10,000,000, the
coverage evaluation of line 432 sets the stop flag, and the dead-end evaluation of line 479
is still made: two evaluations are logged and the counter ends at 10,000,002. -/
theorem bfs_m_evaluates_after_stop_flag :
    (coverageEval stallEnv stallState).stop_flag = 1 ∧
    (coverageEval stallEnv stallState).log = [Event.evaluated [1]] ∧
    (bfs_m stallEnv 1 1 5 stallState).map
        (fun s => (s.stop_flag, s.path_score.inval_num, s.log)) =
      some (1, 10000002, [Event.evaluated [1], Event.evaluated [1]]) := by
  decide!

/-! ### C15: the pass budgets -/

theorem tdiv_eq_floor_of_nonneg (q : ℚ) (h : 0 ≤ q) : Int.tdiv q.num q.den = ⌊q⌋ := by
  rw [Rat.floor_def, Int.tdiv_eq_ediv (Rat.num_nonneg.mpr h) (Int.ofNat_nonneg _)]

theorem one_le_passBudget (depth denom : ℚ) : 1 ≤ passBudget depth denom := by
  unfold passBudget
  split_ifs with h
  · exact le_refl 1
  · exact not_lt.mp h

/-- Beyond the range of `int` the budget is 1: the conversion gives `INT_MIN`, which line 781
raises to 1. -/
theorem passBudget_of_large (depth denom : ℚ) (h : 2147483648 ≤ depth / denom + 1 / 2) :
    passBudget depth denom = 1 := by
  have h0 : (0 : ℚ) ≤ depth / denom + 1 / 2 := le_trans (by norm_num) h
  have hf : (2147483648 : Int) ≤ ⌊depth / denom + 1 / 2⌋ :=
    Int.le_floor.mpr (by exact_mod_cast h)
  have hc : floatToInt (depth / denom + 1 / 2) = -2147483648 := by
    unfold floatToInt
    rw [tdiv_eq_floor_of_nonneg _ h0, if_neg (by omega)]
  unfold passBudget
  rw [hc, if_pos (by norm_num)]

theorem foldlM_budgetStep (ctg_depth : Int → CtgDepth) (pt_contigs : List Int) (den : ℚ)
    (hden : 0 < den) (l : List Int) :
    ∀ (S : List Int) (acc : Budgets),
      (∀ c, (c ∈ S ∧ findint pt_contigs c = 0 →
          acc.h_mito c = some (passBudget (ctg_depth (c - 1)).depth den)) ∧
        (¬ (c ∈ S ∧ findint pt_contigs c = 0) → acc.h_mito c = none)) →
      ∃ b, l.foldlM (budgetStep ctg_depth pt_contigs den) acc = some b ∧
        ∀ c, (c ∈ S ++ l ∧ findint pt_contigs c = 0 →
            b.h_mito c = some (passBudget (ctg_depth (c - 1)).depth den)) ∧
          (¬ (c ∈ S ++ l ∧ findint pt_contigs c = 0) → b.h_mito c = none) := by
  induction l with
  | nil => intro S acc h; exact ⟨acc, rfl, by simpa using h⟩
  | cons a rest ih =>
    intro S acc h
    have key : ∃ acc₁, budgetStep ctg_depth pt_contigs den acc a = some acc₁ ∧
        ∀ c, (c ∈ S ++ [a] ∧ findint pt_contigs c = 0 →
            acc₁.h_mito c = some (passBudget (ctg_depth (c - 1)).depth den)) ∧
          (¬ (c ∈ S ++ [a] ∧ findint pt_contigs c = 0) → acc₁.h_mito c = none) := by
      unfold budgetStep
      by_cases hpt : findint pt_contigs a = 0
      · rw [if_pos hpt]
        by_cases hs : (acc.h_mito a).isSome = true
        · rw [if_pos hs]
          refine ⟨acc, rfl, fun c => ⟨?_, ?_⟩⟩
          · rintro ⟨hc, hc0⟩
            rw [List.mem_append, List.mem_singleton] at hc
            rcases hc with hc | hc
            · exact (h c).1 ⟨hc, hc0⟩
            · subst hc
              by_contra hne
              have : acc.h_mito c = none := by
                by_contra hn
                have hin : c ∈ S ∧ findint pt_contigs c = 0 := by
                  by_contra hnot
                  exact hn ((h c).2 hnot)
                exact hne ((h c).1 hin)
              rw [this] at hs
              cases hs
          · intro hn
            apply (h c).2
            intro hc
            exact hn ⟨List.mem_append_left _ hc.1, hc.2⟩
        · rw [if_neg hs, if_neg (not_le.mpr hden)]
          refine ⟨_, rfl, fun c => ⟨?_, ?_⟩⟩
          · rintro ⟨hc, hc0⟩
            simp only
            by_cases e : c = a
            · subst e; simp
            · rw [Function.update_noteq e]
              rw [List.mem_append, List.mem_singleton] at hc
              exact (h c).1 ⟨hc.resolve_right e, hc0⟩
          · intro hn
            simp only
            have e : c ≠ a := by
              rintro rfl
              exact hn ⟨by simp, hpt⟩
            rw [Function.update_noteq e]
            apply (h c).2
            intro hc
            exact hn ⟨List.mem_append_left _ hc.1, hc.2⟩
      · rw [if_neg hpt]
        refine ⟨acc, rfl, fun c => ⟨?_, ?_⟩⟩
        · rintro ⟨hc, hc0⟩
          rw [List.mem_append, List.mem_singleton] at hc
          rcases hc with hc | hc
          · exact (h c).1 ⟨hc, hc0⟩
          · subst hc; exact absurd hc0 hpt
        · intro hn
          apply (h c).2
          intro hc
          exact hn ⟨List.mem_append_left _ hc.1, hc.2⟩
    obtain ⟨acc₁, e1, h1⟩ := key
    obtain ⟨b, e2, h2⟩ := ih (S ++ [a]) acc₁ h1
    refine ⟨b, ?_, by simpa using h2⟩
    rw [List.foldlM_cons, e1]
    exact e2

theorem initChloro_apply (pt_contigs : List Int) (c : Int) :
    initChloro pt_contigs c = if c ∈ pt_contigs then some 0 else none := by
  have h : ∀ (l : List Int) (h : Int → Option Int),
      (l.foldl (fun h c => Function.update h c (some 0)) h) c =
        if c ∈ l then some 0 else h c := by
    intro l
    induction l with
    | nil => intro h; simp
    | cons a rest ih =>
      intro h
      rw [List.foldl_cons, ih]
      by_cases hr : c ∈ rest
      · simp [hr]
      · by_cases e : c = a
        · subst e; simp [hr]
        · simp [hr, e, Function.update_noteq e]
  exact h pt_contigs _

theorem roundHalfEven_le_of_odd (x : ℚ) (k : Int) (hk : k % 2 = 1) :
    roundHalfEven x ≤ k ↔ x < k + 1 / 2 := by
  unfold roundHalfEven
  have hf := Int.floor_le x
  have hl := Int.lt_floor_add_one x
  constructor
  · intro h
    by_contra hx
    push_neg at hx
    have hfk : k ≤ ⌊x⌋ := by
      apply Int.le_floor.mpr
      linarith
    split_ifs at h with h1 h2 h3
    · have : ⌊x⌋ = k := le_antisymm h hfk
      rw [this] at h1
      linarith
    · omega
    · omega
    · omega
  · intro h
    have hfk : ⌊x⌋ < k + 1 := Int.floor_lt.mpr (by push_cast; linarith)
    split_ifs with h1 h2 h3
    · omega
    · by_contra hc
      have : ⌊x⌋ = k := by omega
      rw [this] at h2
      linarith
    · omega
    · by_contra hc
      have : ⌊x⌋ = k := by omega
      rw [this] at h1
      linarith

theorem roundHalfEven_nonpos (x : ℚ) (h : x < 0) : roundHalfEven x ≤ 0 := by
  unfold roundHalfEven
  have hf : ⌊x⌋ < 0 := Int.floor_lt.mpr (by exact_mod_cast h)
  split_ifs <;> omega

theorem floor_le_roundHalfEven (x : ℚ) : ⌊x⌋ ≤ roundHalfEven x := by
  unfold roundHalfEven
  split_ifs <;> omega

theorem roundHalfEven_le_floor_succ (x : ℚ) : roundHalfEven x ≤ ⌊x⌋ + 1 := by
  unfold roundHalfEven
  split_ifs <;> omega

theorem roundHalfEven_zero : roundHalfEven 0 = 0 := by
  unfold roundHalfEven
  norm_num

/-- The scaled value of a positive `q` has 24 significant bits. -/
theorem scaled_bounds (q : ℚ) (hq : 0 < q) :
    (2 : ℚ) ^ (Int.log 2 q) ≤ q ∧ q < (2 : ℚ) ^ (Int.log 2 q + 1) := by
  have h1 := Int.zpow_log_le_self (b := 2) (by norm_num) hq
  have h2 := Int.lt_zpow_succ_log_self (b := 2) (by norm_num) q
  simp only [Nat.cast_ofNat] at h1 h2
  exact ⟨h1, h2⟩

/-- The comparison of a `float` with the `double` constant 0.7: the float nearest to `q` is
below the double 0.7 exactly when `q` is below 23488103 / 2^25. -/
theorem toFloat_lt_double07_iff (q : ℚ) : toFloat q < double07 ↔ q < 23488103 / 33554432 := by
  have hd : (0 : ℚ) < double07 := by norm_num [double07]
  rcases lt_trichotomy q 0 with hneg | hzero | hpos
  · have hP : (0 : ℚ) < 2 ^ (Int.log 2 |q| - 23) := zpow_pos (by norm_num) _
    have hx : q / 2 ^ (Int.log 2 |q| - 23) < 0 := div_neg_of_neg_of_pos hneg hP
    have hr : ((roundHalfEven (q / 2 ^ (Int.log 2 |q| - 23)) : Int) : ℚ) ≤ 0 := by
      exact_mod_cast roundHalfEven_nonpos _ hx
    have : toFloat q ≤ 0 := mul_nonpos_of_nonpos_of_nonneg hr hP.le
    constructor
    · intro _; linarith
    · intro _; linarith
  · subst hzero
    have : toFloat 0 = 0 := by
      unfold toFloat
      rw [zero_div, roundHalfEven_zero]
      simp
    rw [this]
    constructor
    · intro _; norm_num
    · intro _; exact hd
  · obtain ⟨hlo, hhi⟩ := scaled_bounds q hpos
    have habs : |q| = q := abs_of_pos hpos
    unfold toFloat
    rw [habs]
    generalize Int.log 2 q = e at hlo hhi
    have hP : (0 : ℚ) < 2 ^ (e - 23) := zpow_pos (by norm_num) _
    have hPe : (2 : ℚ) ^ e = 2 ^ (23 : ℤ) * 2 ^ (e - 23) := by
      rw [← zpow_add₀ (by norm_num)]; congr 1; ring
    have hPe1 : (2 : ℚ) ^ (e + 1) = 2 ^ (24 : ℤ) * 2 ^ (e - 23) := by
      rw [← zpow_add₀ (by norm_num)]; congr 1; ring
    have hxlo : (2 : ℚ) ^ (23 : ℤ) ≤ q / 2 ^ (e - 23) := by
      rw [le_div_iff₀ hP, ← hPe]; exact hlo
    have hxhi : q / 2 ^ (e - 23) < (2 : ℚ) ^ (24 : ℤ) := by
      rw [div_lt_iff₀ hP, ← hPe1]; exact hhi
    have h23 : (2 : ℚ) ^ (23 : ℤ) = 8388608 := by norm_num
    have h24 : (2 : ℚ) ^ (24 : ℤ) = 16777216 := by norm_num
    rw [h23] at hxlo
    rw [h24] at hxhi
    have hrlo : (8388608 : ℚ) ≤ (roundHalfEven (q / 2 ^ (e - 23)) : ℚ) := by
      have h1 : (8388608 : Int) ≤ ⌊q / (2 : ℚ) ^ (e - 23)⌋ :=
        Int.le_floor.mpr (by push_cast; exact hxlo)
      have h2 := floor_le_roundHalfEven (q / 2 ^ (e - 23))
      exact_mod_cast h1.trans h2
    have hrhi : (roundHalfEven (q / 2 ^ (e - 23)) : ℚ) ≤ 16777216 := by
      have h1 : ⌊q / (2 : ℚ) ^ (e - 23)⌋ < (16777216 : Int) :=
        Int.floor_lt.mpr (by push_cast; exact hxhi)
      have h2 := roundHalfEven_le_floor_succ (q / 2 ^ (e - 23))
      have h3 : roundHalfEven (q / 2 ^ (e - 23)) ≤ 16777216 := by omega
      exact_mod_cast h3
    rcases lt_trichotomy e (-1) with hlt | heq | hgt
    · have hle : (2 : ℚ) ^ (e + 1) ≤ 2 ^ (-1 : ℤ) :=
        zpow_le_zpow_right₀ (by norm_num) (by omega)
      have hhalf : (2 : ℚ) ^ (-1 : ℤ) = 1 / 2 := by norm_num
      rw [hhalf] at hle
      have hup : (roundHalfEven (q / 2 ^ (e - 23)) : ℚ) * 2 ^ (e - 23) ≤ 1 / 2 := by
        calc (roundHalfEven (q / 2 ^ (e - 23)) : ℚ) * 2 ^ (e - 23)
            ≤ 16777216 * 2 ^ (e - 23) := mul_le_mul_of_nonneg_right hrhi hP.le
          _ = 2 ^ (e + 1) := by rw [hPe1, h24]
          _ ≤ 1 / 2 := hle
      constructor
      · intro _
        have : q < 1 / 2 := lt_of_lt_of_le hhi hle
        linarith
      · intro _
        have : (1 : ℚ) / 2 < double07 := by norm_num [double07]
        linarith
    · subst heq
      have hPv : (2 : ℚ) ^ ((-1 : ℤ) - 23) = 1 / 16777216 := by norm_num
      rw [hPv]
      have hx : q / (1 / 16777216) = q * 16777216 := by field_simp
      rw [hx]
      have key := roundHalfEven_le_of_odd (q * 16777216) 11744051 (by decide)
      constructor
      · intro h
        have h1 : (roundHalfEven (q * 16777216) : ℚ) < 11744052 := by
          have : double07 * 16777216 < 11744052 := by norm_num [double07]
          have h2 : (roundHalfEven (q * 16777216) : ℚ) < double07 * 16777216 := by linarith
          linarith
        have h2 : roundHalfEven (q * 16777216) ≤ 11744051 := by
          have : roundHalfEven (q * 16777216) < 11744052 := by exact_mod_cast h1
          omega
        have h3 := key.mp h2
        push_cast at h3
        linarith
      · intro h
        have h2 : roundHalfEven (q * 16777216) ≤ 11744051 := key.mpr (by push_cast; linarith)
        have h3 : (roundHalfEven (q * 16777216) : ℚ) ≤ 11744051 := by exact_mod_cast h2
        have : (11744051 : ℚ) * (1 / 16777216) < double07 := by norm_num [double07]
        calc (roundHalfEven (q * 16777216) : ℚ) * (1 / 16777216)
            ≤ 11744051 * (1 / 16777216) := mul_le_mul_of_nonneg_right h3 (by norm_num)
          _ < double07 := this
    · have hge : (2 : ℚ) ^ (0 : ℤ) ≤ 2 ^ e := zpow_le_zpow_right₀ (by norm_num) (by omega)
      rw [zpow_zero] at hge
      have hdown : (1 : ℚ) ≤ (roundHalfEven (q / 2 ^ (e - 23)) : ℚ) * 2 ^ (e - 23) := by
        calc (1 : ℚ) ≤ 2 ^ e := hge
          _ = 8388608 * 2 ^ (e - 23) := by rw [hPe, h23]
          _ ≤ (roundHalfEven (q / 2 ^ (e - 23)) : ℚ) * 2 ^ (e - 23) :=
            mul_le_mul_of_nonneg_right hrlo hP.le
      have hd1 : double07 < 1 := by norm_num [double07]
      constructor
      · intro h; linarith
      · intro h
        have : (1 : ℚ) ≤ q := hge.trans hlo
        linarith

/-- The constant `double07` is the double nearest to 7/10 (a double between 1/2 and 1 is a
multiple of 2^-53), and the float nearest to a quotient of exactly 7/10 is below it. -/
theorem double07_nearest :
    double07 * 2 ^ 53 = 6305039478318694 ∧ |double07 - 7 / 10| < 1 / 2 ^ 54 ∧
    toFloat (7 / 10) < double07 := by
  refine ⟨by norm_num [double07], ?_, (toFloat_lt_double07_iff _).mpr (by norm_num)⟩
  rw [abs_lt]
  constructor <;> norm_num [double07]

/-- C23 amended: in Scenario A (seed 5, one link between contig 5 and contig 7, both contig
depths 20, filter 2) one round of `BFSmain` adds contig 7 exactly when the support depth of
the link is above 10, half of the smaller contig depth; the comparison is strict. From the
seeds 5 and 7 a round adds nothing. -/
theorem BFSmain_scenario_A_strict_threshold (d : ℚ) :
    BFSmain [scenarioALink d] flatTable [5] 2 = (if 10 < d then [5, 7] else [5]) ∧
    BFSmain [scenarioALink d] flatTable [5, 7] 2 = [5, 7] := by
  have h20 : (2 : ℚ)⁻¹ * MIN 20 20 = 10 := by norm_num [MIN]
  constructor
  · by_cases h : 10 < d
    · rw [if_pos h]
      have hq : expandQualifies flatTable 2 (scenarioALink d) := by
        refine ⟨by norm_num [flatTable], by norm_num [flatTable], ?_⟩
        simpa [flatTable, scenarioALink, h20] using h
      simp only [BFSmain, List.foldl_cons, List.foldl_nil, BFSmainStep, if_pos hq]
      rfl
    · rw [if_neg h]
      have hq : ¬ expandQualifies flatTable 2 (scenarioALink d) := by
        rintro ⟨_, _, h3⟩
        apply h
        simpa [flatTable, scenarioALink, h20] using h3
      simp only [BFSmain, List.foldl_cons, List.foldl_nil, BFSmainStep, if_neg hq]
  · simp only [BFSmain, List.foldl_cons, List.foldl_nil, BFSmainStep]
    split_ifs <;> first | rfl | simp_all [findint, scenarioALink]

/-- C23 as stated fails: with support depth 10 the link of Scenario A does not pass the
filter `linkdepth > 0.5 * MIN(20, 20)`, so the round adds nothing and the seeds stay {5};
the whole expansion of `BFSseeds` converges on the seed 5 alone. -/
theorem BFSmain_scenario_A_adds_nothing :
    BFSmain [scenarioALink 10] flatTable [5] 2 = [5] ∧
    (BFSseeds [scenarioALink 10] flatTable [5] 2 []).map (·.1) = some [5] := by
  decide!

/-! ### C24: Scenario B -/

theorem buildLinks_scenarioC (h_depth : Int → Option Int) :
    buildLinks scenarioCLinks [1, 2, 3] [] h_depth = some scenarioCAdj := rfl

theorem initBudgets_scenarioC (t : Int → CtgDepth)
    (hA : (t 0).len = 1000) (hB : (t 1).len = 2000) (hC : (t 2).len = 1500)
    (hden : 0 < denom t 2 [1, 2, 3] []) :
    initBudgets t 2 [1, 2, 3] [] = some
      ⟨Function.update (Function.update (Function.update (fun _ => none) 1
          (some (passBudget (t 0).depth (denom t 2 [1, 2, 3] []))))
          2 (some (passBudget (t 1).depth (denom t 2 [1, 2, 3] []))))
          3 (some (passBudget (t 2).depth (denom t 2 [1, 2, 3] []))),
        passBudget (t 0).depth (denom t 2 [1, 2, 3] []) +
          passBudget (t 1).depth (denom t 2 [1, 2, 3] []) +
          passBudget (t 2).depth (denom t 2 [1, 2, 3] []), 4500, 3⟩ := by
  have hd : ¬ denom t 2 [1, 2, 3] [] ≤ 0 := not_le.mpr hden
  simp [initBudgets, budgetStep, findint, hd, hA, hB, hC, Function.update]

theorem bfsMapRound_extend (ctg_depth : Int → CtgDepth) (h_links : Int → Option nodeLink)
    (nodet utrt max_paths : Int) (mp : Int → Option mpath) (fl : Int → Int) (lg : List Event)
    (m : mpath) (ls : nodeLink) (nx : Int × Int) (v : Int)
    (hflag : fl 0 = 1) (hm : mp 0 = some m)
    (hs : h_links (m.path (m.nodenum - 1)) = some ls)
    (hone : successorsOf ls (m.utr (m.nodenum - 1)) = [nx])
    (hend : ¬ (nx.1 = nodet ∧ nx.2 = utrt))
    (hc : m.h_chloro nx.1 = none) (hv : m.h_mito nx.1 = some v) (hv0 : v ≠ 0) :
    (indicesBelow 1).foldlM (bfsMapStep ctg_depth h_links nodet utrt max_paths)
        (⟨mp, fl, 1, lg⟩, 0) =
      some (⟨setAt mp 0 (some (extendPrefix ctg_depth m true false nx
          (if nx.1 = nodet then 0 else 1))),
        if nx.1 = nodet then setAt fl 0 0 else fl, 1,
        lg ++ [Event.entered nx.1 (some (v + -1))]⟩, 1) := by
  have hidx : indicesBelow 1 = [0] := by decide
  rw [hidx, List.foldlM_cons]
  simp [bfsMapStep, hflag, hm, hs, hone, extendInPlace, hend, hc, hv, hv0, extendPrefix,
    khAdd]

theorem bfsMapLoop_extend (fuel : Nat) (ctg_depth : Int → CtgDepth)
    (h_links : Int → Option nodeLink)
    (nodet utrt max_paths : Int) (mp : Int → Option mpath) (fl : Int → Int) (lg : List Event)
    (m : mpath) (ls : nodeLink) (nx : Int × Int) (v : Int) (hmax : 1 < max_paths)
    (hflag : fl 0 = 1) (hm : mp 0 = some m)
    (hs : h_links (m.path (m.nodenum - 1)) = some ls)
    (hone : successorsOf ls (m.utr (m.nodenum - 1)) = [nx])
    (hend : ¬ (nx.1 = nodet ∧ nx.2 = utrt))
    (hc : m.h_chloro nx.1 = none) (hv : m.h_mito nx.1 = some v) (hv0 : v ≠ 0) :
    bfsMapLoop ctg_depth h_links nodet utrt max_paths (fuel + 1) ⟨mp, fl, 1, lg⟩ 1 =
      bfsMapLoop ctg_depth h_links nodet utrt max_paths fuel
        ⟨setAt mp 0 (some (extendPrefix ctg_depth m true false nx
          (if nx.1 = nodet then 0 else 1))),
        if nx.1 = nodet then setAt fl 0 0 else fl, 1,
        lg ++ [Event.entered nx.1 (some (v + -1))]⟩ 1 := by
  rw [bfsMapLoop, bfsMapRound_extend ctg_depth h_links nodet utrt max_paths mp fl lg m ls nx v
    hflag hm hs
    hone hend hc hv hv0]
  have h8 : ¬ (1 : Int) ≥ max_paths := not_le.mpr hmax
  simp [h8]

theorem bfsMapLoop_closed (fuel : Nat) (ctg_depth : Int → CtgDepth)
    (h_links : Int → Option nodeLink)
    (nodet utrt max_paths : Int) (mp : Int → Option mpath) (fl : Int → Int) (lg : List Event)
    (hflag : fl 0 = 0) :
    bfsMapLoop ctg_depth h_links nodet utrt max_paths (fuel + 1) ⟨mp, fl, 1, lg⟩ 1 =
      some ⟨mp, fl, 1, lg⟩ := by
  have hidx : indicesBelow 1 = [0] := by decide
  rw [bfsMapLoop, hidx, List.foldlM_cons]
  simp [bfsMapStep, hflag]

theorem bfsMap_scenarioC (fuel : Nat) (t : Int → CtgDepth) (hm : Int → Option Int)
    (p1 p2 p3 : Int) (h1 : hm 1 = some p1) (h2 : hm 2 = some p2) (h3 : hm 3 = some p3)
    (hp1 : 1 ≤ p1) (hp2 : 1 ≤ p2) (hp3 : 1 ≤ p3) :
    bfsMap (fuel + 4) 2 5 2 3 t scenarioCAdj 8 hm (fun _ => none) =
      some ([scenarioCPrefix t hm],
        [Event.entered 3 (some (p3 + -1)), Event.entered 1 (some (p1 + -1)),
          Event.entered 2 (some (p2 + -1))]) := by
  have e1 : p1 ≠ 0 := by omega
  have e2 : p2 ≠ 0 := by omega
  have e3 : p3 ≠ 0 := by omega
  have hinit : bfsMapInit t 2 5 hm (fun _ => none) =
      ⟨setAt (fun _ => none) 0 (some (startPrefix t 2 5 hm (fun _ => none))), fun _ => 1, 1,
        []⟩ := rfl
  have g1 : (extendPrefix t (startPrefix t 2 5 hm (fun _ => none)) true false (3, 5) 1).h_mito 1
      = some p1 := by
    simp [extendPrefix, startPrefix, khAdd, h1]
  have g2 : (extendPrefix t (extendPrefix t (startPrefix t 2 5 hm (fun _ => none)) true false
      (3, 5) 1) true false (1, 5) 1).h_mito 2 = some p2 := by
    simp [extendPrefix, startPrefix, khAdd, h2]
  unfold bfsMap
  rw [hinit]
  rw [bfsMapLoop_extend (fuel + 3) t scenarioCAdj 2 3 8
    (setAt (fun _ => none) 0 (some (startPrefix t 2 5 hm (fun _ => none)))) (fun _ => 1) []
    (startPrefix t 2 5 hm (fun _ => none)) ⟨[(3, 5)], [(1, 3)]⟩ (3, 5) p3
    (by norm_num) rfl rfl rfl rfl (by decide) rfl h3 e3]
  rw [bfsMapLoop_extend (fuel + 2) t scenarioCAdj 2 3 8 _ _ _
    (extendPrefix t (startPrefix t 2 5 hm (fun _ => none)) true false (3, 5) 1)
    ⟨[(1, 5)], [(2, 3)]⟩ (1, 5) p1
    (by norm_num) rfl rfl rfl rfl (by decide) rfl g1 e1]
  rw [bfsMapLoop_extend (fuel + 1) t scenarioCAdj 2 3 8 _ _ _
    (extendPrefix t (extendPrefix t (startPrefix t 2 5 hm (fun _ => none)) true false (3, 5) 1)
      true false (1, 5) 1)
    ⟨[(2, 5)], [(3, 3)]⟩ (2, 5) p2
    (by norm_num) rfl rfl rfl rfl (by decide) rfl g2 e2]
  rw [bfsMapLoop_closed fuel t scenarioCAdj 2 3 8 _ _ _ rfl]
  rfl
theorem scenarioCPrefix_nodenum (t : Int → CtgDepth) (hm : Int → Option Int) :
    (scenarioCPrefix t hm).nodenum = 4 := rfl

theorem scenarioCPrefix_nodes (t : Int → CtgDepth) (hm : Int → Option Int) :
    (scenarioCPrefix t hm).nodes = [2, 3, 1, 2] := rfl

theorem scenarioCPrefix_pathlen (t : Int → CtgDepth) (hm : Int → Option Int)
    (hA : (t 0).len = 1000) (hB : (t 1).len = 2000) (hC : (t 2).len = 1500) :
    (scenarioCPrefix t hm).pathlen = 6500 := by
  simp [scenarioCPrefix, extendPrefix, startPrefix, hA, hB, hC]

theorem searchFromPrefix_scenarioC (fuel : Nat) (env : SearchEnv) (path_score : pathScore)
    (hm : Int → Option Int) (hn : env.node_t = 2) (hu : env.t_utr = 3) :
    searchFromPrefix env (fuel + 1) path_score (scenarioCPrefix env.ctg_depth hm) =
      some (closeEval env (rootState path_score (scenarioCPrefix env.ctg_depth hm))) := by
  have hend : (scenarioCPrefix env.ctg_depth hm).path ((scenarioCPrefix env.ctg_depth hm).nodenum - 1) = 2 := rfl
  have hutr : (scenarioCPrefix env.ctg_depth hm).utr ((scenarioCPrefix env.ctg_depth hm).nodenum - 1) = 5 := rfl
  unfold searchFromPrefix
  rw [hend, hutr, bfs_m]
  have h0 : (rootState path_score (scenarioCPrefix env.ctg_depth hm)).stop_flag = 0 := rfl
  have h4 : (rootState path_score (scenarioCPrefix env.ctg_depth hm)).current_path.nodenum = 4 := rfl
  simp [h0, h4, hn, hu]
theorem candidateScore_scenarioC (t : Int → CtgDepth) (p : nodePath)
    (hA : (t 0).len = 1000) (hB : (t 1).len = 2000) (hC : (t 2).len = 1500)
    (hnodes : p.nodes = [2, 3, 1, 2]) :
    candidateScore t [1, 2, 3] [] p = ⟨4500, 3, p.type, 4, p.nodelen, 0, 0⟩ := by
  simp [candidateScore, hnodes, tallyStep, findint, Tally.init, hA, hB, hC]

theorem update_flag_initScore (taxo_index : Nat) (c : Score) (h : 0 < c.uniq_mtlen) :
    update_flag taxo_index c (initScore 0).score = true := by
  have h0 : (initScore 0).score.uniq_mtlen = 0 := rfl
  unfold update_flag
  simp [h0, h]

theorem path_up_first (taxo_index : Nat) (current_path : nodePath) (ctg_depth : Int → CtgDepth)
    (mt_ctgarr pt_ctgarr : List Int)
    (h : 0 < (candidateScore ctg_depth mt_ctgarr pt_ctgarr current_path).uniq_mtlen) :
    (path_up taxo_index (initScore 0) current_path ctg_depth mt_ctgarr pt_ctgarr).1 =
      storeCandidate { initScore 0 with inval_num := 1 }
        (candidateScore ctg_depth mt_ctgarr pt_ctgarr current_path) current_path := by
  have hu : update_flag taxo_index (candidateScore ctg_depth mt_ctgarr pt_ctgarr current_path)
      ({ initScore 0 with inval_num := (0 + 1) % 2 ^ 32 } : pathScore).score = true :=
    update_flag_initScore taxo_index _ h
  exact (if_pos hu).trans rfl

theorem closeEval_scenarioC (env : SearchEnv) (hm : Int → Option Int)
    (hn : env.node_t = 2) (hmt : env.mt_contigs = [1, 2, 3]) (hpt : env.pt_contigs = [])
    (hA : (env.ctg_depth 0).len = 1000) (hB : (env.ctg_depth 1).len = 2000)
    (hC : (env.ctg_depth 2).len = 1500) :
    ((closeEval env (rootState (initScore 0)
        (scenarioCPrefix env.ctg_depth hm))).path_score.nodes = [2, 3, 1, 2] ∧
      (closeEval env (rootState (initScore 0)
        (scenarioCPrefix env.ctg_depth hm))).path_score.node_num = 4) ∧
    (closeEval env (rootState (initScore 0)
        (scenarioCPrefix env.ctg_depth hm))).path_score.type = 0 ∧
    (closeEval env (rootState (initScore 0)
        (scenarioCPrefix env.ctg_depth hm))).path_score.path_len = 4500 ∧
    (closeEval env (rootState (initScore 0)
        (scenarioCPrefix env.ctg_depth hm))).path_score.uniq_mt_pathlen = 4500 := by
  have hlen := scenarioCPrefix_pathlen env.ctg_depth hm hA hB hC
  have hc := candidateScore_scenarioC env.ctg_depth
    { (rootState (initScore 0) (scenarioCPrefix env.ctg_depth hm)).current_path with
      type := 0
      nodelen := ((rootState (initScore 0) (scenarioCPrefix env.ctg_depth hm)).current_path.nodelen
        - (env.ctg_depth (env.node_t - 1)).len) % 2 ^ 64 } hA hB hC rfl
  have hps : (closeEval env (rootState (initScore 0)
      (scenarioCPrefix env.ctg_depth hm))).path_score =
      (path_up env.taxo_index (initScore 0)
        { (rootState (initScore 0) (scenarioCPrefix env.ctg_depth hm)).current_path with
          type := 0
          nodelen := ((rootState (initScore 0) (scenarioCPrefix env.ctg_depth hm)).current_path.nodelen
            - (env.ctg_depth (env.node_t - 1)).len) % 2 ^ 64 }
        env.ctg_depth env.mt_contigs env.pt_contigs).1 := rfl
  have hnl : (rootState (initScore 0) (scenarioCPrefix env.ctg_depth hm)).current_path.nodelen
      = 6500 := hlen
  have hB2 : (env.ctg_depth (2 - 1)).len = 2000 := hB
  rw [hps, hmt, hpt, path_up_first _ _ _ _ _ (by rw [hc]; norm_num), hc]
  refine ⟨⟨rfl, rfl⟩, rfl, ?_, rfl⟩
  show ((rootState (initScore 0) (scenarioCPrefix env.ctg_depth hm)).current_path.nodelen
        - (env.ctg_depth (env.node_t - 1)).len) % 2 ^ 64 = 4500
  rw [hnl, hn, hB2]
  norm_num
theorem copyBest_nodes (node1 node1utr : Int) (ps : pathScore) (rest : List Int)
    (h : ps.nodes = node1 :: rest) : (copyBest node1 node1utr ps).nodes = node1 :: rest := by
  unfold pathScore.nodes at h ⊢
  rw [← h]
  apply List.map_congr_left
  intro i hi
  have hi2 : i < ps.node_num := List.mem_range.mp hi
  by_cases h0 : i = 0
  · subst h0
    have h1 := congrArg (fun l => l.head?) h
    cases hn : ps.node_num with
    | zero => omega
    | succ n =>
      rw [hn] at h1
      simp [List.range_succ_eq_map] at h1
      simp [copyBest, h1]
  · simp [copyBest, h0, hi2]

theorem findMpath_scenarioC_of_lengths (fuel : Nat) (t : Int → CtgDepth) (taxo : Int) (out : Found)
    (hA : (t 0).len = 1000) (hB : (t 1).len = 2000) (hC : (t 2).len = 1500)
    (hden : 0 < denom t 2 [1, 2, 3] []) :
    ∃ r, findMpath (fuel + 4) 2 5 2 3 scenarioCLinks t [1, 2, 3] [] taxo out = some r ∧
      r.flag_err = out.flag_err ∧ r.mt_ratio = 1 ∧
      ∃ p, r.struc_path = some p ∧ p.nodes = [2, 3, 1, 2] ∧ p.type = 0 ∧ p.path_len = 4500 ∧
        p.uniq_mt_pathlen = 4500 := by
  have hchl : initChloro [] = fun _ => none := rfl
  have hmap := bfsMap_scenarioC fuel t
    (Function.update (Function.update (Function.update (fun _ => none) 1
          (some (passBudget (t 0).depth (denom t 2 [1, 2, 3] []))))
          2 (some (passBudget (t 1).depth (denom t 2 [1, 2, 3] []))))
          3 (some (passBudget (t 2).depth (denom t 2 [1, 2, 3] []))))
    (passBudget (t 0).depth (denom t 2 [1, 2, 3] []))
    (passBudget (t 1).depth (denom t 2 [1, 2, 3] []))
    (passBudget (t 2).depth (denom t 2 [1, 2, 3] []))
    (by simp [Function.update]) (by simp [Function.update]) (by simp [Function.update])
    (one_le_passBudget _ _) (one_le_passBudget _ _) (one_le_passBudget _ _)
  unfold findMpath
  rw [initBudgets_scenarioC t hA hB hC hden, buildLinks_scenarioC]
  simp only []
  rw [hchl, hmap]
  have hsearch := searchFromPrefix_scenarioC (fuel + 3)
    { node_t := 2, t_utr := 3, ctg_depth := t, mt_contigs := [1, 2, 3], pt_contigs := [],
      h_links := scenarioCAdj, taxo_index := (taxo % 256).toNat, mt_uniq_len := 4500 }
    (initScore 0)
    (Function.update (Function.update (Function.update (fun _ => none) 1
          (some (passBudget (t 0).depth (denom t 2 [1, 2, 3] []))))
          2 (some (passBudget (t 1).depth (denom t 2 [1, 2, 3] []))))
          3 (some (passBudget (t 2).depth (denom t 2 [1, 2, 3] [])))) rfl rfl
  have hclose := closeEval_scenarioC
    { node_t := 2, t_utr := 3, ctg_depth := t, mt_contigs := [1, 2, 3], pt_contigs := [],
      h_links := scenarioCAdj, taxo_index := (taxo % 256).toNat, mt_uniq_len := 4500 }
    (Function.update (Function.update (Function.update (fun _ => none) 1
          (some (passBudget (t 0).depth (denom t 2 [1, 2, 3] []))))
          2 (some (passBudget (t 1).depth (denom t 2 [1, 2, 3] []))))
          3 (some (passBudget (t 2).depth (denom t 2 [1, 2, 3] [])))) rfl rfl rfl hA hB hC
  obtain ⟨⟨hnodes, hnum⟩, htype, hplen, huniq⟩ := hclose
  have hsc : (initScore (([] : List Int).length : Int)) = initScore 0 := rfl
  simp only [searchAll, List.foldlM_cons, List.foldlM_nil, hsc]
  rw [hsearch]
  simp only [Option.map_some', Option.bind_eq_bind, Option.some_bind, Option.pure_def]
  refine ⟨_, rfl, ?_⟩
  unfold reportBest
  rw [if_neg (by rw [hnum]; norm_num)]
  refine ⟨rfl, ?_, ?_⟩
  · simp only [huniq]
    norm_num
  · simp only [huniq]
    rw [if_pos (by norm_num)]
    exact ⟨_, rfl, copyBest_nodes 2 5 _ _ hnodes, htype, hplen, huniq⟩

/-- C25 (Scenario C): on the cycle A - B - C - A with the lengths 1000, 2000 and 1500,
whatever the depths of the three contigs are as long as the divisor of the pass budgets is
positive, the longest contig is B, `findMpath` gives every contig a pass budget of at least
1 and finds the unique target length 4500, and started at B with start terminus 5 and end
terminus 3 it returns (for every bound of the model of at least 4) without raising the error
flag the circular path B, C, A, B (type 0) of length 4500 with unique target length 4500 and
ratio exactly 1. With equal depths the budgets are 1, 1, 1, with the depths 60, 20 and 40
they are 3, 1, 2, and the structure loop of `optgfa` reports the path and assembles
B, C, A. -/
theorem findMpath_scenario_C_circular (fuel : Nat) (t : Int → CtgDepth) (taxo : Int)
    (out : Found) (hA : (t 0).len = 1000) (hB : (t 1).len = 2000) (hC : (t 2).len = 1500)
    (hden : 0 < denom t 2 [1, 2, 3] []) :
    longestTarget t [] [1, 2, 3] = 2 ∧
    (∃ b, initBudgets t 2 [1, 2, 3] [] = some b ∧ b.mt_uniq_len = 4500 ∧
      ∀ k ∈ [1, 2, 3], ∃ v, b.h_mito k = some v ∧ 1 ≤ v) ∧
    (∃ r, findMpath (fuel + 4) 2 5 2 3 scenarioCLinks t [1, 2, 3] [] taxo out = some r ∧
      r.flag_err = out.flag_err ∧ r.mt_ratio = 1 ∧
      ∃ p, r.struc_path = some p ∧ p.nodes = [2, 3, 1, 2] ∧ p.type = 0 ∧ p.path_len = 4500 ∧
        p.uniq_mt_pathlen = 4500) ∧
    (initBudgets exTable 2 [1, 2, 3] []).map (fun b => [1, 2, 3].map b.h_mito) =
      some [some 1, some 1, some 1] ∧
    (initBudgets unevenTable 2 [1, 2, 3] []).map (fun b => [1, 2, 3].map b.h_mito) =
      some [some 3, some 1, some 2] ∧
    (optgfaStructures 10 exTable [1, 2, 3] scenarioCLinks [] false 0 2 emptyAssembly).map
        (fun a => (a.ass_ctg_arr, a.reports)) =
      some ([2, 3, 1], [.searched 2 5 3 0 1, .found [2, 3, 1, 2] 0 1]) := by
  refine ⟨?_, ?_, findMpath_scenarioC_of_lengths fuel t taxo out hA hB hC hden, by decide!,
    by decide!, by decide!⟩
  · simp [longestTarget, findint, hA, hB, hC]
  · refine ⟨_, initBudgets_scenarioC t hA hB hC hden, rfl, ?_⟩
    intro k hk
    simp only [List.mem_cons, List.mem_singleton, List.mem_nil_iff, or_false] at hk
    rcases hk with rfl | rfl | rfl
    · exact ⟨passBudget (t 0).depth (denom t 2 [1, 2, 3] []), by simp [Function.update],
        one_le_passBudget _ _⟩
    · exact ⟨passBudget (t 1).depth (denom t 2 [1, 2, 3] []), by simp [Function.update],
        one_le_passBudget _ _⟩
    · exact ⟨passBudget (t 2).depth (denom t 2 [1, 2, 3] []), by simp [Function.update],
        one_le_passBudget _ _⟩

/-- Instance of C25: the depths 60, 20 and 40, which give the pass budgets 3, 1 and 2. -/
theorem findMpath_scenario_C_circular_witness :
    (unevenTable 0).len = 1000 ∧ (unevenTable 1).len = 2000 ∧ (unevenTable 2).len = 1500 ∧
    0 < denom unevenTable 2 [1, 2, 3] [] ∧
    (longestTarget unevenTable [] [1, 2, 3] = 2 ∧
    (∃ b, initBudgets unevenTable 2 [1, 2, 3] [] = some b ∧ b.mt_uniq_len = 4500 ∧
      ∀ k ∈ [1, 2, 3], ∃ v, b.h_mito k = some v ∧ 1 ≤ v) ∧
    (∃ r, findMpath (6 + 4) 2 5 2 3 scenarioCLinks unevenTable [1, 2, 3] [] 0
        ⟨0, 0, none, []⟩ = some r ∧
      r.flag_err = (⟨0, 0, none, []⟩ : Found).flag_err ∧ r.mt_ratio = 1 ∧
      ∃ p, r.struc_path = some p ∧ p.nodes = [2, 3, 1, 2] ∧ p.type = 0 ∧ p.path_len = 4500 ∧
        p.uniq_mt_pathlen = 4500) ∧
    (initBudgets exTable 2 [1, 2, 3] []).map (fun b => [1, 2, 3].map b.h_mito) =
      some [some 1, some 1, some 1] ∧
    (initBudgets unevenTable 2 [1, 2, 3] []).map (fun b => [1, 2, 3].map b.h_mito) =
      some [some 3, some 1, some 2] ∧
    (optgfaStructures 10 exTable [1, 2, 3] scenarioCLinks [] false 0 2 emptyAssembly).map
        (fun a => (a.ass_ctg_arr, a.reports)) =
      some ([2, 3, 1], [.searched 2 5 3 0 1, .found [2, 3, 1, 2] 0 1])) :=
  ⟨rfl, rfl, rfl, by decide!,
    findMpath_scenario_C_circular 6 unevenTable 0 ⟨0, 0, none, []⟩ rfl rfl rfl (by decide!)⟩

/-- C26 amended (Scenario D): on the chain A - B - C the backbone of `maingraph` is empty, so
the structure loop of `optgfa` takes the whole structure with the path forced to Linear and
starts the search at the end contig C (the longest contig seen with one terminus only), not
at the longest contig B; the path reported is the linear path C, B, A (type 1) of length
4500, which is the longest simple path, and its ratio is exactly 1. A search started at the
longest contig B returns the linear path B, C of length 3500 with ratio 7/9 from terminus 5,
and B, A of length 3000 with ratio 2/3 from terminus 3. -/
theorem optgfa_scenario_D_linear :
    (maingraph scenarioDLinks exTable [] 6).map (·.2) = some [] ∧
    searchStart exTable [] ⟨scenarioDLinks, [1, 2, 3], 1⟩ = (3, 3, 5, 1) ∧
    (optgfaStructures 10 exTable [1, 2, 3] scenarioDLinks [] false 0 2 emptyAssembly).map
        (fun a => (a.ass_ctg_arr, a.reports,
          a.ps_struct.map (fun p => (p.nodes, p.type, p.path_len)))) =
      some ([3, 2, 1], [.searched 3 3 5 0 1, .found [3, 2, 1] 1 1], [([3, 2, 1], 1, 4500)]) ∧
    (findMpath 10 2 5 2 3 scenarioDLinks exTable [1, 2, 3] [] 0 ⟨0, 0, none, []⟩).map
        (fun r => (r.flag_err, r.mt_ratio,
          r.struc_path.map (fun p => (p.nodes, p.type, p.path_len)))) =
      some (0, 7 / 9, some ([2, 3], 1, 3500)) ∧
    (findMpath 10 2 3 2 5 scenarioDLinks exTable [1, 2, 3] [] 0 ⟨0, 0, none, []⟩).map
        (fun r => (r.flag_err, r.mt_ratio,
          r.struc_path.map (fun p => (p.nodes, p.type, p.path_len)))) =
      some (0, 2 / 3, some ([2, 1], 1, 3000)) := by
  refine ⟨by decide!, by decide!, by decide!, by decide!, by decide!⟩

/-- C26 as stated fails: in Scenario D the search that `optgfa` runs returns a linear path
whose ratio is 1, not below 1: `findMpath` is started at contig 3 with start terminus 3 and
reaches all three contigs. -/
theorem optgfa_scenario_D_ratio_is_one :
    (searchWithRetry 10 exTable [] 0 ⟨scenarioDLinks, [1, 2, 3], 1⟩ 3 3 5 1).map
        (fun r => (r.1.flag_err, r.1.mt_ratio, decide (r.1.mt_ratio < 1),
          r.1.struc_path.map (fun p => (p.nodes, p.type)))) =
      some (0, 1, false, some ([3, 2, 1], 1)) ∧
    (candidates exTable [1, 2, 3] false 0 20 ⟨scenarioDLinks, [1, 2, 3]⟩).map
        (fun c => searchStart exTable [] c) = some (3, 3, 5, 1) := by
  refine ⟨by decide!, by decide!⟩

/-! ### C28: the visit records of `bfs_structure` -/

/-- The number of visit records `bfs_structure` writes: one for every structure and one for
every link (when the endpoints of the links are in the node list); the call returns exactly
when they fit the `2 * (node_num + 1)` entries of `visited_nodes`. -/
theorem visitRecords_length (node_arry : List Int) (links : List BFSlinks)
    (hend : ∀ l ∈ links, l.lctgsmp ∈ node_arry ∧ l.rctgsmp ∈ node_arry) :
    ∃ v structures, visitRecords node_arry links = some v ∧
      (bfs_structure_loop node_arry links).map (·.structures) = some structures ∧
      v.length = structures.length + links.length ∧
      ((bfs_structure node_arry links).isSome = true ↔
        v.length ≤ 2 * (node_arry.length + 1)) := by
  obtain ⟨d, e, hrec, hperm, hnodup, hmem, _⟩ := bfs_structure_loop_spec node_arry links hend
  have hroom : ∀ s ∈ d.structures, s.node.length ≤ node_arry.length := by
    intro s hs
    have hnd : s.node.Nodup := (List.nodup_flatMap.mp hnodup).1 s hs
    have hsub : s.node ⊆ node_arry := fun x hx =>
      (hmem x).mpr (List.mem_flatMap.mpr ⟨s, hs, hx⟩)
    exact (List.subperm_of_subset hnd hsub).length_le
  refine ⟨d.visited_nodes, d.structures, by rw [visitRecords, e]; rfl, by rw [e]; rfl, hrec,
    ?_⟩
  simp only [bfs_structure, e]
  by_cases hc : d.visited_nodes.length ≤ 2 * (node_arry.length + 1)
  · rw [if_pos ⟨hc, hroom⟩]
    simp [hc]
  · rw [if_neg (fun h => hc h.1)]
    simp [hc]

/-- C28 fails on the code: `node_recursive` writes a visit record at every call, and it is
called once for every link it takes, whether the other endpoint was visited or not. On the
two contigs 1 and 2 with their six links (one structure holding both contigs) it writes
seven records, 1, 2, 1, 2, 1, 1, 2, into an array allocated for `2 * (node_num + 1) = 6`:
the seventh write is out of bounds and the call has no defined result. -/
theorem bfs_structure_writes_past_visited_nodes :
    visitRecords [1, 2] pairLinks = some [1, 2, 1, 2, 1, 1, 2] ∧
    (bfs_structure_loop [1, 2] pairLinks).map (fun d => d.structures.map (·.node)) =
      some [[1, 2]] ∧
    2 * (([1, 2] : List Int).length + 1) < ([1, 2, 1, 2, 1, 1, 2] : List Int).length ∧
    bfs_structure [1, 2] pairLinks = none := by
  decide

/-! ### C29: the prefixes `bfsMap` returns -/

/-- C29 fails on the code: on the chain 1 - 2 - 3 - 4 whose last contig is linked back to the
contigs 2 and 3, with a pass budget of 1 for every contig, `bfsMap` started at contig 1
extends its one prefix to 1, 2, 3, 4 and then meets a fork whose two successors are both
exhausted: the decrement of `path_count` after the fork loop drops the prefix, no prefix is
returned, and `findMpath` ends with `flag_err = 1` without having evaluated any path. -/
theorem bfsMap_drops_prefix_at_exhausted_fork :
    (initBudgets flatTable 1 [1, 2, 3, 4] []).map (fun b => [1, 2, 3, 4].map b.h_mito) =
      some [some 1, some 1, some 1, some 1] ∧
    ((initBudgets flatTable 1 [1, 2, 3, 4] []).bind fun b =>
      (buildLinks backLinks [1, 2, 3, 4] [] (initDepth flatTable [1, 2, 3, 4])).bind fun h =>
        (bfsMap 10 1 5 1 3 flatTable h 8 b.h_mito (initChloro [])).map fun r => r.1.length) =
      some 0 ∧
    (findMpath 10 1 5 1 3 backLinks flatTable [1, 2, 3, 4] [] 0 ⟨0, 0, none, []⟩).map
        (fun r => (r.flag_err, r.log)) =
      some (1, [.entered 2 (some 0), .entered 3 (some 0), .entered 4 (some 0)]) := by
  decide!

/-! ### C21: the start contig of the search -/

theorem rankKey_injective (a b : Score) (h : rankKey a = rankKey b) : a = b := by
  obtain ⟨a1, a2, a3, a4, a5, a6, a7⟩ := a
  obtain ⟨b1, b2, b3, b4, b5, b6, b7⟩ := b
  simp only [rankKey, EmbeddingLike.apply_eq_iff_eq, Prod.mk.injEq, neg_inj] at h
  obtain ⟨h1, h2, h3, h4, h5, h6, h7⟩ := h
  subst h1 h2 h3 h4 h5 h6 h7
  rfl

/-- The decision of `path_up` is the strict order of the sort key of the compared fields. -/
theorem update_flag_iff_compared (taxo_index : Nat) (c r : Score) :
    update_flag taxo_index c r = true ↔
      rankKey (comparedFields taxo_index r) < rankKey (comparedFields taxo_index c) := by
  by_cases h : taxo_index = 1
  · subst h
    have e : update_flag 1 c r = update_flag 0 (comparedFields 1 c) (comparedFields 1 r) := by
      simp [update_flag, comparedFields]
    rw [e, update_flag_full_iff 0 (by decide), lexBetter_iff_rankKey]
  · rw [update_flag_full_iff taxo_index h, lexBetter_iff_rankKey]
    simp [comparedFields, h]

theorem path_up_score (taxo_index : Nat) (ps : pathScore) (p : nodePath)
    (ctg_depth : Int → CtgDepth) (mt pt : List Int) :
    (path_up taxo_index ps p ctg_depth mt pt).1.score =
      if update_flag taxo_index (candidateScore ctg_depth mt pt p) ps.score = true then
        candidateScore ctg_depth mt pt p
      else ps.score := by
  by_cases h : update_flag taxo_index (candidateScore ctg_depth mt pt p) ps.score = true
  · rw [if_pos h]
    exact (path_up_fst_of_flag taxo_index ps p ctg_depth mt pt h).1.1
  · rw [if_neg h]
    exact (path_up_fst_of_not_flag taxo_index ps p ctg_depth mt pt
      (Bool.eq_false_iff.mpr h)).1.1

/-- After an evaluation the key of the record is the larger of its key before and the key
of the candidate. -/
theorem path_up_key (taxo_index : Nat) (ps : pathScore) (p : nodePath)
    (ctg_depth : Int → CtgDepth) (mt pt : List Int) :
    rankKey (comparedFields taxo_index (path_up taxo_index ps p ctg_depth mt pt).1.score) =
      max (rankKey (comparedFields taxo_index ps.score))
        (rankKey (comparedFields taxo_index (candidateScore ctg_depth mt pt p))) := by
  rw [path_up_score]
  by_cases h : update_flag taxo_index (candidateScore ctg_depth mt pt p) ps.score = true
  · rw [if_pos h]
    exact (max_eq_right (le_of_lt ((update_flag_iff_compared _ _ _).mp h))).symm
  · rw [if_neg h]
    rw [update_flag_iff_compared] at h
    exact (max_eq_left (not_lt.mp h)).symm

theorem evalAll_key (taxo_index : Nat) (ctg_depth : Int → CtgDepth) (mt pt : List Int)
    (l : List nodePath) :
    ∀ ps : pathScore,
      rankKey (comparedFields taxo_index (evalAll taxo_index ctg_depth mt pt ps l).score) =
        l.foldl (fun k p => max k
          (rankKey (comparedFields taxo_index (candidateScore ctg_depth mt pt p))))
          (rankKey (comparedFields taxo_index ps.score)) := by
  induction l with
  | nil => intro ps; rfl
  | cons p rest ih =>
    intro ps
    unfold evalAll at ih ⊢
    rw [List.foldl_cons, ih, path_up_key, List.foldl_cons]

theorem foldl_max_perm {α β : Type} [LinearOrder β] (f : α → β) (l₁ l₂ : List α)
    (h : l₁.Perm l₂) :
    ∀ k : β, l₁.foldl (fun k p => max k (f p)) k = l₂.foldl (fun k p => max k (f p)) k := by
  induction h with
  | nil => intro k; rfl
  | cons x _ ih => intro k; simp only [List.foldl_cons]; exact ih _
  | swap x y l =>
    intro k
    simp only [List.foldl_cons]
    rw [max_assoc, max_comm (f y) (f x), ← max_assoc]
  | trans _ _ ih₁ ih₂ => intro k; exact (ih₁ k).trans (ih₂ k)

theorem le_foldl_max {α β : Type} [LinearOrder β] (f : α → β) (l : List α) :
    ∀ k : β, k ≤ l.foldl (fun k p => max k (f p)) k := by
  induction l with
  | nil => intro k; exact le_refl _
  | cons x rest ih => intro k; exact le_trans (le_max_left _ _) (ih _)

theorem max_foldl_max {α β : Type} [LinearOrder β] (f : α → β) (l : List α) :
    ∀ a b : β, b ≤ a →
      max a (l.foldl (fun k p => max k (f p)) b) = l.foldl (fun k p => max k (f p)) a := by
  induction l with
  | nil => intro a b h; exact max_eq_left h
  | cons x rest ih =>
    intro a b h
    simp only [List.foldl_cons]
    rw [← ih (max a (f x)) (max b (f x)) (max_le_max h (le_refl _))]
    have h1 : f x ≤ rest.foldl (fun k p => max k (f p)) (max b (f x)) :=
      le_trans (le_max_right _ _) (le_foldl_max f rest _)
    rw [max_assoc, max_eq_right h1]
theorem holdsCandidate_of_sameBest (a b : pathScore) (c : Score) (p : nodePath)
    (h : SameBest a b) (hb : HoldsCandidate b c p) : HoldsCandidate a c p := by
  obtain ⟨h1, h2, h3, h4⟩ := h
  obtain ⟨b1, b2, b3⟩ := hb
  refine ⟨h1.trans b1, h2.trans b2, ?_⟩
  intro i hi
  rw [h3, h4]
  exact b3 i hi

/-- A record that holds the candidate `p` keeps it through evaluations of `p` itself and of
candidates that `p` is preferred to. -/
theorem evalAll_keeps_best (taxo_index : Nat) (ctg_depth : Int → CtgDepth) (mt pt : List Int)
    (p : nodePath) (l : List nodePath) :
    (∀ q ∈ l, q = p ∨ update_flag taxo_index (candidateScore ctg_depth mt pt p)
      (candidateScore ctg_depth mt pt q) = true) →
    ∀ ps : pathScore, HoldsCandidate ps (candidateScore ctg_depth mt pt p) p →
      HoldsCandidate (evalAll taxo_index ctg_depth mt pt ps l)
        (candidateScore ctg_depth mt pt p) p := by
  induction l with
  | nil => intro _ ps h; exact h
  | cons q rest ih =>
    intro hl ps h
    unfold evalAll at ih ⊢
    rw [List.foldl_cons]
    apply ih (fun r hr => hl r (List.mem_cons_of_mem _ hr))
    have hno : update_flag taxo_index (candidateScore ctg_depth mt pt q) ps.score = false := by
      rw [Bool.eq_false_iff, ne_eq, update_flag_iff_compared, h.1]
      rcases hl q (List.mem_cons_self _ _) with rfl | hw
      · exact lt_irrefl _
      · exact not_lt_of_gt ((update_flag_iff_compared _ _ _).mp hw)
    exact holdsCandidate_of_sameBest _ _ _ _
      (path_up_fst_of_not_flag taxo_index ps q ctg_depth mt pt hno).1 h

/-- A candidate that is preferred to the record and to every other candidate of the list is
the one the record holds after the list was evaluated. -/
theorem evalAll_finds_best (taxo_index : Nat) (ctg_depth : Int → CtgDepth) (mt pt : List Int)
    (p : nodePath) (l : List nodePath) :
    p ∈ l →
    (∀ q ∈ l, q = p ∨ update_flag taxo_index (candidateScore ctg_depth mt pt p)
      (candidateScore ctg_depth mt pt q) = true) →
    ∀ ps : pathScore,
      update_flag taxo_index (candidateScore ctg_depth mt pt p) ps.score = true →
      HoldsCandidate (evalAll taxo_index ctg_depth mt pt ps l)
        (candidateScore ctg_depth mt pt p) p := by
  induction l with
  | nil => intro hp; simp at hp
  | cons q rest ih =>
    intro hp hl ps h
    have hrest := fun r hr => hl r (List.mem_cons_of_mem q hr)
    have hunf : evalAll taxo_index ctg_depth mt pt ps (q :: rest) =
        evalAll taxo_index ctg_depth mt pt (path_up taxo_index ps q ctg_depth mt pt).1 rest := rfl
    rw [hunf]
    rcases hl q (List.mem_cons_self _ _) with rfl | hw
    · exact evalAll_keeps_best taxo_index ctg_depth mt pt q rest hrest _
        (path_up_fst_of_flag taxo_index ps q ctg_depth mt pt h).1
    · have hne : p ≠ q := by
        rintro rfl
        exact lt_irrefl _ ((update_flag_iff_compared _ _ _).mp hw)
      have hp2 : p ∈ rest := (List.mem_cons.mp hp).resolve_left hne
      apply ih hp2 hrest
      rw [update_flag_iff_compared, path_up_key]
      exact max_lt ((update_flag_iff_compared _ _ _).mp h)
        ((update_flag_iff_compared _ _ _).mp hw)

theorem mergeBest_key (taxo_index : Nat) (a b : pathScore) :
    rankKey (comparedFields taxo_index (mergeBest taxo_index a b).score) =
      max (rankKey (comparedFields taxo_index a.score))
        (rankKey (comparedFields taxo_index b.score)) := by
  unfold mergeBest
  by_cases h : update_flag taxo_index b.score a.score = true
  · rw [if_pos h]
    exact (max_eq_right (le_of_lt ((update_flag_iff_compared _ _ _).mp h))).symm
  · rw [if_neg h]
    rw [update_flag_iff_compared] at h
    exact (max_eq_left (not_lt.mp h)).symm

theorem foldl_mergeBest_key (taxo_index : Nat) (rs : List pathScore) :
    ∀ acc : pathScore,
      rankKey (comparedFields taxo_index (rs.foldl (mergeBest taxo_index) acc).score) =
        rs.foldl (fun k r => max k (rankKey (comparedFields taxo_index r.score)))
          (rankKey (comparedFields taxo_index acc.score)) := by
  induction rs with
  | nil => intro acc; rfl
  | cons r rest ih =>
    intro acc
    rw [List.foldl_cons, ih, mergeBest_key, List.foldl_cons]

theorem foldl_max_flatten {α β : Type} [LinearOrder β] (f : α → β) (k₀ : β)
    (roots : List (List α)) :
    ∀ k : β, k₀ ≤ k →
      roots.foldl (fun k g => max k (g.foldl (fun k p => max k (f p)) k₀)) k =
        roots.flatten.foldl (fun k p => max k (f p)) k := by
  induction roots with
  | nil => intro k _; rfl
  | cons g rest ih =>
    intro k hk
    rw [List.foldl_cons, List.flatten_cons, List.foldl_append, max_foldl_max f g k k₀ hk]
    exact ih _ (le_trans hk (le_foldl_max f g k))

/-- The reduction over local bests ends with the key the shared record ends with. -/
theorem reduceLocalBests_key (taxo_index : Nat) (ctg_depth : Int → CtgDepth) (mt pt : List Int)
    (ps : pathScore) (roots : List (List nodePath)) :
    rankKey (comparedFields taxo_index
        (reduceLocalBests taxo_index ctg_depth mt pt ps roots).score) =
      rankKey (comparedFields taxo_index
        (evalAll taxo_index ctg_depth mt pt ps roots.flatten).score) := by
  unfold reduceLocalBests
  rw [foldl_mergeBest_key, evalAll_key, List.foldl_map]
  simp only [evalAll_key]
  exact foldl_max_flatten _ _ roots _ (le_refl _)

/-- C22 amended: the order in which `path_up` evaluates a collection of candidate paths does
not change the compared fields of the final best record (all seven score fields, or the
first five under `taxo_index = 1`). When one candidate is preferred to the initial record and
to every other candidate, the final record holds this candidate, score and stored path, in
any order; candidates that tie for the best are not told apart, and the record then holds
the one evaluated first. A sequential reduction over per-root local bests ends with the same
compared fields as the shared record. -/
theorem path_up_order_keeps_compared_fields (taxo_index : Nat) (ctg_depth : Int → CtgDepth)
    (mt_ctgarr pt_ctgarr : List Int) (path_score : pathScore) (l₁ l₂ : List nodePath)
    (hperm : l₁.Perm l₂) :
    comparedFields taxo_index
        (evalAll taxo_index ctg_depth mt_ctgarr pt_ctgarr path_score l₁).score =
      comparedFields taxo_index
        (evalAll taxo_index ctg_depth mt_ctgarr pt_ctgarr path_score l₂).score ∧
    (∀ p ∈ l₁,
      update_flag taxo_index (candidateScore ctg_depth mt_ctgarr pt_ctgarr p)
        path_score.score = true →
      (∀ q ∈ l₁, q = p ∨ update_flag taxo_index (candidateScore ctg_depth mt_ctgarr pt_ctgarr p)
        (candidateScore ctg_depth mt_ctgarr pt_ctgarr q) = true) →
      HoldsCandidate (evalAll taxo_index ctg_depth mt_ctgarr pt_ctgarr path_score l₁)
        (candidateScore ctg_depth mt_ctgarr pt_ctgarr p) p ∧
      HoldsCandidate (evalAll taxo_index ctg_depth mt_ctgarr pt_ctgarr path_score l₂)
        (candidateScore ctg_depth mt_ctgarr pt_ctgarr p) p) ∧
    (∀ roots : List (List nodePath),
      comparedFields taxo_index
          (reduceLocalBests taxo_index ctg_depth mt_ctgarr pt_ctgarr path_score roots).score =
        comparedFields taxo_index
          (evalAll taxo_index ctg_depth mt_ctgarr pt_ctgarr path_score roots.flatten).score) := by
  refine ⟨?_, ?_, ?_⟩
  · apply rankKey_injective
    rw [evalAll_key, evalAll_key]
    exact foldl_max_perm _ l₁ l₂ hperm _
  · intro p hp hbest hall
    refine ⟨evalAll_finds_best _ _ _ _ p l₁ hp hall _ hbest,
      evalAll_finds_best _ _ _ _ p l₂ (hperm.mem_iff.mp hp) ?_ _ hbest⟩
    intro q hq
    exact hall q (hperm.mem_iff.mpr hq)
  · intro roots
    apply rankKey_injective
    exact reduceLocalBests_key _ _ _ _ _ roots

/-- Witness of the amended C22: the path 1, 2 and the longer path 1, 2, 3, in both orders. -/
theorem path_up_order_keeps_compared_fields_witness :
    comparedFields 0 (evalAll 0 exTable [1, 2, 3] [] (initScore 0) [tiePathA, exPath]).score =
      comparedFields 0 (evalAll 0 exTable [1, 2, 3] [] (initScore 0) [exPath, tiePathA]).score ∧
    (∀ p ∈ [tiePathA, exPath],
      update_flag 0 (candidateScore exTable [1, 2, 3] [] p) (initScore 0).score = true →
      (∀ q ∈ [tiePathA, exPath], q = p ∨ update_flag 0 (candidateScore exTable [1, 2, 3] [] p)
        (candidateScore exTable [1, 2, 3] [] q) = true) →
      HoldsCandidate (evalAll 0 exTable [1, 2, 3] [] (initScore 0) [tiePathA, exPath])
        (candidateScore exTable [1, 2, 3] [] p) p ∧
      HoldsCandidate (evalAll 0 exTable [1, 2, 3] [] (initScore 0) [exPath, tiePathA])
        (candidateScore exTable [1, 2, 3] [] p) p) ∧
    (∀ roots : List (List nodePath),
      comparedFields 0 (reduceLocalBests 0 exTable [1, 2, 3] [] (initScore 0) roots).score =
        comparedFields 0 (evalAll 0 exTable [1, 2, 3] [] (initScore 0) roots.flatten).score) :=
  path_up_order_keeps_compared_fields 0 exTable [1, 2, 3] [] (initScore 0)
    [tiePathA, exPath] [exPath, tiePathA] (List.Perm.swap _ _ _)

/-- C22 as stated fails: the paths 1, 2 and 1, 3 over contigs of equal length have the same
score, and `path_up` keeps the one it evaluates first: evaluated in the two orders, the
final records have the same score fields and different stored paths. -/
theorem path_up_order_changes_stored_path :
    [tiePathA, tiePathB].Perm [tiePathB, tiePathA] ∧
    candidateScore flatTable [1, 2, 3] [] tiePathA =
      candidateScore flatTable [1, 2, 3] [] tiePathB ∧
    (evalAll 0 flatTable [1, 2, 3] [] (initScore 0) [tiePathA, tiePathB]).nodes = [1, 2] ∧
    (evalAll 0 flatTable [1, 2, 3] [] (initScore 0) [tiePathB, tiePathA]).nodes = [1, 3] := by
  refine ⟨List.Perm.swap _ _ _, by decide, by decide, by decide⟩

/-! ### C27: `maingraph` and the fixpoint over the orientation-set map -/

theorem mem_orientationSet (links : List BFSlinks) (x t : Int) :
    t ∈ orientationSet links x ↔ occursWith links x t := by
  unfold orientationSet occursWith
  rw [List.mem_dedup, List.mem_flatMap]
  constructor
  · rintro ⟨l, hl, ht⟩
    refine ⟨l, hl, ?_⟩
    rcases List.mem_append.mp ht with h | h
    · split_ifs at h with e
      · exact Or.inl ⟨e, (List.mem_singleton.mp h).symm⟩
      · simp at h
    · split_ifs at h with e
      · exact Or.inr ⟨e, (List.mem_singleton.mp h).symm⟩
      · simp at h
  · rintro ⟨l, hl, h⟩
    refine ⟨l, hl, ?_⟩
    rcases h with ⟨e, rfl⟩ | ⟨e, rfl⟩
    · apply List.mem_append_left; rw [if_pos e]; exact List.mem_singleton_self _
    · apply List.mem_append_right; rw [if_pos e]; exact List.mem_singleton_self _

theorem two_le_length_iff_of_nodup (L : List Int) (h : L.Nodup) :
    2 ≤ L.length ↔ ∃ a b, a ≠ b ∧ a ∈ L ∧ b ∈ L := by
  constructor
  · intro h2
    match L, h, h2 with
    | a :: b :: rest, h, _ =>
      refine ⟨a, b, ?_, List.mem_cons_self _ _, List.mem_cons_of_mem _ (List.mem_cons_self _ _)⟩
      intro e
      rw [e] at h
      exact (List.nodup_cons.mp h).1 (List.mem_cons_self _ _)
  · rintro ⟨a, b, hne, ha, hb⟩
    match L, ha, hb with
    | [c], ha, hb =>
      exact absurd ((List.mem_singleton.mp ha).trans (List.mem_singleton.mp hb).symm) hne
    | _ :: _ :: _, _, _ => simp

/-- The rule on the orientation-set map is the rule on the links. -/
theorem backboneNode_iff (links : List BFSlinks) (x : Int) :
    backboneNode links x ↔ Ambiguous links x := by
  have hnd : (orientationSet links x).Nodup := List.nodup_dedup _
  unfold backboneNode Ambiguous
  rw [two_le_length_iff_of_nodup _ hnd]
  simp only [mem_orientationSet, hasSelfLink, List.any_eq_true, decide_eq_true_eq]

theorem ambiguous_mono (S L : List BFSlinks) (h : ∀ l ∈ S, l ∈ L) (x : Int)
    (hx : Ambiguous S x) : Ambiguous L x := by
  rcases hx with ⟨t₁, t₂, hne, ⟨l₁, h₁, o₁⟩, ⟨l₂, h₂, o₂⟩⟩ | ⟨l, hl, e⟩
  · exact Or.inl ⟨t₁, t₂, hne, ⟨l₁, h _ h₁, o₁⟩, ⟨l₂, h _ h₂, o₂⟩⟩
  · exact Or.inr ⟨l, h _ hl, e⟩

/-- The test of `maingraph` that retains a link, after the scan and `removeUnique`, is the
rule of the specification. -/
theorem mainKeeps_iff_backboneKeeps (ctg_depth : Int → CtgDepth) (rm_ctg : List Int)
    (filter_depth : ℚ) (links : List BFSlinks) (l : BFSlinks) :
    mainKeeps ctg_depth (removeUnique (directScan links)) rm_ctg filter_depth l ↔
      backboneKeeps ctg_depth rm_ctg filter_depth links l := by
  unfold mainKeeps backboneKeeps
  rw [findint_eq_one_iff, findint_eq_one_iff, findint_eq_zero_iff, findint_eq_zero_iff,
    mem_removeUnique_directScan, mem_removeUnique_directScan, backboneNode_iff,
    backboneNode_iff]

theorem filter_mainKeeps_eq (ctg_depth : Int → CtgDepth) (rm_ctg : List Int)
    (filter_depth : ℚ) (links : List BFSlinks) :
    links.filter (fun l => decide (mainKeeps ctg_depth (removeUnique (directScan links)) rm_ctg
      filter_depth l)) = backboneRound ctg_depth rm_ctg filter_depth links := by
  unfold backboneRound
  apply List.filter_congr
  intro l _
  rw [decide_eq_decide]
  exact mainKeeps_iff_backboneKeeps ctg_depth rm_ctg filter_depth links l

theorem backboneRound_sublist (ctg_depth : Int → CtgDepth) (rm_ctg : List Int)
    (filter_depth : ℚ) (links : List BFSlinks) :
    (backboneRound ctg_depth rm_ctg filter_depth links).Sublist links :=
  List.filter_sublist _

theorem backboneIterate_of_fixed (ctg_depth : Int → CtgDepth) (rm_ctg : List Int)
    (filter_depth : ℚ) (links : List BFSlinks)
    (h : backboneRound ctg_depth rm_ctg filter_depth links = links) :
    ∀ n, backboneIterate ctg_depth rm_ctg filter_depth n links = links := by
  intro n
  induction n with
  | zero => rfl
  | succ n ih => rw [backboneIterate, h, ih]

theorem backboneIterate_succ (ctg_depth : Int → CtgDepth) (rm_ctg : List Int)
    (filter_depth : ℚ) :
    ∀ (n : Nat) (links : List BFSlinks),
      backboneIterate ctg_depth rm_ctg filter_depth (n + 1) links =
        backboneRound ctg_depth rm_ctg filter_depth
          (backboneIterate ctg_depth rm_ctg filter_depth n links) := by
  intro n
  induction n with
  | zero => intro links; rfl
  | succ n ih =>
    intro links
    rw [backboneIterate, ih]
    rfl

/-- After as many rounds as there are links, a further round changes nothing. -/
theorem backboneIterate_fixed (ctg_depth : Int → CtgDepth) (rm_ctg : List Int)
    (filter_depth : ℚ) :
    ∀ (n : Nat) (links : List BFSlinks), links.length ≤ n →
      backboneRound ctg_depth rm_ctg filter_depth
          (backboneIterate ctg_depth rm_ctg filter_depth n links) =
        backboneIterate ctg_depth rm_ctg filter_depth n links := by
  intro n
  induction n with
  | zero =>
    intro links h
    have : links = [] := List.length_eq_zero.mp (Nat.le_zero.mp h)
    subst this
    rfl
  | succ n ih =>
    intro links h
    rw [backboneIterate]
    by_cases hf : backboneRound ctg_depth rm_ctg filter_depth links = links
    · rw [hf, backboneIterate_of_fixed _ _ _ _ hf]
      exact hf
    · apply ih
      have hs := backboneRound_sublist ctg_depth rm_ctg filter_depth links
      have hlt : (backboneRound ctg_depth rm_ctg filter_depth links).length < links.length := by
        rcases Nat.lt_or_ge (backboneRound ctg_depth rm_ctg filter_depth links).length
          links.length with h1 | h1
        · exact h1
        · exact absurd (hs.eq_of_length_le h1) hf
      omega

theorem backboneIterate_stable (ctg_depth : Int → CtgDepth) (rm_ctg : List Int)
    (filter_depth : ℚ) (links : List BFSlinks) :
    ∀ k, backboneIterate ctg_depth rm_ctg filter_depth (links.length + k) links =
      backboneFixpoint ctg_depth rm_ctg filter_depth links := by
  intro k
  induction k with
  | zero => rfl
  | succ k ih =>
    rw [← Nat.add_assoc, backboneIterate_succ, ih]
    exact backboneIterate_fixed _ _ _ _ _ (le_refl _)

theorem backboneFixpoint_round (ctg_depth : Int → CtgDepth) (rm_ctg : List Int)
    (filter_depth : ℚ) (links : List BFSlinks)
    (h : backboneRound ctg_depth rm_ctg filter_depth links ≠ links) :
    backboneFixpoint ctg_depth rm_ctg filter_depth
        (backboneRound ctg_depth rm_ctg filter_depth links) =
      backboneFixpoint ctg_depth rm_ctg filter_depth links := by
  have hs := backboneRound_sublist ctg_depth rm_ctg filter_depth links
  have hlt : (backboneRound ctg_depth rm_ctg filter_depth links).length < links.length := by
    rcases Nat.lt_or_ge (backboneRound ctg_depth rm_ctg filter_depth links).length
      links.length with h1 | h1
    · exact h1
    · exact absurd (hs.eq_of_length_le h1) h
  obtain ⟨k, hk⟩ : ∃ k, links.length =
      (backboneRound ctg_depth rm_ctg filter_depth links).length + k + 1 :=
    ⟨links.length - (backboneRound ctg_depth rm_ctg filter_depth links).length - 1, by omega⟩
  conv_rhs => rw [backboneFixpoint, hk, backboneIterate]
  exact (backboneIterate_stable _ _ _ _ k).symm
/-- The loop of `maingraph` returns the links of the fixpoint computation, and the array
`mainseeds` as `removeUnique` leaves it after the scan of these links. -/
theorem maingraphLoop_eq_fixpoint (ctg_depth : Int → CtgDepth) (rm_ctg : List Int)
    (filter_depth : ℚ) :
    ∀ (fuel : Nat) (templinks : List BFSlinks), templinks.length < fuel →
      maingraphLoop ctg_depth rm_ctg filter_depth fuel templinks =
        some (backboneFixpoint ctg_depth rm_ctg filter_depth templinks,
          removeUnique (directScan (backboneFixpoint ctg_depth rm_ctg filter_depth templinks))) := by
  intro fuel
  induction fuel with
  | zero => intro templinks h; omega
  | succ fuel ih =>
    intro templinks h
    rw [maingraphLoop]
    by_cases h0 : (directScan templinks).length = 0
    · rw [if_pos h0]
      have hnil : templinks = [] := by
        by_contra hne
        have := directScan_length templinks hne
        omega
      subst hnil
      rfl
    · rw [if_neg h0]
      simp only
      rw [filter_mainKeeps_eq]
      by_cases hlen : (backboneRound ctg_depth rm_ctg filter_depth templinks).length =
          templinks.length
      · rw [if_pos hlen]
        have hfix : backboneRound ctg_depth rm_ctg filter_depth templinks = templinks :=
          (backboneRound_sublist _ _ _ _).eq_of_length hlen
        have hF : backboneFixpoint ctg_depth rm_ctg filter_depth templinks = templinks :=
          backboneIterate_of_fixed _ _ _ _ hfix _
        rw [hF, hfix]
      · rw [if_neg hlen]
        have hne : backboneRound ctg_depth rm_ctg filter_depth templinks ≠ templinks := by
          intro e
          exact hlen (by rw [e])
        have hle := (backboneRound_sublist ctg_depth rm_ctg filter_depth templinks).length_le
        rw [ih _ (by omega), backboneFixpoint_round _ _ _ _ hne]

theorem mem_backboneNodes (links : List BFSlinks) (x : Int) :
    x ∈ backboneNodes links ↔ Ambiguous links x := by
  unfold backboneNodes
  rw [List.mem_dedup, List.mem_filter, decide_eq_true_eq, backboneNode_iff]
  constructor
  · exact fun h => h.2
  · intro h
    refine ⟨?_, h⟩
    rw [List.mem_flatMap]
    rcases h with ⟨t₁, _, _, ⟨l, hl, ho⟩, _⟩ | ⟨l, hl, e, _⟩
    · refine ⟨l, hl, ?_⟩
      rcases ho with ⟨e, _⟩ | ⟨e, _⟩
      · simp [e]
      · simp [e]
    · exact ⟨l, hl, by simp [e]⟩

theorem sublist_backboneRound (ctg_depth : Int → CtgDepth) (rm_ctg : List Int)
    (filter_depth : ℚ) (S L : List BFSlinks) (hS : S.Sublist L)
    (hclosed : ∀ l ∈ S, backboneKeeps ctg_depth rm_ctg filter_depth S l) :
    S.Sublist (backboneRound ctg_depth rm_ctg filter_depth L) := by
  have hmono : ∀ l ∈ S, backboneKeeps ctg_depth rm_ctg filter_depth L l := by
    intro l hl
    obtain ⟨a, b, c⟩ := hclosed l hl
    refine ⟨?_, ?_, c⟩
    · rw [backboneNode_iff] at a ⊢
      exact ambiguous_mono S L (fun l hl => hS.subset hl) _ a
    · rw [backboneNode_iff] at b ⊢
      exact ambiguous_mono S L (fun l hl => hS.subset hl) _ b
  have hfilter : S.filter (fun l => decide (backboneKeeps ctg_depth rm_ctg filter_depth L l)) =
      S := List.filter_eq_self.mpr (fun l hl => decide_eq_true (hmono l hl))
  rw [← hfilter]
  exact hS.filter _

theorem sublist_backboneIterate (ctg_depth : Int → CtgDepth) (rm_ctg : List Int)
    (filter_depth : ℚ) (S : List BFSlinks)
    (hclosed : ∀ l ∈ S, backboneKeeps ctg_depth rm_ctg filter_depth S l) :
    ∀ (n : Nat) (L : List BFSlinks), S.Sublist L →
      S.Sublist (backboneIterate ctg_depth rm_ctg filter_depth n L) := by
  intro n
  induction n with
  | zero => intro L h; exact h
  | succ n ih =>
    intro L h
    rw [backboneIterate]
    exact ih _ (sublist_backboneRound _ _ _ S L h hclosed)

theorem backboneIterate_sublist (ctg_depth : Int → CtgDepth) (rm_ctg : List Int)
    (filter_depth : ℚ) :
    ∀ (n : Nat) (L : List BFSlinks),
      (backboneIterate ctg_depth rm_ctg filter_depth n L).Sublist L := by
  intro n
  induction n with
  | zero => intro L; exact List.Sublist.refl _
  | succ n ih =>
    intro L
    rw [backboneIterate]
    exact (ih _).trans (backboneRound_sublist _ _ _ _)

/-- C27: `maingraph` (scan with the terminus hash, `removeUnique`, link filter, repeated
until the link count is stable, then `removeDup`) returns what the fixpoint computation over
the explicit orientation-set map returns: the same link list, and a node list without
repetition that holds the same nodes. This link list is closed under the rule (every link
in it has two backbone endpoints among these links and passes the filters), is a sub-list of
the input links, and contains every sub-list of the input links that is closed under the
rule, so it is the largest one. -/
theorem maingraph_refines_orientation_fixpoint (bfslinks : List BFSlinks)
    (ctg_depth : Int → CtgDepth) (rm_ctg : List Int) (filter_depth : ℚ) :
    ∃ mainseeds,
      maingraph bfslinks ctg_depth rm_ctg filter_depth =
        some (backboneFixpoint ctg_depth rm_ctg filter_depth bfslinks, mainseeds) ∧
      mainseeds.Perm (backboneNodes (backboneFixpoint ctg_depth rm_ctg filter_depth bfslinks)) ∧
      (∀ l ∈ backboneFixpoint ctg_depth rm_ctg filter_depth bfslinks,
        backboneKeeps ctg_depth rm_ctg filter_depth
          (backboneFixpoint ctg_depth rm_ctg filter_depth bfslinks) l) ∧
      (backboneFixpoint ctg_depth rm_ctg filter_depth bfslinks).Sublist bfslinks ∧
      ∀ S : List BFSlinks, S.Sublist bfslinks →
        (∀ l ∈ S, backboneKeeps ctg_depth rm_ctg filter_depth S l) →
        S.Sublist (backboneFixpoint ctg_depth rm_ctg filter_depth bfslinks) := by
  refine ⟨removeDup (removeUnique (directScan
    (backboneFixpoint ctg_depth rm_ctg filter_depth bfslinks))), ?_, ?_, ?_, ?_, ?_⟩
  · unfold maingraph
    rw [maingraphLoop_eq_fixpoint _ _ _ _ _ (Nat.lt_succ_self _)]
    rfl
  · have hnd : (backboneNodes
        (backboneFixpoint ctg_depth rm_ctg filter_depth bfslinks)).Nodup := List.nodup_dedup _
    apply (List.perm_ext_iff_of_nodup (removeDup_nodup _) hnd).mpr
    intro x
    rw [mem_removeDup, mem_removeUnique_directScan]
    exact (mem_backboneNodes _ x).symm
  · have hfix := backboneIterate_fixed ctg_depth rm_ctg filter_depth bfslinks.length bfslinks
      (le_refl _)
    intro l hl
    have := List.filter_eq_self.mp hfix l hl
    exact of_decide_eq_true this
  · exact backboneIterate_sublist _ _ _ _ _
  · intro S hS hclosed
    exact sublist_backboneIterate _ _ _ S hclosed _ _ hS

/-! ### C30: the recursion of `bfs_m` ends -/

theorem khAdd_isSome (h : Int → Option Int) (k d x : Int) :
    (khAdd h k d x).isSome = (h x).isSome := by
  unfold khAdd
  split_ifs with e
  · cases h x <;> rfl
  · rfl

theorem khAdd_self (h : Int → Option Int) (k d : Int) :
    khAdd h k d k = (h k).map (fun v => v + d) := by
  simp [khAdd]

theorem khAdd_other (h : Int → Option Int) (k d x : Int) (hx : x ≠ k) :
    khAdd h k d x = h x := by
  simp [khAdd, hx]

/-- The tables of the state after a node was appended still fit the environment. -/
theorem budgeted_pushNode (env : SearchEnv) (st : SearchState) (nx : Int × Int)
    (hb : Budgeted env st.h_mito st.h_chloro)
    (c2 : ¬ ((st.h_mito nx.1).isSome = true ∧ (st.h_mito nx.1).getD 0 = 0)) :
    Budgeted env (pushNode env st nx).h_mito (pushNode env st nx).h_chloro := by
  have hm : ∀ x, ((pushNode env st nx).h_mito x).isSome = (st.h_mito x).isSome := by
    intro x
    simp only [pushNode]
    split_ifs
    · exact khAdd_isSome _ _ _ _
    · rfl
  have hc : ∀ x, ((pushNode env st nx).h_chloro x).isSome = (st.h_chloro x).isSome := by
    intro x
    simp only [pushNode]
    split_ifs
    · exact khAdd_isSome _ _ _ _
    · rfl
  refine ⟨?_, ?_, ?_, ?_, ?_⟩
  · intro x hx
    rw [hm] at hx
    exact hb.mito_keys x hx
  · intro x hx
    rw [hc] at hx
    exact hb.chloro_keys x hx
  · intro x v hv
    simp only [pushNode] at hv
    split_ifs at hv with hi
    · by_cases e : x = nx.1
      · subst e
        rw [khAdd_self] at hv
        cases hs : st.h_mito nx.1 with
        | none => rw [hs] at hv; simp at hv
        | some w =>
          rw [hs] at hv
          simp only [Option.map_some', Option.some.injEq] at hv
          have h0 := hb.mito_nonneg _ w hs
          have hne : w ≠ 0 := by
            intro e0
            apply c2
            rw [hs, e0]
            exact ⟨rfl, rfl⟩
          omega
      · rw [khAdd_other _ _ _ _ e] at hv
        exact hb.mito_nonneg x v hv
    · exact hb.mito_nonneg x v hv
  · intro x v hv
    simp only [pushNode] at hv
    split_ifs at hv with hi
    · by_cases e : x = nx.1
      · subst e
        rw [khAdd_self] at hv
        cases hs : st.h_chloro nx.1 with
        | none => rw [hs] at hv; simp at hv
        | some w =>
          rw [hs] at hv
          simp only [Option.map_some', Option.some.injEq] at hv
          have h0 := hb.chloro_nonneg _ w hs
          omega
      · rw [khAdd_other _ _ _ _ e] at hv
        exact hb.chloro_nonneg x v hv
    · exact hb.chloro_nonneg x v hv
  · intro x hx
    rw [hm, hc]
    exact hb.linked x hx

/-- Appending a node that has a budget or a counter makes the measure smaller. -/
theorem passesLeft_pushNode (env : SearchEnv) (st : SearchState) (nx : Int × Int)
    (hb : Budgeted env st.h_mito st.h_chloro)
    (c1 : ¬ ((st.h_chloro nx.1).isSome = true ∧ (st.h_chloro nx.1).getD 0 > 0))
    (c2 : ¬ ((st.h_mito nx.1).isSome = true ∧ (st.h_mito nx.1).getD 0 = 0))
    (hkey : (st.h_mito nx.1).isSome = true ∨ (st.h_chloro nx.1).isSome = true) :
    passesLeft env (pushNode env st nx).h_mito (pushNode env st nx).h_chloro <
      passesLeft env st.h_mito st.h_chloro := by
  have hmle : ∀ c, (((pushNode env st nx).h_mito c).getD 0).toNat ≤
      ((st.h_mito c).getD 0).toNat := by
    intro c
    simp only [pushNode]
    split_ifs with hi
    · by_cases e : c = nx.1
      · subst e
        rw [khAdd_self]
        cases hs : st.h_mito nx.1 with
        | none => simp
        | some w => simp only [Option.map_some', Option.getD_some]; omega
      · rw [khAdd_other _ _ _ _ e]
    · exact le_refl _
  have hcle : ∀ c, (if ((pushNode env st nx).h_chloro c).isSome = true ∧
        ((pushNode env st nx).h_chloro c).getD 0 ≤ 0 then 1 else 0) ≤
      (if (st.h_chloro c).isSome = true ∧ (st.h_chloro c).getD 0 ≤ 0 then 1 else 0) := by
    intro c
    have hpc : (pushNode env st nx).h_chloro c =
        if (st.h_chloro nx.1).isSome = true then khAdd st.h_chloro nx.1 1 c
        else st.h_chloro c := by
      simp only [pushNode]
      split_ifs <;> rfl
    rw [hpc]
    by_cases hi : (st.h_chloro nx.1).isSome = true
    · rw [if_pos hi]
      by_cases e : c = nx.1
      · subst e
        rw [khAdd_self]
        obtain ⟨w, hs⟩ := Option.isSome_iff_exists.mp hi
        rw [hs]
        simp only [Option.map_some', Option.getD_some, Option.isSome_some, true_and]
        by_cases hw : w ≤ 0
        · rw [if_pos hw]
          by_cases hw1 : w + 1 ≤ 0
          · rw [if_pos hw1]
          · rw [if_neg hw1]; exact Nat.zero_le _
        · rw [if_neg hw, if_neg (by omega)]
      · rw [khAdd_other _ _ _ _ e]
    · rw [if_neg hi]
  unfold passesLeft
  by_cases hm : (st.h_mito nx.1).isSome = true
  · apply Nat.add_lt_add_of_lt_of_le
    · apply List.sum_lt_sum
      · intro c _; exact hmle c
      · refine ⟨nx.1, hb.mito_keys _ hm, ?_⟩
        obtain ⟨w, hs⟩ := Option.isSome_iff_exists.mp hm
        have h0 := hb.mito_nonneg _ w hs
        have hne : w ≠ 0 := by
          intro e0
          apply c2
          rw [hs, e0]
          exact ⟨rfl, rfl⟩
        have hpm : (pushNode env st nx).h_mito nx.1 = some (w + -1) := by
          simp only [pushNode]
          rw [if_pos hm, khAdd_self, hs]
          rfl
        rw [hpm, hs]
        simp only [Option.getD_some]
        omega
    · apply List.sum_le_sum
      intro c _; exact hcle c
  · have hc : (st.h_chloro nx.1).isSome = true := hkey.resolve_left hm
    apply Nat.add_lt_add_of_le_of_lt
    · apply List.sum_le_sum
      intro c _; exact hmle c
    · apply List.sum_lt_sum
      · intro c _; exact hcle c
      · refine ⟨nx.1, hb.chloro_keys _ hc, ?_⟩
        obtain ⟨w, hs⟩ := Option.isSome_iff_exists.mp hc
        have h0 := hb.chloro_nonneg _ w hs
        have hle : w ≤ 0 := by
          by_contra hgt
          apply c1
          rw [hs]
          exact ⟨rfl, by simpa using hgt⟩
        have hpc : (pushNode env st nx).h_chloro nx.1 = some (w + 1) := by
          simp only [pushNode]
          rw [if_pos hc, khAdd_self, hs]
          rfl
        rw [hpc, hs]
        simp only [Option.getD_some, Option.isSome_some, true_and]
        rw [if_neg (by omega), if_pos hle]
        exact Nat.zero_lt_one
theorem khAdd_restore (h : Int → Option Int) (k : Int) : khAdd (khAdd h k (-1)) k 1 = h := by
  have := khAdd_khAdd_cancel h k (-1)
  simpa using this

/-- One iteration of the successor loop returns and restores the budget tables, when the
recursive call does so on every state with a smaller measure. -/
theorem bfs_m_visit_returns (env : SearchEnv) (fuel : Nat)
    (ih : ∀ n u st, Budgeted env st.h_mito st.h_chloro →
      (passesLeft env st.h_mito st.h_chloro + 2 ≤ fuel ∨ (env.h_links n = none ∧ 1 ≤ fuel)) →
      ∃ st1, bfs_m env fuel n u st = some st1 ∧ st1.h_mito = st.h_mito ∧
        st1.h_chloro = st.h_chloro)
    (acc : SearchState × Bool) (nx : Int × Int)
    (hb : Budgeted env acc.1.h_mito acc.1.h_chloro)
    (hfuel : passesLeft env acc.1.h_mito acc.1.h_chloro + 1 ≤ fuel) :
    ∃ r, bfs_m_visit env (bfs_m env fuel) acc nx = some r ∧ r.1.h_mito = acc.1.h_mito ∧
      r.1.h_chloro = acc.1.h_chloro := by
  simp only [bfs_m_visit]
  by_cases c1 : (acc.1.h_chloro nx.1).isSome = true ∧ (acc.1.h_chloro nx.1).getD 0 > 0
  · rw [if_pos c1]
    exact ⟨acc, rfl, rfl, rfl⟩
  rw [if_neg c1]
  by_cases c2 : (acc.1.h_mito nx.1).isSome = true ∧ (acc.1.h_mito nx.1).getD 0 = 0
  · rw [if_pos c2]
    exact ⟨acc, rfl, rfl, rfl⟩
  rw [if_neg c2]
  have hb2 := budgeted_pushNode env acc.1 nx hb c2
  have hpre : passesLeft env (pushNode env acc.1 nx).h_mito (pushNode env acc.1 nx).h_chloro + 2
      ≤ fuel ∨ (env.h_links nx.1 = none ∧ 1 ≤ fuel) := by
    by_cases hl : env.h_links nx.1 = none
    · exact Or.inr ⟨hl, by omega⟩
    · left
      have hkey := hb.linked nx.1 (Option.isSome_iff_ne_none.mpr hl)
      have := passesLeft_pushNode env acc.1 nx hb c1 c2 hkey
      omega
  obtain ⟨st2, e, hm, hc⟩ := ih nx.1 nx.2 (pushNode env acc.1 nx) hb2 hpre
  rw [e]
  refine ⟨_, rfl, ?_, ?_⟩
  · simp only [popNode, hm, pushNode]
    split_ifs
    · exact khAdd_restore _ _
    · rfl
  · simp only [popNode, hc, pushNode]
    split_ifs
    · exact khAdd_khAdd_cancel _ _ 1
    · rfl

theorem foldlM_bfs_m_visit_returns (env : SearchEnv) (fuel : Nat)
    (ih : ∀ n u st, Budgeted env st.h_mito st.h_chloro →
      (passesLeft env st.h_mito st.h_chloro + 2 ≤ fuel ∨ (env.h_links n = none ∧ 1 ≤ fuel)) →
      ∃ st1, bfs_m env fuel n u st = some st1 ∧ st1.h_mito = st.h_mito ∧
        st1.h_chloro = st.h_chloro)
    (succs : List (Int × Int)) :
    ∀ acc : SearchState × Bool, Budgeted env acc.1.h_mito acc.1.h_chloro →
      passesLeft env acc.1.h_mito acc.1.h_chloro + 1 ≤ fuel →
      ∃ r, succs.foldlM (bfs_m_visit env (bfs_m env fuel)) acc = some r ∧
        r.1.h_mito = acc.1.h_mito ∧ r.1.h_chloro = acc.1.h_chloro := by
  induction succs with
  | nil => intro acc _ _; exact ⟨acc, rfl, rfl, rfl⟩
  | cons nx rest ih2 =>
    intro acc hb hfuel
    obtain ⟨r1, e1, hm1, hc1⟩ := bfs_m_visit_returns env fuel ih acc nx hb hfuel
    obtain ⟨r2, e2, hm2, hc2⟩ := ih2 r1 (by rw [hm1, hc1]; exact hb) (by rw [hm1, hc1]; exact hfuel)
    refine ⟨r2, ?_, hm2.trans hm1, hc2.trans hc1⟩
    rw [List.foldlM_cons, e1]
    exact e2

/-- The deep search returns, with the budget tables as they were, whenever its fuel is at
least two more than the measure, or at least one on a node without adjacency entry. -/
theorem bfs_m_returns (env : SearchEnv) :
    ∀ (fuel : Nat) (n u : Int) (st : SearchState), Budgeted env st.h_mito st.h_chloro →
      (passesLeft env st.h_mito st.h_chloro + 2 ≤ fuel ∨ (env.h_links n = none ∧ 1 ≤ fuel)) →
      ∃ st1, bfs_m env fuel n u st = some st1 ∧ st1.h_mito = st.h_mito ∧
        st1.h_chloro = st.h_chloro := by
  intro fuel
  induction fuel with
  | zero => intro n u st _ h; omega
  | succ fuel ih =>
    intro n u st hb h
    rw [bfs_m]
    by_cases c1 : st.stop_flag ≠ 0
    · rw [if_pos c1]; exact ⟨st, rfl, rfl, rfl⟩
    rw [if_neg c1]
    by_cases c2 : st.current_path.nodenum > 1 ∧ n = env.node_t ∧ u ≠ env.t_utr
    · rw [if_pos c2]; exact ⟨_, rfl, rfl, rfl⟩
    rw [if_neg c2]
    cases hl : env.h_links n with
    | none =>
      exact ⟨_, rfl, (coverageEval_frame env st).1, (coverageEval_frame env st).2.1⟩
    | some link_s =>
      have hfuel : passesLeft env st.h_mito st.h_chloro + 1 ≤ fuel := by
        rcases h with h | ⟨h, _⟩
        · omega
        · rw [hl] at h; cases h
      have hcm := (coverageEval_frame env st).1
      have hcc := (coverageEval_frame env st).2.1
      obtain ⟨r, e, hm, hc⟩ := foldlM_bfs_m_visit_returns env fuel ih
        (successorsOf link_s u) (coverageEval env st, true)
        (by simp only [hcm, hcc]; exact hb) (by simp only [hcm, hcc]; exact hfuel)
      simp only [e]
      refine ⟨_, rfl, ?_, ?_⟩
      · exact ((deadEndEval_frame env r).1.trans hm).trans hcm
      · exact ((deadEndEval_frame env r).2.1.trans hc).trans hcc

theorem foldlM_buildLinks_keys (mainlinks : List BFSlinks) (pt_contigs : List Int)
    (h_depth : Int → Option Int) (l : List Int) :
    ∀ (S : List Int) (h h₂ : Int → Option nodeLink),
      (∀ k, (h k).isSome = true → k ∈ S) →
      l.foldlM (fun h c =>
        (nodeLinks mainlinks pt_contigs h_depth c).map (fun nl => Function.update h c (some nl)))
        h = some h₂ →
      ∀ k, (h₂ k).isSome = true → k ∈ S ++ l := by
  induction l with
  | nil =>
    intro S h h₂ hS e k hk
    simp only [List.foldlM_nil, Option.pure_def, Option.some.injEq] at e
    subst e
    simpa using hS k hk
  | cons a rest ih =>
    intro S h h₂ hS e k hk
    rw [List.foldlM_cons] at e
    cases hn : nodeLinks mainlinks pt_contigs h_depth a with
    | none => rw [hn] at e; simp at e
    | some nl =>
      rw [hn] at e
      simp only [Option.map_some', Option.some_bind] at e
      have := ih (S ++ [a]) _ h₂ ?_ e k hk
      · simpa using this
      · intro j hj
        by_cases ej : j = a
        · subst ej; simp
        · rw [Function.update_noteq ej] at hj
          exact List.mem_append_left _ (hS j hj)

/-- The keys of the table `h_links` that `findMpath` builds are candidate contigs. -/
theorem buildLinks_keys (mainlinks : List BFSlinks) (mt_contigs pt_contigs : List Int)
    (h_depth : Int → Option Int) (h_links : Int → Option nodeLink)
    (hl : buildLinks mainlinks mt_contigs pt_contigs h_depth = some h_links) :
    ∀ k, (h_links k).isSome = true → k ∈ mt_contigs := by
  unfold buildLinks at hl
  split_ifs at hl with h1
  · simp only [Option.some.injEq] at hl
    subst hl
    intro k hk
    by_cases e : k = mt_contigs.headD 0
    · subst e
      match mt_contigs, h1.1 with
      | [a], _ => simp
    · rw [Function.update_noteq e] at hk
      cases hk
  · intro k hk
    have := foldlM_buildLinks_keys mainlinks pt_contigs h_depth mt_contigs [] _ h_links
      (fun j hj => by cases hj) hl k hk
    simpa using this

/-- The tables `findMpath` builds fit every search environment that holds its candidate and
interfering contigs and its table `h_links`: the deep searches are started on such tables. -/
theorem findMpath_tables_budgeted (node1 : Int) (mainlinks : List BFSlinks)
    (ctg_depth : Int → CtgDepth) (mt_contigs pt_contigs : List Int) (b : Budgets)
    (h_links : Int → Option nodeLink) (env : SearchEnv)
    (hden : 0 < denom ctg_depth node1 mt_contigs pt_contigs)
    (hb : initBudgets ctg_depth node1 mt_contigs pt_contigs = some b)
    (hl : buildLinks mainlinks mt_contigs pt_contigs (initDepth ctg_depth mt_contigs) =
      some h_links)
    (h1 : env.mt_contigs = mt_contigs) (h2 : env.pt_contigs = pt_contigs)
    (h3 : env.h_links = h_links) :
    Budgeted env b.h_mito (initChloro pt_contigs) := by
  obtain ⟨b₂, e, hk⟩ := foldlM_budgetStep ctg_depth pt_contigs _ hden mt_contigs []
    ⟨fun _ => none, 0, 0, 0⟩ (fun c => ⟨fun hc => by simp at hc, fun _ => rfl⟩)
  have hbe : b₂ = b := by
    unfold initBudgets at hb
    rw [e] at hb
    exact Option.some.inj hb
  subst hbe
  have hval : ∀ x v, b₂.h_mito x = some v → x ∈ mt_contigs ∧ 1 ≤ v := by
    intro x v hv
    by_cases hin : x ∈ [] ++ mt_contigs ∧ findint pt_contigs x = 0
    · rw [(hk x).1 hin] at hv
      cases hv
      exact ⟨by simpa using hin.1, one_le_passBudget _ _⟩
    · rw [(hk x).2 hin] at hv
      cases hv
  refine ⟨?_, ?_, ?_, ?_, ?_⟩
  · intro x hx
    obtain ⟨v, hv⟩ := Option.isSome_iff_exists.mp hx
    rw [h1]
    exact (hval x v hv).1
  · intro x hx
    rw [initChloro_apply] at hx
    rw [h2]
    by_contra hn
    rw [if_neg hn] at hx
    cases hx
  · intro x v hv
    have := (hval x v hv).2
    omega
  · intro x v hv
    rw [initChloro_apply] at hv
    split_ifs at hv
    cases hv
    exact le_refl _
  · intro x hx
    rw [h3] at hx
    have hmem := buildLinks_keys _ _ _ _ _ hl x hx
    by_cases hp : x ∈ pt_contigs
    · right
      rw [initChloro_apply, if_pos hp]
      rfl
    · left
      rw [(hk x).1 ⟨by simpa using hmem, (findint_eq_zero_iff _ _).mpr hp⟩]
      rfl

/-- The tables of the example search on the 3-node cycle fit its environment. -/
theorem cycleStart_budgeted : Budgeted cycleEnv cycleStart.h_mito cycleStart.h_chloro := by
  refine ⟨?_, ?_, ?_, ?_, ?_⟩
  · intro x hx
    simp only [cycleStart, cycleBudget] at hx
    split_ifs at hx with h
    · simp only [cycleEnv, List.mem_cons, List.mem_singleton, List.mem_nil_iff, or_false]
      omega
    · cases hx
  · intro x hx
    cases hx
  · intro x v hv
    simp only [cycleStart, cycleBudget] at hv
    split_ifs at hv
    cases hv
    decide
  · intro x v hv
    cases hv
  · intro x hx
    left
    simp only [cycleEnv, cycleLinks] at hx
    simp only [cycleStart, cycleBudget]
    split_ifs at hx with a b c
    · subst a; rfl
    · subst b; rfl
    · subst c; rfl
    · cases hx

/-- C30: on budget tables that fit the environment (no budget or counter is negative, and
every contig with an adjacency entry has a budget or a counter) the deep search `bfs_m`
returns whenever the bound on its recursion depth is at least the sum of the remaining
target budgets plus the number of interfering contigs still enterable plus two (the call
itself and one last call on a node without budget), and it leaves the budget tables as they
were. Every descent into a node with a budget or a counter makes this sum strictly smaller,
and a node without adjacency entry ends the descent at once. -/
theorem bfs_m_terminates (env : SearchEnv) (node_s s_utr : Int) (st : SearchState)
    (hb : Budgeted env st.h_mito st.h_chloro) :
    (∀ fuel, passesLeft env st.h_mito st.h_chloro + 2 ≤ fuel →
      ∃ st1, bfs_m env fuel node_s s_utr st = some st1 ∧ st1.h_mito = st.h_mito ∧
        st1.h_chloro = st.h_chloro) ∧
    (∀ nx : Int × Int,
      ¬ ((st.h_chloro nx.1).isSome = true ∧ (st.h_chloro nx.1).getD 0 > 0) →
      ¬ ((st.h_mito nx.1).isSome = true ∧ (st.h_mito nx.1).getD 0 = 0) →
      ((st.h_mito nx.1).isSome = true ∨ (st.h_chloro nx.1).isSome = true) →
      passesLeft env (pushNode env st nx).h_mito (pushNode env st nx).h_chloro <
        passesLeft env st.h_mito st.h_chloro) ∧
    (env.h_links node_s = none → ∃ st1, bfs_m env 1 node_s s_utr st = some st1) ∧
    passesLeft env st.h_mito st.h_chloro ≤
      (env.mt_contigs.map (fun c => ((st.h_mito c).getD 0).toNat)).sum +
        env.pt_contigs.length := by
  refine ⟨?_, ?_, ?_, ?_⟩
  · intro fuel hf
    exact bfs_m_returns env fuel node_s s_utr st hb (Or.inl hf)
  · intro nx c1 c2 hkey
    exact passesLeft_pushNode env st nx hb c1 c2 hkey
  · intro hl
    obtain ⟨st1, e, _⟩ := bfs_m_returns env 1 node_s s_utr st hb (Or.inr ⟨hl, le_refl _⟩)
    exact ⟨st1, e⟩
  · unfold passesLeft
    apply Nat.add_le_add_left
    have : ∀ l : List Int, (l.map (fun c =>
        if (st.h_chloro c).isSome = true ∧ (st.h_chloro c).getD 0 ≤ 0 then 1 else 0)).sum ≤
        l.length := by
      intro l
      induction l with
      | nil => simp
      | cons a rest ih =>
        simp only [List.map_cons, List.sum_cons, List.length_cons]
        split_ifs <;> omega
    exact this _

/-- Witness of C30 on the 3-node cycle searched from contig 2: the measure is 3, so a bound
of 5 on the recursion depth is enough. -/
theorem bfs_m_terminates_witness :
    Budgeted cycleEnv cycleStart.h_mito cycleStart.h_chloro ∧
    ((∀ fuel, passesLeft cycleEnv cycleStart.h_mito cycleStart.h_chloro + 2 ≤ fuel →
      ∃ st1, bfs_m cycleEnv fuel 2 3 cycleStart = some st1 ∧
        st1.h_mito = cycleStart.h_mito ∧ st1.h_chloro = cycleStart.h_chloro) ∧
    (∀ nx : Int × Int,
      ¬ ((cycleStart.h_chloro nx.1).isSome = true ∧ (cycleStart.h_chloro nx.1).getD 0 > 0) →
      ¬ ((cycleStart.h_mito nx.1).isSome = true ∧ (cycleStart.h_mito nx.1).getD 0 = 0) →
      ((cycleStart.h_mito nx.1).isSome = true ∨ (cycleStart.h_chloro nx.1).isSome = true) →
      passesLeft cycleEnv (pushNode cycleEnv cycleStart nx).h_mito
          (pushNode cycleEnv cycleStart nx).h_chloro <
        passesLeft cycleEnv cycleStart.h_mito cycleStart.h_chloro) ∧
    (cycleEnv.h_links 2 = none → ∃ st1, bfs_m cycleEnv 1 2 3 cycleStart = some st1) ∧
    passesLeft cycleEnv cycleStart.h_mito cycleStart.h_chloro ≤
      (cycleEnv.mt_contigs.map (fun c => ((cycleStart.h_mito c).getD 0).toNat)).sum +
        cycleEnv.pt_contigs.length) :=
  ⟨cycleStart_budgeted, bfs_m_terminates cycleEnv 2 3 cycleStart cycleStart_budgeted⟩

end PMAT
